import Mathlib

/-!
# Dijkstra over an indexed binary heap and over a Fibonacci heap

A shallow embedding of the two C programs of the repository
(`binary heap/main.c` and `fib heap/{FibonacciHeap,Graph,main_fib}.c`)
together with proofs about the embedded definitions.

Conventions of the embedding

* C arrays are total functions updated with `Function.update`; array
  indices and the `size` field are natural numbers (the index arithmetic
  `2 * idx + 2` of the sift loops is assumed not to leave the `int` range,
  i.e. heaps hold fewer than `2^30` entries).
* Vertex ids, keys and distances of the binary-heap program are C `int`s,
  embedded as `Int`; the only arithmetic on them, `dist[u] + weight`, is
  wrapped to the signed 32-bit range by `wrap32`.
* `while` loops are structurally recursive functions over a fuel argument;
  the callers pass a bound that the loop provably never exhausts.
-/

namespace BinHeap

/-- The C constant `INT_MAX` for 32-bit `int`. -/
def INT_MAX : Int := 2147483647

/-- Wrap-around of a mathematical integer into the signed 32-bit range. -/
def wrap32 (x : Int) : Int := (x + 2147483648) % 4294967296 - 2147483648

/-- `struct Edge` of `main.c`; the `next` link is the tail of the list. -/
structure Edge where
  dest : Int
  weight : Int
deriving DecidableEq

/-- `Graph` of `main.c`: `adj_list[i]` is the linked list of edges leaving `i`. -/
structure Graph where
  num_nodes : Nat
  adj_list : Int → List Edge

/-- `HeapNode` of `main.c`. -/
structure HeapNode where
  node : Int
  distance : Int
deriving DecidableEq

/-- `BinaryHeap` of `main.c`. -/
structure BinaryHeap where
  heap : Nat → HeapNode
  pos : Int → Int
  size : Nat
  capacity : Int

/-- `create_heap`: both arrays are allocated (uninitialised cells read as `0`),
the loop writes `-1` into `pos[0 .. capacity)`. -/
def create_heap (capacity : Int) : BinaryHeap :=
  { heap := fun _ => ⟨0, 0⟩
    pos := (List.range capacity.toNat).foldl
      (fun p (i : Nat) => Function.update p (i : Int) (-1)) (fun _ => 0)
    size := 0
    capacity := capacity }

/-- `swap_nodes`. -/
def swap_nodes (h : BinaryHeap) (i j : Nat) : BinaryHeap :=
  let temp := h.heap i
  let a1 := Function.update h.heap i (h.heap j)
  let a2 := Function.update a1 j temp
  let p1 := Function.update h.pos (a2 i).node (i : Int)
  let p2 := Function.update p1 (a2 j).node (j : Int)
  { h with heap := a2, pos := p2 }

/-- The `while (idx > 0)` loop of `heapify_up`. -/
def heapify_up_loop : Nat → BinaryHeap → Nat → BinaryHeap
  | 0, h, _ => h
  | fuel + 1, h, idx =>
    if idx > 0 then
      let parent := (idx - 1) / 2
      if (h.heap parent).distance ≤ (h.heap idx).distance then h
      else heapify_up_loop fuel (swap_nodes h parent idx) parent
    else h

/-- `heapify_up`; `idx` strictly decreases, so `idx` rounds suffice. -/
def heapify_up (h : BinaryHeap) (idx : Nat) : BinaryHeap :=
  heapify_up_loop idx h idx

/-- The `while (2 * idx + 1 < heap->size)` loop of `heapify_down`. -/
def heapify_down_loop : Nat → BinaryHeap → Nat → BinaryHeap
  | 0, h, _ => h
  | fuel + 1, h, idx =>
    if 2 * idx + 1 < h.size then
      let left := 2 * idx + 1
      let right := 2 * idx + 2
      let smallest := idx
      let smallest :=
        if left < h.size ∧ (h.heap left).distance < (h.heap smallest).distance
        then left else smallest
      let smallest :=
        if right < h.size ∧ (h.heap right).distance < (h.heap smallest).distance
        then right else smallest
      if smallest = idx then h
      else heapify_down_loop fuel (swap_nodes h idx smallest) smallest
    else h

/-- `heapify_down`; `idx` strictly increases below `size`, so `size` rounds suffice. -/
def heapify_down (h : BinaryHeap) (idx : Nat) : BinaryHeap :=
  heapify_down_loop h.size h idx

/-- `heap_insert`. -/
def heap_insert (h : BinaryHeap) (node distance : Int) : BinaryHeap :=
  if (h.size : Int) ≥ h.capacity then h
  else
    let idx := h.size
    let h1 : BinaryHeap :=
      { h with heap := Function.update h.heap idx ⟨node, distance⟩
               pos := Function.update h.pos node (idx : Int)
               size := h.size + 1 }
    heapify_up h1 idx

/-- `heap_extract_min`: the returned entry and the heap afterwards. -/
def heap_extract_min (h : BinaryHeap) : HeapNode × BinaryHeap :=
  if h.size = 0 then (⟨-1, INT_MAX⟩, h)
  else
    let min_node := h.heap 0
    let h1 : BinaryHeap :=
      { h with pos := Function.update h.pos min_node.node (-1)
               size := h.size - 1 }
    if h1.size > 0 then
      let a := Function.update h1.heap 0 (h1.heap h1.size)
      let h2 : BinaryHeap :=
        { h1 with heap := a, pos := Function.update h1.pos (a 0).node 0 }
      (min_node, heapify_down h2 0)
    else (min_node, h1)

/-- `heap_decrease_key`. -/
def heap_decrease_key (h : BinaryHeap) (node new_distance : Int) : BinaryHeap :=
  let idx := h.pos node
  if idx = -1 ∨ (h.heap idx.toNat).distance ≤ new_distance then h
  else
    let h1 : BinaryHeap :=
      { h with heap := Function.update h.heap idx.toNat
                 { h.heap idx.toNat with distance := new_distance } }
    heapify_up h1 idx.toNat

/-- `is_heap_empty`. -/
def is_heap_empty (h : BinaryHeap) : Bool := h.size = 0

/-- The inner `while (edge)` loop of `dijkstra_binary_heap` for the extracted
vertex `u`: relaxes the edges in list order, re-reading `dist[u]` every time. -/
def relax_edges (u : Int) : List Edge → (Int → Int) × BinaryHeap → (Int → Int) × BinaryHeap
  | [], s => s
  | edge :: rest, (dist, heap) =>
    let v := edge.dest
    let new_dist := wrap32 (dist u + edge.weight)
    if new_dist < dist v then
      relax_edges u rest (Function.update dist v new_dist, heap_decrease_key heap v new_dist)
    else relax_edges u rest (dist, heap)

/-- The main `while (!is_heap_empty(heap))` loop of `dijkstra_binary_heap`. -/
def dijkstra_loop (g : Graph) : Nat → (Int → Int) × BinaryHeap → (Int → Int) × BinaryHeap
  | 0, s => s
  | fuel + 1, (dist, heap) =>
    if is_heap_empty heap then (dist, heap)
    else
      let r := heap_extract_min heap
      let min_node := r.1
      let u := min_node.node
      if min_node.distance = INT_MAX then (dist, r.2)
      else dijkstra_loop g fuel (relax_edges u (g.adj_list u) (dist, r.2))

/-- `dijkstra_binary_heap`: the contents of `dist` on return; `dist0` is the
content of the caller's array before the call.  Every round of the main loop
removes one heap entry, so `num_nodes` rounds suffice. -/
def dijkstra_binary_heap (g : Graph) (source : Int) (dist0 : Int → Int) : Int → Int :=
  let dist := (List.range g.num_nodes).foldl
    (fun d (i : Nat) => Function.update d (i : Int) INT_MAX) dist0
  let dist := Function.update dist source 0
  let heap := create_heap g.num_nodes
  let heap := (List.range g.num_nodes).foldl
    (fun h (i : Nat) => heap_insert h (i : Int) (dist (i : Int))) heap
  (dijkstra_loop g g.num_nodes (dist, heap)).1

end BinHeap

namespace BinHeap

/-! ## Binary heap: invariants -/

/-- The occupied part of the array as a list of entries. -/
def entries (h : BinaryHeap) : List HeapNode := (List.range h.size).map h.heap

/-- Index invariant: occupied slots hold in-range vertices, `pos` sends the
vertex of slot `i` to `i`, and `pos` is `-1` on in-range vertices without a slot. -/
structure PosInv (h : BinaryHeap) : Prop where
  node_range : ∀ i, i < h.size → 0 ≤ (h.heap i).node ∧ (h.heap i).node < h.capacity
  pos_node : ∀ i, i < h.size → h.pos (h.heap i).node = (i : Int)
  pos_absent : ∀ v : Int, 0 ≤ v → v < h.capacity →
    (∀ i, i < h.size → (h.heap i).node ≠ v) → h.pos v = -1

/-- Min-heap order on the occupied part of the array. -/
def HeapOrder (h : BinaryHeap) : Prop :=
  ∀ i, 1 ≤ i → i < h.size → (h.heap ((i - 1) / 2)).distance ≤ (h.heap i).distance

/-- A valid binary heap satisfies the index invariant and the heap order. -/
structure Valid (h : BinaryHeap) : Prop where
  posInv : PosInv h
  order : HeapOrder h

theorem PosInv.node_inj {h : BinaryHeap} (hp : PosInv h) {i j : Nat}
    (hi : i < h.size) (hj : j < h.size) (e : (h.heap i).node = (h.heap j).node) : i = j := by
  have h1 := hp.pos_node i hi
  have h2 := hp.pos_node j hj
  rw [e] at h1
  have : (i : Int) = (j : Int) := by rw [← h1, ← h2]
  exact_mod_cast this

@[simp] theorem swap_nodes_size (h : BinaryHeap) (i j : Nat) :
    (swap_nodes h i j).size = h.size := rfl

@[simp] theorem swap_nodes_capacity (h : BinaryHeap) (i j : Nat) :
    (swap_nodes h i j).capacity = h.capacity := rfl

theorem swap_nodes_heap (h : BinaryHeap) (i j k : Nat) :
    (swap_nodes h i j).heap k = h.heap (Equiv.swap i j k) := by
  unfold swap_nodes
  by_cases hkj : k = j
  · subst hkj; simp
  · by_cases hki : k = i
    · subst hki; simp [hkj]
    · simp [hkj, hki, Equiv.swap_apply_of_ne_of_ne hki hkj]

theorem swap_nodes_heap_left (h : BinaryHeap) (i j : Nat) :
    (swap_nodes h i j).heap i = h.heap j := by
  rw [swap_nodes_heap]; simp

theorem swap_nodes_heap_right (h : BinaryHeap) (i j : Nat) :
    (swap_nodes h i j).heap j = h.heap i := by
  rw [swap_nodes_heap]; simp

theorem swap_nodes_heap_other (h : BinaryHeap) (i j k : Nat) (hi : k ≠ i) (hj : k ≠ j) :
    (swap_nodes h i j).heap k = h.heap k := by
  rw [swap_nodes_heap, Equiv.swap_apply_of_ne_of_ne hi hj]

theorem swap_nodes_pos (h : BinaryHeap) (i j : Nat) (v : Int) :
    (swap_nodes h i j).pos v =
      if v = (h.heap i).node then (j : Int)
      else if v = (h.heap j).node then (i : Int) else h.pos v := by
  have e1 : (swap_nodes h i j).pos =
      Function.update (Function.update h.pos ((swap_nodes h i j).heap i).node (i : Int))
        ((swap_nodes h i j).heap j).node (j : Int) := rfl
  rw [e1, swap_nodes_heap_left, swap_nodes_heap_right]
  simp only [Function.update_apply]

theorem swap_nodes_posInv {h : BinaryHeap} (hp : PosInv h) {i j : Nat}
    (hi : i < h.size) (hj : j < h.size) : PosInv (swap_nodes h i j) := by
  have key : ∀ k, k < h.size → Equiv.swap i j k < h.size := by
    intro k hk
    by_cases h1 : k = i
    · subst h1; simpa using hj
    · by_cases h2 : k = j
      · subst h2; simpa using hi
      · rw [Equiv.swap_apply_of_ne_of_ne h1 h2]; exact hk
  refine ⟨?_, ?_, ?_⟩
  · intro k hk
    rw [swap_nodes_heap]
    exact hp.node_range _ (key k hk)
  · intro k hk
    simp only [swap_nodes_size] at hk
    rw [swap_nodes_pos, swap_nodes_heap]
    by_cases h1 : k = i
    · subst h1
      simp only [Equiv.swap_apply_left]
      by_cases h3 : (h.heap j).node = (h.heap k).node
      · have := hp.node_inj hj hk h3
        subst this; simp
      · simp [h3]
    · by_cases h2 : k = j
      · subst h2; simp
      · rw [Equiv.swap_apply_of_ne_of_ne h1 h2]
        have n1 : (h.heap k).node ≠ (h.heap i).node := fun e => h1 (hp.node_inj hk hi e)
        have n2 : (h.heap k).node ≠ (h.heap j).node := fun e => h2 (hp.node_inj hk hj e)
        simp [n1, n2, hp.pos_node k hk]
  · intro v hv0 hvc hv
    simp only [swap_nodes_size] at hv
    have hv' : ∀ k, k < h.size → (h.heap k).node ≠ v := by
      intro k hk
      have := hv (Equiv.swap i j k) (key k hk)
      rw [swap_nodes_heap] at this
      simpa using this
    rw [swap_nodes_pos]
    have n1 : v ≠ (h.heap i).node := fun e => hv' i hi e.symm
    have n2 : v ≠ (h.heap j).node := fun e => hv' j hj e.symm
    simp [n1, n2, hp.pos_absent v hv0 hvc hv']

theorem swap_range_perm (n i j : Nat) (hi : i < n) (hj : j < n) :
    ((List.range n).map (Equiv.swap i j)).Perm (List.range n) := by
  apply (List.perm_ext_iff_of_nodup ?_ (List.nodup_range n)).2
  · intro a
    simp only [List.mem_map, List.mem_range]
    constructor
    · rintro ⟨k, hk, rfl⟩
      by_cases h1 : k = i
      · subst h1; simpa using hj
      · by_cases h2 : k = j
        · subst h2; simpa using hi
        · rw [Equiv.swap_apply_of_ne_of_ne h1 h2]; exact hk
    · intro ha
      refine ⟨Equiv.swap i j a, ?_, by simp⟩
      by_cases h1 : a = i
      · subst h1; simpa using hj
      · by_cases h2 : a = j
        · subst h2; simpa using hi
        · rw [Equiv.swap_apply_of_ne_of_ne h1 h2]; exact ha
  · exact (List.nodup_range n).map (Equiv.swap i j).injective

theorem swap_nodes_entries (h : BinaryHeap) {i j : Nat} (hi : i < h.size) (hj : j < h.size) :
    (entries (swap_nodes h i j)).Perm (entries h) := by
  unfold entries
  have e : (List.range (swap_nodes h i j).size).map (swap_nodes h i j).heap
      = ((List.range h.size).map (Equiv.swap i j)).map h.heap := by
    rw [List.map_map]
    apply List.map_congr_left
    intro k _
    simp [swap_nodes_heap]
  rw [e]
  exact (swap_range_perm h.size i j hi hj).map _

end BinHeap

/-!
## The Fibonacci-heap program

Pointers are natural numbers, `0` is `NULL`, and the C heap memory is a total
function from addresses to node records; `malloc` hands out the fresh address
`next`.  Loops over the circular lists and the recursion of the cascading cut
take a fuel argument and return `none` when it runs out; an access to the
degree table `A` of `_fibHeapConsolidate` outside `[0, maxDegree)` also
returns `none`.
-/

namespace Fib

/-- The C constant `LLONG_MAX`. -/
def LLONG_MAX : Int := 9223372036854775807

/-- `INF` of `main_fib.c`. -/
def INF : Int := LLONG_MAX

/-- Wrap-around of a mathematical integer into the signed 64-bit range. -/
def wrap64 (x : Int) : Int :=
  (x + 9223372036854775808) % 18446744073709551616 - 9223372036854775808

/-- `FibHeapNode` of `FibonacciHeap.h`. -/
structure FibHeapNode where
  key : Int
  value : Int
  parent : Nat
  child : Nat
  left : Nat
  right : Nat
  degree : Nat
  mark : Bool

/-- `FibHeap` of `FibonacciHeap.h` together with the memory its nodes live in. -/
structure FibHeap where
  mem : Nat → FibHeapNode
  next : Nat
  minNode : Nat
  numNodes : Nat

/-- `p->parent = v`. -/
def setParent (m : Nat → FibHeapNode) (p v : Nat) : Nat → FibHeapNode :=
  Function.update m p { m p with parent := v }

/-- `p->child = v`. -/
def setChild (m : Nat → FibHeapNode) (p v : Nat) : Nat → FibHeapNode :=
  Function.update m p { m p with child := v }

/-- `p->left = v`. -/
def setLeft (m : Nat → FibHeapNode) (p v : Nat) : Nat → FibHeapNode :=
  Function.update m p { m p with left := v }

/-- `p->right = v`. -/
def setRight (m : Nat → FibHeapNode) (p v : Nat) : Nat → FibHeapNode :=
  Function.update m p { m p with right := v }

/-- `p->degree = v`. -/
def setDegree (m : Nat → FibHeapNode) (p v : Nat) : Nat → FibHeapNode :=
  Function.update m p { m p with degree := v }

/-- `p->mark = v`. -/
def setMark (m : Nat → FibHeapNode) (p : Nat) (v : Bool) : Nat → FibHeapNode :=
  Function.update m p { m p with mark := v }

/-- `p->key = v`. -/
def setKey (m : Nat → FibHeapNode) (p : Nat) (v : Int) : Nat → FibHeapNode :=
  Function.update m p { m p with key := v }

/-- `createFibHeap`. -/
def createFibHeap : FibHeap :=
  { mem := fun _ => ⟨0, 0, 0, 0, 0, 0, 0, false⟩, next := 1, minNode := 0, numNodes := 0 }

/-- `fibHeapIsEmpty`. -/
def fibHeapIsEmpty (H : FibHeap) : Bool := H.minNode = 0

/-- `_createNode`: the new node's address and the memory after the allocation. -/
def _createNode (H : FibHeap) (key value : Int) : Nat × FibHeap :=
  let node := H.next
  (node, { H with
    mem := Function.update H.mem node ⟨key, value, 0, 0, node, node, 0, false⟩
    next := H.next + 1 })

/-- `_fibHeapAddNodeToRootList`. -/
def _fibHeapAddNodeToRootList (H : FibHeap) (x : Nat) : FibHeap :=
  let H1 : FibHeap :=
    if H.minNode = 0 then
      let m := setLeft H.mem x x
      let m := setRight m x x
      { H with minNode := x, mem := m }
    else
      let m := setRight H.mem (H.mem H.minNode).left x
      let m := setLeft m x (m H.minNode).left
      let m := setLeft m H.minNode x
      let m := setRight m x H.minNode
      { H with mem := m }
  { H1 with mem := setParent H1.mem x 0 }

/-- `fibHeapInsert`: the handle of the new node and the heap afterwards. -/
def fibHeapInsert (H : FibHeap) (key value : Int) : Nat × FibHeap :=
  let r := _createNode H key value
  let node := r.1
  let H := _fibHeapAddNodeToRootList r.2 node
  let H := if (H.mem node).key < (H.mem H.minNode).key then { H with minNode := node } else H
  (node, { H with numNodes := H.numNodes + 1 })

/-- `_fibHeapLink`: `y` becomes a child of `x`. -/
def _fibHeapLink (H : FibHeap) (y x : Nat) : FibHeap :=
  let m := setRight H.mem (H.mem y).left (H.mem y).right
  let m := setLeft m (m y).right (m y).left
  let m := setLeft m y y
  let m := setRight m y y
  let m := setParent m y x
  let m :=
    if (m x).child = 0 then setChild m x y
    else
      let m := setRight m (m (m x).child).left y
      let m := setLeft m y (m (m x).child).left
      let m := setLeft m (m x).child y
      setRight m y (m x).child
  let m := setDegree m x ((m x).degree + 1)
  let m := setMark m y false
  { H with mem := m }

/-- The table size of `_fibHeapConsolidate`,
`(int)floor(log2(n) / log2(1.618)) + 2`, read in exact arithmetic: the largest
`k` with `1.618^k ≤ n`, plus two. -/
def maxDegreeOf (n : Nat) : Nat :=
  Nat.findGreatest (fun k => 1618 ^ k ≤ n * 1000 ^ k) n + 2

/-- The `do … while (current != H->minNode)` loop counting the roots. -/
def rootCountLoop (m : Nat → FibHeapNode) (start : Nat) : Nat → Nat → Nat → Option Nat
  | 0, _, _ => none
  | fuel + 1, current, rootCount =>
    let rootCount := rootCount + 1
    let current := (m current).right
    if current ≠ start then rootCountLoop m start fuel current rootCount
    else some rootCount

/-- The loop filling the snapshot array `rootList`. -/
def fillRootList (m : Nat → FibHeapNode) : Nat → Nat → List Nat
  | 0, _ => []
  | n + 1, current => current :: fillRootList m n (m current).right

/-- The `while (A[d] != NULL)` loop of `_fibHeapConsolidate`; returns the heap,
the table, and the final `x` and `d`. -/
def consolidateWhile (maxDegree : Nat) :
    Nat → FibHeap → (Nat → Nat) → Nat → Nat → Option (FibHeap × (Nat → Nat) × Nat × Nat)
  | 0, _, _, _, _ => none
  | fuel + 1, H, A, x, d =>
    if d < maxDegree then
      if A d ≠ 0 then
        let y := A d
        let xy : Nat × Nat := if (H.mem x).key > (H.mem y).key then (y, x) else (x, y)
        let H := _fibHeapLink H xy.2 xy.1
        let A := Function.update A d 0
        consolidateWhile maxDegree fuel H A xy.1 (d + 1)
      else some (H, A, x, d)
    else none

/-- The `for` loop of `_fibHeapConsolidate` over the snapshot array. -/
def consolidateFor (maxDegree : Nat) :
    List Nat → FibHeap → (Nat → Nat) → Option (FibHeap × (Nat → Nat))
  | [], H, A => some (H, A)
  | x :: rest, H, A =>
    match consolidateWhile maxDegree (maxDegree + 1) H A x (H.mem x).degree with
    | none => none
    | some (H, A, x, d) => consolidateFor maxDegree rest H (Function.update A d x)

/-- The loop of `_fibHeapConsolidate` rebuilding the root list from the table. -/
def rebuildRootList (maxDegree : Nat) (A : Nat → Nat) (H : FibHeap) : FibHeap :=
  (List.range maxDegree).foldl
    (fun H (i : Nat) =>
      if A i ≠ 0 then
        let H := _fibHeapAddNodeToRootList H (A i)
        if H.minNode = 0 ∨ (H.mem (A i)).key < (H.mem H.minNode).key then
          { H with minNode := A i }
        else H
      else H)
    { H with minNode := 0 }

/-- `_fibHeapConsolidate`. -/
def _fibHeapConsolidate (H : FibHeap) : Option FibHeap :=
  if H.minNode = 0 then some H
  else
    let maxDegree := maxDegreeOf H.numNodes
    let A : Nat → Nat := fun _ => 0
    match rootCountLoop H.mem H.minNode (H.numNodes + 1) H.minNode 0 with
    | none => none
    | some rootCount =>
      let rootList := fillRootList H.mem rootCount H.minNode
      match consolidateFor maxDegree rootList H A with
      | none => none
      | some (H, A) => some (rebuildRootList maxDegree A H)

/-- The `do … while (currentChild != z->child)` loop of `fibHeapExtractMin`. -/
def moveChildren (z : Nat) : Nat → FibHeap → Nat → Option FibHeap
  | 0, _, _ => none
  | fuel + 1, H, currentChild =>
    let nextChild := (H.mem currentChild).right
    let H := _fibHeapAddNodeToRootList H currentChild
    let currentChild := nextChild
    if currentChild ≠ (H.mem z).child then moveChildren z fuel H currentChild
    else some H

/-- `fibHeapExtractMin`: the returned value and the heap afterwards. -/
def fibHeapExtractMin (H : FibHeap) : Option (Int × FibHeap) :=
  let z := H.minNode
  if z = 0 then some (-1, H)
  else
    let minValue := (H.mem z).value
    let H1 : Option FibHeap :=
      if (H.mem z).child ≠ 0 then moveChildren z (H.numNodes + 1) H (H.mem z).child
      else some H
    match H1 with
    | none => none
    | some H =>
      let m := setRight H.mem (H.mem z).left (H.mem z).right
      let m := setLeft m (m z).right (m z).left
      let H := { H with mem := m }
      let H2 : Option FibHeap :=
        if z = (H.mem z).right then some { H with minNode := 0 }
        else _fibHeapConsolidate { H with minNode := (H.mem z).right }
      match H2 with
      | none => none
      | some H => some (minValue, { H with numNodes := H.numNodes - 1 })

/-- `_fibHeapCut`: cuts `x` from its parent `y`. -/
def _fibHeapCut (H : FibHeap) (x y : Nat) : FibHeap :=
  let m := H.mem
  let m :=
    if (m x).right = x then setChild m y 0
    else
      let m := setRight m (m x).left (m x).right
      let m := setLeft m (m x).right (m x).left
      if (m y).child = x then setChild m y (m x).right else m
  let m := setDegree m y ((m y).degree - 1)
  let H := _fibHeapAddNodeToRootList { H with mem := m } x
  let m := setParent H.mem x 0
  let m := setMark m x false
  { H with mem := m }

/-- `_fibHeapCascadingCut`. -/
def _fibHeapCascadingCut : Nat → FibHeap → Nat → Option FibHeap
  | 0, _, _ => none
  | fuel + 1, H, y =>
    let z := (H.mem y).parent
    if z ≠ 0 then
      if (H.mem y).mark = false then some { H with mem := setMark H.mem y true }
      else _fibHeapCascadingCut fuel (_fibHeapCut H y z) z
    else some H

/-- `fibHeapDecreaseKey`. -/
def fibHeapDecreaseKey (H : FibHeap) (x : Nat) (newKey : Int) : Option FibHeap :=
  if newKey > (H.mem x).key then some H
  else
    let H := { H with mem := setKey H.mem x newKey }
    let y := (H.mem x).parent
    let H1 : Option FibHeap :=
      if y ≠ 0 ∧ (H.mem x).key < (H.mem y).key then
        _fibHeapCascadingCut (H.numNodes + 1) (_fibHeapCut H x y) y
      else some H
    match H1 with
    | none => none
    | some H =>
      if (H.mem x).key < (H.mem H.minNode).key then some { H with minNode := x } else some H

/-- `AdjListNode` of `Graph.h` (its field `to` is written `to_`); the `next`
link is the tail of the list. -/
structure AdjListNode where
  to_ : Int
  weight : Int
deriving DecidableEq

/-- `Graph` of `Graph.h`. -/
structure Graph where
  numVertices : Int
  adj : Int → List AdjListNode

/-- The state of the loops of `dijkstra_fib_heap`. -/
structure DState where
  dist : Int → Int
  nodePtrs : Int → Nat
  pq : FibHeap

/-- The inner `while (current != NULL)` loop of `dijkstra_fib_heap`. -/
def relaxLoop (u : Int) : List AdjListNode → DState → Option DState
  | [], s => some s
  | current :: rest, s =>
    let v := current.to_
    let weight := current.weight
    if s.dist u = INF then relaxLoop u rest s
    else
      let newDist := wrap64 (s.dist u + weight)
      if newDist < s.dist v then
        let dist := Function.update s.dist v newDist
        if s.nodePtrs v ≠ 0 then
          match fibHeapDecreaseKey s.pq (s.nodePtrs v) newDist with
          | none => none
          | some pq => relaxLoop u rest { s with dist := dist, pq := pq }
        else
          let r := fibHeapInsert s.pq newDist v
          relaxLoop u rest
            { dist := dist, nodePtrs := Function.update s.nodePtrs v r.1, pq := r.2 }
      else relaxLoop u rest s

/-- The main `while (!fibHeapIsEmpty(pq))` loop of `dijkstra_fib_heap`. -/
def mainLoop (g : Graph) : Nat → DState → Option DState
  | 0, _ => none
  | fuel + 1, s =>
    if fibHeapIsEmpty s.pq then some s
    else
      match fibHeapExtractMin s.pq with
      | none => none
      | some (u, pq) =>
        let s : DState := { s with pq := pq, nodePtrs := Function.update s.nodePtrs u 0 }
        if s.dist u = INF then some s
        else
          match relaxLoop u (g.adj u) s with
          | none => none
          | some s => mainLoop g fuel s

/-- `dijkstra_fib_heap`: `some none` is the `NULL` return for an invalid start
node, `some (some dist)` the returned distance array (allocations succeed).
Each round of the main loop extracts one heap node, and every heap node but
the first is inserted when one of the `numVertices + 1` entries of `dist`, a
64-bit value, is lowered, so `(numVertices + 1) * 2^64 + 2` rounds suffice. -/
def dijkstra_fib_heap (g : Graph) (startNode : Int) : Option (Option (Int → Int)) :=
  if startNode ≤ 0 ∨ startNode > g.numVertices then some none
  else
    let dist : Int → Int := (List.range (g.numVertices + 1).toNat).foldl
      (fun d (i : Nat) => Function.update d (i : Int) INF) (fun _ => 0)
    let nodePtrs : Int → Nat := fun _ => 0
    let pq := createFibHeap
    let dist := Function.update dist startNode 0
    let r := fibHeapInsert pq 0 startNode
    let nodePtrs := Function.update nodePtrs startNode r.1
    match mainLoop g ((g.numVertices + 1).toNat * 18446744073709551616 + 2)
        { dist := dist, nodePtrs := nodePtrs, pq := r.2 } with
    | none => none
    | some s => some (some s.dist)

end Fib


set_option linter.unusedTactic false
set_option linter.unreachableTactic false
set_option linter.unusedVariables false

namespace BinHeap

/-! ## Binary heap: the sift loops -/

theorem heapify_up_loop_basic (fuel : Nat) : ∀ (h : BinaryHeap) (idx : Nat),
    idx < h.size → PosInv h →
    PosInv (heapify_up_loop fuel h idx) ∧
    (entries (heapify_up_loop fuel h idx)).Perm (entries h) ∧
    (heapify_up_loop fuel h idx).size = h.size ∧
    (heapify_up_loop fuel h idx).capacity = h.capacity := by
  induction fuel with
  | zero => intro h idx _ hp; exact ⟨hp, List.Perm.refl _, rfl, rfl⟩
  | succ n ih =>
    intro h idx hidx hp
    simp only [heapify_up_loop]
    split_ifs with h1 h2
    · exact ⟨hp, List.Perm.refl _, rfl, rfl⟩
    · have hpar : (idx - 1) / 2 < h.size := by omega
      obtain ⟨a, b, c, d⟩ := ih (swap_nodes h ((idx - 1) / 2) idx) ((idx - 1) / 2)
        (by simpa using hpar) (swap_nodes_posInv hp hpar hidx)
      exact ⟨a, b.trans (swap_nodes_entries h hpar hidx), by simpa using c, by simpa using d⟩
    · exact ⟨hp, List.Perm.refl _, rfl, rfl⟩

/-- Heap order everywhere except between `idx` and its parent, with the
children of `idx` already above the parent of `idx`. -/
def UpInv (h : BinaryHeap) (idx : Nat) : Prop :=
  (∀ i, 1 ≤ i → i < h.size → i ≠ idx →
    (h.heap ((i - 1) / 2)).distance ≤ (h.heap i).distance) ∧
  (∀ i, 1 ≤ i → i < h.size → (i - 1) / 2 = idx → 1 ≤ idx →
    (h.heap ((idx - 1) / 2)).distance ≤ (h.heap i).distance)

theorem heapify_up_loop_order (fuel : Nat) : ∀ (h : BinaryHeap) (idx : Nat),
    idx ≤ fuel → idx < h.size → UpInv h idx → HeapOrder (heapify_up_loop fuel h idx) := by
  induction fuel with
  | zero =>
    intro h idx hf _ hu i hi1 hi2
    exact hu.1 i hi1 hi2 (by omega)
  | succ n ih =>
    intro h idx hf hidx hu
    simp only [heapify_up_loop]
    split_ifs with h1 h2
    · intro i hi1 hi2
      by_cases e : i = idx
      · subst e; exact h2
      · exact hu.1 i hi1 hi2 e
    · have hpar : (idx - 1) / 2 < idx := by omega
      apply ih _ _ (by omega) (by simp; omega)
      have hlt : (h.heap idx).distance < (h.heap ((idx - 1) / 2)).distance := not_le.mp h2
      constructor
      · intro i hi1 hi2 hne
        simp only [swap_nodes_size] at hi2
        simp only [swap_nodes_heap, Equiv.swap_apply_def]
        have A := hu.1 i hi1 hi2
        have B := hu.2 i hi1 hi2
        have A2 := hu.1 ((idx - 1) / 2)
        split_ifs with c1 c2 c3 c4 c5 c6 c7 c8 <;> first | omega | skip
        all_goals first
          | exact le_of_lt hlt
          | exact A (by omega)
          | exact B (by omega) (by omega)
          | exact le_trans (le_of_lt hlt) (by rw [← c1]; exact A (by omega))
          | skip
      · intro i hi1 hi2 hpi hp1
        simp only [swap_nodes_size] at hi2
        simp only [swap_nodes_heap, Equiv.swap_apply_def]
        have A := hu.1 i hi1 hi2
        have A2 := hu.1 ((idx - 1) / 2) hp1 (by omega) (by omega)
        split_ifs with c1 c2 c3 c4 c5 c6 c7 c8 <;> first | omega | skip
        all_goals first
          | exact A2
          | exact le_trans A2 (by rw [← hpi]; exact A (by omega))
          | skip
    · intro i hi1 hi2
      exact hu.1 i hi1 hi2 (by omega)

theorem heapify_down_loop_basic (fuel : Nat) : ∀ (h : BinaryHeap) (idx : Nat),
    idx < h.size → PosInv h →
    PosInv (heapify_down_loop fuel h idx) ∧
    (entries (heapify_down_loop fuel h idx)).Perm (entries h) ∧
    (heapify_down_loop fuel h idx).size = h.size ∧
    (heapify_down_loop fuel h idx).capacity = h.capacity := by
  induction fuel with
  | zero => intro h idx _ hp; exact ⟨hp, List.Perm.refl _, rfl, rfl⟩
  | succ n ih =>
    intro h idx hidx hp
    simp only [heapify_down_loop]
    split_ifs with h1 h2 h3 h4 h5 h6 h7 h8 h9
    all_goals first
      | exact ⟨hp, List.Perm.refl _, rfl, rfl⟩
      | (obtain ⟨a, b, c, d⟩ := ih (swap_nodes h idx (2 * idx + 2)) (2 * idx + 2)
          (by simp; omega) (swap_nodes_posInv hp hidx (by omega))
         exact ⟨a, b.trans (swap_nodes_entries h hidx (by omega)), by simpa using c,
           by simpa using d⟩)
      | (obtain ⟨a, b, c, d⟩ := ih (swap_nodes h idx (2 * idx + 1)) (2 * idx + 1)
          (by simp; omega) (swap_nodes_posInv hp hidx (by omega))
         exact ⟨a, b.trans (swap_nodes_entries h hidx (by omega)), by simpa using c,
           by simpa using d⟩)
      | omega

/-- Heap order everywhere except between `idx` and its children, with the
children of `idx` already above the parent of `idx`. -/
def DownInv (h : BinaryHeap) (idx : Nat) : Prop :=
  (∀ i, 1 ≤ i → i < h.size → (i - 1) / 2 ≠ idx →
    (h.heap ((i - 1) / 2)).distance ≤ (h.heap i).distance) ∧
  (∀ i, 1 ≤ i → i < h.size → (i - 1) / 2 = idx → 1 ≤ idx →
    (h.heap ((idx - 1) / 2)).distance ≤ (h.heap i).distance)

theorem downInv_swap {h : BinaryHeap} {idx s : Nat} (hu : DownInv h idx)
    (hs : s < h.size) (hps : (s - 1) / 2 = idx) (hs1 : 1 ≤ s)
    (hlt : (h.heap s).distance < (h.heap idx).distance)
    (hmin : ∀ i, 1 ≤ i → i < h.size → (i - 1) / 2 = idx →
      (h.heap s).distance ≤ (h.heap i).distance) :
    DownInv (swap_nodes h idx s) s := by
  constructor
  · intro i hi1 hi2 hne
    simp only [swap_nodes_size] at hi2
    simp only [swap_nodes_heap, Equiv.swap_apply_def]
    have A := hu.1 i hi1 hi2
    have B := hu.2 i hi1 hi2
    have B2 := hu.2 s hs1 hs hps
    have M := hmin i hi1 hi2
    split_ifs with c1 c2 c3 c4 c5 c6 c7 c8 <;> first | omega | skip
    all_goals first
      | exact le_of_lt hlt
      | exact A (by omega)
      | exact M (by omega)
      | (subst c4; exact B2 hi1)
      | skip
  · intro i hi1 hi2 hpi _
    simp only [swap_nodes_size] at hi2
    simp only [swap_nodes_heap, Equiv.swap_apply_def]
    have A := hu.1 i hi1 hi2 (by omega)
    split_ifs with c1 c2 c3 c4 c5 c6 c7 c8 <;> first | omega | skip
    all_goals first
      | (rw [hpi] at A; exact A)
      | skip

theorem heapify_down_loop_order (fuel : Nat) : ∀ (h : BinaryHeap) (idx : Nat),
    h.size ≤ fuel + idx → DownInv h idx → HeapOrder (heapify_down_loop fuel h idx) := by
  induction fuel with
  | zero =>
    intro h idx hf hu i hi1 hi2
    simp only [heapify_down_loop] at hi2 ⊢
    exact hu.1 i hi1 hi2 (by omega)
  | succ n ih =>
    intro h idx hf hu
    simp only [heapify_down_loop]
    have n1 : ¬ (2 * idx + 1 = idx) := by omega
    have n2 : ¬ (2 * idx + 2 = idx) := by omega
    by_cases h1 : 2 * idx + 1 < h.size
    · rw [if_pos h1]
      by_cases hl : (h.heap (2 * idx + 1)).distance < (h.heap idx).distance
      · have hL : 2 * idx + 1 < h.size ∧
            (h.heap (2 * idx + 1)).distance < (h.heap idx).distance := ⟨h1, hl⟩
        simp only [if_pos hL]
        by_cases hr : 2 * idx + 2 < h.size ∧
            (h.heap (2 * idx + 2)).distance < (h.heap (2 * idx + 1)).distance
        · simp only [if_pos hr, if_neg n2]
          apply ih _ _ (by simp; omega)
          apply downInv_swap hu hr.1 (by omega) (by omega) (lt_trans hr.2 hl)
          intro i hi1 hi2 hpi
          have : i = 2 * idx + 1 ∨ i = 2 * idx + 2 := by omega
          rcases this with e | e
          · subst e; exact le_of_lt hr.2
          · subst e; exact le_refl _
        · simp only [if_neg hr, if_neg n1]
          apply ih _ _ (by simp; omega)
          apply downInv_swap hu h1 (by omega) (by omega) hl
          intro i hi1 hi2 hpi
          have : i = 2 * idx + 1 ∨ i = 2 * idx + 2 := by omega
          rcases this with e | e
          · subst e; exact le_refl _
          · subst e
            exact not_lt.mp (fun c => hr ⟨hi2, c⟩)
      · have hL : ¬ (2 * idx + 1 < h.size ∧
            (h.heap (2 * idx + 1)).distance < (h.heap idx).distance) := fun c => hl c.2
        simp only [if_neg hL]
        by_cases hr : 2 * idx + 2 < h.size ∧
            (h.heap (2 * idx + 2)).distance < (h.heap idx).distance
        · simp only [if_pos hr, if_neg n2]
          apply ih _ _ (by simp; omega)
          apply downInv_swap hu hr.1 (by omega) (by omega) hr.2
          intro i hi1 hi2 hpi
          have : i = 2 * idx + 1 ∨ i = 2 * idx + 2 := by omega
          rcases this with e | e
          · subst e; exact le_trans (le_of_lt hr.2) (not_lt.mp hl)
          · subst e; exact le_refl _
        · simp only [if_neg hr, if_true]
          intro i hi1 hi2
          by_cases e : (i - 1) / 2 = idx
          · have : i = 2 * idx + 1 ∨ i = 2 * idx + 2 := by omega
            rw [e]
            rcases this with e2 | e2
            · subst e2; exact not_lt.mp hl
            · subst e2; exact not_lt.mp (fun c => hr ⟨hi2, c⟩)
          · exact hu.1 i hi1 hi2 e
    · rw [if_neg h1]
      intro i hi1 hi2
      exact hu.1 i hi1 hi2 (by omega)

end BinHeap

set_option linter.unusedTactic false
set_option linter.unreachableTactic false
set_option linter.unusedVariables false

namespace BinHeap

/-! ## Binary heap: the four operations -/

theorem mem_entries {h : BinaryHeap} {e : HeapNode} :
    e ∈ entries h ↔ ∃ i, i < h.size ∧ h.heap i = e := by
  simp [entries]

theorem foldl_update_range (n : Nat) (c : Int) (p0 : Int → Int) (v : Int) :
    (List.range n).foldl (fun p (i : Nat) => Function.update p (i : Int) c) p0 v =
      if 0 ≤ v ∧ v < (n : Int) then c else p0 v := by
  induction n with
  | zero =>
    simp only [List.range_zero, List.foldl_nil]
    rw [if_neg]; omega
  | succ n ih =>
    rw [List.range_succ, List.foldl_append]
    simp only [List.foldl_cons, List.foldl_nil, Function.update_apply]
    rw [ih]
    by_cases e : v = (n : Int)
    · subst e; simp
    · rw [if_neg e]
      by_cases c1 : 0 ≤ v ∧ v < (n : Int)
      · rw [if_pos c1, if_pos]; push_cast; omega
      · rw [if_neg c1, if_neg]; push_cast; omega

theorem create_heap_pos (capacity v : Int) :
    (create_heap capacity).pos v = if 0 ≤ v ∧ v < capacity then -1 else 0 := by
  unfold create_heap
  simp only
  rw [foldl_update_range]
  by_cases c : 0 ≤ v ∧ v < capacity
  · rw [if_pos c, if_pos]; omega
  · rw [if_neg c, if_neg]; omega

theorem create_heap_valid (capacity : Int) : Valid (create_heap capacity) := by
  refine ⟨⟨?_, ?_, ?_⟩, ?_⟩
  · intro i hi; exact absurd hi (Nat.not_lt_zero _)
  · intro i hi; exact absurd hi (Nat.not_lt_zero _)
  · intro v h0 h1 _
    rw [create_heap_pos, if_pos ⟨h0, h1⟩]
  · intro i _ hi; exact absurd hi (Nat.not_lt_zero _)

theorem heapOrder_root_le {h : BinaryHeap} (ho : HeapOrder h) :
    ∀ i, i < h.size → (h.heap 0).distance ≤ (h.heap i).distance := by
  intro i
  induction i using Nat.strong_induction_on with
  | _ i ih =>
    intro hi
    by_cases h0 : i = 0
    · subst h0; exact le_refl _
    · have hp : (i - 1) / 2 < i := by omega
      exact le_trans (ih _ hp (by omega)) (ho i (by omega) hi)

/-- The vertex `v` has a slot in the occupied part of the array. -/
def present (h : BinaryHeap) (v : Int) : Prop := ∃ i, i < h.size ∧ (h.heap i).node = v

theorem pos_of_present {h : BinaryHeap} (hp : PosInv h) {v : Int} {i : Nat}
    (hi : i < h.size) (e : (h.heap i).node = v) : h.pos v = (i : Int) := by
  rw [← e]; exact hp.pos_node i hi

theorem present_of_pos {h : BinaryHeap} (hp : PosInv h) {v : Int}
    (h0 : 0 ≤ v) (h1 : v < h.capacity) (hne : h.pos v ≠ -1) :
    ∃ i, i < h.size ∧ (h.heap i).node = v ∧ h.pos v = (i : Int) := by
  by_contra hc
  apply hne
  apply hp.pos_absent v h0 h1
  intro i hi e
  exact hc ⟨i, hi, e, pos_of_present hp hi e⟩

theorem heap_insert_full (h : BinaryHeap) (node distance : Int)
    (hc : h.capacity ≤ (h.size : Int)) : heap_insert h node distance = h := by
  unfold heap_insert
  rw [if_pos (by omega)]

theorem heap_insert_spec {h : BinaryHeap} (hv : Valid h) (node distance : Int)
    (h0 : 0 ≤ node) (h1 : node < h.capacity) (hn : ¬ present h node)
    (hc : (h.size : Int) < h.capacity) :
    Valid (heap_insert h node distance) ∧
    (entries (heap_insert h node distance)).Perm (⟨node, distance⟩ :: entries h) ∧
    (heap_insert h node distance).size = h.size + 1 ∧
    (heap_insert h node distance).capacity = h.capacity := by
  unfold heap_insert
  rw [if_neg (by omega)]
  simp only
  set h1' : BinaryHeap :=
    { h with heap := Function.update h.heap h.size ⟨node, distance⟩
             pos := Function.update h.pos node (h.size : Int)
             size := h.size + 1 } with hh1
  have hheap : ∀ i, i < h.size → h1'.heap i = h.heap i := by
    intro i hi
    show Function.update h.heap h.size _ i = _
    rw [Function.update_noteq (by omega)]
  have hlast : h1'.heap h.size = ⟨node, distance⟩ := by
    show Function.update h.heap h.size _ h.size = _
    rw [Function.update_same]
  have hsz : h1'.size = h.size + 1 := rfl
  have hpos : ∀ v, h1'.pos v = if v = node then (h.size : Int) else h.pos v := by
    intro v
    show Function.update h.pos node _ v = _
    rw [Function.update_apply]
  have hp1 : PosInv h1' := by
    refine ⟨?_, ?_, ?_⟩
    · intro i hi
      by_cases e : i = h.size
      · subst e; rw [hlast]; exact ⟨h0, h1⟩
      · rw [hheap i (by omega)]; exact hv.posInv.node_range i (by omega)
    · intro i hi
      by_cases e : i = h.size
      · subst e; rw [hlast, hpos]; simp
      · have hi' : i < h.size := by omega
        rw [hheap i hi', hpos, if_neg (fun c => hn ⟨i, hi', c⟩)]
        exact hv.posInv.pos_node i hi'
    · intro v hv0 hv1 hvn
      have hne : v ≠ node := by
        intro c
        apply hvn h.size (by omega)
        rw [hlast, c]
      rw [hpos, if_neg hne]
      apply hv.posInv.pos_absent v hv0 hv1
      intro i hi
      have := hvn i (by omega)
      rwa [hheap i hi] at this
  have hu : UpInv h1' h.size := by
    constructor
    · intro i hi1 hi2 hne
      have hi' : i < h.size := by omega
      rw [hheap i hi', hheap _ (by omega)]
      exact hv.order i hi1 hi'
    · intro i hi1 hi2 hpi _
      omega
  have he : entries h1' = entries h ++ [⟨node, distance⟩] := by
    unfold entries
    rw [hsz, List.range_succ, List.map_append]
    simp only [List.map_cons, List.map_nil, hlast]
    congr 1
    swap
    · rw [Function.update_same]
    apply List.map_congr_left
    intro i hi
    exact hheap i (List.mem_range.mp hi)
  obtain ⟨a, b, c, d⟩ := heapify_up_loop_basic h.size h1' h.size (by omega) hp1
  refine ⟨⟨a, heapify_up_loop_order h.size h1' h.size (le_refl _) (by omega) hu⟩, ?_, c, d⟩
  refine b.trans ?_
  rw [he]
  exact List.perm_append_singleton _ _

theorem entries_nodes_nodup {h : BinaryHeap} (hp : PosInv h) :
    ((entries h).map HeapNode.node).Nodup := by
  unfold entries
  rw [List.map_map]
  apply (List.nodup_range h.size).map_on
  intro i hi j hj e
  exact hp.node_inj (List.mem_range.mp hi) (List.mem_range.mp hj) e

theorem heap_extract_min_empty (h : BinaryHeap) (hs : h.size = 0) :
    heap_extract_min h = (⟨-1, INT_MAX⟩, h) := by
  unfold heap_extract_min
  rw [if_pos hs]

theorem entries_drop_root (f : Nat → HeapNode) (m : Nat) (hm : 0 < m) :
    ((List.range (m + 1)).map f).Perm
      (f 0 :: (List.range m).map (Function.update f 0 (f m))) := by
  obtain ⟨k, rfl⟩ : ∃ k, m = k + 1 := ⟨m - 1, by omega⟩
  have e1 : List.range (k + 1 + 1) = List.range (k + 1) ++ [k + 1] := List.range_succ _
  have e2 : List.range (k + 1) = 0 :: List.map Nat.succ (List.range k) :=
    List.range_succ_eq_map k
  rw [e1, List.map_append, e2]
  simp only [List.map_cons, List.map_nil, Function.update_same, List.map_map]
  have e : List.map (Function.update f 0 (f (k + 1)) ∘ Nat.succ) (List.range k)
      = List.map (f ∘ Nat.succ) (List.range k) := by
    apply List.map_congr_left
    intro i _
    simp [Function.update_apply]
  rw [e]
  apply List.Perm.cons
  exact List.perm_append_singleton _ _

theorem heap_extract_min_spec {h : BinaryHeap} (hv : Valid h) (hs : 0 < h.size) :
    (heap_extract_min h).1 = h.heap 0 ∧
    Valid (heap_extract_min h).2 ∧
    (entries h).Perm ((heap_extract_min h).1 :: entries (heap_extract_min h).2) ∧
    (heap_extract_min h).2.size + 1 = h.size ∧
    (heap_extract_min h).2.capacity = h.capacity := by
  unfold heap_extract_min
  rw [if_neg (by omega)]
  simp only
  by_cases hm : h.size - 1 > 0
  · rw [if_pos hm]
    simp only
    set h2 : BinaryHeap :=
      { heap := Function.update h.heap 0 (h.heap (h.size - 1))
        pos := Function.update (Function.update h.pos (h.heap 0).node (-1))
          (Function.update h.heap 0 (h.heap (h.size - 1)) 0).node 0
        size := h.size - 1
        capacity := h.capacity } with hh2
    have hsz : h2.size = h.size - 1 := rfl
    have hheap0 : h2.heap 0 = h.heap (h.size - 1) := by
      simp only [h2, Function.update_same]
    have hheap : ∀ i, i ≠ 0 → h2.heap i = h.heap i := by
      intro i hi
      simp only [h2, Function.update_noteq hi]
    have hpos : ∀ v, h2.pos v = if v = (h.heap (h.size - 1)).node then 0
        else if v = (h.heap 0).node then -1 else h.pos v := by
      intro v
      simp only [h2, Function.update_same, Function.update_apply]
    have hne0 : (h.heap (h.size - 1)).node ≠ (h.heap 0).node := by
      intro c
      have := hv.posInv.node_inj (by omega) hs c
      omega
    have hp2 : PosInv h2 := by
      refine ⟨?_, ?_, ?_⟩
      · intro i hi
        by_cases e : i = 0
        · subst e; rw [hheap0]; exact hv.posInv.node_range _ (by omega)
        · rw [hheap i e]; exact hv.posInv.node_range i (by omega)
      · intro i hi
        rw [hsz] at hi
        by_cases e : i = 0
        · subst e; rw [hheap0, hpos, if_pos rfl]; rfl
        · rw [hheap i e, hpos]
          have n1 : (h.heap i).node ≠ (h.heap (h.size - 1)).node := by
            intro c
            have := hv.posInv.node_inj (by omega) (by omega) c
            omega
          have n2 : (h.heap i).node ≠ (h.heap 0).node := by
            intro c
            exact e (hv.posInv.node_inj (by omega) hs c)
          rw [if_neg n1, if_neg n2]
          exact hv.posInv.pos_node i (by omega)
      · intro v hv0 hv1 hvn
        rw [hsz] at hvn
        have n1 : v ≠ (h.heap (h.size - 1)).node := by
          intro c
          apply hvn 0 hm
          rw [hheap0, c]
        rw [hpos, if_neg n1]
        by_cases e : v = (h.heap 0).node
        · rw [if_pos e]
        · rw [if_neg e]
          apply hv.posInv.pos_absent v hv0 hv1
          intro i hi
          by_cases e0 : i = 0
          · subst e0; exact fun c => e c.symm
          · by_cases e1 : i = h.size - 1
            · subst e1; exact fun c => n1 c.symm
            · have := hvn i (by omega)
              rwa [hheap i e0] at this
    have hd : DownInv h2 0 := by
      constructor
      · intro i hi1 hi2 hne
        rw [hsz] at hi2
        rw [hheap i (by omega), hheap _ hne]
        exact hv.order i hi1 (by omega)
      · intro i _ _ _ c
        omega
    have he : (entries h).Perm (h.heap 0 :: entries h2) := by
      unfold entries
      have := entries_drop_root h.heap (h.size - 1) hm
      rw [show h.size - 1 + 1 = h.size by omega] at this
      exact this
    obtain ⟨a, b, c, d⟩ := heapify_down_loop_basic h2.size h2 0 hm hp2
    refine ⟨trivial, ⟨a, heapify_down_loop_order h2.size h2 0 (by omega) hd⟩, ?_, ?_, d⟩
    · exact he.trans (List.Perm.cons _ b.symm)
    · show (heapify_down_loop h2.size h2 0).size + 1 = h.size
      rw [c, hsz]; omega
  · rw [if_neg hm]
    have h1 : h.size = 1 := by omega
    refine ⟨rfl, ⟨⟨?_, ?_, ?_⟩, ?_⟩, ?_, ?_, rfl⟩
    · intro i hi; simp only at hi; omega
    · intro i hi; simp only at hi; omega
    · intro v hv0 hv1 _
      simp only [Function.update_apply]
      by_cases e : v = (h.heap 0).node
      · rw [if_pos e]
      · rw [if_neg e]
        apply hv.posInv.pos_absent v hv0 hv1
        intro i hi
        have : i = 0 := by omega
        subst this
        exact fun c => e c.symm
    · intro i _ hi; simp only at hi; omega
    · unfold entries
      simp only [h1]
      rfl
    · simp only; omega

theorem heap_extract_min_pos {h : BinaryHeap} (hv : Valid h) (hs : 0 < h.size) :
    (heap_extract_min h).2.pos (heap_extract_min h).1.node = -1 := by
  obtain ⟨e1, v2, pm, _, hc⟩ := heap_extract_min_spec hv hs
  have hr := hv.posInv.node_range 0 hs
  have nd := entries_nodes_nodup hv.posInv
  have nd2 : (List.map HeapNode.node ((heap_extract_min h).1 :: entries (heap_extract_min h).2)).Nodup :=
    (pm.map HeapNode.node).nodup_iff.mp nd
  rw [List.map_cons, List.nodup_cons] at nd2
  apply v2.posInv.pos_absent _ (by rw [e1]; exact hr.1) (by rw [e1, hc]; exact hr.2)
  intro i hi c
  apply nd2.1
  rw [List.mem_map]
  exact ⟨_, mem_entries.mpr ⟨i, hi, rfl⟩, c⟩

theorem heap_decrease_key_spec {h : BinaryHeap} (hv : Valid h) (node k : Int)
    (h0 : 0 ≤ node) (h1 : node < h.capacity) :
    Valid (heap_decrease_key h node k) ∧
    (entries (heap_decrease_key h node k)).Perm
      ((entries h).map (fun e => if e.node = node ∧ k < e.distance then ⟨node, k⟩ else e)) ∧
    (heap_decrease_key h node k).size = h.size ∧
    (heap_decrease_key h node k).capacity = h.capacity := by
  unfold heap_decrease_key
  simp only
  by_cases hc : h.pos node = -1 ∨ (h.heap (h.pos node).toNat).distance ≤ k
  · rw [if_pos hc]
    refine ⟨hv, ?_, rfl, rfl⟩
    have : (entries h).map (fun e => if e.node = node ∧ k < e.distance then ⟨node, k⟩ else e)
        = entries h := by
      conv_rhs => rw [← List.map_id (entries h)]
      apply List.map_congr_left
      intro e he
      obtain ⟨i, hi, rfl⟩ := mem_entries.mp he
      rw [if_neg, id]
      rintro ⟨c1, c2⟩
      have hpi := pos_of_present hv.posInv hi c1
      rcases hc with hc | hc
      · rw [hpi] at hc; omega
      · rw [hpi, Int.toNat_ofNat] at hc; omega
    rw [this]
  · rw [if_neg hc]
    push_neg at hc
    obtain ⟨i, hi, hnode, hpi⟩ := present_of_pos hv.posInv h0 h1 hc.1
    rw [hpi, Int.toNat_ofNat] at hc ⊢
    set h1' : BinaryHeap :=
      { h with heap := Function.update h.heap i { h.heap i with distance := k } } with hh1
    have hheapi : h1'.heap i = ⟨node, k⟩ := by
      simp only [h1', Function.update_same, hnode]
    have hheap : ∀ j, j ≠ i → h1'.heap j = h.heap j := by
      intro j hj
      simp only [h1', Function.update_noteq hj]
    have hnodes : ∀ j, (h1'.heap j).node = (h.heap j).node := by
      intro j
      by_cases e : j = i
      · subst e; rw [hheapi, hnode]
      · rw [hheap j e]
    have hp1 : PosInv h1' := by
      refine ⟨?_, ?_, ?_⟩
      · intro j hj; rw [hnodes]; exact hv.posInv.node_range j hj
      · intro j hj; rw [hnodes]; exact hv.posInv.pos_node j hj
      · intro v hv0 hv1 hvn
        apply hv.posInv.pos_absent v hv0 hv1
        intro j hj
        have := hvn j hj
        rwa [hnodes] at this
    have hu : UpInv h1' i := by
      constructor
      · intro j hj1 hj2 hne
        rw [hheap j hne]
        by_cases e : (j - 1) / 2 = i
        · rw [e, hheapi]
          have := hv.order j hj1 hj2
          rw [e] at this
          exact le_trans (le_of_lt hc.2) this
        · rw [hheap _ e]; exact hv.order j hj1 hj2
      · intro j hj1 hj2 hpj hi1
        rw [hheap j (by omega), hheap _ (by omega)]
        have a1 := hv.order j hj1 hj2
        have a2 := hv.order i hi1 hi
        rw [hpj] at a1
        exact le_trans a2 a1
    have he : entries h1' =
        (entries h).map (fun e => if e.node = node ∧ k < e.distance then ⟨node, k⟩ else e) := by
      unfold entries
      rw [List.map_map]
      apply List.map_congr_left
      intro j hj
      have hj' := List.mem_range.mp hj
      show h1'.heap j = (if (h.heap j).node = node ∧ k < (h.heap j).distance
        then (⟨node, k⟩ : HeapNode) else h.heap j)
      by_cases e : j = i
      · subst e; rw [hheapi, if_pos ⟨hnode, hc.2⟩]
      · rw [hheap j e, if_neg]
        rintro ⟨c, _⟩
        exact e (hv.posInv.node_inj hj' hi (c.trans hnode.symm))
    obtain ⟨a, b, c, d⟩ := heapify_up_loop_basic i h1' i hi hp1
    refine ⟨⟨a, heapify_up_loop_order i h1' i (le_refl _) hi hu⟩, ?_, c, d⟩
    rw [← he]; exact b

end BinHeap

set_option linter.unusedTactic false
set_option linter.unreachableTactic false
set_option linter.unusedVariables false

namespace BinHeap

/-! ## Binary heap: the fuel of the sift loops is never exhausted -/

theorem heapify_up_loop_fuel (f1 : Nat) : ∀ (f2 : Nat) (h : BinaryHeap) (idx : Nat),
    idx ≤ f1 → idx ≤ f2 → heapify_up_loop f1 h idx = heapify_up_loop f2 h idx := by
  induction f1 with
  | zero =>
    intro f2 h idx h1 _
    have : idx = 0 := by omega
    subst this
    cases f2 <;> simp [heapify_up_loop]
  | succ n ih =>
    intro f2 h idx h1 h2
    cases f2 with
    | zero =>
      have : idx = 0 := by omega
      subst this
      simp [heapify_up_loop]
    | succ m =>
      simp only [heapify_up_loop]
      split_ifs with c1 c2
      · rfl
      · exact ih m _ _ (by omega) (by omega)
      · rfl

theorem heapify_down_loop_fuel (f1 : Nat) : ∀ (f2 : Nat) (h : BinaryHeap) (idx : Nat),
    h.size ≤ f1 + idx → h.size ≤ f2 + idx →
    heapify_down_loop f1 h idx = heapify_down_loop f2 h idx := by
  induction f1 with
  | zero =>
    intro f2 h idx h1 _
    cases f2 with
    | zero => rfl
    | succ m =>
      simp only [heapify_down_loop]
      rw [if_neg (by omega)]
  | succ n ih =>
    intro f2 h idx h1 h2
    cases f2 with
    | zero =>
      simp only [heapify_down_loop]
      rw [if_neg (by omega)]
    | succ m =>
      simp only [heapify_down_loop]
      split_ifs with c1 c2 c3 c4 c5 c6 c7 c8
      all_goals first
        | rfl
        | exact ih m _ _ (by simp; omega) (by simp; omega)
        | omega

/-! ## Binary heap: states reached by the public operations -/

/-- Heap states reached from `create_heap capacity` by `heap_insert` (of an
in-range vertex that is not in the heap), `heap_extract_min` and
`heap_decrease_key` (of an in-range vertex). -/
inductive Reachable (capacity : Int) : BinaryHeap → Prop
  | create : Reachable capacity (create_heap capacity)
  | insert {h : BinaryHeap} (node distance : Int) : Reachable capacity h →
      0 ≤ node → node < capacity → ¬ present h node →
      Reachable capacity (heap_insert h node distance)
  | extract {h : BinaryHeap} : Reachable capacity h →
      Reachable capacity (heap_extract_min h).2
  | decrease {h : BinaryHeap} (node k : Int) : Reachable capacity h →
      0 ≤ node → node < capacity →
      Reachable capacity (heap_decrease_key h node k)

theorem heap_insert_valid {h : BinaryHeap} (hv : Valid h) (node distance : Int)
    (h0 : 0 ≤ node) (h1 : node < h.capacity) (hn : ¬ present h node) :
    Valid (heap_insert h node distance) ∧
      (heap_insert h node distance).capacity = h.capacity := by
  by_cases hc : (h.size : Int) < h.capacity
  · obtain ⟨a, _, _, d⟩ := heap_insert_spec hv node distance h0 h1 hn hc
    exact ⟨a, d⟩
  · rw [heap_insert_full h node distance (by omega)]
    exact ⟨hv, rfl⟩

theorem heap_extract_min_valid {h : BinaryHeap} (hv : Valid h) :
    Valid (heap_extract_min h).2 ∧ (heap_extract_min h).2.capacity = h.capacity := by
  by_cases hs : 0 < h.size
  · obtain ⟨_, a, _, _, d⟩ := heap_extract_min_spec hv hs
    exact ⟨a, d⟩
  · rw [heap_extract_min_empty h (by omega)]
    exact ⟨hv, rfl⟩

theorem reachable_valid {capacity : Int} {h : BinaryHeap} (hr : Reachable capacity h) :
    Valid h ∧ h.capacity = capacity := by
  induction hr with
  | create => exact ⟨create_heap_valid capacity, rfl⟩
  | insert node distance _ h0 h1 hn ih =>
    obtain ⟨a, b⟩ := heap_insert_valid ih.1 node distance h0 (by rw [ih.2]; exact h1) hn
    exact ⟨a, b.trans ih.2⟩
  | extract _ ih =>
    obtain ⟨a, b⟩ := heap_extract_min_valid ih.1
    exact ⟨a, b.trans ih.2⟩
  | decrease node k _ h0 h1 ih =>
    obtain ⟨a, _, _, b⟩ := heap_decrease_key_spec ih.1 node k h0 (by rw [ih.2]; exact h1)
    exact ⟨a, b.trans ih.2⟩

/-- A two-entry heap used to instantiate the statements below. -/
def sampleHeap : BinaryHeap := heap_insert (heap_insert (create_heap 2) 0 5) 1 3

theorem sampleHeap_reachable : Reachable 2 sampleHeap := by
  unfold sampleHeap
  refine Reachable.insert 1 3 (Reachable.insert 0 5 Reachable.create (by decide) (by decide) ?_)
    (by decide) (by decide) ?_
  · rintro ⟨i, hi, _⟩
    exact absurd hi (Nat.not_lt_zero i)
  · rintro ⟨i, hi, e⟩
    have hi' : i < 1 := hi
    have : i = 0 := by omega
    subst this
    revert e
    decide

/-- C8. In every heap state reached from `create_heap(capacity)` by
`heap_insert` (in-range vertices not currently present), `heap_extract_min` and
`heap_decrease_key`, the key at index `(i-1)/2` is at most the key at index `i`
for every `1 ≤ i < size`. -/
theorem binary_heap_order_invariant (capacity : Int) (h : BinaryHeap)
    (hr : Reachable capacity h) (i : Nat) (h1 : 1 ≤ i) (h2 : i < h.size) :
    (h.heap ((i - 1) / 2)).distance ≤ (h.heap i).distance :=
  (reachable_valid hr).1.order i h1 h2

theorem binary_heap_order_invariant_witness :
    Reachable 2 sampleHeap ∧ (1 : Nat) < sampleHeap.size ∧
      (sampleHeap.heap ((1 - 1) / 2)).distance ≤ (sampleHeap.heap 1).distance :=
  ⟨sampleHeap_reachable, by decide,
    binary_heap_order_invariant 2 sampleHeap sampleHeap_reachable 1 (by decide) (by decide)⟩

/-- C9. In every heap state reached from `create_heap(capacity)` by
`heap_insert` (in-range vertices not currently present), `heap_extract_min` and
`heap_decrease_key`, `pos[heap[i].node] = i` for every `i < size`, and
`pos[v] = -1` for every vertex `v` of `[0, capacity)` that occupies no slot
below `size`. -/
theorem binary_heap_index_invariant (capacity : Int) (h : BinaryHeap)
    (hr : Reachable capacity h) :
    (∀ i, i < h.size → h.pos (h.heap i).node = (i : Int)) ∧
    (∀ v : Int, 0 ≤ v → v < capacity →
      (∀ i, i < h.size → (h.heap i).node ≠ v) → h.pos v = -1) := by
  obtain ⟨hv, hc⟩ := reachable_valid hr
  refine ⟨hv.posInv.pos_node, ?_⟩
  intro v h0 h1 hn
  exact hv.posInv.pos_absent v h0 (by rw [hc]; exact h1) hn

theorem binary_heap_index_invariant_witness :
    Reachable 2 (heap_extract_min sampleHeap).2 ∧
    ((∀ i, i < (heap_extract_min sampleHeap).2.size →
        (heap_extract_min sampleHeap).2.pos ((heap_extract_min sampleHeap).2.heap i).node
          = (i : Int)) ∧
     (∀ v : Int, 0 ≤ v → v < 2 →
        (∀ i, i < (heap_extract_min sampleHeap).2.size →
          ((heap_extract_min sampleHeap).2.heap i).node ≠ v) →
        (heap_extract_min sampleHeap).2.pos v = -1)) :=
  ⟨Reachable.extract sampleHeap_reachable,
    binary_heap_index_invariant 2 _ (Reachable.extract sampleHeap_reachable)⟩

/-- C10. On a non-empty valid heap `heap_extract_min` returns an entry of the
heap whose key is at most every key of the heap; the heap afterwards holds
exactly the other entries, has one entry less, maps the returned vertex to
`-1` in `pos` and is valid again.  On an empty heap it returns
`(-1, INT_MAX)` and leaves the heap unchanged. -/
theorem heap_extract_min_correct (h : BinaryHeap) (hv : Valid h) :
    (h.size = 0 → heap_extract_min h = (⟨-1, INT_MAX⟩, h)) ∧
    (0 < h.size →
      (heap_extract_min h).1 ∈ entries h ∧
      (∀ e ∈ entries h, (heap_extract_min h).1.distance ≤ e.distance) ∧
      (entries h).Perm ((heap_extract_min h).1 :: entries (heap_extract_min h).2) ∧
      (heap_extract_min h).2.size + 1 = h.size ∧
      (heap_extract_min h).2.pos (heap_extract_min h).1.node = -1 ∧
      Valid (heap_extract_min h).2) := by
  refine ⟨heap_extract_min_empty h, ?_⟩
  intro hs
  obtain ⟨e1, v2, pm, sz, _⟩ := heap_extract_min_spec hv hs
  refine ⟨?_, ?_, pm, sz, heap_extract_min_pos hv hs, v2⟩
  · rw [e1]; exact mem_entries.mpr ⟨0, hs, rfl⟩
  · intro e he
    obtain ⟨i, hi, rfl⟩ := mem_entries.mp he
    rw [e1]
    exact heapOrder_root_le hv.order i hi

theorem heap_extract_min_correct_witness :
    Valid sampleHeap ∧ 0 < sampleHeap.size ∧
    (heap_extract_min sampleHeap).1 = ⟨1, 3⟩ ∧
    (heap_extract_min sampleHeap).1 ∈ entries sampleHeap ∧
    (heap_extract_min sampleHeap).2.size + 1 = sampleHeap.size :=
  ⟨(reachable_valid sampleHeap_reachable).1, by decide, by decide,
    ((heap_extract_min_correct sampleHeap (reachable_valid sampleHeap_reachable).1).2
      (by decide)).1,
    ((heap_extract_min_correct sampleHeap (reachable_valid sampleHeap_reachable).1).2
      (by decide)).2.2.2.1⟩

end BinHeap

set_option linter.unusedTactic false
set_option linter.unreachableTactic false
set_option linter.unusedVariables false

namespace BinHeap

/-! ## Binary heap: round trip -/

/-- Calls `heap_insert` for each pair of the list, in order. -/
def insert_all (h : BinaryHeap) : List HeapNode → BinaryHeap
  | [] => h
  | e :: es => insert_all (heap_insert h e.node e.distance) es

/-- Calls `heap_extract_min` `n` times; the returned entries in order, and the
heap afterwards. -/
def extract_n : Nat → BinaryHeap → List HeapNode × BinaryHeap
  | 0, h => ([], h)
  | n + 1, h =>
    let r := heap_extract_min h
    let rest := extract_n n r.2
    (r.1 :: rest.1, rest.2)

theorem present_iff_mem {h : BinaryHeap} {v : Int} :
    present h v ↔ v ∈ (entries h).map HeapNode.node := by
  unfold present
  rw [List.mem_map]
  constructor
  · rintro ⟨i, hi, e⟩
    exact ⟨h.heap i, mem_entries.mpr ⟨i, hi, rfl⟩, e⟩
  · rintro ⟨e, he, rfl⟩
    obtain ⟨i, hi, rfl⟩ := mem_entries.mp he
    exact ⟨i, hi, rfl⟩

theorem insert_all_spec : ∀ (pairs : List HeapNode) (h : BinaryHeap), Valid h →
    (∀ e ∈ pairs, 0 ≤ e.node ∧ e.node < h.capacity) →
    (pairs.map HeapNode.node).Nodup →
    (∀ e ∈ pairs, ¬ present h e.node) →
    (h.size : Int) + pairs.length ≤ h.capacity →
    Valid (insert_all h pairs) ∧
    (entries (insert_all h pairs)).Perm (pairs ++ entries h) ∧
    (insert_all h pairs).size = h.size + pairs.length ∧
    (insert_all h pairs).capacity = h.capacity := by
  intro pairs
  induction pairs with
  | nil =>
    intro h hv _ _ _ _
    exact ⟨hv, List.Perm.refl _, rfl, rfl⟩
  | cons e es ih =>
    intro h hv hr hd hn hc
    simp only [List.length_cons, Nat.cast_add, Nat.cast_one] at hc
    have hre := hr e (List.mem_cons_self _ _)
    obtain ⟨v1, p1, s1, c1⟩ := heap_insert_spec hv e.node e.distance hre.1 hre.2
      (hn e (List.mem_cons_self _ _)) (by omega)
    rw [List.map_cons, List.nodup_cons] at hd
    have hn' : ∀ x ∈ es, ¬ present (heap_insert h e.node e.distance) x.node := by
      intro x hx hp
      rw [present_iff_mem] at hp
      have := (p1.map HeapNode.node).subset hp
      rw [List.map_cons, List.mem_cons] at this
      rcases this with c | c
      · apply hd.1
        rw [← c]
        exact List.mem_map_of_mem _ hx
      · exact hn x (List.mem_cons_of_mem _ hx) (present_iff_mem.mpr c)
    obtain ⟨v2, p2, s2, c2⟩ := ih (heap_insert h e.node e.distance) v1
      (fun x hx => by rw [c1]; exact hr x (List.mem_cons_of_mem _ hx)) hd.2 hn'
      (by rw [s1, c1]; push_cast; omega)
    refine ⟨v2, ?_, ?_, c2.trans c1⟩
    · show (entries (insert_all (heap_insert h e.node e.distance) es)).Perm _
      refine p2.trans ?_
      refine (List.Perm.append_left es p1).trans ?_
      exact List.perm_middle
    · show (insert_all (heap_insert h e.node e.distance) es).size = _
      rw [s2, s1, List.length_cons]; omega

theorem extract_n_spec : ∀ (n : Nat) (h : BinaryHeap), Valid h → h.size = n →
    List.Pairwise (fun a b => a.distance ≤ b.distance) (extract_n n h).1 ∧
    (extract_n n h).1.Perm (entries h) ∧
    (extract_n n h).2.size = 0 := by
  intro n
  induction n with
  | zero =>
    intro h _ hs
    refine ⟨List.Pairwise.nil, ?_, hs⟩
    unfold entries
    rw [hs]
    exact List.Perm.refl _
  | succ n ih =>
    intro h hv hs
    obtain ⟨e1, v2, pm, sz, _⟩ := heap_extract_min_spec hv (by omega)
    obtain ⟨a, b, c⟩ := ih (heap_extract_min h).2 v2 (by omega)
    refine ⟨?_, ?_, c⟩
    · show List.Pairwise _ ((heap_extract_min h).1 :: (extract_n n (heap_extract_min h).2).1)
      rw [List.pairwise_cons]
      refine ⟨?_, a⟩
      intro x hx
      have hx2 : x ∈ entries h := pm.symm.subset (List.mem_cons_of_mem _ (b.subset hx))
      obtain ⟨i, hi, rfl⟩ := mem_entries.mp hx2
      rw [e1]
      exact heapOrder_root_le hv.order i hi
    · show ((heap_extract_min h).1 :: (extract_n n (heap_extract_min h).2).1).Perm _
      exact (List.Perm.cons _ b).trans pm.symm

/-- C5. Inserting `n ≤ capacity` pairs with pairwise distinct in-range vertices
into a fresh heap and extracting `n` times returns the inserted pairs, each
once, in non-decreasing key order, and leaves the heap empty. -/
theorem binary_heap_round_trip (capacity : Int) (pairs : List HeapNode)
    (hlen : (pairs.length : Int) ≤ capacity)
    (hrange : ∀ e ∈ pairs, 0 ≤ e.node ∧ e.node < capacity)
    (hdistinct : (pairs.map HeapNode.node).Nodup) :
    List.Pairwise (fun a b => a.distance ≤ b.distance)
      (extract_n pairs.length (insert_all (create_heap capacity) pairs)).1 ∧
    (extract_n pairs.length (insert_all (create_heap capacity) pairs)).1.Perm pairs ∧
    (extract_n pairs.length (insert_all (create_heap capacity) pairs)).2.size = 0 ∧
    is_heap_empty (extract_n pairs.length (insert_all (create_heap capacity) pairs)).2
      = true := by
  have hn : ∀ e ∈ pairs, ¬ present (create_heap capacity) e.node := by
    rintro e _ ⟨i, hi, _⟩
    exact absurd hi (Nat.not_lt_zero i)
  obtain ⟨v, p, s, _⟩ := insert_all_spec pairs (create_heap capacity)
    (create_heap_valid capacity) hrange hdistinct hn
    (by show ((0 : Nat) : Int) + _ ≤ capacity; simpa using hlen)
  have s' : (insert_all (create_heap capacity) pairs).size = pairs.length := by
    rw [s]; show 0 + _ = _; omega
  obtain ⟨a, b, c⟩ := extract_n_spec pairs.length _ v s'
  refine ⟨a, ?_, c, ?_⟩
  · refine b.trans (p.trans ?_)
    show (pairs ++ []).Perm pairs
    rw [List.append_nil]
  · unfold is_heap_empty
    rw [c]; rfl

theorem binary_heap_round_trip_witness :
    (extract_n 3 (insert_all (create_heap 3) [⟨0, 5⟩, ⟨1, 3⟩, ⟨2, 4⟩])).1
        = [⟨1, 3⟩, ⟨2, 4⟩, ⟨0, 5⟩] ∧
    List.Pairwise (fun a b => a.distance ≤ b.distance)
      (extract_n 3 (insert_all (create_heap 3) [⟨0, 5⟩, ⟨1, 3⟩, ⟨2, 4⟩])).1 ∧
    (extract_n 3 (insert_all (create_heap 3) [⟨0, 5⟩, ⟨1, 3⟩, ⟨2, 4⟩])).2.size = 0 :=
  ⟨by decide,
   (binary_heap_round_trip 3 [⟨0, 5⟩, ⟨1, 3⟩, ⟨2, 4⟩] (by decide) (by decide) (by decide)).1,
   (binary_heap_round_trip 3 [⟨0, 5⟩, ⟨1, 3⟩, ⟨2, 4⟩] (by decide) (by decide) (by decide)).2.2.1⟩

end BinHeap

set_option linter.unusedTactic false
set_option linter.unreachableTactic false
set_option linter.unusedVariables false

namespace BinHeap

/-! ## Dijkstra over the binary heap: graphs, walks and the loop invariant -/

/-- Well-formed graph on the vertices `0 .. num_nodes - 1`: every edge ends
at a vertex of the graph and has a non-negative weight. -/
def WF (g : Graph) : Prop :=
  ∀ u, 0 ≤ u → u < (g.num_nodes : Int) → ∀ e ∈ g.adj_list u,
    0 ≤ e.dest ∧ e.dest < (g.num_nodes : Int) ∧ 0 ≤ e.weight

/-- `Walk g s v d`: there is a directed path from `s` to `v` of total weight `d`. -/
inductive Walk (g : Graph) (s : Int) : Int → Int → Prop
  | nil : Walk g s s 0
  | snoc {u d : Int} (e : Edge) : Walk g s u d → e ∈ g.adj_list u →
      Walk g s e.dest (d + e.weight)

/-- `d` is the minimum total weight of a directed path from `s` to `v`. -/
def IsMinDist (g : Graph) (s v d : Int) : Prop :=
  Walk g s v d ∧ ∀ d', Walk g s v d' → d ≤ d'

/-- No relaxation `dist[u] + weight` out of a shortest distance leaves the
`int` range. -/
def NoOverflow (g : Graph) (s : Int) : Prop :=
  ∀ u d, IsMinDist g s u d → ∀ e ∈ g.adj_list u, d + e.weight ≤ INT_MAX

theorem walk_range {g : Graph} {s : Int} (hg : WF g) (h0 : 0 ≤ s)
    (h1 : s < (g.num_nodes : Int)) {v d : Int} (hw : Walk g s v d) :
    0 ≤ v ∧ v < (g.num_nodes : Int) ∧ 0 ≤ d := by
  induction hw with
  | nil => exact ⟨h0, h1, le_refl _⟩
  | snoc e _ he ih =>
    obtain ⟨a, b, c⟩ := hg _ ih.1 ih.2.1 e he
    exact ⟨a, b, by omega⟩

theorem wrap32_id {x : Int} (h0 : 0 ≤ x) (h1 : x ≤ INT_MAX) : wrap32 x = x := by
  unfold wrap32
  unfold INT_MAX at h1
  omega

/-- All edges out of `u` are relaxed in `dist`. -/
def Closed (g : Graph) (dist : Int → Int) (u : Int) : Prop :=
  ∀ e ∈ g.adj_list u, dist e.dest ≤ dist u + e.weight

theorem present_extract {h : BinaryHeap} (hv : Valid h) (hs : 0 < h.size) (x : Int) :
    present (heap_extract_min h).2 x ↔ present h x ∧ x ≠ (heap_extract_min h).1.node := by
  obtain ⟨e1, v2, pm, _, _⟩ := heap_extract_min_spec hv hs
  have nd := entries_nodes_nodup hv.posInv
  have pm' := pm.map HeapNode.node
  have nd2 := pm'.nodup_iff.mp nd
  rw [List.map_cons, List.nodup_cons] at nd2
  rw [present_iff_mem, present_iff_mem]
  constructor
  · intro hx
    refine ⟨pm'.symm.subset (List.mem_cons_of_mem _ hx), ?_⟩
    rintro rfl
    exact nd2.1 hx
  · rintro ⟨hx, hne⟩
    have := pm'.subset hx
    rw [List.map_cons, List.mem_cons] at this
    rcases this with c | c
    · exact absurd c hne
    · exact c

theorem present_decrease_key {h : BinaryHeap} (hv : Valid h) (v k : Int)
    (h0 : 0 ≤ v) (h1 : v < h.capacity) (x : Int) :
    present (heap_decrease_key h v k) x ↔ present h x := by
  obtain ⟨_, pm, _, _⟩ := heap_decrease_key_spec hv v k h0 h1
  have pm' := pm.map HeapNode.node
  rw [List.map_map] at pm'
  have e : (HeapNode.node ∘ fun e : HeapNode =>
      if e.node = v ∧ k < e.distance then (⟨v, k⟩ : HeapNode) else e) = HeapNode.node := by
    funext e
    simp only [Function.comp]
    split_ifs with c
    · exact c.1.symm
    · rfl
  rw [e] at pm'
  rw [present_iff_mem, present_iff_mem]
  exact pm'.mem_iff

/-- The invariant of the main loop of `dijkstra_binary_heap`. -/
structure DInv (g : Graph) (s : Int) (dist : Int → Int) (heap : BinaryHeap) : Prop where
  valid : Valid heap
  cap : heap.capacity = (g.num_nodes : Int)
  keys : ∀ e ∈ entries heap, e.distance = dist e.node
  range : ∀ v, 0 ≤ v → v < (g.num_nodes : Int) → 0 ≤ dist v ∧ dist v ≤ INT_MAX
  walk : ∀ v, 0 ≤ v → v < (g.num_nodes : Int) → dist v < INT_MAX → Walk g s v (dist v)
  done : ∀ u, 0 ≤ u → u < (g.num_nodes : Int) → ¬ present heap u →
    dist u < INT_MAX ∧ Closed g dist u ∧ ∀ x, present heap x → dist u ≤ dist x
  src : dist s = 0

/-- What the main loop establishes on exit. -/
structure DFinal (g : Graph) (s : Int) (dist : Int → Int) : Prop where
  range : ∀ v, 0 ≤ v → v < (g.num_nodes : Int) → 0 ≤ dist v ∧ dist v ≤ INT_MAX
  walk : ∀ v, 0 ≤ v → v < (g.num_nodes : Int) → dist v < INT_MAX → Walk g s v (dist v)
  closed : ∀ u, 0 ≤ u → u < (g.num_nodes : Int) → Closed g dist u ∨ dist u = INT_MAX
  src : dist s = 0

theorem dfinal_lower {g : Graph} {s : Int} {dist : Int → Int} (hg : WF g)
    (h0 : 0 ≤ s) (h1 : s < (g.num_nodes : Int)) (hf : DFinal g s dist)
    {v d : Int} (hw : Walk g s v d) : dist v ≤ d := by
  induction hw with
  | nil => rw [hf.src]
  | snoc e hw' he ih =>
    rename_i u d
    obtain ⟨u0, u1, d0⟩ := walk_range hg h0 h1 hw'
    obtain ⟨a, b, c⟩ := hg _ u0 u1 e he
    rcases hf.closed _ u0 u1 with hc | hc
    · have := hc e he
      omega
    · have := (hf.range _ a b).2
      omega

/-- The key of the present vertex `x` in the heap is `dist x`, and the heap
minimum is below it. -/
theorem present_entry {h : BinaryHeap} {x : Int} (hp : present h x) :
    ∃ e ∈ entries h, e.node = x := by
  obtain ⟨i, hi, e⟩ := hp
  exact ⟨h.heap i, mem_entries.mpr ⟨i, hi, rfl⟩, e⟩

/-- With the heap minimum `m`, every path to `x` weighs at least `m` when `x`
is still in the heap and at least `dist x` when it is not. -/
theorem walk_lower {g : Graph} {s : Int} {dist : Int → Int} {heap : BinaryHeap}
    (hg : WF g) (h0 : 0 ≤ s) (h1 : s < (g.num_nodes : Int)) (hi : DInv g s dist heap)
    (m : Int) (hm : ∀ x, present heap x → m ≤ dist x)
    (hm2 : ∀ y, 0 ≤ y → y < (g.num_nodes : Int) → ¬ present heap y → dist y ≤ m)
    {v d : Int} (hw : Walk g s v d) :
    (present heap v → m ≤ d) ∧ (¬ present heap v → dist v ≤ d) := by
  induction hw with
  | nil =>
    constructor
    · intro hp
      have := hm s hp
      rw [hi.src] at this
      exact this
    · intro _
      rw [hi.src]
  | snoc e hw' he ih =>
    rename_i u d
    obtain ⟨u0, u1, d0⟩ := walk_range hg h0 h1 hw'
    obtain ⟨a, b, c⟩ := hg _ u0 u1 e he
    by_cases hu : present heap u
    · have hmd := ih.1 hu
      constructor
      · intro _; omega
      · intro hv
        have := hm2 _ a b hv
        omega
    · have hdu := ih.2 hu
      have hcl := (hi.done _ u0 u1 hu).2.1 e he
      constructor
      · intro hp
        have := hm _ hp
        omega
      · intro _
        omega

/-- The invariant of the edge loop for the extracted vertex `u`. -/
structure RInv (g : Graph) (s u : Int) (dist : Int → Int) (heap : BinaryHeap) : Prop where
  valid : Valid heap
  cap : heap.capacity = (g.num_nodes : Int)
  keys : ∀ e ∈ entries heap, e.distance = dist e.node
  range : ∀ v, 0 ≤ v → v < (g.num_nodes : Int) → 0 ≤ dist v ∧ dist v ≤ INT_MAX
  walk : ∀ v, 0 ≤ v → v < (g.num_nodes : Int) → dist v < INT_MAX → Walk g s v (dist v)
  done : ∀ y, 0 ≤ y → y < (g.num_nodes : Int) → y ≠ u → ¬ present heap y →
    dist y < INT_MAX ∧ Closed g dist y ∧ (∀ x, present heap x → dist y ≤ dist x) ∧
      dist y ≤ dist u
  src : dist s = 0
  u_range : 0 ≤ u ∧ u < (g.num_nodes : Int)
  u_absent : ¬ present heap u
  u_lt : dist u < INT_MAX
  u_bound : ∀ e ∈ g.adj_list u, dist u + e.weight ≤ INT_MAX
  u_le : ∀ x, present heap x → dist u ≤ dist x

theorem relax_step {g : Graph} {s u : Int} {dist : Int → Int} {heap : BinaryHeap}
    (hg : WF g) (hi : RInv g s u dist heap) (e : Edge) (he : e ∈ g.adj_list u)
    (hlt : wrap32 (dist u + e.weight) < dist e.dest) :
    RInv g s u (Function.update dist e.dest (wrap32 (dist u + e.weight)))
      (heap_decrease_key heap e.dest (wrap32 (dist u + e.weight))) ∧
    (∀ x, Function.update dist e.dest (wrap32 (dist u + e.weight)) x ≤ dist x) ∧
    Function.update dist e.dest (wrap32 (dist u + e.weight)) u = dist u ∧
    Function.update dist e.dest (wrap32 (dist u + e.weight)) e.dest = dist u + e.weight ∧
    (heap_decrease_key heap e.dest (wrap32 (dist u + e.weight))).size = heap.size := by
  obtain ⟨v0, v1, w0⟩ := hg u hi.u_range.1 hi.u_range.2 e he
  have hub := hi.u_bound e he
  have hur := hi.range u hi.u_range.1 hi.u_range.2
  have hw : wrap32 (dist u + e.weight) = dist u + e.weight := wrap32_id (by omega) hub
  rw [hw] at hlt ⊢
  have hvu : e.dest ≠ u := by
    intro c
    rw [c] at hlt
    omega
  have hpv : present heap e.dest := by
    by_contra hc
    have := (hi.done _ v0 v1 hvu hc).2.2.2
    omega
  obtain ⟨dv, dp, ds, dc⟩ := heap_decrease_key_spec hi.valid e.dest (dist u + e.weight) v0
    (by rw [hi.cap]; exact v1)
  have hpres : ∀ x, present (heap_decrease_key heap e.dest (dist u + e.weight)) x ↔
      present heap x :=
    present_decrease_key hi.valid e.dest (dist u + e.weight) v0 (by rw [hi.cap]; exact v1)
  have hmono : ∀ x, Function.update dist e.dest (dist u + e.weight) x ≤ dist x := by
    intro x
    rw [Function.update_apply]
    split_ifs with c
    · rw [c]; omega
    · exact le_refl _
  have hsame : ∀ x, x ≠ e.dest → Function.update dist e.dest (dist u + e.weight) x = dist x :=
    fun x hx => Function.update_noteq hx _ _
  have hu_same : Function.update dist e.dest (dist u + e.weight) u = dist u :=
    hsame u (Ne.symm hvu)
  refine ⟨⟨dv, dc.trans hi.cap, ?_, ?_, ?_, ?_, ?_, hi.u_range, ?_, ?_, ?_, ?_⟩,
    hmono, hu_same, Function.update_same _ _ _, ds⟩
  · intro e' he'
    have := dp.subset he'
    rw [List.mem_map] at this
    obtain ⟨e0, he0, hfe⟩ := this
    have hfe' : e' = if e0.node = e.dest ∧ dist u + e.weight < e0.distance
        then (⟨e.dest, dist u + e.weight⟩ : HeapNode) else e0 := hfe.symm
    have hk := hi.keys e0 he0
    by_cases c : e0.node = e.dest ∧ dist u + e.weight < e0.distance
    · rw [hfe', if_pos c]
      simp only [Function.update_same]
    · have hne : e0.node ≠ e.dest := by
        intro c2
        apply c
        refine ⟨c2, ?_⟩
        rw [hk, c2]; exact hlt
      rw [hfe', if_neg c, hsame _ hne]; exact hk
  · intro x x0 x1
    rw [Function.update_apply]
    split_ifs with c
    · omega
    · exact hi.range x x0 x1
  · intro x x0 x1 hx
    by_cases c : x = e.dest
    · subst c
      rw [Function.update_same]
      exact Walk.snoc e (hi.walk u hi.u_range.1 hi.u_range.2 hi.u_lt) he
    · rw [hsame x c] at hx ⊢
      exact hi.walk x x0 x1 hx
  · intro y y0 y1 hyu hy
    have hy' : ¬ present heap y := fun c => hy ((hpres y).mpr c)
    have hyv : y ≠ e.dest := by
      intro c; rw [c] at hy'; exact hy' hpv
    obtain ⟨a, b, c, d⟩ := hi.done y y0 y1 hyu hy'
    rw [hsame y hyv, hu_same]
    refine ⟨a, ?_, ?_, d⟩
    · intro e' he'
      have := b e' he'
      have := hmono e'.dest
      rw [hsame y hyv]
      omega
    · intro x hx
      have hx' := (hpres x).mp hx
      rw [Function.update_apply]
      split_ifs with c2
      · omega
      · exact c x hx'
  · have hsv : s ≠ e.dest := by
      intro c
      rw [← c, hi.src] at hlt
      omega
    rw [hsame s hsv]; exact hi.src
  · exact fun c => hi.u_absent ((hpres u).mp c)
  · rw [hu_same]; exact hi.u_lt
  · intro e' he'
    rw [hu_same]; exact hi.u_bound e' he'
  · intro x hx
    have hx' := (hpres x).mp hx
    rw [hu_same, Function.update_apply]
    split_ifs with c2
    · omega
    · exact hi.u_le x hx'

theorem relax_edges_inv {g : Graph} {s u : Int} (hg : WF g) : ∀ (es : List Edge)
    (dist : Int → Int) (heap : BinaryHeap) (done : List Edge),
    (∀ e ∈ es, e ∈ g.adj_list u) → RInv g s u dist heap →
    (∀ e ∈ done, dist e.dest ≤ dist u + e.weight) →
    RInv g s u (relax_edges u es (dist, heap)).1 (relax_edges u es (dist, heap)).2 ∧
    (∀ e ∈ done ++ es, (relax_edges u es (dist, heap)).1 e.dest ≤
      (relax_edges u es (dist, heap)).1 u + e.weight) ∧
    (relax_edges u es (dist, heap)).2.size = heap.size := by
  intro es
  induction es with
  | nil =>
    intro dist heap done _ hi hd
    refine ⟨hi, ?_, rfl⟩
    intro e he
    rw [List.append_nil] at he
    exact hd e he
  | cons e es ih =>
    intro dist heap done hes hi hd
    have he := hes e (List.mem_cons_self _ _)
    have hes' : ∀ x ∈ es, x ∈ g.adj_list u := fun x hx => hes x (List.mem_cons_of_mem _ hx)
    simp only [relax_edges]
    by_cases hlt : wrap32 (dist u + e.weight) < dist e.dest
    · rw [if_pos hlt]
      obtain ⟨r1, mono, us, vs, sz⟩ := relax_step hg hi e he hlt
      obtain ⟨a, b, c⟩ := ih _ _ (done ++ [e]) hes' r1 (by
        intro x hx
        rw [List.mem_append, List.mem_singleton] at hx
        rcases hx with hx | rfl
        · have := hd x hx
          have := mono x.dest
          rw [us]; omega
        · rw [us, vs])
      refine ⟨a, ?_, c.trans sz⟩
      intro x hx
      apply b x
      simpa using hx
    · rw [if_neg hlt]
      obtain ⟨v0, v1, w0⟩ := hg u hi.u_range.1 hi.u_range.2 e he
      have hub := hi.u_bound e he
      have hur := hi.range u hi.u_range.1 hi.u_range.2
      have hw : wrap32 (dist u + e.weight) = dist u + e.weight := wrap32_id (by omega) hub
      rw [hw] at hlt
      obtain ⟨a, b, c⟩ := ih dist heap (done ++ [e]) hes' hi (by
        intro x hx
        rw [List.mem_append, List.mem_singleton] at hx
        rcases hx with hx | rfl
        · exact hd x hx
        · omega)
      refine ⟨a, ?_, c⟩
      intro x hx
      apply b x
      simpa using hx

end BinHeap

set_option linter.unusedTactic false
set_option linter.unreachableTactic false
set_option linter.unusedVariables false

namespace BinHeap

/-! ## Dijkstra over the binary heap: the main loop -/

theorem not_present_of_empty {heap : BinaryHeap} (hs : heap.size = 0) (x : Int) :
    ¬ present heap x := by
  rintro ⟨i, hi, _⟩
  omega

theorem dinv_final_of_empty {g : Graph} {s : Int} {dist : Int → Int} {heap : BinaryHeap}
    (hi : DInv g s dist heap) (hs : heap.size = 0) : DFinal g s dist :=
  ⟨hi.range, hi.walk,
    fun u u0 u1 => Or.inl (hi.done u u0 u1 (not_present_of_empty hs u)).2.1, hi.src⟩

theorem present_key {g : Graph} {s : Int} {dist : Int → Int} {heap : BinaryHeap}
    (hi : DInv g s dist heap) {x : Int} (hp : present heap x) :
    (⟨x, dist x⟩ : HeapNode) ∈ entries heap := by
  obtain ⟨e, he, rfl⟩ := present_entry hp
  have := hi.keys e he
  rw [← this]
  exact he

theorem dijkstra_loop_final {g : Graph} {s : Int} (hg : WF g) (h0 : 0 ≤ s)
    (h1 : s < (g.num_nodes : Int)) (hno : NoOverflow g s) :
    ∀ (fuel : Nat) (dist : Int → Int) (heap : BinaryHeap),
      DInv g s dist heap → heap.size ≤ fuel →
      DFinal g s (dijkstra_loop g fuel (dist, heap)).1 := by
  intro fuel
  induction fuel with
  | zero =>
    intro dist heap hi hs
    exact dinv_final_of_empty hi (by omega)
  | succ n ih =>
    intro dist heap hi hs
    simp only [dijkstra_loop]
    by_cases hz : heap.size = 0
    · have : is_heap_empty heap = true := by simp [is_heap_empty, hz]
      rw [if_pos this]
      exact dinv_final_of_empty hi hz
    · have : ¬ (is_heap_empty heap = true) := by simp [is_heap_empty, hz]
      rw [if_neg this]
      have hpos : 0 < heap.size := by omega
      obtain ⟨e1, v2, pm, sz, c2⟩ := heap_extract_min_spec hi.valid hpos
      have hmem : (heap_extract_min heap).1 ∈ entries heap := by
        rw [e1]; exact mem_entries.mpr ⟨0, hpos, rfl⟩
      have hmin : ∀ e ∈ entries heap, (heap_extract_min heap).1.distance ≤ e.distance := by
        intro e he
        obtain ⟨i, hi', rfl⟩ := mem_entries.mp he
        rw [e1]; exact heapOrder_root_le hi.valid.order i hi'
      have hkey := hi.keys _ hmem
      have hupres : present heap (heap_extract_min heap).1.node :=
        present_iff_mem.mpr (List.mem_map_of_mem _ hmem)
      have hur : 0 ≤ (heap_extract_min heap).1.node ∧
          (heap_extract_min heap).1.node < (g.num_nodes : Int) := by
        have := hi.valid.posInv.node_range 0 hpos
        rw [e1, ← hi.cap]; exact this
      have hule : ∀ x, present heap x →
          dist (heap_extract_min heap).1.node ≤ dist x := by
        intro x hx
        have := hmin _ (present_key hi hx)
        rw [hkey] at this
        exact this
      by_cases hk : (heap_extract_min heap).1.distance = INT_MAX
      · rw [if_pos hk]
        show DFinal g s dist
        refine ⟨hi.range, hi.walk, ?_, hi.src⟩
        intro x x0 x1
        by_cases hx : present heap x
        · right
          have := hule x hx
          have := (hi.range x x0 x1).2
          rw [hkey] at hk
          omega
        · exact Or.inl (hi.done x x0 x1 hx).2.1
      · rw [if_neg hk]
        have hlt : dist (heap_extract_min heap).1.node < INT_MAX := by
          have := (hi.range _ hur.1 hur.2).2
          rw [hkey] at hk
          omega
        have hminD : IsMinDist g s (heap_extract_min heap).1.node
            (dist (heap_extract_min heap).1.node) := by
          refine ⟨hi.walk _ hur.1 hur.2 hlt, ?_⟩
          intro d hw
          exact (walk_lower hg h0 h1 hi _ hule
            (fun y y0 y1 hy => (hi.done y y0 y1 hy).2.2 _ hupres) hw).1 hupres
        have hpe := present_extract hi.valid hpos
        have hr : RInv g s (heap_extract_min heap).1.node dist (heap_extract_min heap).2 := by
          refine ⟨v2, c2.trans hi.cap, ?_, hi.range, hi.walk, ?_, hi.src, hur, ?_, hlt, ?_, ?_⟩
          · intro e he
            exact hi.keys e (pm.symm.subset (List.mem_cons_of_mem _ he))
          · intro y y0 y1 hyu hy
            have hy' : ¬ present heap y := fun c => hy ((hpe y).mpr ⟨c, hyu⟩)
            obtain ⟨a, b, c⟩ := hi.done y y0 y1 hy'
            exact ⟨a, b, fun x hx => c x ((hpe x).mp hx).1, c _ hupres⟩
          · exact fun c => ((hpe _).mp c).2 rfl
          · exact hno _ _ hminD
          · intro x hx
            exact hule x ((hpe x).mp hx).1
        obtain ⟨ra, rb, rc⟩ := relax_edges_inv hg (g.adj_list (heap_extract_min heap).1.node)
          dist (heap_extract_min heap).2 [] (fun e he => he) hr
          (fun e he => absurd he (List.not_mem_nil e))
        rw [List.nil_append] at rb
        apply ih
        · refine ⟨ra.valid, ra.cap, ra.keys, ra.range, ra.walk, ?_, ra.src⟩
          intro y y0 y1 hy
          by_cases hyu : y = (heap_extract_min heap).1.node
          · subst hyu
            exact ⟨ra.u_lt, rb, ra.u_le⟩
          · obtain ⟨a, b, c, _⟩ := ra.done y y0 y1 hyu hy
            exact ⟨a, b, c⟩
        · rw [rc]; omega

/-! ## Dijkstra over the binary heap: the initial state -/

theorem foldl_insert_eq (dist : Int → Int) : ∀ (l : List Nat) (h : BinaryHeap),
    l.foldl (fun h (i : Nat) => heap_insert h (i : Int) (dist (i : Int))) h =
      insert_all h (l.map (fun i : Nat => (⟨(i : Int), dist (i : Int)⟩ : HeapNode))) := by
  intro l
  induction l with
  | nil => intro h; rfl
  | cons a l ih =>
    intro h
    simp only [List.foldl_cons, List.map_cons, insert_all]
    exact ih _

/-- The contents of `dist` before the main loop. -/
def initDist (g : Graph) (source : Int) (dist0 : Int → Int) : Int → Int :=
  Function.update ((List.range g.num_nodes).foldl
    (fun d (i : Nat) => Function.update d (i : Int) INT_MAX) dist0) source 0

/-- The heap before the main loop. -/
def initHeap (g : Graph) (source : Int) (dist0 : Int → Int) : BinaryHeap :=
  (List.range g.num_nodes).foldl
    (fun h (i : Nat) => heap_insert h (i : Int) (initDist g source dist0 (i : Int)))
    (create_heap g.num_nodes)

theorem dijkstra_binary_heap_eq (g : Graph) (source : Int) (dist0 : Int → Int) :
    dijkstra_binary_heap g source dist0 =
      (dijkstra_loop g g.num_nodes (initDist g source dist0, initHeap g source dist0)).1 :=
  rfl

theorem initDist_apply (g : Graph) (source : Int) (dist0 : Int → Int) (v : Int) :
    initDist g source dist0 v =
      if v = source then 0
      else if 0 ≤ v ∧ v < (g.num_nodes : Int) then INT_MAX else dist0 v := by
  unfold initDist
  rw [Function.update_apply, foldl_update_range]

theorem init_dinv {g : Graph} {s : Int} (h0 : 0 ≤ s) (h1 : s < (g.num_nodes : Int))
    (dist0 : Int → Int) :
    DInv g s (initDist g s dist0) (initHeap g s dist0) ∧
      (initHeap g s dist0).size = g.num_nodes := by
  have hpairs_range : ∀ e ∈ (List.range g.num_nodes).map
      (fun i : Nat => (⟨(i : Int), initDist g s dist0 (i : Int)⟩ : HeapNode)),
      0 ≤ e.node ∧ e.node < (create_heap (g.num_nodes : Int)).capacity := by
    intro e he
    rw [List.mem_map] at he
    obtain ⟨i, hi, rfl⟩ := he
    have := List.mem_range.mp hi
    show 0 ≤ (i : Int) ∧ (i : Int) < (g.num_nodes : Int)
    omega
  have hnd : (((List.range g.num_nodes).map
      (fun i : Nat => (⟨(i : Int), initDist g s dist0 (i : Int)⟩ : HeapNode))).map
        HeapNode.node).Nodup := by
    rw [List.map_map]
    apply (List.nodup_range _).map
    intro a b hab
    have : (a : Int) = (b : Int) := hab
    exact_mod_cast this
  obtain ⟨v, p, sz, c⟩ := insert_all_spec _ (create_heap (g.num_nodes : Int))
    (create_heap_valid _) hpairs_range hnd
    (fun e _ => not_present_of_empty rfl e.node)
    (by show ((0 : Nat) : Int) + _ ≤ (g.num_nodes : Int); simp)
  have hheap : initHeap g s dist0 = insert_all (create_heap (g.num_nodes : Int))
      ((List.range g.num_nodes).map
        (fun i : Nat => (⟨(i : Int), initDist g s dist0 (i : Int)⟩ : HeapNode))) :=
    foldl_insert_eq _ _ _
  rw [← hheap] at v p sz c
  have hnil : entries (create_heap (g.num_nodes : Int)) = [] := rfl
  rw [hnil, List.append_nil] at p
  have hall : ∀ x : Int, 0 ≤ x → x < (g.num_nodes : Int) → present (initHeap g s dist0) x := by
    intro x x0 x1
    rw [present_iff_mem]
    apply (p.map HeapNode.node).symm.subset
    rw [List.map_map, List.mem_map]
    refine ⟨x.toNat, List.mem_range.mpr (by omega), ?_⟩
    show ((x.toNat : Nat) : Int) = x
    omega
  refine ⟨⟨v, c, ?_, ?_, ?_, ?_, ?_⟩, ?_⟩
  · intro e he
    have := p.subset he
    rw [List.mem_map] at this
    obtain ⟨i, _, rfl⟩ := this
    rfl
  · intro x x0 x1
    rw [initDist_apply]
    unfold INT_MAX
    split_ifs <;> omega
  · intro x x0 x1 hx
    rw [initDist_apply] at hx ⊢
    by_cases c1 : x = s
    · rw [if_pos c1, c1]; exact Walk.nil
    · rw [if_neg c1, if_pos ⟨x0, x1⟩] at hx
      omega
  · intro u u0 u1 hu
    exact absurd (hall u u0 u1) hu
  · rw [initDist_apply, if_pos rfl]
  · rw [sz]; show 0 + _ = _
    simp

theorem dijkstra_binary_heap_final {g : Graph} {s : Int} (hg : WF g) (h0 : 0 ≤ s)
    (h1 : s < (g.num_nodes : Int)) (hno : NoOverflow g s) (dist0 : Int → Int) :
    DFinal g s (dijkstra_binary_heap g s dist0) := by
  rw [dijkstra_binary_heap_eq]
  obtain ⟨hi, hs⟩ := init_dinv h0 h1 dist0
  exact dijkstra_loop_final hg h0 h1 hno _ _ _ hi (by omega)

end BinHeap

set_option linter.unusedTactic false
set_option linter.unreachableTactic false
set_option linter.unusedVariables false

namespace BinHeap

/-! ## Dijkstra over the binary heap: correctness -/

theorem minDist_exists {g : Graph} {s : Int} (hg : WF g) (h0 : 0 ≤ s)
    (h1 : s < (g.num_nodes : Int)) {v d : Int} (hw : Walk g s v d) :
    ∃ m, IsMinDist g s v m := by
  classical
  have hex : ∃ k : Nat, Walk g s v (k : Int) := by
    refine ⟨d.toNat, ?_⟩
    have := (walk_range hg h0 h1 hw).2.2
    rw [Int.toNat_of_nonneg this]
    exact hw
  refine ⟨(Nat.find hex : Int), Nat.find_spec hex, ?_⟩
  intro d' hw'
  have hd' := (walk_range hg h0 h1 hw').2.2
  have : Nat.find hex ≤ d'.toNat := by
    apply Nat.find_min'
    rw [Int.toNat_of_nonneg hd']
    exact hw'
  omega

theorem walk_cases {g : Graph} {s v d : Int} (hw : Walk g s v d) :
    (v = s ∧ d = 0) ∨
    ∃ u d' e, Walk g s u d' ∧ e ∈ g.adj_list u ∧ v = e.dest ∧ d = d' + e.weight := by
  cases hw with
  | nil => exact Or.inl ⟨rfl, rfl⟩
  | snoc e hw' he => exact Or.inr ⟨_, _, e, hw', he, rfl, rfl⟩

theorem minDist_le_int_max {g : Graph} {s : Int} (hg : WF g) (h0 : 0 ≤ s)
    (h1 : s < (g.num_nodes : Int)) (hno : NoOverflow g s) {v m : Int}
    (hm : IsMinDist g s v m) : m ≤ INT_MAX := by
  rcases walk_cases hm.1 with ⟨_, rfl⟩ | ⟨u, d', e, hw', he, rfl, rfl⟩
  · unfold INT_MAX; omega
  · obtain ⟨m', hm'⟩ := minDist_exists hg h0 h1 hw'
    have h2 := hm.2 _ (Walk.snoc e hm'.1 he)
    have h3 := hm'.2 _ hw'
    have : m' = d' := by omega
    subst this
    exact hno _ _ hm' e he

theorem dfinal_correct {g : Graph} {s : Int} {dist : Int → Int} (hg : WF g)
    (h0 : 0 ≤ s) (h1 : s < (g.num_nodes : Int)) (hno : NoOverflow g s)
    (hf : DFinal g s dist) (v : Int) (v0 : 0 ≤ v) (v1 : v < (g.num_nodes : Int)) :
    ((∃ d, Walk g s v d) → IsMinDist g s v (dist v)) ∧
    ((¬ ∃ d, Walk g s v d) → dist v = INT_MAX) := by
  constructor
  · rintro ⟨d, hw⟩
    obtain ⟨m, hm⟩ := minDist_exists hg h0 h1 hw
    have hle := dfinal_lower hg h0 h1 hf hm.1
    have hmax := minDist_le_int_max hg h0 h1 hno hm
    have hr := hf.range v v0 v1
    by_cases hlt : dist v < INT_MAX
    · have hwv := hf.walk v v0 v1 hlt
      have := hm.2 _ hwv
      have : dist v = m := by omega
      rw [this]; exact hm
    · have : dist v = m := by omega
      rw [this]; exact hm
  · intro hn
    by_contra hc
    have hr := hf.range v v0 v1
    exact hn ⟨_, hf.walk v v0 v1 (by omega)⟩

/-- A path graph `0 → 1 → 2` whose two edges weigh `2^30` each. -/
def overflowGraph : Graph :=
  { num_nodes := 3
    adj_list := fun u =>
      if u = 0 then [⟨1, 1073741824⟩] else if u = 1 then [⟨2, 1073741824⟩] else [] }

/-- A two-vertex cycle `0 → 1 → 0` whose two edges weigh `2^30` each. -/
def cycleGraph : Graph :=
  { num_nodes := 2
    adj_list := fun u =>
      if u = 0 then [⟨1, 1073741824⟩] else if u = 1 then [⟨0, 1073741824⟩] else [] }

/-- The graph of the end-to-end scenario, on the vertices `0, 1, 2`:
edges `0 → 1` (5), `0 → 2` (2) and `2 → 1` (1). -/
def sampleGraph : Graph :=
  { num_nodes := 3
    adj_list := fun u =>
      if u = 0 then [⟨2, 2⟩, ⟨1, 5⟩] else if u = 2 then [⟨1, 1⟩] else [] }

theorem overflowGraph_wf : WF overflowGraph := by
  intro u _ _ e he
  simp only [overflowGraph] at he ⊢
  split_ifs at he <;> simp at he <;> subst he <;> decide

theorem cycleGraph_wf : WF cycleGraph := by
  intro u _ _ e he
  simp only [cycleGraph] at he ⊢
  split_ifs at he <;> simp at he <;> subst he <;> decide

theorem sampleGraph_wf : WF sampleGraph := by
  intro u _ _ e he
  simp only [sampleGraph] at he ⊢
  split_ifs at he <;> simp at he
  · rcases he with rfl | rfl <;> decide
  · subst he; decide

theorem sampleGraph_noOverflow : NoOverflow sampleGraph 0 := by
  intro u d hm e he
  have hd0 := (walk_range sampleGraph_wf (le_refl _) (by decide) hm.1).2.2
  simp only [sampleGraph] at he
  split_ifs at he with c1 c2
  · subst c1
    have := hm.2 0 Walk.nil
    simp at he
    rcases he with rfl | rfl <;> (unfold INT_MAX; simp only; omega)
  · subst c2
    have hw : Walk sampleGraph 0 2 (0 + 2) :=
      Walk.snoc (⟨2, 2⟩ : Edge) Walk.nil (by simp [sampleGraph])
    have := hm.2 _ hw
    simp at he
    subst he
    unfold INT_MAX; simp only; omega
  · simp at he

/-- C2 (as stated, refuted). On `overflowGraph` vertex `2` is reachable from
`0`, yet `dist[2]` on return is not the minimum path weight: the sum
`2^30 + 2^30` wraps to `-2^31`. -/
theorem dijkstra_binary_heap_overflow_refutes_shortest :
    WF overflowGraph ∧ (∃ d, Walk overflowGraph 0 2 d) ∧
    dijkstra_binary_heap overflowGraph 0 (fun _ => 0) 2 = -2147483648 ∧
    ¬ IsMinDist overflowGraph 0 2 (dijkstra_binary_heap overflowGraph 0 (fun _ => 0) 2) := by
  have hw1 : Walk overflowGraph 0 1 (0 + 1073741824) :=
    Walk.snoc (⟨1, 1073741824⟩ : Edge) Walk.nil (by simp [overflowGraph])
  have hw2 : Walk overflowGraph 0 2 (0 + 1073741824 + 1073741824) :=
    Walk.snoc (⟨2, 1073741824⟩ : Edge) hw1 (by simp [overflowGraph])
  have hv : dijkstra_binary_heap overflowGraph 0 (fun _ => 0) 2 = -2147483648 := by decide
  refine ⟨overflowGraph_wf, ⟨_, hw2⟩, hv, ?_⟩
  intro hm
  have := (walk_range overflowGraph_wf (le_refl _) (by decide) hm.1).2.2
  rw [hv] at this
  omega

/-- C2 (amended). For a well-formed graph with non-negative weights, a source
in range, and no relaxation out of a shortest distance exceeding `INT_MAX`,
`dijkstra_binary_heap` leaves in `dist[v]` the minimum path weight from the
source for every reachable vertex `v` and `INT_MAX` for every unreachable one. -/
theorem dijkstra_binary_heap_shortest (g : Graph) (s : Int) (dist0 : Int → Int)
    (hg : WF g) (h0 : 0 ≤ s) (h1 : s < (g.num_nodes : Int)) (hno : NoOverflow g s)
    (v : Int) (v0 : 0 ≤ v) (v1 : v < (g.num_nodes : Int)) :
    ((∃ d, Walk g s v d) → IsMinDist g s v (dijkstra_binary_heap g s dist0 v)) ∧
    ((¬ ∃ d, Walk g s v d) → dijkstra_binary_heap g s dist0 v = INT_MAX) :=
  dfinal_correct hg h0 h1 hno (dijkstra_binary_heap_final hg h0 h1 hno dist0) v v0 v1

theorem dijkstra_binary_heap_shortest_witness :
    dijkstra_binary_heap sampleGraph 0 (fun _ => 0) 1 = 3 ∧
    (((∃ d, Walk sampleGraph 0 1 d) →
        IsMinDist sampleGraph 0 1 (dijkstra_binary_heap sampleGraph 0 (fun _ => 0) 1)) ∧
     ((¬ ∃ d, Walk sampleGraph 0 1 d) →
        dijkstra_binary_heap sampleGraph 0 (fun _ => 0) 1 = INT_MAX)) :=
  ⟨by decide,
   dijkstra_binary_heap_shortest sampleGraph 0 (fun _ => 0) sampleGraph_wf (by decide)
     (by decide) sampleGraph_noOverflow 1 (by decide) (by decide)⟩

/-- C4 (as stated, refuted). On `cycleGraph`, whose weights are non-negative,
the wrapped sum `2^30 + 2^30 = -2^31` is written into `dist[source]`. -/
theorem dijkstra_binary_heap_negative_source :
    WF cycleGraph ∧ dijkstra_binary_heap cycleGraph 0 (fun _ => 0) 0 = -2147483648 :=
  ⟨cycleGraph_wf, by decide⟩

/-- C4 (amended). For a well-formed graph with non-negative weights, a source
in range, and no relaxation out of a shortest distance exceeding `INT_MAX`,
after `dijkstra_binary_heap` we have `dist[source] = 0` and `dist[v] ≥ 0` for
every vertex `v`. -/
theorem dijkstra_binary_heap_nonneg (g : Graph) (s : Int) (dist0 : Int → Int)
    (hg : WF g) (h0 : 0 ≤ s) (h1 : s < (g.num_nodes : Int)) (hno : NoOverflow g s) :
    dijkstra_binary_heap g s dist0 s = 0 ∧
    ∀ v, 0 ≤ v → v < (g.num_nodes : Int) → 0 ≤ dijkstra_binary_heap g s dist0 v :=
  ⟨(dijkstra_binary_heap_final hg h0 h1 hno dist0).src,
   fun v v0 v1 => ((dijkstra_binary_heap_final hg h0 h1 hno dist0).range v v0 v1).1⟩

theorem dijkstra_binary_heap_nonneg_witness :
    dijkstra_binary_heap sampleGraph 0 (fun _ => 0) 0 = 0 ∧
    0 ≤ dijkstra_binary_heap sampleGraph 0 (fun _ => 0) 2 :=
  ⟨(dijkstra_binary_heap_nonneg sampleGraph 0 (fun _ => 0) sampleGraph_wf (by decide)
      (by decide) sampleGraph_noOverflow).1,
   (dijkstra_binary_heap_nonneg sampleGraph 0 (fun _ => 0) sampleGraph_wf (by decide)
      (by decide) sampleGraph_noOverflow).2 2 (by decide) (by decide)⟩

end BinHeap

set_option linter.unusedTactic false
set_option linter.unreachableTactic false
set_option linter.unusedVariables false

namespace BinHeap

/-! ## Binary heap: decrease-key -/

/-- C12. On a valid heap and an in-range vertex `v`, `heap_decrease_key`
returns the heap unchanged when `v` is not present (`pos[v] = -1`) or `k` is
at least the current key of `v`; otherwise the entries afterwards are the
entries before with the key of `v` replaced by `k` (up to their order in the
array), the size and the set of present vertices are unchanged and the heap
is valid again. -/
theorem heap_decrease_key_correct (h : BinaryHeap) (hv : Valid h) (v k : Int)
    (h0 : 0 ≤ v) (h1 : v < h.capacity) :
    ((h.pos v = -1 ∨ (h.heap (h.pos v).toNat).distance ≤ k) →
      heap_decrease_key h v k = h) ∧
    (¬ (h.pos v = -1 ∨ (h.heap (h.pos v).toNat).distance ≤ k) →
      (entries (heap_decrease_key h v k)).Perm
        ((entries h).map (fun e => if e.node = v then (⟨v, k⟩ : HeapNode) else e)) ∧
      (⟨v, k⟩ : HeapNode) ∈ entries (heap_decrease_key h v k) ∧
      (heap_decrease_key h v k).size = h.size ∧
      (∀ x, present (heap_decrease_key h v k) x ↔ present h x) ∧
      Valid (heap_decrease_key h v k)) := by
  constructor
  · intro hc
    unfold heap_decrease_key
    simp only
    rw [if_pos hc]
  · intro hc
    push_neg at hc
    obtain ⟨dv, dp, ds, _⟩ := heap_decrease_key_spec hv v k h0 h1
    obtain ⟨i, hi, hnode, hpi⟩ := present_of_pos hv.posInv h0 h1 hc.1
    rw [hpi, Int.toNat_ofNat] at hc
    have hmap : (entries h).map
        (fun e => if e.node = v ∧ k < e.distance then (⟨v, k⟩ : HeapNode) else e) =
        (entries h).map (fun e => if e.node = v then (⟨v, k⟩ : HeapNode) else e) := by
      apply List.map_congr_left
      intro e he
      obtain ⟨j, hj, rfl⟩ := mem_entries.mp he
      by_cases c : (h.heap j).node = v
      · have : j = i := hv.posInv.node_inj hj hi (c.trans hnode.symm)
        subst this
        rw [if_pos ⟨c, hc.2⟩, if_pos c]
      · rw [if_neg (fun c2 => c c2.1), if_neg c]
    rw [hmap] at dp
    refine ⟨dp, ?_, ds, present_decrease_key hv v k h0 h1, dv⟩
    apply dp.symm.subset
    rw [List.mem_map]
    exact ⟨h.heap i, mem_entries.mpr ⟨i, hi, rfl⟩, by rw [if_pos hnode]⟩

theorem heap_decrease_key_correct_witness :
    Valid sampleHeap ∧
    heap_decrease_key sampleHeap 0 7 = sampleHeap ∧
    (⟨0, 2⟩ : HeapNode) ∈ entries (heap_decrease_key sampleHeap 0 2) :=
  ⟨(reachable_valid sampleHeap_reachable).1,
   (heap_decrease_key_correct sampleHeap (reachable_valid sampleHeap_reachable).1 0 7
      (by decide) (by decide)).1 (by decide),
   ((heap_decrease_key_correct sampleHeap (reachable_valid sampleHeap_reachable).1 0 2
      (by decide) (by decide)).2 (by decide)).2.1⟩

end BinHeap

set_option linter.unusedTactic false
set_option linter.unreachableTactic false
set_option linter.unusedVariables false

namespace BinHeap

/-! ## Binary heap program: inputs outside the contract -/

/-- A graph with two vertices and no edge. -/
def twoGraph : Graph := { num_nodes := 2, adj_list := fun _ => [] }

/-- C17 (the code at a failing input). With `num_nodes = 2` and the
out-of-range source `5`, `dijkstra_binary_heap` performs no check: it
overwrites `dist[0]` and `dist[1]` with `INT_MAX` and writes `0` to `dist[5]`,
outside the array. -/
theorem dijkstra_binary_heap_invalid_source :
    dijkstra_binary_heap twoGraph 5 (fun _ => 7) 5 = 0 ∧
    dijkstra_binary_heap twoGraph 5 (fun _ => 7) 0 = INT_MAX ∧
    dijkstra_binary_heap twoGraph 5 (fun _ => 7) 1 = INT_MAX := by
  decide

/-- C18 (as stated, refuted). For the negative capacity `-1` the function
does not fail: it returns an empty heap whose capacity field is `-1`. -/
theorem create_heap_negative_capacity :
    (create_heap (-1)).size = 0 ∧ (create_heap (-1)).capacity = -1 ∧
    is_heap_empty (create_heap (-1)) = true := by
  decide

/-- C18 (amended). `create_heap` has no failure path: for every capacity it
returns a heap of size `0` with the given capacity and `pos[v] = -1` for every
`v` in `[0, capacity)`; on a heap created with a capacity `≤ 0` every
`heap_insert` is rejected and leaves the heap as it is. -/
theorem create_heap_total (capacity : Int) :
    (create_heap capacity).size = 0 ∧ (create_heap capacity).capacity = capacity ∧
    (∀ v : Int, 0 ≤ v → v < capacity → (create_heap capacity).pos v = -1) ∧
    (capacity ≤ 0 → ∀ node distance : Int,
      heap_insert (create_heap capacity) node distance = create_heap capacity) := by
  refine ⟨rfl, rfl, ?_, ?_⟩
  · intro v v0 v1
    rw [create_heap_pos, if_pos ⟨v0, v1⟩]
  · intro hc node distance
    exact heap_insert_full _ node distance (by show capacity ≤ ((0 : Nat) : Int); simpa using hc)

/-! ## Dijkstra over the binary heap: weights of any sign -/

/-- Every edge of the graph ends at a vertex of the graph. -/
def DestInRange (g : Graph) : Prop :=
  ∀ u, 0 ≤ u → u < (g.num_nodes : Int) → ∀ e ∈ g.adj_list u,
    0 ≤ e.dest ∧ e.dest < (g.num_nodes : Int)

/-- Invariant of both loops for weights of any sign: the heap is valid, its
keys are the current distances, and only reachable vertices have a distance
other than `INT_MAX`. -/
structure UInv (g : Graph) (s : Int) (dist : Int → Int) (heap : BinaryHeap) : Prop where
  valid : Valid heap
  cap : heap.capacity = (g.num_nodes : Int)
  keys : ∀ e ∈ entries heap, e.distance = dist e.node
  reach : ∀ v, 0 ≤ v → v < (g.num_nodes : Int) → dist v ≠ INT_MAX → ∃ d, Walk g s v d

theorem relax_edges_uinv {g : Graph} {s u : Int} (hg : DestInRange g)
    (u0 : 0 ≤ u) (u1 : u < (g.num_nodes : Int)) (hu : ∃ d, Walk g s u d) :
    ∀ (es : List Edge) (dist : Int → Int) (heap : BinaryHeap),
    (∀ e ∈ es, e ∈ g.adj_list u) → UInv g s dist heap →
    UInv g s (relax_edges u es (dist, heap)).1 (relax_edges u es (dist, heap)).2 ∧
    (relax_edges u es (dist, heap)).2.size = heap.size := by
  intro es
  induction es with
  | nil => intro dist heap _ hi; exact ⟨hi, rfl⟩
  | cons e es ih =>
    intro dist heap hes hi
    have he := hes e (List.mem_cons_self _ _)
    have hes' : ∀ x ∈ es, x ∈ g.adj_list u := fun x hx => hes x (List.mem_cons_of_mem _ hx)
    obtain ⟨v0, v1⟩ := hg u u0 u1 e he
    simp only [relax_edges]
    by_cases hlt : wrap32 (dist u + e.weight) < dist e.dest
    · rw [if_pos hlt]
      obtain ⟨dv, dp, ds, dc⟩ := heap_decrease_key_spec hi.valid e.dest
        (wrap32 (dist u + e.weight)) v0 (by rw [hi.cap]; exact v1)
      have hi' : UInv g s (Function.update dist e.dest (wrap32 (dist u + e.weight)))
          (heap_decrease_key heap e.dest (wrap32 (dist u + e.weight))) := by
        refine ⟨dv, dc.trans hi.cap, ?_, ?_⟩
        · intro e' he'
          have := dp.subset he'
          rw [List.mem_map] at this
          obtain ⟨e0, he0, hfe⟩ := this
          have hfe' : e' = if e0.node = e.dest ∧ wrap32 (dist u + e.weight) < e0.distance
              then (⟨e.dest, wrap32 (dist u + e.weight)⟩ : HeapNode) else e0 := hfe.symm
          have hk := hi.keys e0 he0
          by_cases c : e0.node = e.dest ∧ wrap32 (dist u + e.weight) < e0.distance
          · rw [hfe', if_pos c]
            simp only [Function.update_same]
          · have hne : e0.node ≠ e.dest := by
              intro c2
              apply c
              refine ⟨c2, ?_⟩
              rw [hk, c2]; exact hlt
            rw [hfe', if_neg c, Function.update_noteq hne]; exact hk
        · intro x x0 x1 hx
          by_cases c : x = e.dest
          · obtain ⟨d, hd⟩ := hu
            rw [c]
            exact ⟨_, Walk.snoc e hd he⟩
          · rw [Function.update_noteq c] at hx
            exact hi.reach x x0 x1 hx
      obtain ⟨a, b⟩ := ih _ _ hes' hi'
      exact ⟨a, b.trans ds⟩
    · rw [if_neg hlt]
      exact ih _ _ hes' hi

theorem dijkstra_loop_uinv {g : Graph} {s : Int} (hg : DestInRange g) :
    ∀ (fuel : Nat) (dist : Int → Int) (heap : BinaryHeap),
      UInv g s dist heap → heap.size ≤ fuel →
      (∀ v, 0 ≤ v → v < (g.num_nodes : Int) →
        (dijkstra_loop g fuel (dist, heap)).1 v ≠ INT_MAX → ∃ d, Walk g s v d) ∧
      (∀ k, dijkstra_loop g (fuel + k) (dist, heap) = dijkstra_loop g fuel (dist, heap)) := by
  intro fuel
  induction fuel with
  | zero =>
    intro dist heap hi hs
    refine ⟨hi.reach, ?_⟩
    intro k
    cases k with
    | zero => rfl
    | succ k =>
      have : is_heap_empty heap = true := by simp [is_heap_empty]; omega
      simp only [Nat.zero_add, dijkstra_loop, if_pos this]
  | succ n ih =>
    intro dist heap hi hs
    have hk : ∀ k, n + 1 + k = (n + k) + 1 := by intro k; omega
    simp only [hk, dijkstra_loop]
    by_cases hz : heap.size = 0
    · have : is_heap_empty heap = true := by simp [is_heap_empty, hz]
      simp only [if_pos this]
      exact ⟨hi.reach, fun _ => trivial⟩
    · have : ¬ (is_heap_empty heap = true) := by simp [is_heap_empty, hz]
      simp only [if_neg this]
      have hpos : 0 < heap.size := by omega
      obtain ⟨e1, v2, pm, sz, c2⟩ := heap_extract_min_spec hi.valid hpos
      by_cases hkey : (heap_extract_min heap).1.distance = INT_MAX
      · simp only [if_pos hkey]
        exact ⟨hi.reach, fun _ => trivial⟩
      · simp only [if_neg hkey]
        have hmem : (heap_extract_min heap).1 ∈ entries heap := by
          rw [e1]; exact mem_entries.mpr ⟨0, hpos, rfl⟩
        have hur : 0 ≤ (heap_extract_min heap).1.node ∧
            (heap_extract_min heap).1.node < (g.num_nodes : Int) := by
          have := hi.valid.posInv.node_range 0 hpos
          rw [e1, ← hi.cap]; exact this
        have hreach : ∃ d, Walk g s (heap_extract_min heap).1.node d := by
          apply hi.reach _ hur.1 hur.2
          rw [← hi.keys _ hmem]; exact hkey
        have hi1 : UInv g s dist (heap_extract_min heap).2 :=
          ⟨v2, c2.trans hi.cap,
            fun e he => hi.keys e (pm.symm.subset (List.mem_cons_of_mem _ he)), hi.reach⟩
        obtain ⟨ra, rb⟩ := relax_edges_uinv hg hur.1 hur.2 hreach
          (g.adj_list (heap_extract_min heap).1.node) dist (heap_extract_min heap).2
          (fun e he => he) hi1
        exact ih _ _ ra (by rw [rb]; omega)

theorem init_uinv {g : Graph} {s : Int} (h0 : 0 ≤ s) (h1 : s < (g.num_nodes : Int))
    (dist0 : Int → Int) : UInv g s (initDist g s dist0) (initHeap g s dist0) := by
  obtain ⟨hi, _⟩ := init_dinv h0 h1 dist0
  refine ⟨hi.valid, hi.cap, hi.keys, ?_⟩
  intro v v0 v1 hv
  rw [initDist_apply] at hv
  by_cases c : v = s
  · rw [c]; exact ⟨0, Walk.nil⟩
  · rw [if_neg c, if_pos ⟨v0, v1⟩] at hv
    exact absurd rfl hv

/-- C19. For a graph on the vertices `0 .. n-1` with weights of any sign and a
source in range, the main loop of `dijkstra_binary_heap` has exited after at
most `n` extractions (running it with any larger budget of rounds gives the
same result), and every vertex that no directed path from the source reaches
has `dist[v] = INT_MAX` on return. -/
theorem dijkstra_binary_heap_unreachable (g : Graph) (s : Int) (dist0 : Int → Int)
    (hg : DestInRange g) (h0 : 0 ≤ s) (h1 : s < (g.num_nodes : Int)) :
    (∀ k, (dijkstra_loop g (g.num_nodes + k)
        (initDist g s dist0, initHeap g s dist0)).1 = dijkstra_binary_heap g s dist0) ∧
    (∀ v, 0 ≤ v → v < (g.num_nodes : Int) → (¬ ∃ d, Walk g s v d) →
      dijkstra_binary_heap g s dist0 v = INT_MAX) := by
  obtain ⟨_, hs⟩ := init_dinv h0 h1 dist0
  obtain ⟨a, b⟩ := dijkstra_loop_uinv hg g.num_nodes _ _ (init_uinv h0 h1 dist0) (by omega)
  constructor
  · intro k
    rw [b k, dijkstra_binary_heap_eq]
  · intro v v0 v1 hn
    by_contra hc
    rw [dijkstra_binary_heap_eq] at hc
    exact hn (a v v0 v1 hc)

theorem twoGraph_destInRange : DestInRange twoGraph := by
  intro u _ _ e he
  exact absurd he (List.not_mem_nil e)

theorem dijkstra_binary_heap_unreachable_witness :
    dijkstra_binary_heap twoGraph 0 (fun _ => 7) 0 = 0 ∧
    (heap_extract_min (heap_extract_min (initHeap twoGraph 0 (fun _ => 7))).2).1
      = ⟨1, INT_MAX⟩ ∧
    dijkstra_binary_heap twoGraph 0 (fun _ => 7) 1 = INT_MAX := by
  refine ⟨by decide, by decide, ?_⟩
  apply (dijkstra_binary_heap_unreachable twoGraph 0 (fun _ => 7) twoGraph_destInRange
    (by decide) (by decide)).2 1 (by decide) (by decide)
  rintro ⟨d, hw⟩
  rcases walk_cases hw with ⟨c, _⟩ | ⟨u, d', e, _, he, _, _⟩
  · exact absurd c (by decide)
  · exact absurd he (List.not_mem_nil e)

end BinHeap

set_option linter.unusedTactic false
set_option linter.unreachableTactic false
set_option linter.unusedVariables false

namespace Fib

/-! ## Fibonacci heap: sequences of calls -/

/-- A call of the public interface: `fibHeapInsert(H, key, value)`,
`fibHeapExtractMin(H)` or `fibHeapDecreaseKey(H, x, newKey)`. -/
inductive Op where
  | insert (key value : Int)
  | extractMin
  | decreaseKey (x : Nat) (newKey : Int)

/-- Runs one call on the heap. -/
def runOp (H : FibHeap) : Op → Option FibHeap
  | Op.insert key value => some (fibHeapInsert H key value).2
  | Op.extractMin => (fibHeapExtractMin H).map Prod.snd
  | Op.decreaseKey x newKey => fibHeapDecreaseKey H x newKey

/-- Runs the calls of the list in order. -/
def runOps : List Op → FibHeap → Option FibHeap
  | [], H => some H
  | op :: rest, H =>
    match runOp H op with
    | none => none
    | some H => runOps rest H

/-- Insert the keys `1 … 5` (node `i` holds key `i`), extract the minimum,
decrease the key of node `5` to `3` (which cuts it from node `4` and marks
node `4`), and extract the minimum again (which promotes node `4`). -/
def markedRootOps : List Op :=
  [Op.insert 1 1, Op.insert 2 2, Op.insert 3 3, Op.insert 4 4, Op.insert 5 5,
   Op.extractMin, Op.decreaseKey 5 3, Op.extractMin]

/-- C20 (the code at a failing input). After `markedRootOps` node `4` is in
the root list (it has no parent and is the left and right neighbour of
`minNode`) and its mark is still `TRUE`. -/
theorem marked_root_after_extract :
    (runOps markedRootOps createFibHeap).map
      (fun H => (H.minNode, (H.mem H.minNode).right, (H.mem H.minNode).left,
        (H.mem 4).parent, (H.mem 4).mark)) = some (3, 4, 4, 0, true) := by
  decide!

/-! ## Fibonacci heap: calls that change nothing -/

theorem setKey_same (m : Nat → FibHeapNode) (x : Nat) : setKey m x (m x).key = m := by
  unfold setKey
  exact Function.update_eq_self x m

/-- C13. `fibHeapDecreaseKey(H, x, newKey)` returns the heap unchanged when
`newKey` is greater than the key of `x` (the call is rejected before any
write), and also when `newKey` equals the key of `x` on a heap in which the
parent of `x`, if any, has a key at most that of `x` and `minNode` has a key
at most that of `x`. -/
theorem fibHeapDecreaseKey_noop (H : FibHeap) (x : Nat) (newKey : Int) :
    (newKey > (H.mem x).key → fibHeapDecreaseKey H x newKey = some H) ∧
    (newKey = (H.mem x).key →
      ((H.mem x).parent ≠ 0 → (H.mem (H.mem x).parent).key ≤ (H.mem x).key) →
      (H.mem H.minNode).key ≤ (H.mem x).key →
      fibHeapDecreaseKey H x newKey = some H) := by
  constructor
  · intro h
    unfold fibHeapDecreaseKey
    rw [if_pos h]
  · intro h hpar hmin
    subst h
    unfold fibHeapDecreaseKey
    rw [if_neg (lt_irrefl _)]
    simp only [setKey_same]
    have hH : ({ H with mem := H.mem } : FibHeap) = H := rfl
    have hc : ¬ ((H.mem x).parent ≠ 0 ∧ (H.mem x).key < (H.mem (H.mem x).parent).key) := by
      rintro ⟨c1, c2⟩
      have := hpar c1
      omega
    rw [if_neg hc]
    simp only
    rw [if_neg (by omega)]

/-- The heap holding the keys `5` (node `1`) and `3` (node `2`). -/
def twoNodeHeap : FibHeap := (fibHeapInsert (fibHeapInsert createFibHeap 5 1).2 3 2).2

theorem fibHeapDecreaseKey_noop_witness :
    fibHeapDecreaseKey twoNodeHeap 1 5 = some twoNodeHeap ∧
    fibHeapDecreaseKey twoNodeHeap 1 6 = some twoNodeHeap :=
  ⟨(fibHeapDecreaseKey_noop twoNodeHeap 1 5).2 (by decide!) (by decide!) (by decide!),
   (fibHeapDecreaseKey_noop twoNodeHeap 1 6).1 (by decide!)⟩

/-- C15 (as stated, refuted). Extracting from the empty heap returns `-1` and
leaves the heap unchanged, and extracting from the non-empty heap that holds
the single payload `-1` returns `-1` as well. -/
theorem extractMin_empty_not_distinguishable :
    fibHeapExtractMin createFibHeap = some (-1, createFibHeap) ∧
    fibHeapIsEmpty (fibHeapInsert createFibHeap 5 (-1)).2 = false ∧
    (fibHeapExtractMin (fibHeapInsert createFibHeap 5 (-1)).2).map Prod.fst = some (-1) := by
  refine ⟨rfl, by decide!, by decide!⟩

end Fib

set_option linter.unusedTactic false
set_option linter.unreachableTactic false
set_option linter.unusedVariables false

namespace Fib

/-! ## Fibonacci heap: reading a field after a write -/

@[simp] theorem setParent_key (m : Nat → FibHeapNode) (p : Nat) (v : Nat) (q : Nat) :
    (setParent m p v q).key = (m q).key := by
  unfold setParent
  by_cases h : q = p
  · subst h; simp
  · simp [Function.update_noteq h]

@[simp] theorem setParent_value (m : Nat → FibHeapNode) (p : Nat) (v : Nat) (q : Nat) :
    (setParent m p v q).value = (m q).value := by
  unfold setParent
  by_cases h : q = p
  · subst h; simp
  · simp [Function.update_noteq h]

@[simp] theorem setParent_parent (m : Nat → FibHeapNode) (p : Nat) (v : Nat) (q : Nat) :
    (setParent m p v q).parent = if q = p then v else (m q).parent := by
  unfold setParent
  by_cases h : q = p
  · subst h; simp
  · simp [Function.update_noteq h, h]

@[simp] theorem setParent_child (m : Nat → FibHeapNode) (p : Nat) (v : Nat) (q : Nat) :
    (setParent m p v q).child = (m q).child := by
  unfold setParent
  by_cases h : q = p
  · subst h; simp
  · simp [Function.update_noteq h]

@[simp] theorem setParent_left (m : Nat → FibHeapNode) (p : Nat) (v : Nat) (q : Nat) :
    (setParent m p v q).left = (m q).left := by
  unfold setParent
  by_cases h : q = p
  · subst h; simp
  · simp [Function.update_noteq h]

@[simp] theorem setParent_right (m : Nat → FibHeapNode) (p : Nat) (v : Nat) (q : Nat) :
    (setParent m p v q).right = (m q).right := by
  unfold setParent
  by_cases h : q = p
  · subst h; simp
  · simp [Function.update_noteq h]

@[simp] theorem setParent_degree (m : Nat → FibHeapNode) (p : Nat) (v : Nat) (q : Nat) :
    (setParent m p v q).degree = (m q).degree := by
  unfold setParent
  by_cases h : q = p
  · subst h; simp
  · simp [Function.update_noteq h]

@[simp] theorem setParent_mark (m : Nat → FibHeapNode) (p : Nat) (v : Nat) (q : Nat) :
    (setParent m p v q).mark = (m q).mark := by
  unfold setParent
  by_cases h : q = p
  · subst h; simp
  · simp [Function.update_noteq h]

@[simp] theorem setChild_key (m : Nat → FibHeapNode) (p : Nat) (v : Nat) (q : Nat) :
    (setChild m p v q).key = (m q).key := by
  unfold setChild
  by_cases h : q = p
  · subst h; simp
  · simp [Function.update_noteq h]

@[simp] theorem setChild_value (m : Nat → FibHeapNode) (p : Nat) (v : Nat) (q : Nat) :
    (setChild m p v q).value = (m q).value := by
  unfold setChild
  by_cases h : q = p
  · subst h; simp
  · simp [Function.update_noteq h]

@[simp] theorem setChild_parent (m : Nat → FibHeapNode) (p : Nat) (v : Nat) (q : Nat) :
    (setChild m p v q).parent = (m q).parent := by
  unfold setChild
  by_cases h : q = p
  · subst h; simp
  · simp [Function.update_noteq h]

@[simp] theorem setChild_child (m : Nat → FibHeapNode) (p : Nat) (v : Nat) (q : Nat) :
    (setChild m p v q).child = if q = p then v else (m q).child := by
  unfold setChild
  by_cases h : q = p
  · subst h; simp
  · simp [Function.update_noteq h, h]

@[simp] theorem setChild_left (m : Nat → FibHeapNode) (p : Nat) (v : Nat) (q : Nat) :
    (setChild m p v q).left = (m q).left := by
  unfold setChild
  by_cases h : q = p
  · subst h; simp
  · simp [Function.update_noteq h]

@[simp] theorem setChild_right (m : Nat → FibHeapNode) (p : Nat) (v : Nat) (q : Nat) :
    (setChild m p v q).right = (m q).right := by
  unfold setChild
  by_cases h : q = p
  · subst h; simp
  · simp [Function.update_noteq h]

@[simp] theorem setChild_degree (m : Nat → FibHeapNode) (p : Nat) (v : Nat) (q : Nat) :
    (setChild m p v q).degree = (m q).degree := by
  unfold setChild
  by_cases h : q = p
  · subst h; simp
  · simp [Function.update_noteq h]

@[simp] theorem setChild_mark (m : Nat → FibHeapNode) (p : Nat) (v : Nat) (q : Nat) :
    (setChild m p v q).mark = (m q).mark := by
  unfold setChild
  by_cases h : q = p
  · subst h; simp
  · simp [Function.update_noteq h]

@[simp] theorem setLeft_key (m : Nat → FibHeapNode) (p : Nat) (v : Nat) (q : Nat) :
    (setLeft m p v q).key = (m q).key := by
  unfold setLeft
  by_cases h : q = p
  · subst h; simp
  · simp [Function.update_noteq h]

@[simp] theorem setLeft_value (m : Nat → FibHeapNode) (p : Nat) (v : Nat) (q : Nat) :
    (setLeft m p v q).value = (m q).value := by
  unfold setLeft
  by_cases h : q = p
  · subst h; simp
  · simp [Function.update_noteq h]

@[simp] theorem setLeft_parent (m : Nat → FibHeapNode) (p : Nat) (v : Nat) (q : Nat) :
    (setLeft m p v q).parent = (m q).parent := by
  unfold setLeft
  by_cases h : q = p
  · subst h; simp
  · simp [Function.update_noteq h]

@[simp] theorem setLeft_child (m : Nat → FibHeapNode) (p : Nat) (v : Nat) (q : Nat) :
    (setLeft m p v q).child = (m q).child := by
  unfold setLeft
  by_cases h : q = p
  · subst h; simp
  · simp [Function.update_noteq h]

@[simp] theorem setLeft_left (m : Nat → FibHeapNode) (p : Nat) (v : Nat) (q : Nat) :
    (setLeft m p v q).left = if q = p then v else (m q).left := by
  unfold setLeft
  by_cases h : q = p
  · subst h; simp
  · simp [Function.update_noteq h, h]

@[simp] theorem setLeft_right (m : Nat → FibHeapNode) (p : Nat) (v : Nat) (q : Nat) :
    (setLeft m p v q).right = (m q).right := by
  unfold setLeft
  by_cases h : q = p
  · subst h; simp
  · simp [Function.update_noteq h]

@[simp] theorem setLeft_degree (m : Nat → FibHeapNode) (p : Nat) (v : Nat) (q : Nat) :
    (setLeft m p v q).degree = (m q).degree := by
  unfold setLeft
  by_cases h : q = p
  · subst h; simp
  · simp [Function.update_noteq h]

@[simp] theorem setLeft_mark (m : Nat → FibHeapNode) (p : Nat) (v : Nat) (q : Nat) :
    (setLeft m p v q).mark = (m q).mark := by
  unfold setLeft
  by_cases h : q = p
  · subst h; simp
  · simp [Function.update_noteq h]

@[simp] theorem setRight_key (m : Nat → FibHeapNode) (p : Nat) (v : Nat) (q : Nat) :
    (setRight m p v q).key = (m q).key := by
  unfold setRight
  by_cases h : q = p
  · subst h; simp
  · simp [Function.update_noteq h]

@[simp] theorem setRight_value (m : Nat → FibHeapNode) (p : Nat) (v : Nat) (q : Nat) :
    (setRight m p v q).value = (m q).value := by
  unfold setRight
  by_cases h : q = p
  · subst h; simp
  · simp [Function.update_noteq h]

@[simp] theorem setRight_parent (m : Nat → FibHeapNode) (p : Nat) (v : Nat) (q : Nat) :
    (setRight m p v q).parent = (m q).parent := by
  unfold setRight
  by_cases h : q = p
  · subst h; simp
  · simp [Function.update_noteq h]

@[simp] theorem setRight_child (m : Nat → FibHeapNode) (p : Nat) (v : Nat) (q : Nat) :
    (setRight m p v q).child = (m q).child := by
  unfold setRight
  by_cases h : q = p
  · subst h; simp
  · simp [Function.update_noteq h]

@[simp] theorem setRight_left (m : Nat → FibHeapNode) (p : Nat) (v : Nat) (q : Nat) :
    (setRight m p v q).left = (m q).left := by
  unfold setRight
  by_cases h : q = p
  · subst h; simp
  · simp [Function.update_noteq h]

@[simp] theorem setRight_right (m : Nat → FibHeapNode) (p : Nat) (v : Nat) (q : Nat) :
    (setRight m p v q).right = if q = p then v else (m q).right := by
  unfold setRight
  by_cases h : q = p
  · subst h; simp
  · simp [Function.update_noteq h, h]

@[simp] theorem setRight_degree (m : Nat → FibHeapNode) (p : Nat) (v : Nat) (q : Nat) :
    (setRight m p v q).degree = (m q).degree := by
  unfold setRight
  by_cases h : q = p
  · subst h; simp
  · simp [Function.update_noteq h]

@[simp] theorem setRight_mark (m : Nat → FibHeapNode) (p : Nat) (v : Nat) (q : Nat) :
    (setRight m p v q).mark = (m q).mark := by
  unfold setRight
  by_cases h : q = p
  · subst h; simp
  · simp [Function.update_noteq h]

@[simp] theorem setDegree_key (m : Nat → FibHeapNode) (p : Nat) (v : Nat) (q : Nat) :
    (setDegree m p v q).key = (m q).key := by
  unfold setDegree
  by_cases h : q = p
  · subst h; simp
  · simp [Function.update_noteq h]

@[simp] theorem setDegree_value (m : Nat → FibHeapNode) (p : Nat) (v : Nat) (q : Nat) :
    (setDegree m p v q).value = (m q).value := by
  unfold setDegree
  by_cases h : q = p
  · subst h; simp
  · simp [Function.update_noteq h]

@[simp] theorem setDegree_parent (m : Nat → FibHeapNode) (p : Nat) (v : Nat) (q : Nat) :
    (setDegree m p v q).parent = (m q).parent := by
  unfold setDegree
  by_cases h : q = p
  · subst h; simp
  · simp [Function.update_noteq h]

@[simp] theorem setDegree_child (m : Nat → FibHeapNode) (p : Nat) (v : Nat) (q : Nat) :
    (setDegree m p v q).child = (m q).child := by
  unfold setDegree
  by_cases h : q = p
  · subst h; simp
  · simp [Function.update_noteq h]

@[simp] theorem setDegree_left (m : Nat → FibHeapNode) (p : Nat) (v : Nat) (q : Nat) :
    (setDegree m p v q).left = (m q).left := by
  unfold setDegree
  by_cases h : q = p
  · subst h; simp
  · simp [Function.update_noteq h]

@[simp] theorem setDegree_right (m : Nat → FibHeapNode) (p : Nat) (v : Nat) (q : Nat) :
    (setDegree m p v q).right = (m q).right := by
  unfold setDegree
  by_cases h : q = p
  · subst h; simp
  · simp [Function.update_noteq h]

@[simp] theorem setDegree_degree (m : Nat → FibHeapNode) (p : Nat) (v : Nat) (q : Nat) :
    (setDegree m p v q).degree = if q = p then v else (m q).degree := by
  unfold setDegree
  by_cases h : q = p
  · subst h; simp
  · simp [Function.update_noteq h, h]

@[simp] theorem setDegree_mark (m : Nat → FibHeapNode) (p : Nat) (v : Nat) (q : Nat) :
    (setDegree m p v q).mark = (m q).mark := by
  unfold setDegree
  by_cases h : q = p
  · subst h; simp
  · simp [Function.update_noteq h]

@[simp] theorem setMark_key (m : Nat → FibHeapNode) (p : Nat) (v : Bool) (q : Nat) :
    (setMark m p v q).key = (m q).key := by
  unfold setMark
  by_cases h : q = p
  · subst h; simp
  · simp [Function.update_noteq h]

@[simp] theorem setMark_value (m : Nat → FibHeapNode) (p : Nat) (v : Bool) (q : Nat) :
    (setMark m p v q).value = (m q).value := by
  unfold setMark
  by_cases h : q = p
  · subst h; simp
  · simp [Function.update_noteq h]

@[simp] theorem setMark_parent (m : Nat → FibHeapNode) (p : Nat) (v : Bool) (q : Nat) :
    (setMark m p v q).parent = (m q).parent := by
  unfold setMark
  by_cases h : q = p
  · subst h; simp
  · simp [Function.update_noteq h]

@[simp] theorem setMark_child (m : Nat → FibHeapNode) (p : Nat) (v : Bool) (q : Nat) :
    (setMark m p v q).child = (m q).child := by
  unfold setMark
  by_cases h : q = p
  · subst h; simp
  · simp [Function.update_noteq h]

@[simp] theorem setMark_left (m : Nat → FibHeapNode) (p : Nat) (v : Bool) (q : Nat) :
    (setMark m p v q).left = (m q).left := by
  unfold setMark
  by_cases h : q = p
  · subst h; simp
  · simp [Function.update_noteq h]

@[simp] theorem setMark_right (m : Nat → FibHeapNode) (p : Nat) (v : Bool) (q : Nat) :
    (setMark m p v q).right = (m q).right := by
  unfold setMark
  by_cases h : q = p
  · subst h; simp
  · simp [Function.update_noteq h]

@[simp] theorem setMark_degree (m : Nat → FibHeapNode) (p : Nat) (v : Bool) (q : Nat) :
    (setMark m p v q).degree = (m q).degree := by
  unfold setMark
  by_cases h : q = p
  · subst h; simp
  · simp [Function.update_noteq h]

@[simp] theorem setMark_mark (m : Nat → FibHeapNode) (p : Nat) (v : Bool) (q : Nat) :
    (setMark m p v q).mark = if q = p then v else (m q).mark := by
  unfold setMark
  by_cases h : q = p
  · subst h; simp
  · simp [Function.update_noteq h, h]

@[simp] theorem setKey_key (m : Nat → FibHeapNode) (p : Nat) (v : Int) (q : Nat) :
    (setKey m p v q).key = if q = p then v else (m q).key := by
  unfold setKey
  by_cases h : q = p
  · subst h; simp
  · simp [Function.update_noteq h, h]

@[simp] theorem setKey_value (m : Nat → FibHeapNode) (p : Nat) (v : Int) (q : Nat) :
    (setKey m p v q).value = (m q).value := by
  unfold setKey
  by_cases h : q = p
  · subst h; simp
  · simp [Function.update_noteq h]

@[simp] theorem setKey_parent (m : Nat → FibHeapNode) (p : Nat) (v : Int) (q : Nat) :
    (setKey m p v q).parent = (m q).parent := by
  unfold setKey
  by_cases h : q = p
  · subst h; simp
  · simp [Function.update_noteq h]

@[simp] theorem setKey_child (m : Nat → FibHeapNode) (p : Nat) (v : Int) (q : Nat) :
    (setKey m p v q).child = (m q).child := by
  unfold setKey
  by_cases h : q = p
  · subst h; simp
  · simp [Function.update_noteq h]

@[simp] theorem setKey_left (m : Nat → FibHeapNode) (p : Nat) (v : Int) (q : Nat) :
    (setKey m p v q).left = (m q).left := by
  unfold setKey
  by_cases h : q = p
  · subst h; simp
  · simp [Function.update_noteq h]

@[simp] theorem setKey_right (m : Nat → FibHeapNode) (p : Nat) (v : Int) (q : Nat) :
    (setKey m p v q).right = (m q).right := by
  unfold setKey
  by_cases h : q = p
  · subst h; simp
  · simp [Function.update_noteq h]

@[simp] theorem setKey_degree (m : Nat → FibHeapNode) (p : Nat) (v : Int) (q : Nat) :
    (setKey m p v q).degree = (m q).degree := by
  unfold setKey
  by_cases h : q = p
  · subst h; simp
  · simp [Function.update_noteq h]

@[simp] theorem setKey_mark (m : Nat → FibHeapNode) (p : Nat) (v : Int) (q : Nat) :
    (setKey m p v q).mark = (m q).mark := by
  unfold setKey
  by_cases h : q = p
  · subst h; simp
  · simp [Function.update_noteq h]

end Fib

set_option linter.unusedTactic false
set_option linter.unreachableTactic false
set_option linter.unusedVariables false

namespace Fib

/-! ## Fibonacci heap: circular doubly-linked lists -/

/-- `Linked m a l e`: following `right` from `a` visits the nodes of `l` in
order and then reaches `e`, and every `left` link points back. -/
def Linked (m : Nat → FibHeapNode) : Nat → List Nat → Nat → Prop
  | a, [], e => (m a).right = e ∧ (m e).left = a
  | a, b :: l, e => (m a).right = b ∧ (m b).left = a ∧ Linked m b l e

/-- `Ring m l`: the nodes of `l`, in this order, form one circular
doubly-linked list. -/
def Ring (m : Nat → FibHeapNode) : List Nat → Prop
  | [] => True
  | h :: l => Linked m h l h

theorem linked_append (m : Nat → FibHeapNode) : ∀ (l1 : List Nat) (a b : Nat)
    (l2 : List Nat) (e : Nat),
    Linked m a (l1 ++ b :: l2) e ↔ Linked m a l1 b ∧ Linked m b l2 e := by
  intro l1
  induction l1 with
  | nil =>
    intro a b l2 e
    simp only [List.nil_append, Linked]
    tauto
  | cons c l1 ih =>
    intro a b l2 e
    show ((m a).right = c ∧ (m c).left = a ∧ Linked m c (l1 ++ b :: l2) e) ↔
      ((m a).right = c ∧ (m c).left = a ∧ Linked m c l1 b) ∧ Linked m b l2 e
    rw [ih]
    tauto

theorem linked_snoc (m : Nat → FibHeapNode) (l : List Nat) (a b e : Nat) :
    Linked m a (l ++ [b]) e ↔ Linked m a l b ∧ (m b).right = e ∧ (m e).left = b := by
  rw [linked_append]
  simp only [Linked]

theorem linked_last (m : Nat → FibHeapNode) : ∀ (l : List Nat) (a e : Nat),
    Linked m a l e →
    (m ((a :: l).getLast (List.cons_ne_nil a l))).right = e ∧
    (m e).left = (a :: l).getLast (List.cons_ne_nil a l) := by
  intro l
  induction l with
  | nil => intro a e h; exact h
  | cons b l ih =>
    intro a e h
    have := ih b e h.2.2
    simpa [List.getLast_cons] using this

theorem linked_retarget (m m' : Nat → FibHeapNode) (e e' : Nat) : ∀ (l : List Nat) (a : Nat),
    Linked m a l e → (a :: l).Nodup →
    (∀ x ∈ a :: l, x ≠ (a :: l).getLast (List.cons_ne_nil a l) →
      (m' x).right = (m x).right) →
    (m' ((a :: l).getLast (List.cons_ne_nil a l))).right = e' →
    (∀ x ∈ l, (m' x).left = (m x).left) →
    (m' e').left = (a :: l).getLast (List.cons_ne_nil a l) →
    Linked m' a l e' := by
  intro l
  induction l with
  | nil =>
    intro a _ _ _ h2 _ h4
    exact ⟨by simpa using h2, by simpa using h4⟩
  | cons b l ih =>
    intro a h hnd h1 h2 h3 h4
    have hlast : (a :: b :: l).getLast (List.cons_ne_nil a (b :: l)) =
        (b :: l).getLast (List.cons_ne_nil b l) := by simp [List.getLast_cons]
    rw [hlast] at h1 h2 h4
    have hnd' : (b :: l).Nodup := (List.nodup_cons.mp hnd).2
    have ha : a ≠ (b :: l).getLast (List.cons_ne_nil b l) := by
      intro c
      apply (List.nodup_cons.mp hnd).1
      rw [c]
      exact List.getLast_mem _
    refine ⟨?_, ?_, ?_⟩
    · rw [h1 a (List.mem_cons_self _ _) ha]; exact h.1
    · rw [h3 b (List.mem_cons_self _ _)]; exact h.2.1
    · exact ih b h.2.2 hnd' (fun x hx hne => h1 x (List.mem_cons_of_mem _ hx) hne) h2
        (fun x hx => h3 x (List.mem_cons_of_mem _ hx)) h4

theorem linked_frame (m m' : Nat → FibHeapNode) (e : Nat) : ∀ (l : List Nat) (a : Nat),
    Linked m a l e →
    (∀ x ∈ a :: l, (m' x).right = (m x).right) →
    (∀ x ∈ l ++ [e], (m' x).left = (m x).left) →
    Linked m' a l e := by
  intro l
  induction l with
  | nil =>
    intro a h h1 h2
    exact ⟨by rw [h1 a (List.mem_cons_self _ _)]; exact h.1,
      by rw [h2 e (by simp)]; exact h.2⟩
  | cons b l ih =>
    intro a h h1 h2
    refine ⟨by rw [h1 a (List.mem_cons_self _ _)]; exact h.1,
      by rw [h2 b (by simp)]; exact h.2.1, ?_⟩
    exact ih b h.2.2 (fun x hx => h1 x (List.mem_cons_of_mem _ hx))
      (fun x hx => h2 x (by simp at hx ⊢; tauto))

theorem ring_frame (m m' : Nat → FibHeapNode) (l : List Nat) (h : Ring m l)
    (h1 : ∀ x ∈ l, (m' x).right = (m x).right)
    (h2 : ∀ x ∈ l, (m' x).left = (m x).left) : Ring m' l := by
  cases l with
  | nil => trivial
  | cons a l =>
    apply linked_frame m m' a l a h h1
    intro x hx
    apply h2
    simp at hx ⊢
    tauto

theorem ring_rotate (m : Nat → FibHeapNode) (l1 l2 : List Nat) (h : Ring m (l1 ++ l2)) :
    Ring m (l2 ++ l1) := by
  cases l1 with
  | nil => simpa using h
  | cons a l1 =>
    cases l2 with
    | nil => simpa using h
    | cons b l2 =>
      show Linked m b (l2 ++ a :: l1) b
      have h' : Linked m a (l1 ++ b :: l2) a := h
      rw [linked_append] at h' ⊢
      exact ⟨h'.2, h'.1⟩

theorem ring_singleton (m : Nat → FibHeapNode) (x : Nat) :
    Ring (setRight (setLeft m x x) x x) [x] := by
  show Linked _ x [] x
  simp [Linked]

/-- The four writes of `_fibHeapAddNodeToRootList` that splice `x` in to the
left of `h`. -/
def spliceLeft (m : Nat → FibHeapNode) (h x : Nat) : Nat → FibHeapNode :=
  let m := setRight m (m h).left x
  let m := setLeft m x (m h).left
  let m := setLeft m h x
  setRight m x h

theorem spliceLeft_ring (m : Nat → FibHeapNode) (h x : Nat) (l : List Nat)
    (hr : Ring m (h :: l)) (hnd : (h :: l).Nodup) (hx : x ∉ h :: l) :
    Ring (spliceLeft m h x) (h :: (l ++ [x])) := by
  have hl := linked_last m l h h hr
  have hxh : x ≠ h := fun c => hx (by rw [c]; exact List.mem_cons_self _ _)
  have hxt : x ≠ (h :: l).getLast (List.cons_ne_nil h l) :=
    fun c => hx (by rw [c]; exact List.getLast_mem _)
  show Linked _ h (l ++ [x]) h
  rw [linked_snoc]
  refine ⟨?_, ?_, ?_⟩
  · apply linked_retarget m _ h x l h hr hnd
    · intro y hy hne
      have hyx : y ≠ x := fun c => hx (c ▸ hy)
      simp [spliceLeft, hl.2, hne, hyx]
    · simp [spliceLeft, hl.2, Ne.symm hxt]
    · intro y hy
      have hyx : y ≠ x := fun c => hx (c ▸ List.mem_cons_of_mem _ hy)
      have hyh : y ≠ h := fun c => (List.nodup_cons.mp hnd).1 (c ▸ hy)
      simp [spliceLeft, hyx, hyh]
    · simp [spliceLeft, hl.2, hxh]
  · simp [spliceLeft]
  · simp [spliceLeft, hxh]

/-- The two writes that take `y` out of its circular list. -/
def unlink (m : Nat → FibHeapNode) (y : Nat) : Nat → FibHeapNode :=
  let m := setRight m (m y).left (m y).right
  setLeft m (m y).right (m y).left

theorem unlink_ring (m : Nat → FibHeapNode) (y : Nat) (l : List Nat)
    (hr : Ring m (y :: l)) (hnd : (y :: l).Nodup) : Ring (unlink m y) l := by
  cases l with
  | nil => trivial
  | cons g c =>
    have h' : Linked m y (g :: c) y := hr
    obtain ⟨h1, h2, h3⟩ := h'
    have hl := linked_last m c g y h3
    have hnd' : (g :: c).Nodup := (List.nodup_cons.mp hnd).2
    have hyt : y ≠ (g :: c).getLast (List.cons_ne_nil g c) :=
      fun c' => (List.nodup_cons.mp hnd).1 (by rw [c']; exact List.getLast_mem _)
    show Linked _ g c g
    apply linked_retarget m _ y g c g h3 hnd'
    · intro x hx hne
      simp [unlink, hl.2, hne]
    · simp [unlink, hl.2, h1]
    · intro x hx
      have hxg : x ≠ g := fun c' => (List.nodup_cons.mp hnd').1 (c' ▸ hx)
      simp [unlink, hl.2, h1, Ne.symm hyt, hxg]
    · simp [unlink, hl.2, h1, Ne.symm hyt]

theorem unlink_other (m : Nat → FibHeapNode) (y q : Nat) :
    (unlink m y q).key = (m q).key ∧ (unlink m y q).value = (m q).value ∧
    (unlink m y q).parent = (m q).parent ∧ (unlink m y q).child = (m q).child ∧
    (unlink m y q).degree = (m q).degree ∧ (unlink m y q).mark = (m q).mark := by
  simp [unlink]

end Fib

set_option linter.unusedTactic false
set_option linter.unreachableTactic false
set_option linter.unusedVariables false

namespace Fib

/-! ## Fibonacci heap: the forest a memory represents -/

/-- A heap-ordered tree as the memory represents it: the address of the
root, its key, payload and mark, and the child trees in the order of the
child list starting at the `child` pointer. -/
inductive Tree where
  | node (p : Nat) (key value : Int) (mark : Bool) (cs : List Tree) : Tree

namespace Tree

/-- Address of the root. -/
def ptr : Tree → Nat
  | node p _ _ _ _ => p

/-- Key of the root. -/
def key : Tree → Int
  | node _ k _ _ _ => k

/-- Payload of the root. -/
def value : Tree → Int
  | node _ _ v _ _ => v

/-- Mark of the root. -/
def mark : Tree → Bool
  | node _ _ _ mk _ => mk

/-- Child trees of the root. -/
def children : Tree → List Tree
  | node _ _ _ _ cs => cs

end Tree

mutual
/-- Addresses of all nodes of a tree, root first. -/
def nodes : Tree → List Nat
  | Tree.node p _ _ _ cs => p :: nodesL cs
/-- Addresses of all nodes of a list of trees. -/
def nodesL : List Tree → List Nat
  | [] => []
  | t :: ts => nodes t ++ nodesL ts
end

/-- Addresses of the roots of a list of trees. -/
def rootsOf (ts : List Tree) : List Nat := ts.map Tree.ptr

/-- Address of the first root, `0` for the empty list. -/
def headPtr : List Tree → Nat
  | [] => 0
  | t :: _ => t.ptr

mutual
/-- The memory holds the tree `t` below the parent `par`: the fields of every
node agree with the tree, and the children of every node form a circular list
starting at its `child` pointer. -/
def TreeOK (m : Nat → FibHeapNode) : Nat → Tree → Prop
  | par, Tree.node p k v mk cs =>
    (m p).key = k ∧ (m p).value = v ∧ (m p).mark = mk ∧ (m p).parent = par ∧
    (m p).degree = cs.length ∧ (m p).child = headPtr cs ∧
    Ring m (rootsOf cs) ∧ ForestOK m p cs
/-- The memory holds every tree of the list below the parent `par`. -/
def ForestOK (m : Nat → FibHeapNode) : Nat → List Tree → Prop
  | _, [] => True
  | par, t :: ts => TreeOK m par t ∧ ForestOK m par ts
end

theorem nodes_eq (t : Tree) : nodes t = t.ptr :: nodesL t.children := by
  cases t; rfl

theorem nodesL_append : ∀ (a b : List Tree), nodesL (a ++ b) = nodesL a ++ nodesL b
  | [], b => rfl
  | t :: a, b => by
    show nodes t ++ nodesL (a ++ b) = (nodes t ++ nodesL a) ++ nodesL b
    rw [nodesL_append a b, List.append_assoc]

theorem mem_nodesL {q : Nat} : ∀ {ts : List Tree}, q ∈ nodesL ts ↔ ∃ t ∈ ts, q ∈ nodes t
  | [] => by simp [nodesL]
  | s :: ts => by
    show q ∈ nodes s ++ nodesL ts ↔ _
    rw [List.mem_append, @mem_nodesL q ts]
    simp

theorem ptr_mem_nodes (t : Tree) : t.ptr ∈ nodes t := by
  rw [nodes_eq]; exact List.mem_cons_self _ _

theorem rootsOf_subset {ts : List Tree} {q : Nat} (h : q ∈ rootsOf ts) : q ∈ nodesL ts := by
  unfold rootsOf at h
  rw [List.mem_map] at h
  obtain ⟨t, ht, rfl⟩ := h
  exact mem_nodesL.mpr ⟨t, ht, ptr_mem_nodes t⟩

theorem nodesL_perm {a b : List Tree} (h : a.Perm b) : (nodesL a).Perm (nodesL b) := by
  induction h with
  | nil => exact List.Perm.refl _
  | cons t _ ih => exact List.Perm.append_left (nodes t) ih
  | swap s t l =>
    show (nodes t ++ (nodes s ++ nodesL l)).Perm (nodes s ++ (nodes t ++ nodesL l))
    rw [← List.append_assoc, ← List.append_assoc]
    exact List.Perm.append_right _ List.perm_append_comm
  | trans _ _ ih1 ih2 => exact ih1.trans ih2

theorem forestOK_iff {m : Nat → FibHeapNode} {par : Nat} :
    ∀ {ts : List Tree}, ForestOK m par ts ↔ ∀ t ∈ ts, TreeOK m par t
  | [] => by simp [ForestOK]
  | s :: ts => by
    show TreeOK m par s ∧ ForestOK m par ts ↔ _
    rw [@forestOK_iff m par ts]
    simp

theorem forestOK_append {m : Nat → FibHeapNode} {par : Nat} {a b : List Tree} :
    ForestOK m par (a ++ b) ↔ ForestOK m par a ∧ ForestOK m par b := by
  simp only [forestOK_iff, List.mem_append]
  constructor
  · intro h; exact ⟨fun t ht => h t (Or.inl ht), fun t ht => h t (Or.inr ht)⟩
  · rintro ⟨h1, h2⟩ t (ht | ht)
    · exact h1 t ht
    · exact h2 t ht

theorem forestOK_perm {m : Nat → FibHeapNode} {par : Nat} {a b : List Tree}
    (h : a.Perm b) : ForestOK m par a ↔ ForestOK m par b := by
  simp only [forestOK_iff]
  constructor
  · intro h1 t ht; exact h1 t (h.symm.subset ht)
  · intro h1 t ht; exact h1 t (h.subset ht)

mutual
theorem treeOK_congr (m m' : Nat → FibHeapNode) :
    ∀ (t : Tree) (par : Nat), (∀ q ∈ nodes t, m' q = m q) → TreeOK m par t → TreeOK m' par t
  | Tree.node p k v mk cs, par, h, ⟨h1, h2, h3, h4, h5, h6, h7, h8⟩ => by
    have hp : m' p = m p := h p (List.mem_cons_self _ _)
    have hcs : ∀ q ∈ nodesL cs, m' q = m q := fun q hq => h q (List.mem_cons_of_mem _ hq)
    refine ⟨by rw [hp]; exact h1, by rw [hp]; exact h2, by rw [hp]; exact h3,
      by rw [hp]; exact h4, by rw [hp]; exact h5, by rw [hp]; exact h6, ?_,
      forestOK_congr m m' cs p hcs h8⟩
    apply ring_frame m m' _ h7
    · intro x hx; rw [hcs x (rootsOf_subset hx)]
    · intro x hx; rw [hcs x (rootsOf_subset hx)]
theorem forestOK_congr (m m' : Nat → FibHeapNode) :
    ∀ (ts : List Tree) (par : Nat), (∀ q ∈ nodesL ts, m' q = m q) →
      ForestOK m par ts → ForestOK m' par ts
  | [], _, _, _ => trivial
  | t :: ts, par, h, ⟨h1, h2⟩ =>
    ⟨treeOK_congr m m' t par (fun q hq => h q (List.mem_append_left _ hq)) h1,
     forestOK_congr m m' ts par (fun q hq => h q (List.mem_append_right _ hq)) h2⟩
end

/-- Frame rule for a tree whose root may have been re-linked: the inner
nodes are untouched, the root keeps key, payload, mark, degree and child
pointer, and its parent field is `par'`. -/
theorem treeOK_root_frame (m m' : Nat → FibHeapNode) (t : Tree) (par par' : Nat)
    (hin : ∀ q ∈ nodesL t.children, m' q = m q)
    (hk : (m' t.ptr).key = (m t.ptr).key) (hv : (m' t.ptr).value = (m t.ptr).value)
    (hm : (m' t.ptr).mark = (m t.ptr).mark) (hd : (m' t.ptr).degree = (m t.ptr).degree)
    (hc : (m' t.ptr).child = (m t.ptr).child) (hp : (m' t.ptr).parent = par')
    (h : TreeOK m par t) : TreeOK m' par' t := by
  cases t with
  | node p k v mk cs =>
    obtain ⟨h1, h2, h3, h4, h5, h6, h7, h8⟩ := h
    refine ⟨hk.trans h1, hv.trans h2, hm.trans h3, hp, hd.trans h5, hc.trans h6, ?_,
      forestOK_congr m m' cs p hin h8⟩
    apply ring_frame m m' _ h7
    · intro x hx; rw [hin x (rootsOf_subset hx)]
    · intro x hx; rw [hin x (rootsOf_subset hx)]

theorem treeOK_fields {m : Nat → FibHeapNode} {par : Nat} {t : Tree} (h : TreeOK m par t) :
    (m t.ptr).key = t.key ∧ (m t.ptr).value = t.value ∧ (m t.ptr).mark = t.mark ∧
    (m t.ptr).parent = par ∧ (m t.ptr).degree = t.children.length ∧
    (m t.ptr).child = headPtr t.children ∧ Ring m (rootsOf t.children) ∧
    ForestOK m t.ptr t.children := by
  cases t; exact h

end Fib

set_option linter.unusedTactic false
set_option linter.unreachableTactic false
set_option linter.unusedVariables false

namespace Fib

/-! ## Fibonacci heap: the root list -/

theorem setParent_ne (m : Nat → FibHeapNode) (p v q : Nat) (h : q ≠ p) :
    setParent m p v q = m q := Function.update_noteq h _ _

theorem setChild_ne (m : Nat → FibHeapNode) (p v q : Nat) (h : q ≠ p) :
    setChild m p v q = m q := Function.update_noteq h _ _

theorem setLeft_ne (m : Nat → FibHeapNode) (p v q : Nat) (h : q ≠ p) :
    setLeft m p v q = m q := Function.update_noteq h _ _

theorem setRight_ne (m : Nat → FibHeapNode) (p v q : Nat) (h : q ≠ p) :
    setRight m p v q = m q := Function.update_noteq h _ _

theorem setDegree_ne (m : Nat → FibHeapNode) (p v q : Nat) (h : q ≠ p) :
    setDegree m p v q = m q := Function.update_noteq h _ _

theorem setMark_ne (m : Nat → FibHeapNode) (p : Nat) (v : Bool) (q : Nat) (h : q ≠ p) :
    setMark m p v q = m q := Function.update_noteq h _ _

theorem setKey_ne (m : Nat → FibHeapNode) (p : Nat) (v : Int) (q : Nat) (h : q ≠ p) :
    setKey m p v q = m q := Function.update_noteq h _ _

theorem spliceLeft_ne (m : Nat → FibHeapNode) (h x q : Nat)
    (h1 : q ≠ (m h).left) (h2 : q ≠ x) (h3 : q ≠ h) : spliceLeft m h x q = m q := by
  show setRight (setLeft (setLeft (setRight m (m h).left x) x
    ((setRight m (m h).left x) h).left) h x) x h q = m q
  rw [setRight_ne _ _ _ _ h2, setLeft_ne _ _ _ _ h3, setLeft_ne _ _ _ _ h2,
    setRight_ne _ _ _ _ h1]

theorem spliceLeft_fields (m : Nat → FibHeapNode) (h x q : Nat) :
    (spliceLeft m h x q).key = (m q).key ∧ (spliceLeft m h x q).value = (m q).value ∧
    (spliceLeft m h x q).parent = (m q).parent ∧ (spliceLeft m h x q).child = (m q).child ∧
    (spliceLeft m h x q).degree = (m q).degree ∧ (spliceLeft m h x q).mark = (m q).mark := by
  simp [spliceLeft]

theorem unlink_ne (m : Nat → FibHeapNode) (y q : Nat)
    (h1 : q ≠ (m y).left) (h2 : q ≠ (m y).right) : unlink m y q = m q := by
  show setLeft (setRight m (m y).left (m y).right)
    ((setRight m (m y).left (m y).right) y).right
    ((setRight m (m y).left (m y).right) y).left q = m q
  rw [setLeft_ne, setRight_ne _ _ _ _ h1]
  simp only [setRight_right]
  split_ifs with c
  · exact h2
  · exact h2

theorem headPtr_eq (ts : List Tree) : headPtr ts = (rootsOf ts).headD 0 := by
  cases ts <;> rfl

theorem headPtr_mem {ts : List Tree} (h : ts ≠ []) : headPtr ts ∈ rootsOf ts := by
  cases ts with
  | nil => exact absurd rfl h
  | cons t ts => exact List.mem_cons_self _ _

theorem nodes_nodup_of {ts : List Tree} (h : (nodesL ts).Nodup) {t : Tree} (ht : t ∈ ts) :
    (nodes t).Nodup := by
  induction ts with
  | nil => cases ht
  | cons s ts ih =>
    have h' : (nodes s ++ nodesL ts).Nodup := h
    rw [List.nodup_append] at h'
    rcases List.mem_cons.mp ht with rfl | ht'
    · exact h'.1
    · exact ih h'.2.1 ht'

theorem rootsOf_nodup {ts : List Tree} (h : (nodesL ts).Nodup) : (rootsOf ts).Nodup := by
  induction ts with
  | nil => exact List.nodup_nil
  | cons s ts ih =>
    have h' : (nodes s ++ nodesL ts).Nodup := h
    rw [List.nodup_append] at h'
    show (s.ptr :: rootsOf ts).Nodup
    rw [List.nodup_cons]
    refine ⟨?_, ih h'.2.1⟩
    intro c
    exact h'.2.2 (ptr_mem_nodes s) (rootsOf_subset c)

theorem inner_not_root {ts : List Tree} (h : (nodesL ts).Nodup) {t : Tree} (ht : t ∈ ts)
    {q : Nat} (hq : q ∈ nodesL t.children) : q ∉ rootsOf ts := by
  induction ts with
  | nil => cases ht
  | cons s ts ih =>
    have h' : (nodes s ++ nodesL ts).Nodup := h
    rw [List.nodup_append] at h'
    intro c
    have c' : q = s.ptr ∨ q ∈ rootsOf ts := List.mem_cons.mp c
    rcases List.mem_cons.mp ht with rfl | ht'
    · have hqn : q ∈ nodes t := by rw [nodes_eq]; exact List.mem_cons_of_mem _ hq
      rcases c' with c' | c'
      · have := h'.1
        rw [nodes_eq, List.nodup_cons] at this
        exact this.1 (c' ▸ hq)
      · exact h'.2.2 hqn (rootsOf_subset c')
    · have hqn : q ∈ nodesL ts :=
        mem_nodesL.mpr ⟨t, ht', by rw [nodes_eq]; exact List.mem_cons_of_mem _ hq⟩
      rcases c' with c' | c'
      · exact h'.2.2 (c' ▸ ptr_mem_nodes s) hqn
      · exact ih h'.2.1 ht' c'

/-- The nodes of `L`, in this order, are the root list, starting at `mn`. -/
structure RootRing (m : Nat → FibHeapNode) (mn : Nat) (L : List Nat) : Prop where
  ring : Ring m L
  nodup : L.Nodup
  nz : 0 ∉ L
  min : mn = L.headD 0

theorem rootRing_rotate {m : Nat → FibHeapNode} {mn : Nat} {a b : List Nat}
    (h : RootRing m mn (a ++ b)) : RootRing m ((b ++ a).headD 0) (b ++ a) := by
  have hp : (b ++ a).Perm (a ++ b) := List.perm_append_comm
  exact ⟨ring_rotate m _ _ h.ring, hp.nodup_iff.mpr h.nodup,
    fun c => h.nz (hp.subset c), rfl⟩

theorem forestOK_root_frame (m m' : Nat → FibHeapNode) (ts : List Tree) (par par' : Nat)
    (hin : ∀ t ∈ ts, ∀ q ∈ nodesL t.children, m' q = m q)
    (hf : ∀ t ∈ ts, (m' t.ptr).key = (m t.ptr).key ∧ (m' t.ptr).value = (m t.ptr).value ∧
      (m' t.ptr).mark = (m t.ptr).mark ∧ (m' t.ptr).degree = (m t.ptr).degree ∧
      (m' t.ptr).child = (m t.ptr).child ∧ (m' t.ptr).parent = par')
    (h : ForestOK m par ts) : ForestOK m' par' ts := by
  rw [forestOK_iff] at h ⊢
  intro t ht
  obtain ⟨a, b, c, d, e, f⟩ := hf t ht
  exact treeOK_root_frame m m' t par par' (hin t ht) a b c d e f (h t ht)

/-- The memory after the list writes of `_fibHeapAddNodeToRootList`. -/
def rootListMem (H : FibHeap) (x : Nat) : Nat → FibHeapNode :=
  if H.minNode = 0 then setRight (setLeft H.mem x x) x x else spliceLeft H.mem H.minNode x

theorem addRoot_eq (H : FibHeap) (x : Nat) :
    _fibHeapAddNodeToRootList H x =
      { H with
        minNode := if H.minNode = 0 then x else H.minNode
        mem := setParent (rootListMem H x) x 0 } := by
  unfold _fibHeapAddNodeToRootList rootListMem
  by_cases h : H.minNode = 0
  · simp only [h, if_true]
  · simp only [h, if_false]
    rfl

theorem addRoot_ring (H : FibHeap) (L : List Nat) (x : Nat)
    (hr : RootRing H.mem H.minNode L) (hx : x ∉ L) (hx0 : x ≠ 0) :
    RootRing (_fibHeapAddNodeToRootList H x).mem (_fibHeapAddNodeToRootList H x).minNode
      (L ++ [x]) ∧
    (_fibHeapAddNodeToRootList H x).next = H.next ∧
    (_fibHeapAddNodeToRootList H x).numNodes = H.numNodes ∧
    (∀ q, q ∉ L ++ [x] → (_fibHeapAddNodeToRootList H x).mem q = H.mem q) ∧
    (∀ q, ((_fibHeapAddNodeToRootList H x).mem q).key = (H.mem q).key ∧
      ((_fibHeapAddNodeToRootList H x).mem q).value = (H.mem q).value ∧
      ((_fibHeapAddNodeToRootList H x).mem q).child = (H.mem q).child ∧
      ((_fibHeapAddNodeToRootList H x).mem q).degree = (H.mem q).degree ∧
      ((_fibHeapAddNodeToRootList H x).mem q).mark = (H.mem q).mark ∧
      (q ≠ x → ((_fibHeapAddNodeToRootList H x).mem q).parent = (H.mem q).parent)) ∧
    ((_fibHeapAddNodeToRootList H x).mem x).parent = 0 := by
  rw [addRoot_eq]
  have hframe : ∀ q, q ∉ L ++ [x] → setParent (rootListMem H x) x 0 q = H.mem q := by
    intro q hq
    rw [List.mem_append, List.mem_singleton] at hq
    push_neg at hq
    rw [setParent_ne _ _ _ _ hq.2]
    unfold rootListMem
    by_cases h0 : H.minNode = 0
    · rw [if_pos h0, setRight_ne _ _ _ _ hq.2, setLeft_ne _ _ _ _ hq.2]
    · rw [if_neg h0]
      cases L with
      | nil => exact absurd hr.min h0
      | cons h l =>
        have hmin : H.minNode = h := hr.min
        have hl := linked_last H.mem l h h hr.ring
        apply spliceLeft_ne
        · rw [hmin, hl.2]
          intro c
          exact hq.1 (c ▸ List.getLast_mem _)
        · exact hq.2
        · rw [hmin]; exact fun c => hq.1 (c ▸ List.mem_cons_self _ _)
  have hfields : ∀ q,
      (setParent (rootListMem H x) x 0 q).key = (H.mem q).key ∧
      (setParent (rootListMem H x) x 0 q).value = (H.mem q).value ∧
      (setParent (rootListMem H x) x 0 q).child = (H.mem q).child ∧
      (setParent (rootListMem H x) x 0 q).degree = (H.mem q).degree ∧
      (setParent (rootListMem H x) x 0 q).mark = (H.mem q).mark ∧
      (q ≠ x → (setParent (rootListMem H x) x 0 q).parent = (H.mem q).parent) := by
    intro q
    unfold rootListMem
    by_cases h0 : H.minNode = 0
    · simp only [if_pos h0]
      simp
      intro c1 c2; exact absurd c2 c1
    · simp only [if_neg h0]
      have := spliceLeft_fields H.mem H.minNode x q
      simp [this]
      intro c1 c2; exact absurd c2 c1
  refine ⟨⟨?_, ?_, ?_, ?_⟩, rfl, rfl, hframe, hfields, by simp⟩
  · refine ring_frame (rootListMem H x) _ _ ?_ (fun x _ => by simp) (fun x _ => by simp)
    unfold rootListMem
    by_cases h0 : H.minNode = 0
    · rw [if_pos h0]
      cases L with
      | nil => exact ring_singleton H.mem x
      | cons h l =>
        exfalso
        have : h = 0 := by rw [← h0]; exact hr.min.symm
        exact hr.nz (this ▸ List.mem_cons_self _ _)
    · rw [if_neg h0]
      cases L with
      | nil => exact absurd hr.min h0
      | cons h l =>
        have hmin : H.minNode = h := hr.min
        rw [hmin]
        exact spliceLeft_ring H.mem h x l hr.ring hr.nodup hx
  · rw [List.nodup_append]
    refine ⟨hr.nodup, List.nodup_singleton x, ?_⟩
    intro a ha hb
    rw [List.mem_singleton] at hb
    exact hx (hb ▸ ha)
  · intro c
    rcases List.mem_append.mp c with c | c
    · exact hr.nz c
    · exact hx0 (List.mem_singleton.mp c).symm
  · cases L with
    | nil =>
      have : H.minNode = 0 := hr.min
      simp [this]
    | cons h l =>
      have hmin : H.minNode = h := hr.min
      have : H.minNode ≠ 0 := by
        rw [hmin]
        intro c
        exact hr.nz (c ▸ List.mem_cons_self _ _)
      show (if H.minNode = 0 then x else H.minNode) = h
      rw [if_neg this, hmin]

end Fib

set_option linter.unusedTactic false
set_option linter.unreachableTactic false
set_option linter.unusedVariables false

namespace Fib

/-! ## Fibonacci heap: the representation invariant and `fibHeapInsert` -/

/-- The heap `H` holds exactly the trees `ts`: they are its root list, in ring
order starting at `minNode`, all nodes are distinct allocated non-null
addresses, and `numNodes` counts them. -/
structure Repr (H : FibHeap) (ts : List Tree) : Prop where
  ok : ForestOK H.mem 0 ts
  rr : RootRing H.mem H.minNode (rootsOf ts)
  nodup : (nodesL ts).Nodup
  pos : ∀ p ∈ nodesL ts, 0 < p ∧ p < H.next
  next_pos : 0 < H.next
  num : H.numNodes = (nodesL ts).length

theorem rootsOf_append (a b : List Tree) : rootsOf (a ++ b) = rootsOf a ++ rootsOf b := by
  simp [rootsOf]

theorem headD_rootsOf (ts : List Tree) : (rootsOf ts).headD 0 = headPtr ts := by
  cases ts <;> rfl

theorem createFibHeap_repr : Repr createFibHeap [] :=
  ⟨trivial, ⟨trivial, List.nodup_nil, List.not_mem_nil 0, rfl⟩, List.nodup_nil,
    fun p hp => absurd hp (List.not_mem_nil p), Nat.one_pos, rfl⟩

/-- The trees after `fibHeapInsert`: the new singleton tree goes to the end
of the root list, or to its front when it holds the new minimum. -/
def insertTrees (ts : List Tree) (p : Nat) (k v : Int) : List Tree :=
  match ts with
  | [] => [Tree.node p k v false []]
  | h :: l =>
    if k < h.key then Tree.node p k v false [] :: h :: l
    else (h :: l) ++ [Tree.node p k v false []]

theorem insertTrees_perm (ts : List Tree) (p : Nat) (k v : Int) :
    (insertTrees ts p k v).Perm (Tree.node p k v false [] :: ts) := by
  unfold insertTrees
  cases ts with
  | nil => exact List.Perm.refl _
  | cons h l =>
    simp only
    split_ifs
    · exact List.Perm.refl _
    · exact List.perm_append_singleton _ _

theorem insert_repr (H : FibHeap) (ts : List Tree) (k v : Int) (hr : Repr H ts) :
    (fibHeapInsert H k v).1 = H.next ∧
    Repr (fibHeapInsert H k v).2 (insertTrees ts H.next k v) ∧
    (fibHeapInsert H k v).2.next = H.next + 1 := by
  -- the state after `_createNode`
  set H1 : FibHeap := (_createNode H k v).2 with hH1
  have hm1 : ∀ q, q ≠ H.next → H1.mem q = H.mem q := by
    intro q hq
    show Function.update H.mem H.next _ q = _
    exact Function.update_noteq hq _ _
  have hm1x : H1.mem H.next = ⟨k, v, 0, 0, H.next, H.next, 0, false⟩ := by
    show Function.update H.mem H.next _ H.next = _
    exact Function.update_same _ _ _
  have hfresh : ∀ q ∈ nodesL ts, q ≠ H.next := fun q hq => Nat.ne_of_lt (hr.pos q hq).2
  have hxL : H.next ∉ rootsOf ts := fun c => hfresh _ (rootsOf_subset c) rfl
  have hx0 : H.next ≠ 0 := Nat.pos_iff_ne_zero.mp hr.next_pos
  have hrr1 : RootRing H1.mem H1.minNode (rootsOf ts) := by
    refine ⟨?_, hr.rr.nodup, hr.rr.nz, hr.rr.min⟩
    apply ring_frame H.mem H1.mem _ hr.rr.ring
    · intro x hx; rw [hm1 x (hfresh x (rootsOf_subset hx))]
    · intro x hx; rw [hm1 x (hfresh x (rootsOf_subset hx))]
  obtain ⟨rr2, hn2, hnum2, hfr2, hfl2, hpar2⟩ := addRoot_ring H1 (rootsOf ts) H.next hrr1 hxL hx0
  set H2 : FibHeap := _fibHeapAddNodeToRootList H1 H.next with hH2
  have hok2 : ForestOK H2.mem 0 ts := by
    apply forestOK_root_frame H.mem H2.mem ts 0 0 _ _ hr.ok
    · intro t ht q hq
      have hqn : q ∈ nodesL ts :=
        mem_nodesL.mpr ⟨t, ht, by rw [nodes_eq]; exact List.mem_cons_of_mem _ hq⟩
      rw [hfr2 q, hm1 q (hfresh q hqn)]
      intro c
      rcases List.mem_append.mp c with c | c
      · exact inner_not_root hr.nodup ht hq c
      · exact hfresh q hqn (List.mem_singleton.mp c)
    · intro t ht
      have hpn : t.ptr ∈ nodesL ts := mem_nodesL.mpr ⟨t, ht, ptr_mem_nodes t⟩
      have hne := hfresh _ hpn
      obtain ⟨a, b, c, d, e, f⟩ := hfl2 t.ptr
      have h1 := hm1 _ hne
      refine ⟨by rw [a, h1], by rw [b, h1], by rw [e, h1], by rw [d, h1], by rw [c, h1], ?_⟩
      rw [f hne, h1]
      exact (treeOK_fields (forestOK_iff.mp hr.ok t ht)).2.2.2.1
  have hnew : TreeOK H2.mem 0 (Tree.node H.next k v false []) := by
    obtain ⟨a, b, c, d, e, f⟩ := hfl2 H.next
    refine ⟨by rw [a, hm1x], by rw [b, hm1x], by rw [e, hm1x], hpar2, by rw [d, hm1x]; rfl,
      by rw [c, hm1x]; rfl, trivial, trivial⟩
  have hnd2 : (nodesL (Tree.node H.next k v false [] :: ts)).Nodup := by
    show (H.next :: nodesL ts).Nodup
    rw [List.nodup_cons]
    exact ⟨fun c => hfresh _ c rfl, hr.nodup⟩
  have hpos2 : ∀ p ∈ nodesL (Tree.node H.next k v false [] :: ts),
      0 < p ∧ p < H.next + 1 := by
    intro p hp
    have hp' : p ∈ H.next :: nodesL ts := hp
    rcases List.mem_cons.mp hp' with rfl | hp''
    · exact ⟨hr.next_pos, Nat.lt_succ_self _⟩
    · have := hr.pos p hp''
      exact ⟨this.1, Nat.lt_succ_of_lt this.2⟩
  have hperm := insertTrees_perm ts H.next k v
  have hfinal : ∀ (H3 : FibHeap), H3.mem = H2.mem → H3.next = H.next + 1 →
      H3.numNodes = H.numNodes + 1 →
      RootRing H2.mem H3.minNode (rootsOf (insertTrees ts H.next k v)) →
      Repr H3 (insertTrees ts H.next k v) := by
    intro H3 e1 e2 e3 hrr
    refine ⟨?_, by rw [e1]; exact hrr, (nodesL_perm hperm).nodup_iff.mpr hnd2, ?_, ?_, ?_⟩
    · rw [e1, forestOK_perm hperm]
      exact ⟨hnew, hok2⟩
    · intro p hp
      rw [e2]
      exact hpos2 p ((nodesL_perm hperm).subset hp)
    · rw [e2]; exact Nat.succ_pos _
    · rw [e3, (nodesL_perm hperm).length_eq, hr.num]
      show _ = (H.next :: nodesL ts).length
      simp
  have hres : fibHeapInsert H k v = (H.next,
      { (if (H2.mem H.next).key < (H2.mem H2.minNode).key then { H2 with minNode := H.next }
          else H2) with
        numNodes := (if (H2.mem H.next).key < (H2.mem H2.minNode).key
          then { H2 with minNode := H.next } else H2).numNodes + 1 }) := rfl
  rw [hres]
  have hkey : (H2.mem H.next).key = k := hnew.1
  refine ⟨rfl, ?_, ?_⟩
  · cases ts with
    | nil =>
      have hmin2 : H2.minNode = H.next := rr2.min
      rw [hmin2, if_neg (lt_irrefl _)]
      apply hfinal
      · rfl
      · exact hn2
      · show H2.numNodes + 1 = _; rw [hnum2]; rfl
      · show RootRing H2.mem H2.minNode [H.next]
        exact rr2
    | cons h l =>
      have hmin2 : H2.minNode = h.ptr := rr2.min
      have hhk : (H2.mem h.ptr).key = h.key :=
        (treeOK_fields (forestOK_iff.mp hok2 h (List.mem_cons_self _ _))).1
      rw [hmin2, hkey, hhk]
      by_cases c : k < h.key
      · rw [if_pos c]
        apply hfinal
        · rfl
        · exact hn2
        · show H2.numNodes + 1 = _; rw [hnum2]; rfl
        · have : insertTrees (h :: l) H.next k v = Tree.node H.next k v false [] :: h :: l := by
            simp [insertTrees, c]
          rw [this]
          have := rootRing_rotate rr2
          simpa [rootsOf] using this
      · rw [if_neg c]
        apply hfinal
        · rfl
        · exact hn2
        · show H2.numNodes + 1 = _; rw [hnum2]; rfl
        · have : insertTrees (h :: l) H.next k v = (h :: l) ++ [Tree.node H.next k v false []] := by
            simp [insertTrees, c]
          rw [this, rootsOf_append]
          exact rr2
  · show (if (H2.mem H.next).key < (H2.mem H2.minNode).key then { H2 with minNode := H.next }
      else H2).next = H.next + 1
    split_ifs <;> exact hn2

end Fib

set_option linter.unusedTactic false
set_option linter.unreachableTactic false
set_option linter.unusedVariables false

namespace Fib

/-! ## Fibonacci heap: order, degrees and sizes of the represented forest -/

mutual
/-- The `(address, key, payload)` triples of all nodes of a tree. -/
def items : Tree → List (Nat × Int × Int)
  | Tree.node p k v _ cs => (p, k, v) :: itemsL cs
/-- The `(address, key, payload)` triples of all nodes of a list of trees. -/
def itemsL : List Tree → List (Nat × Int × Int)
  | [] => []
  | t :: ts => items t ++ itemsL ts
end

mutual
/-- Every child has a key at least the key of its parent. -/
def HeapOrdT : Tree → Prop
  | Tree.node _ k _ _ cs => (∀ c ∈ cs, k ≤ c.key) ∧ HeapOrdL cs
/-- Every tree of the list is heap ordered. -/
def HeapOrdL : List Tree → Prop
  | [] => True
  | t :: ts => HeapOrdT t ∧ HeapOrdL ts
end

/-- The child at position `i` of a child list has at least `i` children,
counting one more for a marked child. -/
def childOK : Nat → List Tree → Prop
  | _, [] => True
  | i, c :: cs => i ≤ c.children.length + (if c.mark then 1 else 0) ∧ childOK (i + 1) cs

mutual
/-- The degree condition of Fibonacci heaps at every node of the tree. -/
def FibT : Tree → Prop
  | Tree.node _ _ _ _ cs => childOK 0 cs ∧ FibL cs
/-- The degree condition at every node of every tree of the list. -/
def FibL : List Tree → Prop
  | [] => True
  | t :: ts => FibT t ∧ FibL ts
end

/-- The first tree has the least key among the roots. -/
def MinHead : List Tree → Prop
  | [] => True
  | h :: l => ∀ t ∈ l, h.key ≤ t.key

theorem itemsL_append : ∀ (a b : List Tree), itemsL (a ++ b) = itemsL a ++ itemsL b
  | [], b => rfl
  | t :: a, b => by
    show items t ++ itemsL (a ++ b) = (items t ++ itemsL a) ++ itemsL b
    rw [itemsL_append a b, List.append_assoc]

theorem itemsL_perm {a b : List Tree} (h : a.Perm b) : (itemsL a).Perm (itemsL b) := by
  induction h with
  | nil => exact List.Perm.refl _
  | cons t _ ih => exact List.Perm.append_left (items t) ih
  | swap s t l =>
    show (items t ++ (items s ++ itemsL l)).Perm (items s ++ (items t ++ itemsL l))
    rw [← List.append_assoc, ← List.append_assoc]
    exact List.Perm.append_right _ List.perm_append_comm
  | trans _ _ ih1 ih2 => exact ih1.trans ih2

mutual
theorem items_fst : ∀ t : Tree, (items t).map Prod.fst = nodes t
  | Tree.node p k v mk cs => by
    show p :: (itemsL cs).map Prod.fst = p :: nodesL cs
    rw [itemsL_fst cs]
theorem itemsL_fst : ∀ ts : List Tree, (itemsL ts).map Prod.fst = nodesL ts
  | [] => rfl
  | t :: ts => by
    show (items t ++ itemsL ts).map Prod.fst = nodes t ++ nodesL ts
    rw [List.map_append, items_fst t, itemsL_fst ts]
end

theorem heapOrdL_iff : ∀ {ts : List Tree}, HeapOrdL ts ↔ ∀ t ∈ ts, HeapOrdT t
  | [] => by simp [HeapOrdL]
  | s :: ts => by
    show HeapOrdT s ∧ HeapOrdL ts ↔ _
    rw [@heapOrdL_iff ts]
    simp

theorem fibL_iff : ∀ {ts : List Tree}, FibL ts ↔ ∀ t ∈ ts, FibT t
  | [] => by simp [FibL]
  | s :: ts => by
    show FibT s ∧ FibL ts ↔ _
    rw [@fibL_iff ts]
    simp

theorem childOK_append : ∀ (a b : List Tree) (i : Nat),
    childOK i (a ++ b) ↔ childOK i a ∧ childOK (i + a.length) b
  | [], b, i => by simp [childOK]
  | c :: a, b, i => by
    show (_ ∧ childOK (i + 1) (a ++ b)) ↔ (_ ∧ childOK (i + 1) a) ∧ _
    rw [childOK_append a b (i + 1)]
    have : i + 1 + a.length = i + (c :: a).length := by simp; omega
    rw [this]
    tauto

theorem childOK_mono : ∀ (cs : List Tree) (i j : Nat), j ≤ i → childOK i cs → childOK j cs
  | [], _, _, _, _ => trivial
  | c :: cs, i, j, h, ⟨h1, h2⟩ =>
    ⟨le_trans h h1, childOK_mono cs (i + 1) (j + 1) (by omega) h2⟩

/-- The sum of `fib (i + j + 1)` over `j < n`. -/
def lowerSum : Nat → Nat → Nat
  | _, 0 => 0
  | i, n + 1 => Nat.fib (i + 1) + lowerSum (i + 1) n

theorem lowerSum_fib : ∀ (n i : Nat), lowerSum i n + Nat.fib (i + 2) = Nat.fib (i + n + 2)
  | 0, i => by simp [lowerSum]
  | n + 1, i => by
    have ih := lowerSum_fib n (i + 1)
    have hf : Nat.fib (i + 3) = Nat.fib (i + 1) + Nat.fib (i + 2) := Nat.fib_add_two
    show Nat.fib (i + 1) + lowerSum (i + 1) n + Nat.fib (i + 2) = _
    have e1 : i + 1 + 2 = i + 3 := by omega
    have e2 : i + 1 + n + 2 = i + (n + 1) + 2 := by omega
    rw [e1, e2] at ih
    omega

mutual
theorem fib_size : ∀ t : Tree, FibT t → Nat.fib (t.children.length + 2) ≤ (nodes t).length
  | Tree.node p k v mk cs, ⟨h1, h2⟩ => by
    have := fib_sizeL cs 0 h2 h1
    have e := lowerSum_fib cs.length 0
    show Nat.fib (cs.length + 2) ≤ (p :: nodesL cs).length
    simp only [List.length_cons]
    have f2 : Nat.fib (0 + 2) = 1 := rfl
    rw [f2] at e
    simp only [Nat.zero_add] at e
    omega
theorem fib_sizeL : ∀ (cs : List Tree) (i : Nat), FibL cs → childOK i cs →
    lowerSum i cs.length ≤ (nodesL cs).length
  | [], _, _, _ => Nat.zero_le _
  | c :: cs, i, ⟨h1, h2⟩, ⟨h3, h4⟩ => by
    have ih := fib_sizeL cs (i + 1) h2 h4
    have hc := fib_size c h1
    have hmono : Nat.fib (i + 1) ≤ Nat.fib (c.children.length + 2) := by
      apply Nat.fib_mono
      split_ifs at h3 <;> omega
    show Nat.fib (i + 1) + lowerSum (i + 1) cs.length ≤ (nodes c ++ nodesL cs).length
    rw [List.length_append]
    omega
end

theorem pow_le_fib : ∀ d : Nat, 1618 ^ d ≤ Nat.fib (d + 2) * 1000 ^ d
  | 0 => by decide
  | 1 => by decide
  | d + 2 => by
    have h1 := pow_le_fib d
    have h2 := pow_le_fib (d + 1)
    have hf : Nat.fib (d + 2 + 2) = Nat.fib (d + 2) + Nat.fib (d + 1 + 2) := Nat.fib_add_two
    rw [hf]
    have e1 : 1618 ^ (d + 2) = 2617924 * 1618 ^ d := by ring
    have e2 : (Nat.fib (d + 2) + Nat.fib (d + 1 + 2)) * 1000 ^ (d + 2) =
        1000000 * (Nat.fib (d + 2) * 1000 ^ d) + 1000 * (Nat.fib (d + 1 + 2) * 1000 ^ (d + 1)) := by
      ring
    have e3 : 1618 ^ (d + 1) = 1618 * 1618 ^ d := by ring
    rw [e1, e2]
    rw [e3] at h2
    generalize 1618 ^ d = X at h1 h2 ⊢
    generalize Nat.fib (d + 2) * 1000 ^ d = Y at h1 ⊢
    generalize Nat.fib (d + 1 + 2) * 1000 ^ (d + 1) = Z at h2 ⊢
    omega

theorem lt_fib_add_two : ∀ d : Nat, d < Nat.fib (d + 2)
  | 0 => by decide
  | 1 => by decide
  | d + 2 => by
    have h2 := lt_fib_add_two (d + 1)
    have hf : Nat.fib (d + 2 + 2) = Nat.fib (d + 2) + Nat.fib (d + 1 + 2) := Nat.fib_add_two
    have hp : 0 < Nat.fib (d + 2) := Nat.fib_pos.mpr (by omega)
    omega

/-- A tree that satisfies the degree condition and has at most `n` nodes has
a degree below the table size computed for `n`. -/
theorem degree_lt_maxDegree (t : Tree) (n : Nat) (h : FibT t)
    (hn : (nodes t).length ≤ n) : t.children.length < maxDegreeOf n := by
  have hs := fib_size t h
  have hd := lt_fib_add_two t.children.length
  have hp := pow_le_fib t.children.length
  unfold maxDegreeOf
  have : t.children.length ≤
      Nat.findGreatest (fun k => 1618 ^ k ≤ n * 1000 ^ k) n := by
    apply Nat.le_findGreatest (by omega)
    show 1618 ^ t.children.length ≤ n * 1000 ^ t.children.length
    calc 1618 ^ t.children.length
        ≤ Nat.fib (t.children.length + 2) * 1000 ^ t.children.length := hp
      _ ≤ n * 1000 ^ t.children.length := Nat.mul_le_mul_right _ (by omega)
  omega

end Fib

set_option linter.unusedTactic false
set_option linter.unreachableTactic false
set_option linter.unusedVariables false

namespace Fib

/-! ## Fibonacci heap: walking a circular list -/

/-- Following `right` from the head of the list visits the list in order and
then reaches `e`. -/
def RightPath (m : Nat → FibHeapNode) : List Nat → Nat → Prop
  | [], _ => True
  | a :: l, e => (m a).right = l.headD e ∧ RightPath m l e

theorem rightPath_of_linked (m : Nat → FibHeapNode) (e : Nat) : ∀ (l : List Nat) (a : Nat),
    Linked m a l e → RightPath m (a :: l) e
  | [], a, h => ⟨h.1, trivial⟩
  | b :: l, a, h => ⟨h.1, rightPath_of_linked m e l b h.2.2⟩

theorem rightPath_frame (m m' : Nat → FibHeapNode) (e : Nat) : ∀ (l : List Nat),
    (∀ x ∈ l, (m' x).right = (m x).right) → RightPath m l e → RightPath m' l e
  | [], _, _ => trivial
  | a :: l, h, ⟨h1, h2⟩ =>
    ⟨by rw [h a (List.mem_cons_self _ _)]; exact h1,
     rightPath_frame m m' e l (fun x hx => h x (List.mem_cons_of_mem _ hx)) h2⟩

theorem fillRootList_eq (m : Nat → FibHeapNode) (e : Nat) : ∀ (l : List Nat) (a : Nat),
    RightPath m (a :: l) e → fillRootList m (l.length + 1) a = a :: l
  | [], a, _ => rfl
  | b :: l, a, ⟨h1, h2⟩ => by
    show a :: fillRootList m (l.length + 1) (m a).right = a :: b :: l
    rw [h1]
    show a :: fillRootList m (l.length + 1) b = _
    rw [fillRootList_eq m e l b h2]

theorem rootCountLoop_eq (m : Nat → FibHeapNode) (start : Nat) : ∀ (l : List Nat)
    (a fuel c : Nat), RightPath m (a :: l) start → start ∉ l → l.length + 1 ≤ fuel →
    rootCountLoop m start fuel a c = some (c + l.length + 1)
  | [], a, fuel, c, ⟨h1, _⟩, _, hf => by
    obtain ⟨f, rfl⟩ : ∃ f, fuel = f + 1 := ⟨fuel - 1, by simp at hf; omega⟩
    simp only [rootCountLoop]
    rw [h1]
    simp
  | b :: l, a, fuel, c, ⟨h1, h2⟩, hs, hf => by
    obtain ⟨f, rfl⟩ : ∃ f, fuel = f + 1 := ⟨fuel - 1, by simp at hf; omega⟩
    simp only [rootCountLoop]
    rw [h1]
    have hb : b ≠ start := fun c' => hs (c' ▸ List.mem_cons_self _ _)
    simp only [List.headD_cons, ne_eq, hb, not_false_eq_true, if_true]
    rw [rootCountLoop_eq m start l b f (c + 1) h2
      (fun c' => hs (List.mem_cons_of_mem _ c')) (by simp at hf ⊢; omega)]
    simp
    omega

/-! ## Fibonacci heap: moving the children of the minimum to the root list -/

theorem moveChildren_spec (zp c1 : Nat) : ∀ (rem acc : List Tree) (H : FibHeap) (fuel : Nat),
    rem ≠ [] → rem.length ≤ fuel →
    RootRing H.mem H.minNode (zp :: rootsOf acc) →
    ForestOK H.mem 0 acc → ForestOK H.mem zp rem →
    RightPath H.mem (rootsOf rem) c1 → (H.mem zp).child = c1 →
    c1 ∉ (rootsOf rem).tail →
    (zp :: nodesL (acc ++ rem)).Nodup → 0 ∉ nodesL (acc ++ rem) →
    ∃ H', moveChildren zp fuel H (headPtr rem) = some H' ∧
      RootRing H'.mem H'.minNode (zp :: rootsOf (acc ++ rem)) ∧
      ForestOK H'.mem 0 (acc ++ rem) ∧
      H'.next = H.next ∧ H'.numNodes = H.numNodes ∧
      (H'.mem zp).value = (H.mem zp).value ∧ (H'.mem zp).key = (H.mem zp).key
  | [], _, _, _, h, _, _, _, _, _, _, _, _, _ => absurd rfl h
  | c :: rem', acc, H, fuel, _, hf, hrr, hacc, hrem, hpath, hchild, hc1, hnd, hz => by
    obtain ⟨f, rfl⟩ : ∃ f, fuel = f + 1 := ⟨fuel - 1, by simp at hf; omega⟩
    have hnd' : (nodesL (acc ++ c :: rem')).Nodup := (List.nodup_cons.mp hnd).2
    have hzp : zp ∉ nodesL (acc ++ c :: rem') := (List.nodup_cons.mp hnd).1
    have hsplit : nodesL (acc ++ c :: rem') = nodesL acc ++ (nodes c ++ nodesL rem') := by
      rw [nodesL_append]; rfl
    rw [hsplit] at hnd' hzp hz
    have hA := List.nodup_append.mp hnd'
    have hB := List.nodup_append.mp hA.2.1
    have hcptr : c.ptr ∈ nodes c := ptr_mem_nodes c
    have hcL : c.ptr ∉ zp :: rootsOf acc := by
      intro h
      rcases List.mem_cons.mp h with h | h
      · exact hzp (List.mem_append_right _ (List.mem_append_left _ (h ▸ hcptr)))
      · exact hA.2.2 (rootsOf_subset h) (List.mem_append_left _ hcptr)
    have hc0 : c.ptr ≠ 0 := by
      intro h
      exact hz (List.mem_append_right _ (List.mem_append_left _ (h ▸ hcptr)))
    obtain ⟨rr1, hn1, hnum1, hfr1, hfl1, hpar1⟩ := addRoot_ring H (zp :: rootsOf acc) c.ptr hrr hcL hc0
    set H1 : FibHeap := _fibHeapAddNodeToRootList H c.ptr with hH1
    have hstep : moveChildren zp (f + 1) H c.ptr =
        if (H.mem c.ptr).right ≠ (H1.mem zp).child then moveChildren zp f H1 (H.mem c.ptr).right
        else some H1 := rfl
    have hroots1 : zp :: rootsOf acc ++ [c.ptr] = zp :: rootsOf (acc ++ [c]) := by
      rw [rootsOf_append]; rfl
    rw [hroots1] at rr1
    -- frame facts
    have hnotW : ∀ q, q ∈ nodesL acc ++ (nodes c ++ nodesL rem') →
        q ∉ rootsOf acc → q ≠ c.ptr → H1.mem q = H.mem q := by
      intro q hq h1 h2
      apply hfr1
      intro h
      rcases List.mem_append.mp h with h | h
      · rcases List.mem_cons.mp h with h | h
        · exact hzp (h ▸ hq)
        · exact h1 h
      · exact h2 (List.mem_singleton.mp h)
    have hacc1 : ForestOK H1.mem 0 acc := by
      apply forestOK_root_frame H.mem H1.mem acc 0 0 _ _ hacc
      · intro t ht q hq
        have hqn : q ∈ nodesL acc :=
          mem_nodesL.mpr ⟨t, ht, by rw [nodes_eq]; exact List.mem_cons_of_mem _ hq⟩
        apply hnotW q (List.mem_append_left _ hqn) (inner_not_root hA.1 ht hq)
        intro h
        exact hA.2.2 hqn (List.mem_append_left _ (h ▸ hcptr))
      · intro t ht
        have hpn : t.ptr ∈ nodesL acc := mem_nodesL.mpr ⟨t, ht, ptr_mem_nodes t⟩
        have hne : t.ptr ≠ c.ptr := fun h => hA.2.2 hpn (List.mem_append_left _ (h ▸ hcptr))
        obtain ⟨a, b, c', d, e, g⟩ := hfl1 t.ptr
        refine ⟨a, b, e, d, c', ?_⟩
        rw [g hne]
        exact (treeOK_fields (forestOK_iff.mp hacc t ht)).2.2.2.1
    have hc1' : TreeOK H1.mem 0 c := by
      obtain ⟨a, b, c', d, e, g⟩ := hfl1 c.ptr
      apply treeOK_root_frame H.mem H1.mem c zp 0 _ a b e d c' hpar1 hrem.1
      intro q hq
      have hqn : q ∈ nodes c := by rw [nodes_eq]; exact List.mem_cons_of_mem _ hq
      apply hnotW q (List.mem_append_right _ (List.mem_append_left _ hqn))
      · intro h
        exact hA.2.2 (rootsOf_subset h) (List.mem_append_left _ hqn)
      · intro h
        have := hB.1
        rw [nodes_eq, List.nodup_cons] at this
        exact this.1 (h ▸ hq)
    have hrem1 : ∀ q ∈ nodesL rem', H1.mem q = H.mem q := by
      intro q hq
      apply hnotW q (List.mem_append_right _ (List.mem_append_right _ hq))
      · intro h
        exact hA.2.2 (rootsOf_subset h) (List.mem_append_right _ hq)
      · intro h
        exact hB.2.2 hcptr (h ▸ hq)
    have hacc2 : ForestOK H1.mem 0 (acc ++ [c]) :=
      forestOK_append.mpr ⟨hacc1, hc1', trivial⟩
    have hzchild : (H1.mem zp).child = c1 := by rw [(hfl1 zp).2.2.1]; exact hchild
    have hlist : acc ++ c :: rem' = (acc ++ [c]) ++ rem' := by simp
    rw [show headPtr (c :: rem') = c.ptr from rfl, hstep, hzchild]
    have hright : (H.mem c.ptr).right = (rootsOf rem').headD c1 := hpath.1
    cases rem' with
    | nil =>
      rw [hright]
      simp only [rootsOf, List.map_nil, List.headD_nil, ne_eq, not_true_eq_false, if_false]
      refine ⟨H1, rfl, rr1, hacc2, hn1, hnum1, (hfl1 zp).2.1, (hfl1 zp).1⟩
    | cons d rem'' =>
      have hd : (rootsOf (d :: rem'')).headD c1 = d.ptr := rfl
      have hdne : d.ptr ≠ c1 := by
        intro h
        apply hc1
        show c1 ∈ rootsOf (d :: rem'')
        rw [← h]
        exact List.mem_cons_self _ _
      rw [hright, hd, if_pos hdne]
      have ih := moveChildren_spec zp c1 (d :: rem'') (acc ++ [c]) H1 f (List.cons_ne_nil _ _)
        (by simp at hf ⊢; omega) rr1 hacc2
        (forestOK_congr H.mem H1.mem _ zp hrem1 hrem.2)
        (rightPath_frame H.mem H1.mem c1 _
          (fun x hx => by rw [hrem1 x (rootsOf_subset hx)]) hpath.2)
        hzchild
        (fun h => hc1 (List.mem_cons_of_mem _ h))
        (by rw [← hlist]; exact hnd)
        (by rw [← hlist, hsplit]; exact hz)
      obtain ⟨H', e1, e2, e3, e4, e5, e6, e7⟩ := ih
      rw [← hlist] at e2 e3
      exact ⟨H', e1, e2, e3, e4.trans hn1, e5.trans hnum1, e6.trans (hfl1 zp).2.1,
        e7.trans (hfl1 zp).1⟩

end Fib

set_option linter.unusedTactic false
set_option linter.unreachableTactic false
set_option linter.unusedVariables false

namespace Fib

/-! ## Fibonacci heap: linking one root below another -/

/-- The first five writes of `_fibHeapLink`: `y` leaves its list, becomes a
list of its own and gets the parent `x`. -/
def detach (m : Nat → FibHeapNode) (y x : Nat) : Nat → FibHeapNode :=
  setParent (setRight (setLeft (unlink m y) y y) y y) y x

/-- The writes of `_fibHeapLink` that put `y` into the child list of `x`. -/
def attach (m : Nat → FibHeapNode) (y x : Nat) : Nat → FibHeapNode :=
  if (m x).child = 0 then setChild m x y else spliceLeft m (m x).child y

/-- The last two writes of `_fibHeapLink`. -/
def finishLink (m : Nat → FibHeapNode) (y x : Nat) : Nat → FibHeapNode :=
  setMark (setDegree m x ((m x).degree + 1)) y false

theorem link_mem (H : FibHeap) (y x : Nat) :
    (_fibHeapLink H y x).mem = finishLink (attach (detach H.mem y x) y x) y x := by
  unfold _fibHeapLink finishLink attach detach unlink spliceLeft
  by_cases h : ((setParent (setRight (setLeft (setLeft (setRight H.mem (H.mem y).left
      (H.mem y).right) ((setRight H.mem (H.mem y).left (H.mem y).right) y).right
      ((setRight H.mem (H.mem y).left (H.mem y).right) y).left) y y) y y) y x) x).child = 0
  · simp only [h, if_true]
  · simp only [h, if_false, setRight_child, setLeft_child]

theorem link_other (H : FibHeap) (y x : Nat) :
    (_fibHeapLink H y x).next = H.next ∧ (_fibHeapLink H y x).numNodes = H.numNodes ∧
    (_fibHeapLink H y x).minNode = H.minNode := ⟨rfl, rfl, rfl⟩

theorem detach_ne (m : Nat → FibHeapNode) (y x q : Nat) (h : q ≠ y) :
    detach m y x q = unlink m y q := by
  unfold detach
  rw [setParent_ne _ _ _ _ h, setRight_ne _ _ _ _ h, setLeft_ne _ _ _ _ h]

theorem detach_fields (m : Nat → FibHeapNode) (y x q : Nat) :
    (detach m y x q).key = (m q).key ∧ (detach m y x q).value = (m q).value ∧
    (detach m y x q).child = (m q).child ∧ (detach m y x q).degree = (m q).degree ∧
    (detach m y x q).mark = (m q).mark ∧
    (detach m y x q).parent = (if q = y then x else (m q).parent) := by
  simp [detach, unlink]

theorem detach_self (m : Nat → FibHeapNode) (y x : Nat) :
    (detach m y x y).left = y ∧ (detach m y x y).right = y := by
  simp [detach]

theorem attach_fields (m : Nat → FibHeapNode) (y x q : Nat) :
    (attach m y x q).key = (m q).key ∧ (attach m y x q).value = (m q).value ∧
    (attach m y x q).parent = (m q).parent ∧ (attach m y x q).degree = (m q).degree ∧
    (attach m y x q).mark = (m q).mark ∧
    (attach m y x q).child =
      (if q = x then (if (m x).child = 0 then y else (m x).child) else (m q).child) := by
  unfold attach
  by_cases h : (m x).child = 0
  · simp only [h, if_true]
    simp
  · simp only [h, if_false]
    obtain ⟨a, b, c, d, e, f⟩ := spliceLeft_fields m (m x).child y q
    refine ⟨a, b, c, e, f, ?_⟩
    rw [d]
    split_ifs with c1
    · rw [c1]
    · rfl

theorem attach_links_nil (m : Nat → FibHeapNode) (y x q : Nat) (h : (m x).child = 0) :
    (attach m y x q).left = (m q).left ∧ (attach m y x q).right = (m q).right := by
  unfold attach
  simp only [h, if_true]
  simp

theorem attach_ne_nil (m : Nat → FibHeapNode) (y x q : Nat) (h : (m x).child = 0)
    (hq : q ≠ x) : attach m y x q = m q := by
  unfold attach
  simp only [h, if_true]
  exact setChild_ne _ _ _ _ hq

theorem attach_ne_cons (m : Nat → FibHeapNode) (y x q : Nat) (h : (m x).child ≠ 0)
    (h1 : q ≠ (m (m x).child).left) (h2 : q ≠ y) (h3 : q ≠ (m x).child) :
    attach m y x q = m q := by
  unfold attach
  simp only [h, if_false]
  exact spliceLeft_ne _ _ _ _ h1 h2 h3

theorem finishLink_ne (m : Nat → FibHeapNode) (y x q : Nat) (h1 : q ≠ x) (h2 : q ≠ y) :
    finishLink m y x q = m q := by
  unfold finishLink
  rw [setMark_ne _ _ _ _ h2, setDegree_ne _ _ _ _ h1]

theorem finishLink_fields (m : Nat → FibHeapNode) (y x q : Nat) :
    (finishLink m y x q).key = (m q).key ∧ (finishLink m y x q).value = (m q).value ∧
    (finishLink m y x q).parent = (m q).parent ∧ (finishLink m y x q).child = (m q).child ∧
    (finishLink m y x q).left = (m q).left ∧ (finishLink m y x q).right = (m q).right ∧
    (finishLink m y x q).mark = (if q = y then false else (m q).mark) ∧
    (finishLink m y x q).degree = (if q = x then (m x).degree + 1 else (m q).degree) := by
  simp [finishLink]

/-- Clearing or setting the mark of the root of a tree. -/
def Tree.setMark : Tree → Bool → Tree
  | Tree.node p k v _ cs, b => Tree.node p k v b cs

/-- The tree obtained when `ty` becomes the last child of the root of `tx`. -/
def linkT (tx ty : Tree) : Tree :=
  Tree.node tx.ptr tx.key tx.value tx.mark (tx.children ++ [ty.setMark false])

theorem ring_head_mem (m : Nat → FibHeapNode) (a : Nat) (l : List Nat) (h : Ring m (a :: l)) :
    (m a).left ∈ a :: l ∧ (m a).right ∈ a :: l := by
  constructor
  · rw [(linked_last m l a a h).2]
    exact List.getLast_mem _
  · cases l with
    | nil => rw [h.1]; exact List.mem_cons_self _ _
    | cons b l => rw [h.1]; exact List.mem_cons_of_mem _ (List.mem_cons_self _ _)

theorem link_spec (H : FibHeap) (tx ty : Tree) (rest : List Tree) (L : List Nat)
    (hok : ForestOK H.mem 0 (tx :: ty :: rest))
    (hnd : (nodesL (tx :: ty :: rest)).Nodup) (hz : 0 ∉ nodesL (tx :: ty :: rest))
    (hring : Ring H.mem L) (hperm : L.Perm (rootsOf (tx :: ty :: rest))) :
    ForestOK (_fibHeapLink H ty.ptr tx.ptr).mem 0 (linkT tx ty :: rest) ∧
    ∃ L', Ring (_fibHeapLink H ty.ptr tx.ptr).mem L' ∧
      L'.Perm (rootsOf (linkT tx ty :: rest)) := by
  rw [link_mem]
  cases tx with
  | node x xk xv xmk cs =>
  cases ty with
  | node y yk yv ymk ycs =>
  show ForestOK (finishLink (attach (detach H.mem y x) y x) y x) 0
      (Tree.node x xk xv xmk (cs ++ [Tree.node y yk yv false ycs]) :: rest) ∧
    ∃ L', Ring (finishLink (attach (detach H.mem y x) y x) y x) L' ∧
      L'.Perm (x :: rootsOf rest)
  generalize hm : H.mem = m at hok hring ⊢
  have hroots : rootsOf (Tree.node x xk xv xmk cs :: Tree.node y yk yv ymk ycs :: rest)
      = x :: y :: rootsOf rest := rfl
  rw [hroots] at hperm
  have hN : (x :: (nodesL cs ++ (y :: (nodesL ycs ++ nodesL rest)))).Nodup := by
    have := hnd
    simpa [nodesL, nodes] using this
  have hZ : 0 ∉ x :: (nodesL cs ++ (y :: (nodesL ycs ++ nodesL rest))) := by
    have := hz
    simpa [nodesL, nodes] using this
  have hrootsnd : (x :: y :: rootsOf rest).Nodup := by
    have := rootsOf_nodup hnd
    rwa [hroots] at this
  have hLnd : L.Nodup := hperm.nodup_iff.mpr hrootsnd
  obtain ⟨⟨x1, x2, x3, x4, x5, x6, x7, x8⟩, ⟨y1, y2, y3, y4, y5, y6, y7, y8⟩, orest⟩ := hok
  have hxy : x ≠ y := by
    intro c
    have := (List.nodup_cons.mp hN).1
    apply this
    rw [c]
    simp
  -- the root ring with `y` in front
  have hyL : y ∈ L := hperm.symm.subset (by simp)
  obtain ⟨l1, l2, rfl⟩ := List.append_of_mem hyL
  have hr1 : Ring m (y :: (l2 ++ l1)) := ring_rotate m l1 (y :: l2) hring
  have hp1 : (y :: (l2 ++ l1)).Perm (x :: y :: rootsOf rest) :=
    (@List.perm_append_comm _ (y :: l2) l1).trans hperm
  have hnd1 : (y :: (l2 ++ l1)).Nodup := hp1.nodup_iff.mpr hrootsnd
  obtain ⟨hyl, hyr⟩ := ring_head_mem m y (l2 ++ l1) hr1
  have hr2 : Ring (unlink m y) (l2 ++ l1) := unlink_ring m y _ hr1 hnd1
  have hp2 : (l2 ++ l1).Perm (x :: rootsOf rest) :=
    (hp1.trans (List.Perm.swap y x (rootsOf rest))).cons_inv
  have hroot_of : ∀ q, q ∈ y :: (l2 ++ l1) → q = x ∨ q = y ∨ q ∈ rootsOf rest := by
    intro q hq
    have := hp1.subset hq
    simpa using this
  -- the nodes below `x` are no roots
  have hcs_nd : (nodesL cs).Nodup := by
    have := (List.nodup_cons.mp hN).2
    exact (List.nodup_append.mp this).1
  have hcs_root : ∀ q ∈ nodesL cs, q ≠ x ∧ q ≠ y ∧ q ∉ rootsOf rest := by
    intro q hq
    have h1 := List.nodup_cons.mp hN
    have h2 := List.nodup_append.mp h1.2
    refine ⟨fun c => h1.1 (c ▸ List.mem_append_left _ hq), ?_, ?_⟩
    · intro c
      exact h2.2.2 hq (c ▸ List.mem_cons_self _ _)
    · intro c
      exact h2.2.2 hq (List.mem_cons_of_mem _ (List.mem_append_right _ (rootsOf_subset c)))
  have hcs_notL : ∀ q ∈ nodesL cs, q ∉ y :: (l2 ++ l1) := by
    intro q hq c
    obtain ⟨a, b, d⟩ := hcs_root q hq
    rcases hroot_of q c with h | h | h
    · exact a h
    · exact b h
    · exact d h
  -- the memory after the first writes
  have hA_inner : ∀ q, q ∉ y :: (l2 ++ l1) → detach m y x q = m q := by
    intro q hq
    have hqy : q ≠ y := fun c => hq (c ▸ List.mem_cons_self _ _)
    rw [detach_ne _ _ _ _ hqy]
    exact unlink_ne _ _ _ (fun c => hq (c ▸ hyl)) (fun c => hq (c ▸ hyr))
  have hAchild : (detach m y x x).child = headPtr cs := by
    rw [(detach_fields m y x x).2.2.1]; exact x6
  -- what the writes leave alone
  have hK1 : ∀ q, q ∉ y :: (l2 ++ l1) → q ≠ x → q ∉ rootsOf cs →
      finishLink (attach (detach m y x) y x) y x q = m q := by
    intro q hq hqx hqc
    have hqy : q ≠ y := fun c => hq (c ▸ List.mem_cons_self _ _)
    rw [finishLink_ne _ _ _ _ hqx hqy]
    by_cases hc : (detach m y x x).child = 0
    · rw [attach_ne_nil _ _ _ _ hc hqx]
      exact hA_inner q hq
    · rw [attach_ne_cons _ _ _ _ hc _ hqy _]
      · exact hA_inner q hq
      · rw [hAchild] at hc ⊢
        cases cs with
        | nil => exact absurd rfl hc
        | cons c cs' =>
          have hc1 : c.ptr ∈ nodesL (c :: cs') := rootsOf_subset (List.mem_cons_self _ _)
          show q ≠ (detach m y x c.ptr).left
          rw [hA_inner _ (hcs_notL _ hc1)]
          intro e
          apply hqc
          rw [e]
          exact (ring_head_mem m c.ptr (rootsOf cs') x7).1
      · rw [hAchild] at hc ⊢
        intro e
        apply hqc
        rw [e]
        cases cs with
        | nil => exact absurd rfl hc
        | cons c cs' => exact List.mem_cons_self _ _
  have hK2 : ∀ q, (finishLink (attach (detach m y x) y x) y x q).key = (m q).key ∧
      (finishLink (attach (detach m y x) y x) y x q).value = (m q).value ∧
      (finishLink (attach (detach m y x) y x) y x q).mark
        = (if q = y then false else (m q).mark) ∧
      (finishLink (attach (detach m y x) y x) y x q).parent
        = (if q = y then x else (m q).parent) ∧
      (finishLink (attach (detach m y x) y x) y x q).degree
        = (if q = x then (m x).degree + 1 else (m q).degree) ∧
      (finishLink (attach (detach m y x) y x) y x q).child
        = (if q = x then (if (m x).child = 0 then y else (m x).child) else (m q).child) := by
    intro q
    obtain ⟨a1, a2, a3, a4, a5, a6, a7, a8⟩ := finishLink_fields (attach (detach m y x) y x) y x q
    obtain ⟨b1, b2, b3, b4, b5, b6⟩ := attach_fields (detach m y x) y x q
    obtain ⟨c1, c2, c3, c4, c5, c6⟩ := detach_fields m y x q
    obtain ⟨d1, d2, d3, d4, d5, d6⟩ := detach_fields m y x x
    refine ⟨a1.trans (b1.trans c1), a2.trans (b2.trans c2), ?_, ?_, ?_, ?_⟩
    · rw [a7, b5, c5]
    · rw [a3, b3, c6]
    · rw [a8, (attach_fields (detach m y x) y x x).2.2.2.1, d4, b4, c4]
    · rw [a4, b6, d3, c3]
  have hK3 : ∀ q, q ∈ l2 ++ l1 →
      (finishLink (attach (detach m y x) y x) y x q).right = (unlink m y q).right ∧
      (finishLink (attach (detach m y x) y x) y x q).left = (unlink m y q).left := by
    intro q hq
    have hqy : q ≠ y := fun c => (List.nodup_cons.mp hnd1).1 (c ▸ hq)
    have hqL : q ∈ y :: (l2 ++ l1) := List.mem_cons_of_mem _ hq
    obtain ⟨a1, a2, a3, a4, a5, a6, a7, a8⟩ := finishLink_fields (attach (detach m y x) y x) y x q
    rw [a5, a6]
    by_cases hc : (detach m y x x).child = 0
    · obtain ⟨e1, e2⟩ := attach_links_nil (detach m y x) y x q hc
      rw [e1, e2, detach_ne _ _ _ _ hqy]
      exact ⟨rfl, rfl⟩
    · have hc' := hc
      rw [hAchild] at hc'
      cases cs with
      | nil => exact absurd rfl hc'
      | cons c cs' =>
        have hc1 : c.ptr ∈ nodesL (c :: cs') := rootsOf_subset (List.mem_cons_self _ _)
        have hcl : (m c.ptr).left ∈ nodesL (c :: cs') :=
          rootsOf_subset (ring_head_mem m c.ptr (rootsOf cs') x7).1
        rw [attach_ne_cons _ _ _ _ hc _ hqy _, detach_ne _ _ _ _ hqy]
        · exact ⟨rfl, rfl⟩
        · rw [hAchild]
          show q ≠ (detach m y x c.ptr).left
          rw [hA_inner _ (hcs_notL _ hc1)]
          intro e
          exact hcs_notL _ hcl (e ▸ hqL)
        · rw [hAchild]
          show q ≠ c.ptr
          intro e
          exact hcs_notL _ hc1 (e ▸ hqL)
  -- the child list of `x`
  have hK4 : Ring (finishLink (attach (detach m y x) y x) y x) (rootsOf cs ++ [y]) := by
    have hfin : ∀ l, Ring (attach (detach m y x) y x) l →
        Ring (finishLink (attach (detach m y x) y x) y x) l := by
      intro l hl
      apply ring_frame _ _ l hl
      · intro q _
        exact (finishLink_fields (attach (detach m y x) y x) y x q).2.2.2.2.2.1
      · intro q _
        exact (finishLink_fields (attach (detach m y x) y x) y x q).2.2.2.2.1
    apply hfin
    by_cases hc : (detach m y x x).child = 0
    · have hc' := hc
      rw [hAchild] at hc'
      cases cs with
      | nil =>
        show Linked _ y [] y
        obtain ⟨e1, e2⟩ := attach_links_nil (detach m y x) y x y hc
        obtain ⟨f1, f2⟩ := detach_self m y x
        exact ⟨e2.trans f2, e1.trans f1⟩
      | cons c cs' =>
        exfalso
        apply hZ
        have : c.ptr ∈ nodesL (c :: cs') := rootsOf_subset (List.mem_cons_self _ _)
        have hc0 : c.ptr = 0 := hc'
        rw [← hc0]
        exact List.mem_cons_of_mem _ (List.mem_append_left _ this)
    · have hc' := hc
      rw [hAchild] at hc'
      cases cs with
      | nil => exact absurd rfl hc'
      | cons c cs' =>
        have hrA : Ring (detach m y x) (c.ptr :: rootsOf cs') := by
          apply ring_frame m _ _ x7
          · intro q hq
            rw [hA_inner q (hcs_notL q (rootsOf_subset hq))]
          · intro q hq
            rw [hA_inner q (hcs_notL q (rootsOf_subset hq))]
        have hcnd : (c.ptr :: rootsOf cs').Nodup := rootsOf_nodup hcs_nd
        have hyc : y ∉ c.ptr :: rootsOf cs' := by
          intro e
          exact (hcs_root y (rootsOf_subset e)).2.1 rfl
        have := spliceLeft_ring (detach m y x) c.ptr y (rootsOf cs') hrA hcnd hyc
        unfold attach
        simp only [hc, if_false]
        rw [hAchild]
        exact this
  refine ⟨⟨?_, ?_⟩, l2 ++ l1, ?_, hp2⟩
  · -- the new tree
    obtain ⟨k1, k2, k3, k4, k5, k6⟩ := hK2 x
    obtain ⟨j1, j2, j3, j4, j5, j6⟩ := hK2 y
    refine ⟨k1.trans x1, k2.trans x2, ?_, ?_, ?_, ?_, ?_, ?_⟩
    · rw [k3, if_neg hxy]; exact x3
    · rw [k4, if_neg hxy]; exact x4
    · rw [k5, if_pos rfl, x5]; simp
    · rw [k6, if_pos rfl, x6]
      cases cs with
      | nil => simp [headPtr, Tree.ptr]
      | cons c cs' =>
        have : c.ptr ≠ 0 := by
          intro e
          apply hZ
          rw [← e]
          exact List.mem_cons_of_mem _ (List.mem_append_left _
            (rootsOf_subset (List.mem_cons_self _ _)))
        simp [headPtr, this]
    · have : rootsOf (cs ++ [Tree.node y yk yv false ycs]) = rootsOf cs ++ [y] := by
        rw [rootsOf_append]; rfl
      rw [this]
      exact hK4
    · apply forestOK_append.mpr
      constructor
      · apply forestOK_root_frame m _ cs x x _ _ x8
        · intro t ht q hq
          have hqn : q ∈ nodesL cs :=
            mem_nodesL.mpr ⟨t, ht, by rw [nodes_eq]; exact List.mem_cons_of_mem _ hq⟩
          exact hK1 q (hcs_notL q hqn) (hcs_root q hqn).1 (inner_not_root hcs_nd ht hq)
        · intro t ht
          have hqn : t.ptr ∈ nodesL cs := mem_nodesL.mpr ⟨t, ht, ptr_mem_nodes t⟩
          obtain ⟨a, b, d⟩ := hcs_root _ hqn
          obtain ⟨i1, i2, i3, i4, i5, i6⟩ := hK2 t.ptr
          refine ⟨i1, i2, ?_, ?_, ?_, ?_⟩
          · rw [i3, if_neg b]
          · rw [i5, if_neg a]
          · rw [i6, if_neg a]
          · rw [i4, if_neg b]
            exact (treeOK_fields (forestOK_iff.mp x8 t ht)).2.2.2.1
      · refine ⟨⟨j1.trans y1, j2.trans y2, ?_, ?_, ?_, ?_, ?_, ?_⟩, trivial⟩
        · rw [j3, if_pos rfl]
        · rw [j4, if_pos rfl]
        · rw [j5, if_neg (Ne.symm hxy)]; exact y5
        · rw [j6, if_neg (Ne.symm hxy)]; exact y6
        · have hin : ∀ q ∈ nodesL ycs,
              finishLink (attach (detach m y x) y x) y x q = m q := by
            intro q hq
            have h1 := List.nodup_cons.mp hN
            have h2 := List.nodup_append.mp h1.2
            have h3 := List.nodup_cons.mp h2.2.1
            have h4 := List.nodup_append.mp h3.2
            have hqy : q ≠ y := fun c => h3.1 (c ▸ List.mem_append_left _ hq)
            have hqx : q ≠ x := fun c => h1.1 (c ▸ List.mem_append_right _
              (List.mem_cons_of_mem _ (List.mem_append_left _ hq)))
            apply hK1 q _ hqx
            · intro c
              exact h2.2.2 (rootsOf_subset c)
                (List.mem_cons_of_mem _ (List.mem_append_left _ hq))
            · intro c
              rcases hroot_of q c with h | h | h
              · exact hqx h
              · exact hqy h
              · exact h4.2.2 hq (rootsOf_subset h)
          apply ring_frame m _ _ y7
          · intro q hq; rw [hin q (rootsOf_subset hq)]
          · intro q hq; rw [hin q (rootsOf_subset hq)]
        · have hin : ∀ q ∈ nodesL ycs,
              finishLink (attach (detach m y x) y x) y x q = m q := by
            intro q hq
            have h1 := List.nodup_cons.mp hN
            have h2 := List.nodup_append.mp h1.2
            have h3 := List.nodup_cons.mp h2.2.1
            have h4 := List.nodup_append.mp h3.2
            have hqy : q ≠ y := fun c => h3.1 (c ▸ List.mem_append_left _ hq)
            have hqx : q ≠ x := fun c => h1.1 (c ▸ List.mem_append_right _
              (List.mem_cons_of_mem _ (List.mem_append_left _ hq)))
            apply hK1 q _ hqx
            · intro c
              exact h2.2.2 (rootsOf_subset c)
                (List.mem_cons_of_mem _ (List.mem_append_left _ hq))
            · intro c
              rcases hroot_of q c with h | h | h
              · exact hqx h
              · exact hqy h
              · exact h4.2.2 hq (rootsOf_subset h)
          exact forestOK_congr m _ ycs y hin y8
  · -- the other trees
    have h1 := List.nodup_cons.mp hN
    have h2 := List.nodup_append.mp h1.2
    have h3 := List.nodup_cons.mp h2.2.1
    have h4 := List.nodup_append.mp h3.2
    apply forestOK_root_frame m _ rest 0 0 _ _ orest
    · intro t ht q hq
      have hqn : q ∈ nodesL rest :=
        mem_nodesL.mpr ⟨t, ht, by rw [nodes_eq]; exact List.mem_cons_of_mem _ hq⟩
      have hqy : q ≠ y := fun c => h3.1 (c ▸ List.mem_append_right _ hqn)
      have hqx : q ≠ x := fun c => h1.1 (c ▸ List.mem_append_right _
        (List.mem_cons_of_mem _ (List.mem_append_right _ hqn)))
      apply hK1 q _ hqx
      · intro c
        exact h2.2.2 (rootsOf_subset c)
          (List.mem_cons_of_mem _ (List.mem_append_right _ hqn))
      · intro c
        rcases hroot_of q c with h | h | h
        · exact hqx h
        · exact hqy h
        · exact inner_not_root h4.2.1 ht hq h
    · intro t ht
      have hqn : t.ptr ∈ nodesL rest := mem_nodesL.mpr ⟨t, ht, ptr_mem_nodes t⟩
      have hqy : t.ptr ≠ y := fun c => h3.1 (c ▸ List.mem_append_right _ hqn)
      have hqx : t.ptr ≠ x := fun c => h1.1 (c ▸ List.mem_append_right _
        (List.mem_cons_of_mem _ (List.mem_append_right _ hqn)))
      obtain ⟨i1, i2, i3, i4, i5, i6⟩ := hK2 t.ptr
      refine ⟨i1, i2, ?_, ?_, ?_, ?_⟩
      · rw [i3, if_neg hqy]
      · rw [i5, if_neg hqx]
      · rw [i6, if_neg hqx]
      · rw [i4, if_neg hqy]
        exact (treeOK_fields (forestOK_iff.mp orest t ht)).2.2.2.1
  · exact ring_frame _ _ _ hr2 (fun q hq => (hK3 q hq).1) (fun q hq => (hK3 q hq).2)

end Fib

set_option linter.unusedTactic false
set_option linter.unreachableTactic false
set_option linter.unusedVariables false

namespace Fib

/-! ## Fibonacci heap: the linked tree, abstractly -/

theorem nodesL_singleton (t : Tree) : nodesL [t] = nodes t := by
  show nodes t ++ [] = nodes t
  simp

theorem itemsL_singleton (t : Tree) : itemsL [t] = items t := by
  show items t ++ [] = items t
  simp

theorem nodes_setMark (t : Tree) (b : Bool) : nodes (t.setMark b) = nodes t := by
  cases t; rfl

theorem items_setMark (t : Tree) (b : Bool) : items (t.setMark b) = items t := by
  cases t; rfl

theorem nodes_linkT (tx ty : Tree) : nodes (linkT tx ty) = nodes tx ++ nodes ty := by
  cases tx with
  | node x xk xv xmk cs =>
    show x :: nodesL (cs ++ [ty.setMark false]) = (x :: nodesL cs) ++ nodes ty
    rw [nodesL_append, nodesL_singleton, nodes_setMark]
    rfl

theorem items_linkT (tx ty : Tree) : items (linkT tx ty) = items tx ++ items ty := by
  cases tx with
  | node x xk xv xmk cs =>
    show (x, xk, xv) :: itemsL (cs ++ [ty.setMark false]) = ((x, xk, xv) :: itemsL cs) ++ items ty
    rw [itemsL_append, itemsL_singleton, items_setMark]
    rfl

theorem linkT_ptr (tx ty : Tree) : (linkT tx ty).ptr = tx.ptr := rfl

theorem linkT_key (tx ty : Tree) : (linkT tx ty).key = tx.key := rfl

theorem linkT_degree (tx ty : Tree) :
    (linkT tx ty).children.length = tx.children.length + 1 := by
  show (tx.children ++ [ty.setMark false]).length = _
  simp

theorem heapOrdL_append (a b : List Tree) : HeapOrdL (a ++ b) ↔ HeapOrdL a ∧ HeapOrdL b := by
  simp only [heapOrdL_iff, List.mem_append]
  constructor
  · intro h; exact ⟨fun t ht => h t (Or.inl ht), fun t ht => h t (Or.inr ht)⟩
  · rintro ⟨h1, h2⟩ t (ht | ht)
    · exact h1 t ht
    · exact h2 t ht

theorem fibL_append (a b : List Tree) : FibL (a ++ b) ↔ FibL a ∧ FibL b := by
  simp only [fibL_iff, List.mem_append]
  constructor
  · intro h; exact ⟨fun t ht => h t (Or.inl ht), fun t ht => h t (Or.inr ht)⟩
  · rintro ⟨h1, h2⟩ t (ht | ht)
    · exact h1 t ht
    · exact h2 t ht

theorem heapOrdT_linkT (tx ty : Tree) (hx : HeapOrdT tx) (hy : HeapOrdT ty)
    (hk : tx.key ≤ ty.key) : HeapOrdT (linkT tx ty) := by
  cases tx with
  | node x xk xv xmk cs =>
    cases ty with
    | node y yk yv ymk ycs =>
      obtain ⟨h1, h2⟩ := hx
      refine ⟨?_, ?_⟩
      · intro c hc
        rcases List.mem_append.mp hc with h | h
        · exact h1 c h
        · rw [List.mem_singleton.mp h]; exact hk
      · exact (heapOrdL_append _ _).mpr ⟨h2, hy, trivial⟩

theorem fibT_linkT (tx ty : Tree) (hx : FibT tx) (hy : FibT ty)
    (hd : tx.children.length ≤ ty.children.length) : FibT (linkT tx ty) := by
  cases tx with
  | node x xk xv xmk cs =>
    cases ty with
    | node y yk yv ymk ycs =>
      obtain ⟨h1, h2⟩ := hx
      refine ⟨?_, ?_⟩
      · apply (childOK_append _ _ _).mpr
        refine ⟨h1, ?_, trivial⟩
        show 0 + cs.length ≤ ycs.length + _
        have : cs.length ≤ ycs.length := hd
        simp
        omega
      · exact (fibL_append _ _).mpr ⟨h2, hy, trivial⟩

theorem exists_perm_cons {α : Type} {a : α} {l : List α} (h : a ∈ l) :
    ∃ r, l.Perm (a :: r) := by
  obtain ⟨s, t, rfl⟩ := List.append_of_mem h
  exact ⟨s ++ t, List.perm_middle⟩

theorem tree_eq_of_ptr {F : List Tree} (h : (rootsOf F).Nodup) {t s : Tree}
    (ht : t ∈ F) (hs : s ∈ F) (e : t.ptr = s.ptr) : t = s :=
  List.inj_on_of_nodup_map h ht hs e

theorem rootsOf_perm {a b : List Tree} (h : a.Perm b) : (rootsOf a).Perm (rootsOf b) :=
  h.map _

theorem mem_rootsOf {q : Nat} {F : List Tree} : q ∈ rootsOf F ↔ ∃ t ∈ F, t.ptr = q := by
  unfold rootsOf
  simp

/-! ## Fibonacci heap: the invariant of the consolidation loops -/

/-- The forest `F` lies in the memory of `H`, its roots are on one circular
list, and it is heap ordered with the degree condition. -/
structure CInv (n : Nat) (H : FibHeap) (F : List Tree) : Prop where
  ok : ForestOK H.mem 0 F
  nodup : (nodesL F).Nodup
  nz : 0 ∉ nodesL F
  ring : ∃ L, Ring H.mem L ∧ L.Perm (rootsOf F)
  ho : HeapOrdL F
  fib : FibL F
  size : (nodesL F).length ≤ n

theorem cinv_perm {n : Nat} {H : FibHeap} {F G : List Tree} (hp : F.Perm G)
    (h : CInv n H F) : CInv n H G := by
  obtain ⟨L, hL, hLp⟩ := h.ring
  refine ⟨(forestOK_perm hp).mp h.ok, (nodesL_perm hp).nodup_iff.mp h.nodup,
    fun c => h.nz ((nodesL_perm hp).symm.subset c), ⟨L, hL, hLp.trans (rootsOf_perm hp)⟩,
    ?_, ?_, ?_⟩
  · rw [heapOrdL_iff]
    intro t ht
    exact heapOrdL_iff.mp h.ho t (hp.symm.subset ht)
  · rw [fibL_iff]
    intro t ht
    exact fibL_iff.mp h.fib t (hp.symm.subset ht)
  · rw [← (nodesL_perm hp).length_eq]; exact h.size

theorem link_step (n : Nat) (H : FibHeap) (a b : Tree) (rest : List Tree)
    (h : CInv n H (a :: b :: rest)) (hk : a.key ≤ b.key)
    (hd : a.children.length ≤ b.children.length) :
    CInv n (_fibHeapLink H b.ptr a.ptr) (linkT a b :: rest) ∧
    itemsL (linkT a b :: rest) = itemsL (a :: b :: rest) := by
  obtain ⟨L, hL, hLp⟩ := h.ring
  obtain ⟨h1, L', h2, h3⟩ := link_spec H a b rest L h.ok h.nodup h.nz hL hLp
  have hn : nodesL (linkT a b :: rest) = nodesL (a :: b :: rest) := by
    show nodes (linkT a b) ++ nodesL rest = nodes a ++ (nodes b ++ nodesL rest)
    rw [nodes_linkT, List.append_assoc]
  have hi : itemsL (linkT a b :: rest) = itemsL (a :: b :: rest) := by
    show items (linkT a b) ++ itemsL rest = items a ++ (items b ++ itemsL rest)
    rw [items_linkT, List.append_assoc]
  refine ⟨⟨h1, ?_, ?_, ⟨L', h2, h3⟩, ?_, ?_, ?_⟩, hi⟩
  · rw [hn]; exact h.nodup
  · rw [hn]; exact h.nz
  · exact ⟨heapOrdT_linkT a b h.ho.1 h.ho.2.1 hk, h.ho.2.2⟩
  · exact ⟨fibT_linkT a b h.fib.1 h.fib.2.1 hd, h.fib.2.2⟩
  · rw [hn]; exact h.size

end Fib

set_option linter.unusedTactic false
set_option linter.unreachableTactic false
set_option linter.unusedVariables false

namespace Fib

/-! ## Fibonacci heap: the degree table of `_fibHeapConsolidate` -/

/-- The degree table `A` against the forest `F` and the roots `P` that are
still to be visited: an entry at `d` is a root of degree `d`, every root is
pending or in the table, and the pending roots are not in the table. -/
structure TInv (A : Nat → Nat) (F : List Tree) (P : List Nat) : Prop where
  tab : ∀ d, A d ≠ 0 → ∃ t ∈ F, t.ptr = A d ∧ t.children.length = d
  cover : ∀ t ∈ F, t.ptr ∈ P ∨ A t.children.length = t.ptr
  pend : ∀ p ∈ P, ∃ t ∈ F, t.ptr = p
  pnt : ∀ p ∈ P, ∀ d, A d ≠ p
  pnd : P.Nodup

theorem tinv_link (A : Nat → Nat) (F : List Tree) (P : List Nat) (c : Nat) (a b : Tree)
    (rest : List Tree) (hF : F.Perm (a :: b :: rest)) (hnd : (rootsOf F).Nodup)
    (hz : 0 ∉ rootsOf F) (hdeg : a.children.length = b.children.length)
    (hT : TInv A F (c :: P))
    (hc : (c = a.ptr ∧ A a.children.length = b.ptr) ∨
      (c = b.ptr ∧ A a.children.length = a.ptr)) :
    TInv (Function.update A a.children.length 0) (linkT a b :: rest) (a.ptr :: P) := by
  have hnd' : (a.ptr :: b.ptr :: rootsOf rest).Nodup := (rootsOf_perm hF).nodup_iff.mp hnd
  have hab : a.ptr ≠ b.ptr := by
    intro e
    have := (List.nodup_cons.mp hnd').1
    exact this (e ▸ List.mem_cons_self _ _)
  have harest : ∀ t ∈ rest, t.ptr ≠ a.ptr ∧ t.ptr ≠ b.ptr := by
    intro t ht
    have h1 := List.nodup_cons.mp hnd'
    have h2 := List.nodup_cons.mp h1.2
    have hm : t.ptr ∈ rootsOf rest := mem_rootsOf.mpr ⟨t, ht, rfl⟩
    exact ⟨fun e => h1.1 (e ▸ List.mem_cons_of_mem _ hm), fun e => h2.1 (e ▸ hm)⟩
  have hmem : ∀ t, t ∈ F ↔ t = a ∨ t = b ∨ t ∈ rest := by
    intro t
    rw [hF.mem_iff]
    simp
  have haF : a ∈ F := (hmem a).mpr (Or.inl rfl)
  have hbF : b ∈ F := (hmem b).mpr (Or.inr (Or.inl rfl))
  have hcP : c ∉ P := (List.nodup_cons.mp hT.pnd).1
  have hAd : A a.children.length = a.ptr ∨ A a.children.length = b.ptr := by
    rcases hc with h | h
    · exact Or.inr h.2
    · exact Or.inl h.2
  have hcab : c = a.ptr ∨ c = b.ptr := by
    rcases hc with h | h
    · exact Or.inl h.1
    · exact Or.inr h.1
  have hnz : ∀ t ∈ F, t.ptr ≠ 0 := fun t ht e => hz (mem_rootsOf.mpr ⟨t, ht, e⟩)
  refine ⟨?_, ?_, ?_, ?_, ?_⟩
  · intro d hd
    have hdd : d ≠ a.children.length := by
      intro e
      rw [e, Function.update_same] at hd
      exact hd rfl
    rw [Function.update_noteq hdd] at hd ⊢
    obtain ⟨t, ht, hp, hdg⟩ := hT.tab d hd
    rcases (hmem t).mp ht with h | h | h
    · exact absurd (h ▸ hdg).symm hdd
    · exact absurd ((h ▸ hdg).symm.trans hdeg.symm) hdd
    · exact ⟨t, List.mem_cons_of_mem _ h, hp, hdg⟩
  · intro t ht
    rcases List.mem_cons.mp ht with h | h
    · left
      rw [h]
      exact List.mem_cons_self _ _
    · obtain ⟨na, nb⟩ := harest t h
      rcases hT.cover t ((hmem t).mpr (Or.inr (Or.inr h))) with h1 | h1
      · rcases List.mem_cons.mp h1 with h2 | h2
        · rcases hcab with e | e
          · exact absurd (h2.trans e) na
          · exact absurd (h2.trans e) nb
        · exact Or.inl (List.mem_cons_of_mem _ h2)
      · right
        by_cases hdd : t.children.length = a.children.length
        · rw [hdd] at h1
          rcases hAd with e | e
          · exact absurd (h1.symm.trans e) na
          · exact absurd (h1.symm.trans e) nb
        · rw [Function.update_noteq hdd]
          exact h1
  · intro p hp
    rcases List.mem_cons.mp hp with h | h
    · exact ⟨linkT a b, List.mem_cons_self _ _, h.symm⟩
    · obtain ⟨t, ht, e⟩ := hT.pend p (List.mem_cons_of_mem _ h)
      rcases (hmem t).mp ht with h1 | h1 | h1
      · exact ⟨linkT a b, List.mem_cons_self _ _, by rw [← e, h1]; rfl⟩
      · exfalso
        rw [h1] at e
        rcases hc with ⟨e1, e2⟩ | ⟨e1, e2⟩
        · exact hT.pnt p (List.mem_cons_of_mem _ h) _ (e2.trans e)
        · exact hcP (e1.trans e ▸ h)
      · exact ⟨t, List.mem_cons_of_mem _ h1, e⟩
  · intro p hp d
    have hp0 : p ≠ 0 := by
      rcases List.mem_cons.mp hp with h | h
      · rw [h]; exact hnz a haF
      · obtain ⟨t, ht, e⟩ := hT.pend p (List.mem_cons_of_mem _ h)
        rw [← e]; exact hnz t ht
    by_cases hdd : d = a.children.length
    · rw [hdd, Function.update_same]
      exact Ne.symm hp0
    · rw [Function.update_noteq hdd]
      rcases List.mem_cons.mp hp with h | h
      · rcases hc with ⟨e1, e2⟩ | ⟨e1, e2⟩
        · rw [h, ← e1]
          exact hT.pnt c (List.mem_cons_self _ _) d
        · intro e
          have hne : A d ≠ 0 := by rw [e]; exact hp0
          obtain ⟨t, ht, e3, e4⟩ := hT.tab d hne
          have : t = a := tree_eq_of_ptr hnd ht haF (e3.trans (e.trans h))
          rw [this] at e4
          exact hdd e4.symm
      · exact hT.pnt p (List.mem_cons_of_mem _ h) d
  · rw [List.nodup_cons]
    refine ⟨?_, (List.nodup_cons.mp hT.pnd).2⟩
    intro h
    rcases hc with ⟨e1, e2⟩ | ⟨e1, e2⟩
    · exact hcP (e1 ▸ h)
    · exact hT.pnt a.ptr (List.mem_cons_of_mem _ h) _ e2

theorem cinv_degree_lt {n : Nat} {H : FibHeap} {F : List Tree} (h : CInv n H F)
    {t : Tree} (ht : t ∈ F) : t.children.length < maxDegreeOf n := by
  apply degree_lt_maxDegree t n (fibL_iff.mp h.fib t ht)
  apply le_trans _ h.size
  obtain ⟨r, hr⟩ := exists_perm_cons ht
  rw [(nodesL_perm hr).length_eq]
  show (nodes t).length ≤ (nodes t ++ nodesL r).length
  simp

theorem cinv_key {n : Nat} {H : FibHeap} {F : List Tree} (h : CInv n H F)
    {t : Tree} (ht : t ∈ F) : (H.mem t.ptr).key = t.key ∧
    (H.mem t.ptr).degree = t.children.length ∧ (H.mem t.ptr).value = t.value :=
  have h1 := treeOK_fields (forestOK_iff.mp h.ok t ht)
  ⟨h1.1, h1.2.2.2.2.1, h1.2.1⟩

theorem consolidateWhile_spec (n : Nat) : ∀ (fuel : Nat) (H : FibHeap) (A : Nat → Nat)
    (F : List Tree) (P : List Nat) (tx : Tree),
    CInv n H F → TInv A F (tx.ptr :: P) → tx ∈ F →
    maxDegreeOf n < fuel + tx.children.length →
    ∃ H' A' F' tx', consolidateWhile (maxDegreeOf n) fuel H A tx.ptr tx.children.length
        = some (H', A', tx'.ptr, tx'.children.length) ∧
      CInv n H' F' ∧ TInv A' F' (tx'.ptr :: P) ∧ tx' ∈ F' ∧ A' tx'.children.length = 0 ∧
      (itemsL F').Perm (itemsL F) ∧ H'.next = H.next ∧ H'.numNodes = H.numNodes
  | 0, H, A, F, P, tx, hC, hT, htx, hf => by
    have := cinv_degree_lt hC htx
    omega
  | fuel + 1, H, A, F, P, tx, hC, hT, htx, hf => by
    have hdlt := cinv_degree_lt hC htx
    unfold consolidateWhile
    rw [if_pos hdlt]
    by_cases hA : A tx.children.length = 0
    · rw [if_neg (by simpa using hA)]
      exact ⟨H, A, F, tx, rfl, hC, hT, htx, hA, List.Perm.refl _, rfl, rfl⟩
    · rw [if_pos hA]
      obtain ⟨ty, hty, hyp, hyd⟩ := hT.tab _ hA
      have hrnd : (rootsOf F).Nodup := rootsOf_nodup hC.nodup
      have hrz : 0 ∉ rootsOf F := fun c => hC.nz (rootsOf_subset c)
      have hxy : tx.ptr ≠ ty.ptr := by
        intro e
        exact hT.pnt tx.ptr (List.mem_cons_self _ _) _ (hyp.symm.trans e.symm)
      obtain ⟨r1, hr1⟩ := exists_perm_cons htx
      have hty1 : ty ∈ r1 := by
        have := hr1.subset hty
        rcases List.mem_cons.mp this with h | h
        · exact absurd (congrArg Tree.ptr h).symm hxy
        · exact h
      obtain ⟨rest, hr2⟩ := exists_perm_cons hty1
      have hF1 : F.Perm (tx :: ty :: rest) := hr1.trans (List.Perm.cons _ hr2)
      have hkx := (cinv_key hC htx).1
      have hky := (cinv_key hC hty).1
      by_cases hk : (H.mem tx.ptr).key > (H.mem (A tx.children.length)).key
      · simp only [if_pos hk]
        rw [← hyp] at hk ⊢
        rw [hkx, hky] at hk
        have hF2 : F.Perm (ty :: tx :: rest) := hF1.trans (List.Perm.swap _ _ _)
        obtain ⟨hC', hit⟩ := link_step n H ty tx rest (cinv_perm hF2 hC) (le_of_lt hk)
          (le_of_eq hyd)
        have hT' := tinv_link A F P tx.ptr ty tx rest hF2 hrnd hrz hyd hT
          (Or.inr ⟨rfl, by rw [hyd]; exact hyp.symm⟩)
        have ih := consolidateWhile_spec n fuel (_fibHeapLink H tx.ptr ty.ptr)
          (Function.update A ty.children.length 0) (linkT ty tx :: rest) P (linkT ty tx)
          hC' hT' (List.mem_cons_self _ _) (by rw [linkT_degree, hyd]; omega)
        rw [linkT_degree, linkT_ptr, hyd] at ih
        obtain ⟨H', A', F', tx', e1, e2, e3, e4, e5, e6, e7, e8⟩ := ih
        refine ⟨H', A', F', tx', e1, e2, e3, e4, e5, ?_, e7, e8⟩
        exact e6.trans ((List.Perm.of_eq hit).trans (itemsL_perm hF2).symm)
      · simp only [if_neg hk]
        rw [← hyp] at hk ⊢
        rw [hkx, hky] at hk
        obtain ⟨hC', hit⟩ := link_step n H tx ty rest (cinv_perm hF1 hC) (not_lt.mp hk)
          (le_of_eq hyd.symm)
        have hT' := tinv_link A F P tx.ptr tx ty rest hF1 hrnd hrz hyd.symm hT
          (Or.inl ⟨rfl, hyp.symm⟩)
        have ih := consolidateWhile_spec n fuel (_fibHeapLink H ty.ptr tx.ptr)
          (Function.update A tx.children.length 0) (linkT tx ty :: rest) P (linkT tx ty)
          hC' hT' (List.mem_cons_self _ _) (by rw [linkT_degree]; omega)
        rw [linkT_degree, linkT_ptr] at ih
        obtain ⟨H', A', F', tx', e1, e2, e3, e4, e5, e6, e7, e8⟩ := ih
        refine ⟨H', A', F', tx', e1, e2, e3, e4, e5, ?_, e7, e8⟩
        exact e6.trans ((List.Perm.of_eq hit).trans (itemsL_perm hF1).symm)

end Fib

set_option linter.unusedTactic false
set_option linter.unreachableTactic false
set_option linter.unusedVariables false

namespace Fib

/-! ## Fibonacci heap: the `for` loop of `_fibHeapConsolidate` -/

theorem tinv_store (A : Nat → Nat) (F : List Tree) (P : List Nat) (tx : Tree)
    (hnd : (rootsOf F).Nodup) (hz : 0 ∉ rootsOf F)
    (hT : TInv A F (tx.ptr :: P)) (htx : tx ∈ F) (hA : A tx.children.length = 0) :
    TInv (Function.update A tx.children.length tx.ptr) F P := by
  have hnz : ∀ t ∈ F, t.ptr ≠ 0 := fun t ht e => hz (mem_rootsOf.mpr ⟨t, ht, e⟩)
  refine ⟨?_, ?_, ?_, ?_, (List.nodup_cons.mp hT.pnd).2⟩
  · intro d hd
    by_cases hdd : d = tx.children.length
    · rw [hdd, Function.update_same]
      exact ⟨tx, htx, rfl, rfl⟩
    · rw [Function.update_noteq hdd] at hd ⊢
      exact hT.tab d hd
  · intro t ht
    rcases hT.cover t ht with h | h
    · rcases List.mem_cons.mp h with h1 | h1
      · right
        have : t = tx := tree_eq_of_ptr hnd ht htx h1
        rw [this, Function.update_same]
      · exact Or.inl h1
    · right
      by_cases hdd : t.children.length = tx.children.length
      · rw [hdd, hA] at h
        exact absurd h.symm (hnz t ht)
      · rw [Function.update_noteq hdd]
        exact h
  · intro p hp
    exact hT.pend p (List.mem_cons_of_mem _ hp)
  · intro p hp d
    by_cases hdd : d = tx.children.length
    · rw [hdd, Function.update_same]
      intro e
      exact (List.nodup_cons.mp hT.pnd).1 (e ▸ hp)
    · rw [Function.update_noteq hdd]
      exact hT.pnt p (List.mem_cons_of_mem _ hp) d

theorem consolidateFor_spec (n : Nat) : ∀ (P : List Nat) (H : FibHeap) (A : Nat → Nat)
    (F : List Tree), CInv n H F → TInv A F P →
    ∃ H' A' F', consolidateFor (maxDegreeOf n) P H A = some (H', A') ∧
      CInv n H' F' ∧ TInv A' F' [] ∧ (itemsL F').Perm (itemsL F) ∧
      H'.next = H.next ∧ H'.numNodes = H.numNodes
  | [], H, A, F, hC, hT => ⟨H, A, F, rfl, hC, hT, List.Perm.refl _, rfl, rfl⟩
  | x :: rest, H, A, F, hC, hT => by
    obtain ⟨tx, htx, hx⟩ := hT.pend x (List.mem_cons_self _ _)
    subst hx
    have hdeg := (cinv_key hC htx).2.1
    obtain ⟨H1, A1, F1, tx1, e1, e2, e3, e4, e5, e6, e7, e8⟩ :=
      consolidateWhile_spec n (maxDegreeOf n + 1) H A F rest tx hC hT htx (by omega)
    have hT1 := tinv_store A1 F1 rest tx1 (rootsOf_nodup e2.nodup)
      (fun c => e2.nz (rootsOf_subset c)) e3 e4 e5
    obtain ⟨H2, A2, F2, f1, f2, f3, f4, f5, f6⟩ :=
      consolidateFor_spec n rest H1 _ F1 e2 hT1
    refine ⟨H2, A2, F2, ?_, f2, f3, f4.trans e6, f5.trans e7, f6.trans e8⟩
    unfold consolidateFor
    rw [hdeg, e1]
    exact f1

/-! ## Fibonacci heap: rebuilding the root list from the table -/

/-- One round of the loop of `_fibHeapConsolidate` that rebuilds the root list. -/
def rebuildStep (A : Nat → Nat) (H : FibHeap) (i : Nat) : FibHeap :=
  if A i ≠ 0 then
    let H := _fibHeapAddNodeToRootList H (A i)
    if H.minNode = 0 ∨ (H.mem (A i)).key < (H.mem H.minNode).key then
      { H with minNode := A i }
    else H
  else H

theorem rebuildRootList_eq (maxDegree : Nat) (A : Nat → Nat) (H : FibHeap) :
    rebuildRootList maxDegree A H =
      (List.range maxDegree).foldl (rebuildStep A) { H with minNode := 0 } := rfl

/-- The state of the rebuilding loop before round `i`: the roots of degree
below `i` are on the new root list, with a least one in front. -/
structure RbInv (A : Nat → Nat) (F : List Tree) (i : Nat) (H : FibHeap)
    (ts rs : List Tree) : Prop where
  perm : F.Perm (ts ++ rs)
  low : ∀ t ∈ ts, t.children.length < i
  high : ∀ t ∈ rs, i ≤ t.children.length
  rr : RootRing H.mem H.minNode (rootsOf ts)
  mh : MinHead ts
  ok : ForestOK H.mem 0 F

theorem rebuildStep_inv (A : Nat → Nat) (F : List Tree) (hnd : (nodesL F).Nodup)
    (hz : 0 ∉ nodesL F) (hT : TInv A F []) (i : Nat) (H : FibHeap) (ts rs : List Tree)
    (h : RbInv A F i H ts rs) :
    ∃ ts' rs', RbInv A F (i + 1) (rebuildStep A H i) ts' rs' ∧
      (rebuildStep A H i).next = H.next ∧ (rebuildStep A H i).numNodes = H.numNodes := by
  have hrnd : (rootsOf F).Nodup := rootsOf_nodup hnd
  have hcover : ∀ t ∈ F, A t.children.length = t.ptr := by
    intro t ht
    rcases hT.cover t ht with c | c
    · cases c
    · exact c
  have hnz : ∀ t ∈ F, t.ptr ≠ 0 := fun t ht e =>
    hz (rootsOf_subset (mem_rootsOf.mpr ⟨t, ht, e⟩))
  by_cases hA : A i = 0
  · have hs : rebuildStep A H i = H := by
      unfold rebuildStep
      rw [if_neg (by simpa using hA)]
    rw [hs]
    refine ⟨ts, rs, ⟨h.perm, fun t ht => Nat.lt_succ_of_lt (h.low t ht), ?_, h.rr, h.mh, h.ok⟩,
      rfl, rfl⟩
    intro t ht
    have h1 := h.high t ht
    have htF : t ∈ F := h.perm.symm.subset (List.mem_append_right _ ht)
    have : t.children.length ≠ i := by
      intro e
      have := hcover t htF
      rw [e, hA] at this
      exact hnz t htF this.symm
    omega
  · obtain ⟨t, htF, htp, htd⟩ := hT.tab i hA
    have htrs : t ∈ rs := by
      rcases List.mem_append.mp (h.perm.subset htF) with c | c
      · have := h.low t c
        omega
      · exact c
    obtain ⟨rs', hrs⟩ := exists_perm_cons htrs
    have hp1 : F.Perm (ts ++ t :: rs') := h.perm.trans (List.Perm.append_left _ hrs)
    have hnd1 : (rootsOf (ts ++ t :: rs')).Nodup := (rootsOf_perm hp1).nodup_iff.mp hrnd
    rw [rootsOf_append] at hnd1
    have hnd2 := List.nodup_append.mp hnd1
    have htts : t.ptr ∉ rootsOf ts := fun c => hnd2.2.2 c (List.mem_cons_self _ _)
    have htrs' : t.ptr ∉ rootsOf rs' := (List.nodup_cons.mp hnd2.2.1).1
    obtain ⟨rr1, hn1, hnum1, hfr1, hfl1, hpar1⟩ :=
      addRoot_ring H (rootsOf ts) t.ptr h.rr htts (hnz t htF)
    have hok1 : ForestOK (_fibHeapAddNodeToRootList H t.ptr).mem 0 F := by
      apply forestOK_root_frame H.mem _ F 0 0 _ _ h.ok
      · intro s hs q hq
        apply hfr1
        intro c
        have hqr : q ∉ rootsOf F := inner_not_root hnd hs hq
        apply hqr
        apply (rootsOf_perm hp1).symm.subset
        rw [rootsOf_append]
        rcases List.mem_append.mp c with c1 | c1
        · exact List.mem_append_left _ c1
        · rw [List.mem_singleton.mp c1]
          exact List.mem_append_right _ (List.mem_cons_self _ _)
      · intro s hs
        obtain ⟨a, b, c, d, e, g⟩ := hfl1 s.ptr
        refine ⟨a, b, e, d, c, ?_⟩
        by_cases hst : s.ptr = t.ptr
        · rw [hst]; exact hpar1
        · rw [g hst]
          exact (treeOK_fields (forestOK_iff.mp h.ok s hs)).2.2.2.1
    have hhigh : ∀ s ∈ rs', i + 1 ≤ s.children.length := by
      intro s hs
      have hsrs : s ∈ rs := hrs.symm.subset (List.mem_cons_of_mem _ hs)
      have h1 := h.high s hsrs
      have hsF : s ∈ F := h.perm.symm.subset (List.mem_append_right _ hsrs)
      have : s.children.length ≠ i := by
        intro e
        have h2 := hcover s hsF
        rw [e, ← htp] at h2
        exact htrs' (mem_rootsOf.mpr ⟨s, hs, h2.symm⟩)
      omega
    have hlow : ∀ s ∈ ts ++ [t], s.children.length < i + 1 := by
      intro s hs
      rcases List.mem_append.mp hs with c | c
      · exact Nat.lt_succ_of_lt (h.low s c)
      · rw [List.mem_singleton.mp c, htd]; omega
    have hkey : ∀ s ∈ F, ((_fibHeapAddNodeToRootList H t.ptr).mem s.ptr).key = s.key :=
      fun s hs => (treeOK_fields (forestOK_iff.mp hok1 s hs)).1
    have hstep : rebuildStep A H i =
        if (_fibHeapAddNodeToRootList H t.ptr).minNode = 0 ∨
            ((_fibHeapAddNodeToRootList H t.ptr).mem t.ptr).key <
              ((_fibHeapAddNodeToRootList H t.ptr).mem
                (_fibHeapAddNodeToRootList H t.ptr).minNode).key then
          { _fibHeapAddNodeToRootList H t.ptr with minNode := t.ptr }
        else _fibHeapAddNodeToRootList H t.ptr := by
      unfold rebuildStep
      rw [if_pos hA, htp]
    rw [hstep]
    have hroots1 : rootsOf ts ++ [t.ptr] = rootsOf (ts ++ [t]) := by
      rw [rootsOf_append]; rfl
    cases ts with
    | nil =>
      have hmin : (_fibHeapAddNodeToRootList H t.ptr).minNode = t.ptr := rr1.min
      rw [hmin, if_neg (by simp [hnz t htF])]
      refine ⟨[t], rs', ⟨hp1, hlow, hhigh, ?_, ?_, hok1⟩, hn1, hnum1⟩
      · exact rr1
      · intro s hs; cases hs
    | cons hd tl =>
      have hmin : (_fibHeapAddNodeToRootList H t.ptr).minNode = hd.ptr := rr1.min
      have hhdF : hd ∈ F := hp1.symm.subset (by simp)
      have hhd0 : hd.ptr ≠ 0 := hnz hd hhdF
      rw [hmin, hkey t htF, hkey hd hhdF]
      by_cases hk : t.key < hd.key
      · rw [if_pos (Or.inr hk)]
        refine ⟨t :: hd :: tl, rs', ⟨?_, ?_, hhigh, ?_, ?_, hok1⟩, hn1, hnum1⟩
        · exact hp1.trans (List.perm_middle)
        · intro s hs
          apply hlow s
          rcases List.mem_cons.mp hs with c | c
          · rw [c]; simp
          · exact List.mem_append_left _ c
        · have := rootRing_rotate rr1
          exact this
        · intro s hs
          rcases List.mem_cons.mp hs with c | c
          · rw [c]; exact le_of_lt hk
          · exact le_trans (le_of_lt hk) (h.mh s c)
      · rw [if_neg (by simp [hhd0, not_lt.mp hk])]
        refine ⟨(hd :: tl) ++ [t], rs', ⟨?_, hlow, hhigh, ?_, ?_, hok1⟩, hn1, hnum1⟩
        · refine hp1.trans ?_
          rw [List.append_assoc]
          rfl
        · rw [← hroots1]; exact rr1
        · intro s hs
          rcases List.mem_append.mp hs with c | c
          · exact h.mh s c
          · rw [List.mem_singleton.mp c]; exact not_lt.mp hk

theorem rebuild_inv (A : Nat → Nat) (F : List Tree) (hnd : (nodesL F).Nodup)
    (hz : 0 ∉ nodesL F) (hT : TInv A F []) (H : FibHeap) (hok : ForestOK H.mem 0 F) :
    ∀ i, ∃ ts rs, RbInv A F i ((List.range i).foldl (rebuildStep A) { H with minNode := 0 })
        ts rs ∧
      ((List.range i).foldl (rebuildStep A) { H with minNode := 0 }).next = H.next ∧
      ((List.range i).foldl (rebuildStep A) { H with minNode := 0 }).numNodes = H.numNodes
  | 0 => ⟨[], F, ⟨List.Perm.refl _, fun t ht => (by cases ht), fun t _ => Nat.zero_le _,
      ⟨trivial, List.nodup_nil, (by simp [rootsOf]), rfl⟩, trivial, hok⟩, rfl, rfl⟩
  | i + 1 => by
    obtain ⟨ts, rs, h, h1, h2⟩ := rebuild_inv A F hnd hz hT H hok i
    rw [List.range_succ, List.foldl_append]
    obtain ⟨ts', rs', h', h1', h2'⟩ := rebuildStep_inv A F hnd hz hT i _ ts rs h
    exact ⟨ts', rs', h', h1'.trans h1, h2'.trans h2⟩

end Fib

set_option linter.unusedTactic false
set_option linter.unreachableTactic false
set_option linter.unusedVariables false

namespace Fib

/-! ## Fibonacci heap: `_fibHeapConsolidate` -/

theorem rootsOf_length_le (ts : List Tree) : (rootsOf ts).length ≤ (nodesL ts).length := by
  induction ts with
  | nil => exact Nat.le_refl _
  | cons t ts ih =>
    show (rootsOf ts).length + 1 ≤ (nodes t ++ nodesL ts).length
    rw [nodes_eq, List.length_append, List.length_cons]
    omega

theorem consolidate_spec (H : FibHeap) (ts : List Tree) (hne : ts ≠ [])
    (hok : ForestOK H.mem 0 ts) (hrr : RootRing H.mem H.minNode (rootsOf ts))
    (hnd : (nodesL ts).Nodup) (hz : 0 ∉ nodesL ts) (hho : HeapOrdL ts) (hfib : FibL ts)
    (hsize : (nodesL ts).length ≤ H.numNodes) :
    ∃ H' ts', _fibHeapConsolidate H = some H' ∧ ForestOK H'.mem 0 ts' ∧
      RootRing H'.mem H'.minNode (rootsOf ts') ∧ (itemsL ts').Perm (itemsL ts) ∧
      HeapOrdL ts' ∧ FibL ts' ∧ MinHead ts' ∧ H'.next = H.next ∧
      H'.numNodes = H.numNodes ∧
      (∀ t ∈ ts', ∀ s ∈ ts', t.children.length = s.children.length → t = s) := by
  cases ts with
  | nil => exact absurd rfl hne
  | cons t tl =>
    have hmin : H.minNode = t.ptr := hrr.min
    have ht0 : t.ptr ≠ 0 := fun c => hrr.nz (c ▸ List.mem_cons_self _ _)
    have hpath : RightPath H.mem (t.ptr :: rootsOf tl) t.ptr :=
      rightPath_of_linked H.mem t.ptr (rootsOf tl) t.ptr hrr.ring
    have hlen : (rootsOf tl).length + 1 ≤ H.numNodes + 1 := by
      have := rootsOf_length_le (t :: tl)
      have e : (rootsOf (t :: tl)).length = (rootsOf tl).length + 1 := rfl
      omega
    have hcount := rootCountLoop_eq H.mem t.ptr (rootsOf tl) t.ptr (H.numNodes + 1) 0 hpath
      (List.nodup_cons.mp hrr.nodup).1 hlen
    have hfill := fillRootList_eq H.mem t.ptr (rootsOf tl) t.ptr hpath
    have hC : CInv H.numNodes H (t :: tl) :=
      ⟨hok, hnd, hz, ⟨_, hrr.ring, List.Perm.refl _⟩, hho, hfib, hsize⟩
    have hT : TInv (fun _ => 0) (t :: tl) (rootsOf (t :: tl)) := by
      refine ⟨fun d hd => absurd rfl hd, fun s hs => Or.inl (mem_rootsOf.mpr ⟨s, hs, rfl⟩),
        fun p hp => mem_rootsOf.mp hp, ?_, hrr.nodup⟩
      intro p hp d e
      exact hrr.nz (e ▸ hp)
    obtain ⟨H1, A1, F1, e1, e2, e3, e4, e5, e6⟩ :=
      consolidateFor_spec H.numNodes (rootsOf (t :: tl)) H (fun _ => 0) (t :: tl) hC hT
    obtain ⟨ts', rs, hrb, f1, f2⟩ :=
      rebuild_inv A1 F1 e2.nodup e2.nz e3 H1 e2.ok (maxDegreeOf H.numNodes)
    have hrs : rs = [] := by
      cases rs with
      | nil => rfl
      | cons s rs' =>
        exfalso
        have h1 := hrb.high s (List.mem_cons_self _ _)
        have h2 := cinv_degree_lt e2
          (hrb.perm.symm.subset (List.mem_append_right _ (List.mem_cons_self _ _)))
        omega
    subst hrs
    have hp : F1.Perm ts' := by simpa using hrb.perm
    have hcons : _fibHeapConsolidate H = some (rebuildRootList (maxDegreeOf H.numNodes) A1 H1) := by
      unfold _fibHeapConsolidate
      rw [if_neg (by rw [hmin]; exact ht0)]
      simp only [hmin]
      rw [hcount]
      simp only [Nat.zero_add]
      rw [hfill]
      have e1' : consolidateFor (maxDegreeOf H.numNodes) (t.ptr :: rootsOf tl) H (fun _ => 0)
          = some (H1, A1) := e1
      rw [e1']
    refine ⟨_, ts', hcons, ?_, ?_, ?_, ?_, ?_, hrb.mh, ?_, ?_, ?_⟩
    · rw [rebuildRootList_eq]
      exact (forestOK_perm hp).mp hrb.ok
    · rw [rebuildRootList_eq]
      exact hrb.rr
    · exact (itemsL_perm hp).symm.trans e4
    · rw [heapOrdL_iff]
      intro s hs
      exact heapOrdL_iff.mp e2.ho s (hp.symm.subset hs)
    · rw [fibL_iff]
      intro s hs
      exact fibL_iff.mp e2.fib s (hp.symm.subset hs)
    · rw [rebuildRootList_eq]
      exact f1.trans e5
    · rw [rebuildRootList_eq]
      exact f2.trans e6
    · intro a ha b hb hab
      have haF := hp.symm.subset ha
      have hbF := hp.symm.subset hb
      have c1 : A1 a.children.length = a.ptr := by
        rcases e3.cover a haF with c | c
        · cases c
        · exact c
      have c2 : A1 b.children.length = b.ptr := by
        rcases e3.cover b hbF with c | c
        · cases c
        · exact c
      rw [hab] at c1
      exact tree_eq_of_ptr (rootsOf_nodup e2.nodup) haF hbF (c1.symm.trans c2)

end Fib

set_option linter.unusedTactic false
set_option linter.unreachableTactic false
set_option linter.unusedVariables false

namespace Fib

/-! ## Fibonacci heap: `fibHeapExtractMin` -/

/-- The heap `H` holds the forest `ts`, which is heap ordered with a least
root in front and satisfies the degree condition. -/
structure FibWF (H : FibHeap) (ts : List Tree) : Prop where
  repr : Repr H ts
  ho : HeapOrdL ts
  fib : FibL ts
  mh : MinHead ts

/-- The heap after the two writes of `fibHeapExtractMin` that take `z` off the
root list. -/
def afterUnlink (H : FibHeap) (z : Nat) : FibHeap := { H with mem := unlink H.mem z }

theorem fibHeapExtractMin_eq (H H1 : FibHeap) (hz : H.minNode ≠ 0)
    (h1 : (if (H.mem H.minNode).child ≠ 0
      then moveChildren H.minNode (H.numNodes + 1) H (H.mem H.minNode).child
      else some H) = some H1) :
    fibHeapExtractMin H =
      match (if H.minNode = ((afterUnlink H1 H.minNode).mem H.minNode).right
          then some { afterUnlink H1 H.minNode with minNode := 0 }
          else _fibHeapConsolidate { afterUnlink H1 H.minNode with
            minNode := ((afterUnlink H1 H.minNode).mem H.minNode).right }) with
      | none => none
      | some H' => some ((H.mem H.minNode).value, { H' with numNodes := H'.numNodes - 1 }) := by
  unfold fibHeapExtractMin
  simp only [hz, if_false]
  rw [h1]
  rfl

theorem unlink_self_right (m : Nat → FibHeapNode) (z : Nat) :
    (unlink m z z).right = (m z).right := by
  unfold unlink
  simp only [setLeft_right, setRight_right]
  split_ifs with c
  · rfl
  · rfl

theorem heapOrdT_children {t : Tree} (h : HeapOrdT t) : HeapOrdL t.children := by
  cases t; exact h.2

theorem fibT_children {t : Tree} (h : FibT t) : FibL t.children := by
  cases t; exact h.2

theorem extractMin_spec (H : FibHeap) (z : Tree) (rest : List Tree)
    (h : FibWF H (z :: rest)) :
    ∃ H' ts', fibHeapExtractMin H = some (z.value, H') ∧ FibWF H' ts' ∧
      (itemsL ts').Perm (itemsL (rest ++ z.children)) ∧ H'.next = H.next ∧
      (∀ t ∈ ts', ∀ s ∈ ts', t.children.length = s.children.length → t = s) := by
  have hho : HeapOrdL (rest ++ z.children) :=
    (heapOrdL_append _ _).mpr ⟨h.ho.2, heapOrdT_children h.ho.1⟩
  have hfib : FibL (rest ++ z.children) :=
    (fibL_append _ _).mpr ⟨h.fib.2, fibT_children h.fib.1⟩
  cases z with
  | node zp zk zv zmk cs =>
  show ∃ H' ts', fibHeapExtractMin H = some (zv, H') ∧ FibWF H' ts' ∧
      (itemsL ts').Perm (itemsL (rest ++ cs)) ∧ H'.next = H.next ∧
      (∀ t ∈ ts', ∀ s ∈ ts', t.children.length = s.children.length → t = s)
  have hho' : HeapOrdL (rest ++ cs) := hho
  have hfib' : FibL (rest ++ cs) := hfib
  obtain ⟨⟨z1, z2, z3, z4, z5, z6, z7, z8⟩, orest⟩ := h.repr.ok
  have hmin : H.minNode = zp := h.repr.rr.min
  have hrr : RootRing H.mem H.minNode (zp :: rootsOf rest) := h.repr.rr
  have hzp0 : zp ≠ 0 := fun c => hrr.nz (c ▸ List.mem_cons_self _ _)
  have hN : ((zp :: nodesL cs) ++ nodesL rest).Nodup := h.repr.nodup
  have hpos : ∀ p ∈ (zp :: nodesL cs) ++ nodesL rest, 0 < p ∧ p < H.next := h.repr.pos
  have hnum : H.numNodes = ((zp :: nodesL cs) ++ nodesL rest).length := h.repr.num
  have hGp : (zp :: nodesL (rest ++ cs)).Perm ((zp :: nodesL cs) ++ nodesL rest) := by
    rw [nodesL_append]
    exact List.Perm.cons _ List.perm_append_comm
  have hNG : (zp :: nodesL (rest ++ cs)).Nodup := hGp.nodup_iff.mpr hN
  have hZG : 0 ∉ nodesL (rest ++ cs) := by
    intro c
    have := (hpos 0 (hGp.subset (List.mem_cons_of_mem _ c))).1
    omega
  have hlenG : (nodesL (rest ++ cs)).length + 1 = H.numNodes := by
    rw [hnum, ← hGp.length_eq]
    rfl
  -- the children join the root list
  have step1 : ∃ H1, (if (H.mem H.minNode).child ≠ 0
      then moveChildren H.minNode (H.numNodes + 1) H (H.mem H.minNode).child
      else some H) = some H1 ∧
      RootRing H1.mem H1.minNode (zp :: rootsOf (rest ++ cs)) ∧
      ForestOK H1.mem 0 (rest ++ cs) ∧ H1.next = H.next ∧ H1.numNodes = H.numNodes := by
    rw [hmin, z6]
    cases cs with
    | nil =>
      refine ⟨H, by simp [headPtr], ?_, ?_, rfl, rfl⟩
      · simpa using hrr
      · simpa using orest
    | cons c cs' =>
      have hc0 : c.ptr ≠ 0 := by
        intro e
        apply hZG
        rw [nodesL_append]
        apply List.mem_append_right
        rw [← e]
        exact rootsOf_subset (List.mem_cons_self _ _)
      have hcsnd : (rootsOf (c :: cs')).Nodup := by
        apply rootsOf_nodup
        have := (List.nodup_append.mp hN).1
        exact (List.nodup_cons.mp this).2
      obtain ⟨H1, e1, e2, e3, e4, e5, _, _⟩ := moveChildren_spec zp c.ptr (c :: cs') rest H
        (H.numNodes + 1) (List.cons_ne_nil _ _)
        (by
          have := rootsOf_length_le (c :: cs')
          have e : (rootsOf (c :: cs')).length = (c :: cs').length := by simp [rootsOf]
          rw [nodesL_append, List.length_append] at hlenG
          omega)
        hrr orest z8 (rightPath_of_linked H.mem c.ptr (rootsOf cs') c.ptr z7) z6
        (List.nodup_cons.mp hcsnd).1 hNG hZG
      refine ⟨H1, ?_, e2, e3, e4, e5⟩
      rw [if_pos (by exact hc0)]
      exact e1
  obtain ⟨H1, e1, rr1, ok1, hn1, hnum1⟩ := step1
  have hEq := fibHeapExtractMin_eq H H1 (by rw [hmin]; exact hzp0) e1
  rw [hmin, z2] at hEq
  have hright : ((afterUnlink H1 zp).mem zp).right = (H1.mem zp).right :=
    unlink_self_right H1.mem zp
  rw [hright] at hEq
  generalize hG : rest ++ cs = G at *
  cases G with
  | nil =>
    have hr : (H1.mem zp).right = zp := rr1.ring.1
    rw [hr, if_pos rfl] at hEq
    refine ⟨_, [], hEq, ⟨⟨trivial, ⟨trivial, List.nodup_nil, (by simp [rootsOf]), rfl⟩,
      List.nodup_nil, fun p hp => (by cases hp), ?_, ?_⟩, trivial, trivial, trivial⟩,
      List.Perm.refl _, hn1, fun t ht => (by cases ht)⟩
    · show 0 < H1.next
      rw [hn1]; exact h.repr.next_pos
    · show H1.numNodes - 1 = 0
      rw [hnum1, ← hlenG]
      rfl
  | cons g G' =>
    have hr : (H1.mem zp).right = g.ptr := rr1.ring.1
    have hgz : zp ≠ g.ptr := by
      intro c
      exact (List.nodup_cons.mp rr1.nodup).1 (c ▸ List.mem_cons_self _ _)
    rw [hr, if_neg hgz] at hEq
    have hring2 : Ring (unlink H1.mem zp) (rootsOf (g :: G')) :=
      unlink_ring H1.mem zp _ rr1.ring rr1.nodup
    obtain ⟨hzl, hzr⟩ := ring_head_mem H1.mem zp (rootsOf (g :: G')) rr1.ring
    have hNG2 : (nodesL (g :: G')).Nodup := (List.nodup_cons.mp hNG).2
    have hok2 : ForestOK (unlink H1.mem zp) 0 (g :: G') := by
      apply forestOK_root_frame H1.mem _ _ 0 0 _ _ ok1
      · intro t ht q hq
        have hqn : q ∈ nodesL (g :: G') :=
          mem_nodesL.mpr ⟨t, ht, by rw [nodes_eq]; exact List.mem_cons_of_mem _ hq⟩
        have hqr : q ∉ zp :: rootsOf (g :: G') := by
          intro c
          rcases List.mem_cons.mp c with c1 | c1
          · exact (List.nodup_cons.mp hNG).1 (c1 ▸ hqn)
          · exact inner_not_root hNG2 ht hq c1
        exact unlink_ne _ _ _ (fun c => hqr (c ▸ hzl)) (fun c => hqr (c ▸ hzr))
      · intro t ht
        obtain ⟨a, b, c, d, e, f⟩ := unlink_other H1.mem zp t.ptr
        refine ⟨a, b, f, e, d, ?_⟩
        rw [c]
        exact (treeOK_fields (forestOK_iff.mp ok1 t ht)).2.2.2.1
    have hrr2 : RootRing (unlink H1.mem zp) g.ptr (rootsOf (g :: G')) :=
      ⟨hring2, (List.nodup_cons.mp rr1.nodup).2,
        fun c => rr1.nz (List.mem_cons_of_mem _ c), rfl⟩
    obtain ⟨H4, ts4, c1, c2, c3, c4, c5, c6, c7, c8, c9, c10⟩ :=
      consolidate_spec { afterUnlink H1 zp with minNode := g.ptr } (g :: G')
        (List.cons_ne_nil _ _) hok2 hrr2 hNG2 hZG hho' hfib'
        (by
          show (nodesL (g :: G')).length ≤ H1.numNodes
          rw [hnum1, ← hlenG]
          omega)
    rw [c1] at hEq
    have hnp : (nodesL ts4).Perm (nodesL (g :: G')) := by
      rw [← itemsL_fst, ← itemsL_fst]
      exact c4.map _
    refine ⟨_, ts4, hEq, ⟨⟨c2, c3, hnp.nodup_iff.mpr hNG2, ?_, ?_, ?_⟩, c5, c6, c7⟩, c4,
      c8.trans hn1, c10⟩
    · intro p hp
      have h1 := hpos p (hGp.subset (List.mem_cons_of_mem _ (hnp.subset hp)))
      have e : H4.next = H.next := c8.trans hn1
      exact ⟨h1.1, by show p < H4.next; rw [e]; exact h1.2⟩
    · show 0 < H4.next
      rw [c8]
      show 0 < H1.next
      rw [hn1]; exact h.repr.next_pos
    · show H4.numNodes - 1 = (nodesL ts4).length
      rw [c9, hnp.length_eq]
      show H1.numNodes - 1 = _
      rw [hnum1, ← hlenG]
      omega

end Fib

set_option linter.unusedTactic false
set_option linter.unreachableTactic false
set_option linter.unusedVariables false

namespace Fib

/-! ## Fibonacci heap: well-formed heaps -/

mutual
theorem heapOrdT_min : ∀ t : Tree, HeapOrdT t → ∀ it ∈ items t, t.key ≤ it.2.1
  | Tree.node p k v mk cs, ⟨h1, h2⟩, it, hit => by
    rcases List.mem_cons.mp hit with e | e
    · rw [e]; exact le_refl _
    · exact heapOrdL_min cs k h2 h1 it e
theorem heapOrdL_min : ∀ (cs : List Tree) (k : Int), HeapOrdL cs → (∀ c ∈ cs, k ≤ c.key) →
    ∀ it ∈ itemsL cs, k ≤ it.2.1
  | [], _, _, _, it, hit => by cases hit
  | c :: cs, k, ⟨h1, h2⟩, hk, it, hit => by
    rcases List.mem_append.mp hit with e | e
    · exact le_trans (hk c (List.mem_cons_self _ _)) (heapOrdT_min c h1 it e)
    · exact heapOrdL_min cs k h2 (fun d hd => hk d (List.mem_cons_of_mem _ hd)) it e
end

mutual
theorem items_fields (m : Nat → FibHeapNode) : ∀ (t : Tree) (par : Nat), TreeOK m par t →
    ∀ it ∈ items t, (m it.1).key = it.2.1 ∧ (m it.1).value = it.2.2
  | Tree.node p k v mk cs, par, ⟨h1, h2, _, _, _, _, _, h8⟩, it, hit => by
    rcases List.mem_cons.mp hit with e | e
    · rw [e]; exact ⟨h1, h2⟩
    · exact itemsL_fields m cs p h8 it e
theorem itemsL_fields (m : Nat → FibHeapNode) : ∀ (ts : List Tree) (par : Nat),
    ForestOK m par ts → ∀ it ∈ itemsL ts, (m it.1).key = it.2.1 ∧ (m it.1).value = it.2.2
  | [], _, _, it, hit => by cases hit
  | t :: ts, par, ⟨h1, h2⟩, it, hit => by
    rcases List.mem_append.mp hit with e | e
    · exact items_fields m t par h1 it e
    · exact itemsL_fields m ts par h2 it e
end

theorem root_item (t : Tree) : (t.ptr, t.key, t.value) ∈ items t := by
  cases t; exact List.mem_cons_self _ _

theorem wf_min {H : FibHeap} {z : Tree} {rest : List Tree} (h : FibWF H (z :: rest)) :
    ∀ it ∈ itemsL (z :: rest), z.key ≤ it.2.1 := by
  apply heapOrdL_min (z :: rest) z.key h.ho
  intro c hc
  rcases List.mem_cons.mp hc with e | e
  · rw [e]
  · exact h.mh c e

theorem wf_empty_iff {H : FibHeap} {ts : List Tree} (h : FibWF H ts) :
    H.minNode = 0 ↔ ts = [] := by
  have hm := h.repr.rr.min
  cases ts with
  | nil => simp [hm, rootsOf]
  | cons t tl =>
    have : t.ptr ≠ 0 := fun c => h.repr.rr.nz (c ▸ List.mem_cons_self _ _)
    have e : H.minNode = t.ptr := hm
    simp [e, this]

theorem createFibHeap_wf : FibWF createFibHeap [] :=
  ⟨createFibHeap_repr, trivial, trivial, trivial⟩

theorem insert_wf (H : FibHeap) (ts : List Tree) (k v : Int) (h : FibWF H ts) :
    FibWF (fibHeapInsert H k v).2 (insertTrees ts H.next k v) := by
  have hp := insertTrees_perm ts H.next k v
  refine ⟨(insert_repr H ts k v h.repr).2.1, ?_, ?_, ?_⟩
  · rw [heapOrdL_iff]
    intro t ht
    rcases List.mem_cons.mp (hp.subset ht) with e | e
    · rw [e]
      exact ⟨fun c hc => (by cases hc), trivial⟩
    · exact heapOrdL_iff.mp h.ho t e
  · rw [fibL_iff]
    intro t ht
    rcases List.mem_cons.mp (hp.subset ht) with e | e
    · rw [e]
      exact ⟨trivial, trivial⟩
    · exact fibL_iff.mp h.fib t e
  · unfold insertTrees
    cases ts with
    | nil => intro t ht; cases ht
    | cons hd tl =>
      simp only
      by_cases hk : k < hd.key
      · rw [if_pos hk]
        intro t ht
        rcases List.mem_cons.mp ht with e | e
        · rw [e]; exact le_of_lt hk
        · exact le_trans (le_of_lt hk) (h.mh t e)
      · rw [if_neg hk]
        intro t ht
        have ht' : t ∈ tl ++ [Tree.node H.next k v false []] := ht
        rcases List.mem_append.mp ht' with e | e
        · exact h.mh t e
        · rw [List.mem_singleton.mp e]
          exact not_lt.mp hk

theorem insert_items (ts : List Tree) (p : Nat) (k v : Int) :
    (itemsL (insertTrees ts p k v)).Perm ((p, k, v) :: itemsL ts) :=
  itemsL_perm (insertTrees_perm ts p k v)

/-- A heap with the three entries `(5, 1)`, `(3, 2)` and `(4, 3)`. -/
def sampleFibHeap : FibHeap :=
  (fibHeapInsert (fibHeapInsert (fibHeapInsert createFibHeap 5 1).2 3 2).2 4 3).2

/-- The forest of `sampleFibHeap`. -/
def sampleTrees : List Tree :=
  insertTrees (insertTrees (insertTrees [] 1 5 1) 2 3 2) 3 4 3

theorem sample_wf : FibWF sampleFibHeap sampleTrees := by
  have h1 := insert_wf createFibHeap [] 5 1 createFibHeap_wf
  have n1 := (insert_repr createFibHeap [] 5 1 createFibHeap_repr).2.2
  have h2 := insert_wf _ _ 3 2 h1
  have n2 := (insert_repr _ _ 3 2 h1.repr).2.2
  have h3 := insert_wf _ _ 4 3 h2
  rw [n2, n1] at h3
  exact h3

end Fib

set_option linter.unusedTactic false
set_option linter.unreachableTactic false
set_option linter.unusedVariables false

namespace Fib

/-! ## Fibonacci heap: extract-min and the round trip -/

/-- Calls `fibHeapInsert` for each `(key, payload)` pair in turn. -/
def fibInsertAll (H : FibHeap) : List (Int × Int) → FibHeap
  | [] => H
  | e :: es => fibInsertAll (fibHeapInsert H e.1 e.2).2 es

/-- Calls `fibHeapExtractMin` `n` times; the returned payloads in order, and
the heap afterwards. -/
def fibExtractN : Nat → FibHeap → Option (List Int × FibHeap)
  | 0, H => some ([], H)
  | n + 1, H =>
    match fibHeapExtractMin H with
    | none => none
    | some (v, H1) =>
      match fibExtractN n H1 with
      | none => none
      | some (vs, H2) => some (v :: vs, H2)

theorem wf_cons_of_nonempty {H : FibHeap} {ts : List Tree} (h : FibWF H ts)
    (hne : fibHeapIsEmpty H = false) : ∃ z rest, ts = z :: rest := by
  cases ts with
  | nil =>
    exfalso
    have := (wf_empty_iff h).mpr rfl
    simp [fibHeapIsEmpty, this] at hne
  | cons z rest => exact ⟨z, rest, rfl⟩

theorem wf_numNodes {H : FibHeap} {ts : List Tree} (h : FibWF H ts) :
    H.numNodes = (itemsL ts).length := by
  rw [h.repr.num, ← itemsL_fst, List.length_map]

theorem extractMin_items (z : Tree) (rest : List Tree) :
    (itemsL (z :: rest)).Perm ((z.ptr, z.key, z.value) :: itemsL (rest ++ z.children)) := by
  cases z with
  | node p k v mk cs =>
    show (((p, k, v) :: itemsL cs) ++ itemsL rest).Perm ((p, k, v) :: itemsL (rest ++ cs))
    rw [itemsL_append]
    exact List.Perm.cons _ List.perm_append_comm

theorem extractMin_wf (H : FibHeap) (ts : List Tree) (hwf : FibWF H ts)
    (hne : fibHeapIsEmpty H = false) :
    ∃ p k v H' ts', fibHeapExtractMin H = some (v, H') ∧ (p, k, v) ∈ itemsL ts ∧
      (∀ it ∈ itemsL ts, k ≤ it.2.1) ∧ FibWF H' ts' ∧
      (itemsL ts).Perm ((p, k, v) :: itemsL ts') ∧ H'.numNodes + 1 = H.numNodes ∧
      H'.next = H.next := by
  obtain ⟨z, rest, rfl⟩ := wf_cons_of_nonempty hwf hne
  obtain ⟨H', ts', e1, e2, e3, e4, _⟩ := extractMin_spec H z rest hwf
  have hp : (itemsL (z :: rest)).Perm ((z.ptr, z.key, z.value) :: itemsL ts') :=
    (extractMin_items z rest).trans (List.Perm.cons _ e3.symm)
  refine ⟨z.ptr, z.key, z.value, H', ts', e1, ?_, wf_min hwf, e2, hp, ?_, e4⟩
  · exact List.mem_append_left _ (root_item z)
  · rw [wf_numNodes hwf, wf_numNodes e2, hp.length_eq]
    rfl

theorem itemsL_eq_nil {ts : List Tree} (h : (itemsL ts).length = 0) : ts = [] := by
  cases ts with
  | nil => rfl
  | cons t tl =>
    exfalso
    cases t with
    | node p k v mk cs =>
      have : (((p, k, v) :: itemsL cs) ++ itemsL tl).length = 0 := h
      simp at this

theorem fibExtractN_spec : ∀ (n : Nat) (H : FibHeap) (ts : List Tree), FibWF H ts →
    (itemsL ts).length = n →
    ∃ (out : List (Nat × Int × Int)) (H' : FibHeap),
      fibExtractN n H = some (out.map (fun it => it.2.2), H') ∧
      out.Perm (itemsL ts) ∧ out.Pairwise (fun a b => a.2.1 ≤ b.2.1) ∧ FibWF H' []
  | 0, H, ts, hwf, hlen => by
    have := itemsL_eq_nil hlen
    subst this
    exact ⟨[], H, rfl, List.Perm.refl _, List.Pairwise.nil, hwf⟩
  | n + 1, H, ts, hwf, hlen => by
    have hne : fibHeapIsEmpty H = false := by
      have : ts ≠ [] := by
        intro c
        rw [c] at hlen
        cases hlen
      have h0 : H.minNode ≠ 0 := fun c => this ((wf_empty_iff hwf).mp c)
      simp [fibHeapIsEmpty, h0]
    obtain ⟨p, k, v, H1, ts1, e1, e2, e3, e4, e5, e6, _⟩ := extractMin_wf H ts hwf hne
    have hl1 : (itemsL ts1).length = n := by
      have := e5.length_eq
      rw [hlen] at this
      simpa using this.symm
    obtain ⟨out, H2, f1, f2, f3, f4⟩ := fibExtractN_spec n H1 ts1 e4 hl1
    refine ⟨(p, k, v) :: out, H2, ?_, ?_, ?_, f4⟩
    · show (match fibHeapExtractMin H with
        | none => none
        | some (v, H1) =>
          match fibExtractN n H1 with
          | none => none
          | some (vs, H2) => some (v :: vs, H2)) = _
      rw [e1]
      simp only
      rw [f1]
      rfl
    · exact (List.Perm.cons _ f2).trans e5.symm
    · rw [List.pairwise_cons]
      refine ⟨?_, f3⟩
      intro it hit
      exact e3 it (e5.symm.subset (List.mem_cons_of_mem _ (f2.subset hit)))

theorem fibInsertAll_wf : ∀ (pairs : List (Int × Int)) (H : FibHeap) (ts : List Tree),
    FibWF H ts →
    ∃ ts', FibWF (fibInsertAll H pairs) ts' ∧
      ((itemsL ts').map Prod.snd).Perm (pairs ++ (itemsL ts).map Prod.snd)
  | [], H, ts, hwf => ⟨ts, hwf, List.Perm.refl _⟩
  | e :: es, H, ts, hwf => by
    obtain ⟨ts', h1, h2⟩ := fibInsertAll_wf es _ _ (insert_wf H ts e.1 e.2 hwf)
    refine ⟨ts', h1, h2.trans ?_⟩
    have := (insert_items ts H.next e.1 e.2).map Prod.snd
    refine (List.Perm.append_left es this).trans ?_
    show (es ++ e :: (itemsL ts).map Prod.snd).Perm (e :: (es ++ (itemsL ts).map Prod.snd))
    exact List.perm_middle

/-- C11. On a non-empty well-formed heap `fibHeapExtractMin` returns the payload
`v` of a node `(p, k, v)` of the heap whose key `k` is at most the key of every
node; the heap afterwards is well formed and holds exactly the former nodes
with their keys and payloads except that node, and `numNodes` has gone down by
one. -/
theorem fibHeapExtractMin_correct (H : FibHeap) (ts : List Tree) (hwf : FibWF H ts)
    (hne : fibHeapIsEmpty H = false) :
    ∃ p k v H' ts', fibHeapExtractMin H = some (v, H') ∧ (p, k, v) ∈ itemsL ts ∧
      (∀ it ∈ itemsL ts, k ≤ it.2.1) ∧ FibWF H' ts' ∧
      (itemsL ts).Perm ((p, k, v) :: itemsL ts') ∧ H'.numNodes + 1 = H.numNodes := by
  obtain ⟨p, k, v, H', ts', h⟩ := extractMin_wf H ts hwf hne
  exact ⟨p, k, v, H', ts', h.1, h.2.1, h.2.2.1, h.2.2.2.1, h.2.2.2.2.1, h.2.2.2.2.2.1⟩

theorem fibHeapExtractMin_correct_witness :
    (fibHeapExtractMin sampleFibHeap).map Prod.fst = some 2 ∧
    ∃ p k v H' ts', fibHeapExtractMin sampleFibHeap = some (v, H') ∧
      (p, k, v) ∈ itemsL sampleTrees ∧
      (∀ it ∈ itemsL sampleTrees, k ≤ it.2.1) ∧ FibWF H' ts' ∧
      (itemsL sampleTrees).Perm ((p, k, v) :: itemsL ts') ∧
      H'.numNodes + 1 = sampleFibHeap.numNodes :=
  ⟨by decide!, fibHeapExtractMin_correct sampleFibHeap sampleTrees sample_wf (by decide!)⟩

/-- C15 (amended). On an empty heap `fibHeapExtractMin` returns `-1` and leaves
the heap unchanged; on a non-empty well-formed heap none of whose payloads is
`-1` it returns a value different from `-1`. -/
theorem fibHeapExtractMin_empty_signal (H : FibHeap) (ts : List Tree) (hwf : FibWF H ts)
    (hpay : ∀ it ∈ itemsL ts, it.2.2 ≠ -1) :
    (fibHeapIsEmpty H = true → fibHeapExtractMin H = some (-1, H)) ∧
    (fibHeapIsEmpty H = false →
      ∃ v H', fibHeapExtractMin H = some (v, H') ∧ v ≠ -1) := by
  constructor
  · intro he
    have h0 : H.minNode = 0 := by simpa [fibHeapIsEmpty] using he
    unfold fibHeapExtractMin
    simp only [h0, if_true]
  · intro hne
    obtain ⟨p, k, v, H', ts', e1, e2, _⟩ := extractMin_wf H ts hwf hne
    exact ⟨v, H', e1, hpay _ e2⟩

theorem fibHeapExtractMin_empty_signal_witness :
    fibHeapIsEmpty sampleFibHeap = false ∧
    ∃ v H', fibHeapExtractMin sampleFibHeap = some (v, H') ∧ v ≠ -1 :=
  ⟨by decide!,
   (fibHeapExtractMin_empty_signal sampleFibHeap sampleTrees sample_wf (by decide)).2
     (by decide!)⟩

/-- C6. Inserting the `(key, payload)` pairs of any list into a fresh heap and
extracting as many times as there are pairs returns the payloads of the list
in an order `sorted` of the pairs whose keys are non-decreasing, every pair
once, and leaves the heap empty with `numNodes = 0`. -/
theorem fib_heap_round_trip (pairs : List (Int × Int)) :
    ∃ (sorted : List (Int × Int)) (H' : FibHeap),
      fibExtractN pairs.length (fibInsertAll createFibHeap pairs)
        = some (sorted.map Prod.snd, H') ∧
      sorted.Perm pairs ∧ sorted.Pairwise (fun a b => a.1 ≤ b.1) ∧
      fibHeapIsEmpty H' = true ∧ H'.numNodes = 0 := by
  obtain ⟨ts, h1, h2⟩ := fibInsertAll_wf pairs createFibHeap [] createFibHeap_wf
  have h2' : ((itemsL ts).map Prod.snd).Perm pairs := by simpa [itemsL] using h2
  have hlen : (itemsL ts).length = pairs.length := by
    rw [← h2'.length_eq, List.length_map]
  obtain ⟨out, H', f1, f2, f3, f4⟩ := fibExtractN_spec pairs.length _ ts h1 hlen
  refine ⟨out.map Prod.snd, H', ?_, (f2.map _).trans h2', ?_, ?_, ?_⟩
  · rw [f1, List.map_map]
    rfl
  · rw [List.pairwise_map]
    exact f3
  · have := (wf_empty_iff f4).mpr rfl
    simp [fibHeapIsEmpty, this]
  · rw [wf_numNodes f4]
    rfl

end Fib

set_option linter.unusedTactic false
set_option linter.unreachableTactic false
set_option linter.unusedVariables false

namespace Fib

/-! ## Fibonacci heap: a node inside its tree -/

/-- One step of the path from a node up to its root: the parent node with the
children to the left and to the right of the path. -/
structure Frame where
  p : Nat
  key : Int
  value : Int
  mark : Bool
  left : List Tree
  right : List Tree

/-- The parent node of the frame with `t` between its other children. -/
def Frame.fill (f : Frame) (t : Tree) : Tree :=
  Tree.node f.p f.key f.value f.mark (f.left ++ t :: f.right)

/-- The parent node of the frame with its other children only. -/
def Frame.remove (f : Frame) : Tree :=
  Tree.node f.p f.key f.value f.mark (f.left ++ f.right)

/-- The tree around `t`: the frames, innermost first, one after the other. -/
def plug : List Frame → Tree → Tree
  | [], t => t
  | f :: ctx, t => plug ctx (f.fill t)

theorem plug_append : ∀ (c1 c2 : List Frame) (t : Tree),
    plug (c1 ++ c2) t = plug c2 (plug c1 t)
  | [], _, _ => rfl
  | f :: c1, c2, t => plug_append c1 c2 (f.fill t)

mutual
theorem find_tree : ∀ (t : Tree) (x : Nat), x ∈ nodes t →
    ∃ ctx tx, t = plug ctx tx ∧ tx.ptr = x
  | Tree.node p k v mk cs, x, hx => by
    rcases List.mem_cons.mp hx with e | e
    · exact ⟨[], Tree.node p k v mk cs, rfl, e.symm⟩
    · obtain ⟨l, r, ctx, tx, h1, h2⟩ := find_forest cs x e
      refine ⟨ctx ++ [⟨p, k, v, mk, l, r⟩], tx, ?_, h2⟩
      rw [plug_append, h1]
      rfl
theorem find_forest : ∀ (cs : List Tree) (x : Nat), x ∈ nodesL cs →
    ∃ l r ctx tx, cs = l ++ plug ctx tx :: r ∧ tx.ptr = x
  | [], x, hx => by cases hx
  | c :: cs, x, hx => by
    rcases List.mem_append.mp hx with e | e
    · obtain ⟨ctx, tx, h1, h2⟩ := find_tree c x e
      exact ⟨[], cs, ctx, tx, by rw [← h1]; rfl, h2⟩
    · obtain ⟨l, r, ctx, tx, h1, h2⟩ := find_forest cs x e
      exact ⟨c :: l, r, ctx, tx, by rw [h1]; rfl, h2⟩
end

theorem items_fill_add (f : Frame) (s s' : Tree) (E : List (Nat × Int × Int))
    (h : (items s).Perm (items s' ++ E)) :
    (items (f.fill s)).Perm (items (f.fill s') ++ E) := by
  show ((f.p, f.key, f.value) :: itemsL (f.left ++ s :: f.right)).Perm
    (((f.p, f.key, f.value) :: itemsL (f.left ++ s' :: f.right)) ++ E)
  rw [itemsL_append, itemsL_append]
  show ((f.p, f.key, f.value) :: (itemsL f.left ++ (items s ++ itemsL f.right))).Perm
    ((f.p, f.key, f.value) :: ((itemsL f.left ++ (items s' ++ itemsL f.right)) ++ E))
  apply List.Perm.cons
  rw [List.append_assoc]
  apply List.Perm.append_left
  refine (List.Perm.append_right _ h).trans ?_
  rw [List.append_assoc, List.append_assoc]
  exact List.Perm.append_left _ List.perm_append_comm

theorem items_plug_add : ∀ (ctx : List Frame) (s s' : Tree) (E : List (Nat × Int × Int)),
    (items s).Perm (items s' ++ E) → (items (plug ctx s)).Perm (items (plug ctx s') ++ E)
  | [], _, _, _, h => h
  | f :: ctx, s, s', E, h => items_plug_add ctx _ _ E (items_fill_add f s s' E h)

theorem items_fill_remove (f : Frame) (t : Tree) :
    (items (f.fill t)).Perm (items f.remove ++ items t) := by
  show ((f.p, f.key, f.value) :: itemsL (f.left ++ t :: f.right)).Perm
    (((f.p, f.key, f.value) :: itemsL (f.left ++ f.right)) ++ items t)
  rw [itemsL_append, itemsL_append]
  show ((f.p, f.key, f.value) :: (itemsL f.left ++ (items t ++ itemsL f.right))).Perm
    ((f.p, f.key, f.value) :: ((itemsL f.left ++ itemsL f.right) ++ items t))
  apply List.Perm.cons
  rw [List.append_assoc]
  exact List.Perm.append_left _ List.perm_append_comm

theorem items_plug_remove (ctx : List Frame) (f : Frame) (t : Tree) :
    (items (plug ctx (f.fill t))).Perm (items (plug ctx f.remove) ++ items t) :=
  items_plug_add ctx _ _ _ (items_fill_remove f t)

theorem plug_root : ∀ (ctx : List Frame) (t t' : Tree),
    (ctx = [] → t.ptr = t'.ptr ∧ t.key = t'.key) →
    (plug ctx t).ptr = (plug ctx t').ptr ∧ (plug ctx t).key = (plug ctx t').key
  | [], _, _, h => h rfl
  | f :: ctx, t, t', _ => plug_root ctx (f.fill t) (f.fill t') (fun _ => ⟨rfl, rfl⟩)

theorem plug_ptr (ctx : List Frame) (t t' : Tree) (h : t.ptr = t'.ptr) :
    (plug ctx t).ptr = (plug ctx t').ptr := by
  induction ctx generalizing t t' with
  | nil => exact h
  | cons f ctx ih => exact ih _ _ rfl

theorem nodes_plug_sub : ∀ (ctx : List Frame) (t : Tree), nodes t ⊆ nodes (plug ctx t)
  | [], _ => fun _ h => h
  | f :: ctx, t => by
    intro q hq
    apply nodes_plug_sub ctx (f.fill t)
    show q ∈ f.p :: nodesL (f.left ++ t :: f.right)
    rw [nodesL_append]
    exact List.mem_cons_of_mem _ (List.mem_append_right _ (List.mem_append_left _ hq))

/-! ### Heap order and the degree condition along the path -/

/-- Heap order of the frames around a node with key `k`. -/
def CtxHO : List Frame → Int → Prop
  | [], _ => True
  | f :: ctx, k => f.key ≤ k ∧ HeapOrdL f.left ∧ HeapOrdL f.right ∧
      (∀ c ∈ f.left ++ f.right, f.key ≤ c.key) ∧ CtxHO ctx f.key

theorem heapOrdT_fill (f : Frame) (t : Tree) :
    HeapOrdT (f.fill t) ↔ HeapOrdT t ∧ f.key ≤ t.key ∧ HeapOrdL f.left ∧ HeapOrdL f.right ∧
      (∀ c ∈ f.left ++ f.right, f.key ≤ c.key) := by
  show ((∀ c ∈ f.left ++ t :: f.right, f.key ≤ c.key) ∧ HeapOrdL (f.left ++ t :: f.right)) ↔ _
  rw [heapOrdL_append]
  show (_ ∧ HeapOrdL f.left ∧ HeapOrdT t ∧ HeapOrdL f.right) ↔ _
  simp only [List.mem_append, List.mem_cons]
  constructor
  · rintro ⟨h1, h2, h3, h4⟩
    refine ⟨h3, h1 t (Or.inr (Or.inl rfl)), h2, h4, ?_⟩
    rintro c (hc | hc)
    · exact h1 c (Or.inl hc)
    · exact h1 c (Or.inr (Or.inr hc))
  · rintro ⟨h1, h2, h3, h4, h5⟩
    refine ⟨?_, h3, h1, h4⟩
    rintro c (hc | hc | hc)
    · exact h5 c (Or.inl hc)
    · rw [hc]; exact h2
    · exact h5 c (Or.inr hc)

theorem heapOrdT_remove (f : Frame) :
    HeapOrdT f.remove ↔ HeapOrdL f.left ∧ HeapOrdL f.right ∧
      (∀ c ∈ f.left ++ f.right, f.key ≤ c.key) := by
  show ((∀ c ∈ f.left ++ f.right, f.key ≤ c.key) ∧ HeapOrdL (f.left ++ f.right)) ↔ _
  rw [heapOrdL_append]
  tauto

theorem heapOrdT_plug : ∀ (ctx : List Frame) (t : Tree),
    HeapOrdT (plug ctx t) ↔ HeapOrdT t ∧ CtxHO ctx t.key
  | [], t => by simp [plug, CtxHO]
  | f :: ctx, t => by
    show HeapOrdT (plug ctx (f.fill t)) ↔ _
    rw [heapOrdT_plug ctx (f.fill t), heapOrdT_fill]
    show _ ↔ HeapOrdT t ∧ (f.key ≤ t.key ∧ HeapOrdL f.left ∧ HeapOrdL f.right ∧
      (∀ c ∈ f.left ++ f.right, f.key ≤ c.key) ∧ CtxHO ctx f.key)
    have : (f.fill t).key = f.key := rfl
    rw [this]
    tauto

/-- The degree condition of the frames around a node with `d` children and
mark `mk`. -/
def CtxFib : List Frame → Nat → Bool → Prop
  | [], _, _ => True
  | f :: ctx, d, mk => childOK 0 f.left ∧ f.left.length ≤ d + (if mk then 1 else 0) ∧
      childOK (f.left.length + 1) f.right ∧ FibL f.left ∧ FibL f.right ∧
      CtxFib ctx (f.left.length + 1 + f.right.length) f.mark

theorem fibT_fill (f : Frame) (t : Tree) :
    FibT (f.fill t) ↔ FibT t ∧ childOK 0 f.left ∧
      f.left.length ≤ t.children.length + (if t.mark then 1 else 0) ∧
      childOK (f.left.length + 1) f.right ∧ FibL f.left ∧ FibL f.right := by
  show (childOK 0 (f.left ++ t :: f.right) ∧ FibL (f.left ++ t :: f.right)) ↔ _
  rw [fibL_append, childOK_append]
  show (_ ∧ (0 + f.left.length ≤ t.children.length + (if t.mark then 1 else 0) ∧
    childOK (0 + f.left.length + 1) f.right)) ∧ FibL f.left ∧ FibT t ∧ FibL f.right ↔ _
  simp only [Nat.zero_add]
  tauto

theorem fibT_plug : ∀ (ctx : List Frame) (t : Tree),
    FibT (plug ctx t) ↔ FibT t ∧ CtxFib ctx t.children.length t.mark
  | [], t => by simp [plug, CtxFib]
  | f :: ctx, t => by
    show FibT (plug ctx (f.fill t)) ↔ _
    rw [fibT_plug ctx (f.fill t), fibT_fill]
    show _ ↔ FibT t ∧ (childOK 0 f.left ∧
      f.left.length ≤ t.children.length + (if t.mark then 1 else 0) ∧
      childOK (f.left.length + 1) f.right ∧ FibL f.left ∧ FibL f.right ∧
      CtxFib ctx (f.left.length + 1 + f.right.length) f.mark)
    have e1 : (f.fill t).children.length = f.left.length + 1 + f.right.length := by
      show (f.left ++ t :: f.right).length = _
      simp
      omega
    have e2 : (f.fill t).mark = f.mark := rfl
    rw [e1, e2]
    tauto

end Fib

set_option linter.unusedTactic false
set_option linter.unreachableTactic false
set_option linter.unusedVariables false

namespace Fib

/-! ## Fibonacci heap: changing the memory at one node of a tree -/

/-- The parent of the node inside the frames `ctx`, below the parent `par` of
the root. -/
def ctxPar : List Frame → Nat → Nat
  | [], par => par
  | f :: _, _ => f.p

theorem nodes_fill (f : Frame) (t : Tree) :
    nodes (f.fill t) = f.p :: (nodesL f.left ++ (nodes t ++ nodesL f.right)) := by
  show f.p :: nodesL (f.left ++ t :: f.right) = _
  rw [nodesL_append]
  rfl

theorem rootsOf_fill (f : Frame) (t : Tree) :
    rootsOf (f.left ++ t :: f.right) = rootsOf f.left ++ t.ptr :: rootsOf f.right := by
  rw [rootsOf_append]
  rfl

theorem headPtr_fill (f : Frame) (t t' : Tree) (h : t'.ptr = t.ptr) :
    headPtr (f.left ++ t' :: f.right) = headPtr (f.left ++ t :: f.right) := by
  cases hl : f.left with
  | nil => exact h
  | cons a l => rfl

theorem plug_sub (m : Nat → FibHeapNode) : ∀ (ctx : List Frame) (t : Tree) (par : Nat),
    TreeOK m par (plug ctx t) → TreeOK m (ctxPar ctx par) t
  | [], _, _, h => h
  | f :: ctx, t, par, h => by
    have h1 : TreeOK m (ctxPar ctx par) (f.fill t) := plug_sub m ctx (f.fill t) par h
    have h2 : ForestOK m f.p (f.left ++ t :: f.right) := h1.2.2.2.2.2.2.2
    exact (forestOK_append.mp h2).2.1

theorem fill_frame (m m' : Nat → FibHeapNode) (f : Frame) (t t' : Tree) (P : Nat)
    (h : TreeOK m P (f.fill t)) (hp : t'.ptr = t.ptr)
    (hfp : (m' f.p).key = (m f.p).key ∧ (m' f.p).value = (m f.p).value ∧
      (m' f.p).mark = (m f.p).mark ∧ (m' f.p).degree = (m f.p).degree ∧
      (m' f.p).child = (m f.p).child ∧ (m' f.p).parent = (m f.p).parent)
    (hsib : ∀ q ∈ nodesL f.left ++ nodesL f.right, m' q = m q)
    (hlinks : (m' t.ptr).left = (m t.ptr).left ∧ (m' t.ptr).right = (m t.ptr).right)
    (ht : TreeOK m f.p t → TreeOK m' f.p t') : TreeOK m' P (f.fill t') := by
  obtain ⟨h1, h2, h3, h4, h5, h6, h7, h8⟩ := h
  obtain ⟨a1, a2, a3, a4, a5, a6⟩ := hfp
  have h8' := forestOK_append.mp h8
  refine ⟨a1.trans h1, a2.trans h2, a3.trans h3, a6.trans h4, ?_, ?_, ?_, ?_⟩
  · rw [a4, h5]
    simp
  · rw [a5, h6]
    exact (headPtr_fill f t t' hp).symm
  · rw [rootsOf_fill, hp, ← rootsOf_fill]
    apply ring_frame m m' _ h7
    · intro q hq
      rw [rootsOf_fill] at hq
      rcases List.mem_append.mp hq with c | c
      · rw [hsib q (List.mem_append_left _ (rootsOf_subset c))]
      · rcases List.mem_cons.mp c with c1 | c1
        · rw [c1]; exact hlinks.2
        · rw [hsib q (List.mem_append_right _ (rootsOf_subset c1))]
    · intro q hq
      rw [rootsOf_fill] at hq
      rcases List.mem_append.mp hq with c | c
      · rw [hsib q (List.mem_append_left _ (rootsOf_subset c))]
      · rcases List.mem_cons.mp c with c1 | c1
        · rw [c1]; exact hlinks.1
        · rw [hsib q (List.mem_append_right _ (rootsOf_subset c1))]
  · apply forestOK_append.mpr
    refine ⟨forestOK_congr m m' _ _ (fun q hq => hsib q (List.mem_append_left _ hq)) h8'.1,
      ht h8'.2.1, forestOK_congr m m' _ _ (fun q hq => hsib q (List.mem_append_right _ hq))
        h8'.2.2⟩

theorem plug_root_not_in : ∀ (ctx : List Frame) (s : Tree), ctx ≠ [] →
    (nodes (plug ctx s)).Nodup → (plug ctx s).ptr ∉ nodes s
  | [], _, h, _ => absurd rfl h
  | [g], s, _, hnd => by
    have h1 : (nodes (g.fill s)).Nodup := hnd
    rw [nodes_fill] at h1
    intro c
    exact (List.nodup_cons.mp h1).1
      (List.mem_append_right _ (List.mem_append_left _ c))
  | g :: h :: ctx, s, _, hnd => by
    have ih := plug_root_not_in (h :: ctx) (g.fill s) (List.cons_ne_nil _ _) hnd
    intro c
    apply ih
    have : nodes s ⊆ nodes (g.fill s) := nodes_plug_sub [g] s
    exact this c

theorem nodup_of_plug : ∀ (ctx : List Frame) (s : Tree),
    (nodes (plug ctx s)).Nodup → (nodes s).Nodup
  | [], _, h => h
  | f :: ctx, s, h => by
    have h1 := nodup_of_plug ctx (f.fill s) h
    rw [nodes_fill] at h1
    exact (List.nodup_append.mp (List.nodup_append.mp (List.nodup_cons.mp h1).2).2.1).1

theorem plug_frame (m m' : Nat → FibHeapNode) : ∀ (ctx : List Frame) (t t' : Tree)
    (par : Nat),
    TreeOK m par (plug ctx t) → (nodes (plug ctx t)).Nodup → t'.ptr = t.ptr →
    (TreeOK m (ctxPar ctx par) t → TreeOK m' (ctxPar ctx par) t') →
    (∀ q ∈ nodes (plug ctx t), q ∉ nodes t → q ≠ (plug ctx t).ptr → m' q = m q) →
    (ctx ≠ [] →
      (m' (plug ctx t).ptr).key = (m (plug ctx t).ptr).key ∧
      (m' (plug ctx t).ptr).value = (m (plug ctx t).ptr).value ∧
      (m' (plug ctx t).ptr).mark = (m (plug ctx t).ptr).mark ∧
      (m' (plug ctx t).ptr).degree = (m (plug ctx t).ptr).degree ∧
      (m' (plug ctx t).ptr).child = (m (plug ctx t).ptr).child ∧
      (m' (plug ctx t).ptr).parent = (m (plug ctx t).ptr).parent) →
    (ctx ≠ [] → (m' t.ptr).left = (m t.ptr).left ∧ (m' t.ptr).right = (m t.ptr).right) →
    TreeOK m' par (plug ctx t')
  | [], t, t', par, h, _, _, ht, _, _, _ => ht h
  | f :: ctx, t, t', par, h, hnd, hp, ht, hfr, hroot, hlinks => by
    have hndf : (nodes (f.fill t)).Nodup := nodup_of_plug ctx (f.fill t) hnd
    have hndf' := hndf
    rw [nodes_fill] at hndf'
    have hsubf : nodes (f.fill t) ⊆ nodes (plug ctx (f.fill t)) := nodes_plug_sub ctx _
    have hfpmem : f.p ∈ nodes (f.fill t) := by rw [nodes_fill]; exact List.mem_cons_self _ _
    have hfpt : f.p ∉ nodes t := fun c =>
      (List.nodup_cons.mp hndf').1 (List.mem_append_right _ (List.mem_append_left _ c))
    have hA := List.nodup_append.mp (List.nodup_cons.mp hndf').2
    have hB := List.nodup_append.mp hA.2.1
    -- the parent node of the frame
    have hfpall : ctx ≠ [] → m' f.p = m f.p := by
      intro hc
      apply hfr f.p (hsubf hfpmem) hfpt
      intro c
      have := plug_root_not_in ctx (f.fill t) hc hnd
      exact this (c ▸ hfpmem)
    have hfp : (m' f.p).key = (m f.p).key ∧ (m' f.p).value = (m f.p).value ∧
        (m' f.p).mark = (m f.p).mark ∧ (m' f.p).degree = (m f.p).degree ∧
        (m' f.p).child = (m f.p).child ∧ (m' f.p).parent = (m f.p).parent := by
      by_cases hc : ctx = []
      · subst hc
        exact hroot (List.cons_ne_nil _ _)
      · rw [hfpall hc]
        exact ⟨rfl, rfl, rfl, rfl, rfl, rfl⟩
    have hsib : ∀ q ∈ nodesL f.left ++ nodesL f.right, m' q = m q := by
      intro q hq
      have hqf : q ∈ nodes (f.fill t) := by
        rw [nodes_fill]
        rcases List.mem_append.mp hq with c | c
        · exact List.mem_cons_of_mem _ (List.mem_append_left _ c)
        · exact List.mem_cons_of_mem _ (List.mem_append_right _ (List.mem_append_right _ c))
      have hqt : q ∉ nodes t := by
        intro c
        rcases List.mem_append.mp hq with c1 | c1
        · exact hA.2.2 c1 (List.mem_append_left _ c)
        · exact hB.2.2 c c1
      apply hfr q (hsubf hqf) hqt
      by_cases hc : ctx = []
      · subst hc
        show q ≠ f.p
        intro e
        apply (List.nodup_cons.mp hndf').1
        rw [← e]
        rcases List.mem_append.mp hq with c1 | c1
        · exact List.mem_append_left _ c1
        · exact List.mem_append_right _ (List.mem_append_right _ c1)
      · intro e
        exact plug_root_not_in ctx (f.fill t) hc hnd (e ▸ hqf)
    apply plug_frame m m' ctx (f.fill t) (f.fill t') par h hnd rfl
    · intro h1
      exact fill_frame m m' f t t' _ h1 hp hfp hsib (hlinks (List.cons_ne_nil _ _)) ht
    · intro q hq hqf hqr
      exact hfr q hq (fun c => hqf (nodes_plug_sub [f] t c)) hqr
    · intro hc
      exact hroot (List.cons_ne_nil _ _)
    · intro hc
      rw [show (f.fill t).ptr = f.p from rfl, hfpall hc]
      exact ⟨rfl, rfl⟩

end Fib

set_option linter.unusedTactic false
set_option linter.unreachableTactic false
set_option linter.unusedVariables false

namespace Fib

/-! ## Fibonacci heap: `_fibHeapCut` -/

theorem ring_remove (m : Nat → FibHeapNode) (a b : List Nat) (x : Nat)
    (h : Ring m (a ++ x :: b)) (hnd : (a ++ x :: b).Nodup) :
    Ring (unlink m x) (a ++ b) ∧ (m x).right = (b ++ a).headD x ∧
    (m x).left ∈ a ++ x :: b ∧ (m x).right ∈ a ++ x :: b := by
  have h1 : Ring m (x :: (b ++ a)) := ring_rotate m a (x :: b) h
  have hp : (x :: (b ++ a)).Perm (a ++ x :: b) := (@List.perm_append_comm _ (x :: b) a)
  have hnd1 : (x :: (b ++ a)).Nodup := hp.nodup_iff.mpr hnd
  have h2 : Ring (unlink m x) (b ++ a) := unlink_ring m x _ h1 hnd1
  obtain ⟨hl, hr⟩ := ring_head_mem m x (b ++ a) h1
  refine ⟨ring_rotate _ b a h2, ?_, hp.subset hl, hp.subset hr⟩
  cases hba : b ++ a with
  | nil =>
    rw [hba] at h1
    exact h1.1
  | cons g l =>
    rw [hba] at h1
    exact h1.1

/-- The writes of `_fibHeapCut` that take `x` out of the child list of `y`. -/
def cutChild (m : Nat → FibHeapNode) (x y : Nat) : Nat → FibHeapNode :=
  if (m x).right = x then setChild m y 0
  else if (unlink m x y).child = x then setChild (unlink m x) y (unlink m x x).right
  else unlink m x

/-- The memory of `_fibHeapCut` before `x` joins the root list. -/
def cutMem (m : Nat → FibHeapNode) (x y : Nat) : Nat → FibHeapNode :=
  setDegree (cutChild m x y) y ((cutChild m x y y).degree - 1)

theorem cut_eq (H : FibHeap) (x y : Nat) :
    _fibHeapCut H x y =
      { _fibHeapAddNodeToRootList { H with mem := cutMem H.mem x y } x with
        mem := setMark (setParent
          (_fibHeapAddNodeToRootList { H with mem := cutMem H.mem x y } x).mem x 0) x false } := by
  unfold _fibHeapCut cutMem cutChild
  by_cases h1 : (H.mem x).right = x
  · simp only [h1, if_true]
  · simp only [h1, if_false]
    rfl

theorem cutChild_fields (m : Nat → FibHeapNode) (x y q : Nat) :
    (cutChild m x y q).key = (m q).key ∧ (cutChild m x y q).value = (m q).value ∧
    (cutChild m x y q).parent = (m q).parent ∧ (cutChild m x y q).degree = (m q).degree ∧
    (cutChild m x y q).mark = (m q).mark ∧
    (q ≠ y → (cutChild m x y q).child = (m q).child) := by
  unfold cutChild
  obtain ⟨a, b, c, d, e, f⟩ := unlink_other m x q
  split_ifs with h1 h2
  · simp
    intro hq
    simp [hq]
  · simp only [setChild_key, setChild_value, setChild_parent, setChild_degree, setChild_mark,
      setChild_child]
    refine ⟨a, b, c, e, f, ?_⟩
    intro hq
    rw [if_neg hq]
    exact d
  · exact ⟨a, b, c, e, f, fun _ => d⟩

theorem cutChild_links (m : Nat → FibHeapNode) (x y q : Nat)
    (h1 : q ≠ (m x).left) (h2 : q ≠ (m x).right) :
    (cutChild m x y q).left = (m q).left ∧ (cutChild m x y q).right = (m q).right := by
  unfold cutChild
  split_ifs with c1 c2
  · simp
  · simp only [setChild_left, setChild_right]
    rw [unlink_ne _ _ _ h1 h2]
    exact ⟨rfl, rfl⟩
  · rw [unlink_ne _ _ _ h1 h2]
    exact ⟨rfl, rfl⟩

theorem cutChild_ring (m : Nat → FibHeapNode) (y : Nat) (a b : List Tree) (c : Tree)
    (hring : Ring m (rootsOf (a ++ c :: b))) (hnd : (rootsOf (a ++ c :: b)).Nodup)
    (hchild : (m y).child = headPtr (a ++ c :: b)) :
    Ring (cutChild m c.ptr y) (rootsOf (a ++ b)) ∧
    (cutChild m c.ptr y y).child = headPtr (a ++ b) ∧
    (m c.ptr).left ∈ rootsOf (a ++ c :: b) ∧ (m c.ptr).right ∈ rootsOf (a ++ c :: b) := by
  have hroots : rootsOf (a ++ c :: b) = rootsOf a ++ c.ptr :: rootsOf b := by
    rw [rootsOf_append]; rfl
  rw [hroots] at hring hnd
  obtain ⟨r1, r2, r3, r4⟩ := ring_remove m (rootsOf a) (rootsOf b) c.ptr hring hnd
  rw [hroots]
  refine ⟨?_, ?_, r3, r4⟩
  · unfold cutChild
    split_ifs with c1 c2
    · -- a single child
      have : rootsOf b ++ rootsOf a = [] := by
        cases hba : rootsOf b ++ rootsOf a with
        | nil => rfl
        | cons g l =>
          exfalso
          rw [hba] at r2
          have hg : g = c.ptr := r2.symm.trans c1
          have hgm : g ∈ rootsOf b ++ rootsOf a := by rw [hba]; exact List.mem_cons_self _ _
          have hnd' := List.nodup_append.mp hnd
          rcases List.mem_append.mp hgm with e | e
          · exact (List.nodup_cons.mp hnd'.2.1).1 (hg ▸ e)
          · exact hnd'.2.2 e (hg ▸ List.mem_cons_self _ _)
      have ha : a = [] := by
        cases a with
        | nil => rfl
        | cons t l => simp [rootsOf] at this
      have hb : b = [] := by
        cases b with
        | nil => rfl
        | cons t l => simp [rootsOf] at this
      subst ha; subst hb
      trivial
    · rw [rootsOf_append]
      exact ring_frame _ _ _ r1 (fun q _ => by simp) (fun q _ => by simp)
    · rw [rootsOf_append]
      exact r1
  · unfold cutChild
    have hyc : (unlink m c.ptr y).child = (m y).child := (unlink_other m c.ptr y).2.2.2.1
    split_ifs with c1 c2
    · have : rootsOf b ++ rootsOf a = [] := by
        cases hba : rootsOf b ++ rootsOf a with
        | nil => rfl
        | cons g l =>
          exfalso
          rw [hba] at r2
          have hg : g = c.ptr := r2.symm.trans c1
          have hgm : g ∈ rootsOf b ++ rootsOf a := by rw [hba]; exact List.mem_cons_self _ _
          have hnd' := List.nodup_append.mp hnd
          rcases List.mem_append.mp hgm with e | e
          · exact (List.nodup_cons.mp hnd'.2.1).1 (hg ▸ e)
          · exact hnd'.2.2 e (hg ▸ List.mem_cons_self _ _)
      have ha : a = [] := by
        cases a with
        | nil => rfl
        | cons t l => simp [rootsOf] at this
      have hb : b = [] := by
        cases b with
        | nil => rfl
        | cons t l => simp [rootsOf] at this
      subst ha; subst hb
      simp [headPtr]
    · -- `x` is the first child
      rw [hyc, hchild] at c2
      simp only [setChild_child, if_true]
      rw [unlink_self_right, r2]
      cases a with
      | nil =>
        cases b with
        | nil =>
          exfalso
          apply c1
          rw [r2]
          rfl
        | cons t l => rfl
      | cons t l =>
        exfalso
        have hnd' := List.nodup_append.mp hnd
        have e : t.ptr = c.ptr := c2
        exact hnd'.2.2 (List.mem_cons_self _ _) (e ▸ List.mem_cons_self _ _)
    · rw [hyc, hchild] at c2 ⊢
      cases a with
      | nil => exact absurd rfl c2
      | cons t l => rfl

end Fib

set_option linter.unusedTactic false
set_option linter.unreachableTactic false
set_option linter.unusedVariables false

namespace Fib

theorem node_ext (a b : FibHeapNode) (h1 : a.key = b.key) (h2 : a.value = b.value)
    (h3 : a.parent = b.parent) (h4 : a.child = b.child) (h5 : a.left = b.left)
    (h6 : a.right = b.right) (h7 : a.degree = b.degree) (h8 : a.mark = b.mark) : a = b := by
  cases a; cases b; simp_all

theorem cut_items (pre post : List Tree) (ctx : List Frame) (f : Frame) (c : Tree) :
    (itemsL (pre ++ plug ctx f.remove :: (post ++ [c.setMark false]))).Perm
      (itemsL (pre ++ plug ctx (f.fill c) :: post)) := by
  rw [itemsL_append, itemsL_append]
  apply List.Perm.append_left
  show (items (plug ctx f.remove) ++ itemsL (post ++ [c.setMark false])).Perm
    (items (plug ctx (f.fill c)) ++ itemsL post)
  rw [itemsL_append, itemsL_singleton, items_setMark]
  refine List.Perm.trans ?_ (List.Perm.append_right _ (items_plug_remove ctx f c).symm)
  rw [List.append_assoc]
  exact List.Perm.append_left _ List.perm_append_comm

theorem repr_of_perm {H H' : FibHeap} {F F' : List Tree} (hr : Repr H F)
    (hp : (itemsL F').Perm (itemsL F)) (hok : ForestOK H'.mem 0 F')
    (hrr : RootRing H'.mem H'.minNode (rootsOf F')) (hn : H'.next = H.next)
    (hnum : H'.numNodes = H.numNodes) : Repr H' F' := by
  have hnp : (nodesL F').Perm (nodesL F) := by
    rw [← itemsL_fst, ← itemsL_fst]
    exact hp.map _
  refine ⟨hok, hrr, hnp.nodup_iff.mpr hr.nodup, ?_, ?_, ?_⟩
  · intro p hp'
    rw [hn]
    exact hr.pos p (hnp.subset hp')
  · rw [hn]; exact hr.next_pos
  · rw [hnum, hr.num, hnp.length_eq]

theorem cut_spec (H : FibHeap) (pre post : List Tree) (ctx : List Frame) (f : Frame)
    (c : Tree) (hr : Repr H (pre ++ plug ctx (f.fill c) :: post)) :
    Repr (_fibHeapCut H c.ptr f.p)
      (pre ++ plug ctx f.remove :: (post ++ [c.setMark false])) ∧
    (_fibHeapCut H c.ptr f.p).minNode = H.minNode ∧
    (_fibHeapCut H c.ptr f.p).next = H.next ∧
    (_fibHeapCut H c.ptr f.p).numNodes = H.numNodes := by
  rw [cut_eq]
  generalize hm : H.mem = m
  have hok := hr.ok
  rw [hm] at hok
  obtain ⟨hokpre, hokT, hokpost⟩ : ForestOK m 0 pre ∧ TreeOK m 0 (plug ctx (f.fill c)) ∧
      ForestOK m 0 post := by
    have := forestOK_append.mp hok
    exact ⟨this.1, this.2.1, this.2.2⟩
  have hfill : TreeOK m (ctxPar ctx 0) (f.fill c) := plug_sub m ctx _ 0 hokT
  obtain ⟨y1, y2, y3, y4, y5, y6, y7, y8⟩ := hfill
  have hokc : TreeOK m f.p c := (forestOK_append.mp y8).2.1
  -- distinctness
  have hndAll : (nodesL pre ++ (nodes (plug ctx (f.fill c)) ++ nodesL post)).Nodup := by
    have := hr.nodup
    rw [nodesL_append] at this
    exact this
  have hA := List.nodup_append.mp hndAll
  have hB := List.nodup_append.mp hA.2.1
  have hndT : (nodes (plug ctx (f.fill c))).Nodup := hB.1
  have hndfill : (nodes (f.fill c)).Nodup := nodup_of_plug ctx _ hndT
  have hsubT : nodes (f.fill c) ⊆ nodes (plug ctx (f.fill c)) := nodes_plug_sub ctx _
  have hnf := hndfill
  rw [nodes_fill] at hnf
  have hC := List.nodup_cons.mp hnf
  have hclnd : (nodesL (f.left ++ c :: f.right)).Nodup := by
    rw [nodesL_append]
    exact hC.2
  have hclmem : ∀ q ∈ nodesL (f.left ++ c :: f.right), q ∈ nodes (f.fill c) ∧ q ≠ f.p := by
    intro q hq
    rw [nodesL_append] at hq
    refine ⟨by rw [nodes_fill]; exact List.mem_cons_of_mem _ hq, ?_⟩
    intro e
    exact hC.1 (e ▸ hq)
  have hxcl : c.ptr ∈ rootsOf (f.left ++ c :: f.right) := by
    rw [rootsOf_fill]
    exact List.mem_append_right _ (List.mem_cons_self _ _)
  have hxy : c.ptr ≠ f.p := (hclmem _ (rootsOf_subset hxcl)).2
  have hroots : rootsOf (pre ++ plug ctx (f.fill c) :: post)
      = rootsOf pre ++ (plug ctx (f.fill c)).ptr :: rootsOf post := by
    rw [rootsOf_append]; rfl
  have hrr := hr.rr
  rw [hm] at hrr
  generalize hR : rootsOf (pre ++ plug ctx (f.fill c) :: post) = R at hrr
  have hRmem : ∀ q ∈ R, q ∈ nodesL pre ∨ q = (plug ctx (f.fill c)).ptr ∨ q ∈ nodesL post := by
    intro q hq
    rw [← hR, hroots] at hq
    rcases List.mem_append.mp hq with e | e
    · exact Or.inl (rootsOf_subset e)
    · rcases List.mem_cons.mp e with e1 | e1
      · exact Or.inr (Or.inl e1)
      · exact Or.inr (Or.inr (rootsOf_subset e1))
  have hM1 : ∀ q ∈ nodes (f.fill c), q ≠ f.p → q ∉ R := by
    intro q hq hqy hqR
    have hqT := hsubT hq
    rcases hRmem q hqR with e | e | e
    · exact hA.2.2 e (List.mem_append_left _ hqT)
    · by_cases hc : ctx = []
      · subst hc
        exact hqy e
      · exact plug_root_not_in ctx _ hc hndT (e ▸ hq)
    · exact hB.2.2 hqT e
  have hxR : c.ptr ∉ R := hM1 _ (hclmem _ (rootsOf_subset hxcl)).1 hxy
  have hpos : ∀ q ∈ nodes (f.fill c), q ≠ 0 := by
    intro q hq e
    have hqm : q ∈ nodesL (pre ++ plug ctx (f.fill c) :: post) := by
      rw [nodesL_append]
      exact List.mem_append_right _ (List.mem_append_left _ (hsubT hq))
    have := (hr.pos q hqm).1
    omega
  have hx0 : c.ptr ≠ 0 := hpos _ (hclmem _ (rootsOf_subset hxcl)).1
  -- the child list of `y`
  obtain ⟨ring1, child1, hxl, hxr⟩ := cutChild_ring m f.p f.left f.right c y7
    (rootsOf_nodup hclnd) y6
  have hxlR : (m c.ptr).left ∉ R :=
    hM1 _ (hclmem _ (rootsOf_subset hxl)).1 (hclmem _ (rootsOf_subset hxl)).2
  have hxrR : (m c.ptr).right ∉ R :=
    hM1 _ (hclmem _ (rootsOf_subset hxr)).1 (hclmem _ (rootsOf_subset hxr)).2
  -- the memory before `x` joins the root list
  have h2f : ∀ q, (cutMem m c.ptr f.p q).key = (m q).key ∧
      (cutMem m c.ptr f.p q).value = (m q).value ∧
      (cutMem m c.ptr f.p q).parent = (m q).parent ∧
      (cutMem m c.ptr f.p q).mark = (m q).mark ∧
      (q ≠ f.p → (cutMem m c.ptr f.p q).child = (m q).child ∧
        (cutMem m c.ptr f.p q).degree = (m q).degree) := by
    intro q
    obtain ⟨a1, a2, a3, a4, a5, a6⟩ := cutChild_fields m c.ptr f.p q
    unfold cutMem
    simp only [setDegree_key, setDegree_value, setDegree_parent, setDegree_mark,
      setDegree_child, setDegree_degree]
    refine ⟨a1, a2, a3, a5, ?_⟩
    intro hq
    rw [if_neg hq]
    exact ⟨a6 hq, a4⟩
  have h2y : (cutMem m c.ptr f.p f.p).child = headPtr (f.left ++ f.right) ∧
      (cutMem m c.ptr f.p f.p).degree = (f.left ++ f.right).length := by
    unfold cutMem
    simp only [setDegree_child, setDegree_degree, if_true]
    refine ⟨child1, ?_⟩
    rw [(cutChild_fields m c.ptr f.p f.p).2.2.2.1, y5]
    simp
  have h2l : ∀ q, q ≠ (m c.ptr).left → q ≠ (m c.ptr).right →
      (cutMem m c.ptr f.p q).left = (m q).left ∧
      (cutMem m c.ptr f.p q).right = (m q).right := by
    intro q h1 h2
    unfold cutMem
    simp only [setDegree_left, setDegree_right]
    exact cutChild_links m c.ptr f.p q h1 h2
  have h2ring : Ring (cutMem m c.ptr f.p) (rootsOf (f.left ++ f.right)) := by
    apply ring_frame _ _ _ ring1
    · intro q _; unfold cutMem; simp
    · intro q _; unfold cutMem; simp
  have hrr2 : RootRing (cutMem m c.ptr f.p) H.minNode R := by
    refine ⟨?_, hrr.nodup, hrr.nz, hrr.min⟩
    apply ring_frame m _ _ hrr.ring
    · intro q hq
      exact (h2l q (fun e => hxlR (e ▸ hq)) (fun e => hxrR (e ▸ hq))).2
    · intro q hq
      exact (h2l q (fun e => hxlR (e ▸ hq)) (fun e => hxrR (e ▸ hq))).1
  obtain ⟨rr3, hn3, hnum3, hfr3, hfl3, hpar3⟩ :=
    addRoot_ring { H with mem := cutMem m c.ptr f.p } R c.ptr hrr2 hxR hx0
  generalize hH3 : _fibHeapAddNodeToRootList { H with mem := cutMem m c.ptr f.p } c.ptr = H3
    at rr3 hn3 hnum3 hfr3 hfl3 hpar3 ⊢
  have hRne : R ≠ [] := by
    rw [← hR, hroots]
    simp
  have hmin3 : H3.minNode = H.minNode := by
    have e1 := rr3.min
    have e2 := hrr.min
    rw [e1, e2]
    cases R with
    | nil => exact absurd rfl hRne
    | cons a l => rfl
  -- the final memory
  have hL1 : ∀ q, (setMark (setParent H3.mem c.ptr 0) c.ptr false q).key = (m q).key ∧
      (setMark (setParent H3.mem c.ptr 0) c.ptr false q).value = (m q).value ∧
      (q ≠ c.ptr → (setMark (setParent H3.mem c.ptr 0) c.ptr false q).mark = (m q).mark ∧
        (setMark (setParent H3.mem c.ptr 0) c.ptr false q).parent = (m q).parent) ∧
      (q ≠ f.p → (setMark (setParent H3.mem c.ptr 0) c.ptr false q).child = (m q).child ∧
        (setMark (setParent H3.mem c.ptr 0) c.ptr false q).degree = (m q).degree) := by
    intro q
    obtain ⟨a1, a2, a3, a4, a5, a6⟩ := hfl3 q
    obtain ⟨b1, b2, b3, b4, b5⟩ := h2f q
    simp only [setMark_key, setMark_value, setMark_mark, setMark_parent, setMark_child,
      setMark_degree, setParent_key, setParent_value, setParent_mark, setParent_parent,
      setParent_child, setParent_degree]
    refine ⟨a1.trans b1, a2.trans b2, ?_, ?_⟩
    · intro hq
      rw [if_neg hq, if_neg hq]
      exact ⟨a5.trans b4, (a6 hq).trans b3⟩
    · intro hq
      exact ⟨a3.trans (b5 hq).1, a4.trans (b5 hq).2⟩
  have hL2 : ∀ q, q ∉ R → q ≠ c.ptr → q ∉ rootsOf (f.left ++ c :: f.right) →
      (setMark (setParent H3.mem c.ptr 0) c.ptr false q).left = (m q).left ∧
      (setMark (setParent H3.mem c.ptr 0) c.ptr false q).right = (m q).right := by
    intro q h1 h2 h3
    simp only [setMark_left, setMark_right, setParent_left, setParent_right]
    have : H3.mem q = cutMem m c.ptr f.p q := by
      apply hfr3
      intro e
      rcases List.mem_append.mp e with e1 | e1
      · exact h1 e1
      · exact h2 (List.mem_singleton.mp e1)
    rw [this]
    exact h2l q (fun e => h3 (e ▸ hxl)) (fun e => h3 (e ▸ hxr))
  have hL3 : ∀ q, q ∉ R → q ≠ c.ptr → q ≠ f.p → q ∉ rootsOf (f.left ++ c :: f.right) →
      setMark (setParent H3.mem c.ptr 0) c.ptr false q = m q := by
    intro q h1 h2 h3 h4
    obtain ⟨a1, a2, a3, a4⟩ := hL1 q
    obtain ⟨b1, b2⟩ := hL2 q h1 h2 h4
    exact node_ext _ _ a1 a2 (a3 h2).2 (a4 h3).1 b1 b2 (a4 h3).2 (a3 h2).1
  have hL4 : ∀ q, (setMark (setParent H3.mem c.ptr 0) c.ptr false q).left = (H3.mem q).left ∧
      (setMark (setParent H3.mem c.ptr 0) c.ptr false q).right = (H3.mem q).right := by
    intro q
    simp
  -- frame for nodes of the other trees
  have hother : ∀ q, q ∈ nodesL pre ∨ q ∈ nodesL post →
      q ≠ c.ptr ∧ q ≠ f.p ∧ q ∉ rootsOf (f.left ++ c :: f.right) := by
    intro q hq
    have hnotT : q ∉ nodes (plug ctx (f.fill c)) := by
      intro e
      rcases hq with h | h
      · exact hA.2.2 h (List.mem_append_left _ e)
      · exact hB.2.2 e h
    refine ⟨?_, ?_, ?_⟩
    · intro e
      exact hnotT (hsubT (e ▸ (hclmem _ (rootsOf_subset hxcl)).1))
    · intro e
      apply hnotT
      apply hsubT
      rw [e, nodes_fill]
      exact List.mem_cons_self _ _
    · intro e
      exact hnotT (hsubT (hclmem _ (rootsOf_subset e)).1)
  have hframe_forest : ∀ ts, (∀ q ∈ nodesL ts, q ∈ nodesL pre ∨ q ∈ nodesL post) →
      (nodesL ts).Nodup → (∀ t ∈ ts, ∀ q ∈ nodesL t.children, q ∉ R) →
      ForestOK m 0 ts →
      ForestOK (setMark (setParent H3.mem c.ptr 0) c.ptr false) 0 ts := by
    intro ts hsub hnd hin h
    apply forestOK_root_frame m _ ts 0 0 _ _ h
    · intro t ht q hq
      have hqn : q ∈ nodesL ts :=
        mem_nodesL.mpr ⟨t, ht, by rw [nodes_eq]; exact List.mem_cons_of_mem _ hq⟩
      obtain ⟨a, b, d⟩ := hother q (hsub q hqn)
      exact hL3 q (hin t ht q hq) a b d
    · intro t ht
      have hqn : t.ptr ∈ nodesL ts := mem_nodesL.mpr ⟨t, ht, ptr_mem_nodes t⟩
      obtain ⟨a, b, d⟩ := hother _ (hsub _ hqn)
      obtain ⟨a1, a2, a3, a4⟩ := hL1 t.ptr
      refine ⟨a1, a2, (a3 a).1, (a4 b).2, (a4 b).1, ?_⟩
      rw [(a3 a).2]
      exact (treeOK_fields (forestOK_iff.mp h t ht)).2.2.2.1
  have hinnerR : ∀ t ∈ pre ++ plug ctx (f.fill c) :: post, ∀ q ∈ nodesL t.children,
      q ∉ R := by
    intro t ht q hq
    rw [← hR]
    exact inner_not_root hr.nodup ht hq
  refine ⟨repr_of_perm hr (cut_items pre post ctx f c) ?_ ?_ hn3 hnum3, hmin3, hn3, hnum3⟩
  · -- the forest
    show ForestOK (setMark (setParent H3.mem c.ptr 0) c.ptr false) 0 _
    apply forestOK_append.mpr
    refine ⟨?_, ?_, ?_⟩
    · exact hframe_forest pre (fun q hq => Or.inl hq) hA.1
        (fun t ht => hinnerR t (List.mem_append_left _ ht)) hokpre
    · -- the tree of `y`
      apply plug_frame m _ ctx (f.fill c) f.remove 0 hokT hndT rfl
      · intro _
        obtain ⟨a1, a2, a3, a4⟩ := hL1 f.p
        have hyx : f.p ≠ c.ptr := Ne.symm hxy
        refine ⟨a1.trans y1, a2.trans y2, (a3 hyx).1.trans y3, (a3 hyx).2.trans y4, ?_, ?_,
          ?_, ?_⟩
        · simp only [setMark_degree, setParent_degree]
          rw [(hfl3 f.p).2.2.2.1]
          exact h2y.2
        · simp only [setMark_child, setParent_child]
          rw [(hfl3 f.p).2.2.1]
          exact h2y.1
        · apply ring_frame _ _ _ h2ring
          · intro q hq
            rw [(hL4 q).2]
            have hqcl : q ∈ rootsOf (f.left ++ c :: f.right) := by
              rw [rootsOf_append] at hq
              rw [rootsOf_fill]
              rcases List.mem_append.mp hq with e | e
              · exact List.mem_append_left _ e
              · exact List.mem_append_right _ (List.mem_cons_of_mem _ e)
            have hqne : q ≠ c.ptr := by
              intro e
              have hnd := rootsOf_nodup hclnd
              rw [rootsOf_fill] at hnd
              have hnd' := List.nodup_append.mp hnd
              rw [rootsOf_append] at hq
              rcases List.mem_append.mp hq with e1 | e1
              · exact hnd'.2.2 e1 (e ▸ List.mem_cons_self _ _)
              · exact (List.nodup_cons.mp hnd'.2.1).1 (e ▸ e1)
            have hqR : q ∉ R := hM1 q (hclmem q (rootsOf_subset hqcl)).1
              (hclmem q (rootsOf_subset hqcl)).2
            rw [hfr3 q (by
              intro e
              rcases List.mem_append.mp e with e1 | e1
              · exact hqR e1
              · exact hqne (List.mem_singleton.mp e1))]
          · intro q hq
            rw [(hL4 q).1]
            have hqcl : q ∈ rootsOf (f.left ++ c :: f.right) := by
              rw [rootsOf_append] at hq
              rw [rootsOf_fill]
              rcases List.mem_append.mp hq with e | e
              · exact List.mem_append_left _ e
              · exact List.mem_append_right _ (List.mem_cons_of_mem _ e)
            have hqne : q ≠ c.ptr := by
              intro e
              have hnd := rootsOf_nodup hclnd
              rw [rootsOf_fill] at hnd
              have hnd' := List.nodup_append.mp hnd
              rw [rootsOf_append] at hq
              rcases List.mem_append.mp hq with e1 | e1
              · exact hnd'.2.2 e1 (e ▸ List.mem_cons_self _ _)
              · exact (List.nodup_cons.mp hnd'.2.1).1 (e ▸ e1)
            have hqR : q ∉ R := hM1 q (hclmem q (rootsOf_subset hqcl)).1
              (hclmem q (rootsOf_subset hqcl)).2
            rw [hfr3 q (by
              intro e
              rcases List.mem_append.mp e with e1 | e1
              · exact hqR e1
              · exact hqne (List.mem_singleton.mp e1))]
        · -- the other children of `y`
          have hsibs : ∀ t ∈ f.left ++ f.right, t ∈ f.left ++ c :: f.right := by
            intro t ht
            rcases List.mem_append.mp ht with e | e
            · exact List.mem_append_left _ e
            · exact List.mem_append_right _ (List.mem_cons_of_mem _ e)
          have hy8 : ForestOK m f.p (f.left ++ f.right) := by
            rw [forestOK_iff]
            intro t ht
            exact forestOK_iff.mp y8 t (hsibs t ht)
          apply forestOK_root_frame m _ _ f.p f.p _ _ hy8
          · intro t ht q hq
            have htcl := hsibs t ht
            have hqn : q ∈ nodesL (f.left ++ c :: f.right) :=
              mem_nodesL.mpr ⟨t, htcl, by rw [nodes_eq]; exact List.mem_cons_of_mem _ hq⟩
            have hqcl : q ∉ rootsOf (f.left ++ c :: f.right) := inner_not_root hclnd htcl hq
            apply hL3 q (hM1 q (hclmem q hqn).1 (hclmem q hqn).2) _ (hclmem q hqn).2 hqcl
            intro e
            exact hqcl (e ▸ hxcl)
          · intro t ht
            have htcl := hsibs t ht
            have hpn : t.ptr ∈ rootsOf (f.left ++ c :: f.right) :=
              mem_rootsOf.mpr ⟨t, htcl, rfl⟩
            have hne : t.ptr ≠ c.ptr := by
              intro e
              have hnd := rootsOf_nodup hclnd
              have := tree_eq_of_ptr hnd htcl
                (List.mem_append_right _ (List.mem_cons_self _ _)) e
              rw [this] at ht
              have hnd2 : (f.left ++ c :: f.right).Nodup := List.Nodup.of_map _ hnd
              have hnd3 := List.nodup_append.mp hnd2
              rcases List.mem_append.mp ht with e1 | e1
              · exact hnd3.2.2 e1 (List.mem_cons_self _ _)
              · exact (List.nodup_cons.mp hnd3.2.1).1 e1
            have hny : t.ptr ≠ f.p := (hclmem _ (rootsOf_subset hpn)).2
            obtain ⟨a1, a2, a3, a4⟩ := hL1 t.ptr
            refine ⟨a1, a2, (a3 hne).1, (a4 hny).2, (a4 hny).1, ?_⟩
            rw [(a3 hne).2]
            exact (treeOK_fields (forestOK_iff.mp y8 t htcl)).2.2.2.1
      · intro q hq hqf hqr
        apply hL3 q
        · intro e
          rcases hRmem q e with e1 | e1 | e1
          · exact hA.2.2 e1 (List.mem_append_left _ hq)
          · exact hqr e1
          · exact hB.2.2 hq e1
        · intro e
          exact hqf (e ▸ (hclmem _ (rootsOf_subset hxcl)).1)
        · intro e
          apply hqf
          rw [e, nodes_fill]
          exact List.mem_cons_self _ _
        · intro e
          exact hqf (hclmem _ (rootsOf_subset e)).1
      · intro hc
        have hroot := plug_root_not_in ctx _ hc hndT
        have h1 : (plug ctx (f.fill c)).ptr ≠ c.ptr := fun e =>
          hroot (e ▸ (hclmem _ (rootsOf_subset hxcl)).1)
        have h2 : (plug ctx (f.fill c)).ptr ≠ f.p := by
          intro e
          apply hroot
          rw [e, nodes_fill]
          exact List.mem_cons_self _ _
        obtain ⟨a1, a2, a3, a4⟩ := hL1 (plug ctx (f.fill c)).ptr
        exact ⟨a1, a2, (a3 h1).1, (a4 h2).2, (a4 h2).1, (a3 h1).2⟩
      · intro hc
        have hyf : f.p ∈ nodes (f.fill c) := by
          rw [nodes_fill]; exact List.mem_cons_self _ _
        have hyR : f.p ∉ R := by
          intro e
          rcases hRmem _ e with e1 | e1 | e1
          · exact hA.2.2 e1 (List.mem_append_left _ (hsubT hyf))
          · exact plug_root_not_in ctx _ hc hndT (e1 ▸ hyf)
          · exact hB.2.2 (hsubT hyf) e1
        have := hL2 f.p hyR (Ne.symm hxy) (fun e => (hclmem _ (rootsOf_subset e)).2 rfl)
        exact this
    · apply forestOK_append.mpr
      refine ⟨?_, ?_, trivial⟩
      · exact hframe_forest post (fun q hq => Or.inr hq) hB.2.1
          (fun t ht => hinnerR t (List.mem_append_right _ (List.mem_cons_of_mem _ ht))) hokpost
      · -- the new root
        have hcin : ∀ q ∈ nodesL c.children,
            setMark (setParent H3.mem c.ptr 0) c.ptr false q = m q := by
          intro q hq
          have hqn : q ∈ nodesL (f.left ++ c :: f.right) :=
            mem_nodesL.mpr ⟨c, List.mem_append_right _ (List.mem_cons_self _ _),
              by rw [nodes_eq]; exact List.mem_cons_of_mem _ hq⟩
          have hqcl : q ∉ rootsOf (f.left ++ c :: f.right) :=
            inner_not_root hclnd (List.mem_append_right _ (List.mem_cons_self _ _)) hq
          apply hL3 q (hM1 q (hclmem q hqn).1 (hclmem q hqn).2) _ (hclmem q hqn).2 hqcl
          intro e
          exact hqcl (e ▸ hxcl)
        obtain ⟨a1, a2, a3, a4⟩ := hL1 c.ptr
        cases c with
        | node x xk xv xmk cs =>
          obtain ⟨c1, c2, c3, c4, c5, c6, c7, c8⟩ := hokc
          refine ⟨a1.trans c1, a2.trans c2, ?_, ?_, (a4 hxy).2.trans c5, (a4 hxy).1.trans c6,
            ?_, forestOK_congr m _ cs x hcin c8⟩
          · show (setMark (setParent H3.mem x 0) x false x).mark = false
            simp
          · show (setMark (setParent H3.mem x 0) x false x).parent = 0
            simp
          · apply ring_frame m _ _ c7
            · intro q hq; rw [hcin q (rootsOf_subset hq)]
            · intro q hq; rw [hcin q (rootsOf_subset hq)]
  · -- the root list
    show RootRing (setMark (setParent H3.mem c.ptr 0) c.ptr false) H3.minNode _
    have hroots' : rootsOf (pre ++ plug ctx f.remove :: (post ++ [c.setMark false]))
        = R ++ [c.ptr] := by
      rw [← hR, hroots, rootsOf_append]
      show rootsOf pre ++ (plug ctx f.remove).ptr :: rootsOf (post ++ [c.setMark false]) = _
      rw [rootsOf_append, plug_ptr ctx f.remove (f.fill c) rfl]
      have : rootsOf [c.setMark false] = [c.ptr] := by cases c; rfl
      rw [this]
      simp
    rw [hroots']
    refine ⟨?_, rr3.nodup, rr3.nz, rr3.min⟩
    exact ring_frame _ _ _ rr3.ring (fun q _ => (hL4 q).2) (fun q _ => (hL4 q).1)

end Fib

set_option linter.unusedTactic false
set_option linter.unreachableTactic false
set_option linter.unusedVariables false

namespace Fib

/-! ## Fibonacci heap: `_fibHeapCascadingCut` -/

theorem nodes_plug_congr : ∀ (ctx : List Frame) (t t' : Tree), nodes t = nodes t' →
    nodes (plug ctx t) = nodes (plug ctx t')
  | [], _, _, h => h
  | f :: ctx, t, t', h => by
    apply nodes_plug_congr ctx (f.fill t) (f.fill t')
    rw [nodes_fill, nodes_fill, h]

theorem plug_length : ∀ (ctx : List Frame) (t : Tree),
    ctx.length + (nodes t).length ≤ (nodes (plug ctx t)).length
  | [], t => by simp [plug]
  | f :: ctx, t => by
    have ih := plug_length ctx (f.fill t)
    rw [nodes_fill] at ih
    show ctx.length + 1 + (nodes t).length ≤ (nodes (plug ctx (f.fill t))).length
    simp only [List.length_cons, List.length_append] at ih
    omega

theorem repr_of_nodes {H H' : FibHeap} {F F' : List Tree} (hr : Repr H F)
    (hp : (nodesL F').Perm (nodesL F)) (hok : ForestOK H'.mem 0 F')
    (hrr : RootRing H'.mem H'.minNode (rootsOf F')) (hn : H'.next = H.next)
    (hnum : H'.numNodes = H.numNodes) : Repr H' F' := by
  refine ⟨hok, hrr, hp.nodup_iff.mpr hr.nodup, ?_, ?_, ?_⟩
  · intro p hp'
    rw [hn]
    exact hr.pos p (hp.subset hp')
  · rw [hn]; exact hr.next_pos
  · rw [hnum, hr.num, hp.length_eq]

/-- Rewriting the non-link fields of one node `t.ptr` of the forest. -/
theorem hole_update (H : FibHeap) (m' : Nat → FibHeapNode) (pre post : List Tree)
    (ctx : List Frame) (t t' : Tree) (hr : Repr H (pre ++ plug ctx t :: post))
    (hp : t'.ptr = t.ptr) (hn : nodes t' = nodes t)
    (hfr : ∀ q, q ≠ t.ptr → m' q = H.mem q)
    (hl : (m' t.ptr).left = (H.mem t.ptr).left ∧ (m' t.ptr).right = (H.mem t.ptr).right)
    (ht : ∀ par, TreeOK H.mem par t → TreeOK m' par t') :
    Repr { H with mem := m' } (pre ++ plug ctx t' :: post) := by
  have hnd : (nodesL pre ++ (nodes (plug ctx t) ++ nodesL post)).Nodup := by
    have := hr.nodup
    rw [nodesL_append] at this
    exact this
  have hA := List.nodup_append.mp hnd
  have hB := List.nodup_append.mp hA.2.1
  have hxT : t.ptr ∈ nodes (plug ctx t) := nodes_plug_sub ctx t (ptr_mem_nodes t)
  have hok := forestOK_append.mp hr.ok
  have hlinks : ∀ q, (m' q).left = (H.mem q).left ∧ (m' q).right = (H.mem q).right := by
    intro q
    by_cases hq : q = t.ptr
    · rw [hq]; exact hl
    · rw [hfr q hq]; exact ⟨rfl, rfl⟩
  apply repr_of_nodes hr
  · rw [nodesL_append, nodesL_append]
    show (nodesL pre ++ (nodes (plug ctx t') ++ nodesL post)).Perm
      (nodesL pre ++ (nodes (plug ctx t) ++ nodesL post))
    rw [nodes_plug_congr ctx t' t hn]
  · show ForestOK m' 0 _
    apply forestOK_append.mpr
    refine ⟨?_, ?_, ?_⟩
    · apply forestOK_congr H.mem m' pre 0 _ hok.1
      intro q hq
      exact hfr q (fun e => hA.2.2 hq (List.mem_append_left _ (e ▸ hxT)))
    · apply plug_frame H.mem m' ctx t t' 0 hok.2.1 hB.1 hp (ht _)
      · intro q _ hqt _
        exact hfr q (fun e => hqt (e ▸ ptr_mem_nodes t))
      · intro hc
        have := plug_root_not_in ctx t hc hB.1
        have hne : (plug ctx t).ptr ≠ t.ptr := by
          intro e
          apply this
          rw [e]
          exact ptr_mem_nodes t
        rw [hfr _ hne]
        exact ⟨rfl, rfl, rfl, rfl, rfl, rfl⟩
      · intro _
        exact hl
    · apply forestOK_congr H.mem m' post 0 _ hok.2.2
      intro q hq
      exact hfr q (fun e => hB.2.2 (e ▸ hxT) hq)
  · show RootRing m' H.minNode _
    have hroots : rootsOf (pre ++ plug ctx t' :: post) = rootsOf (pre ++ plug ctx t :: post) := by
      rw [rootsOf_append, rootsOf_append]
      show rootsOf pre ++ (plug ctx t').ptr :: rootsOf post = rootsOf pre ++ (plug ctx t).ptr :: rootsOf post
      rw [plug_ptr ctx t' t hp]
    rw [hroots]
    exact ⟨ring_frame _ _ _ hr.rr.ring (fun q _ => (hlinks q).2) (fun q _ => (hlinks q).1),
      hr.rr.nodup, hr.rr.nz, hr.rr.min⟩
  · rfl
  · rfl

/-- The forest after the cascading cut that starts at the root `t.ptr` of the
subtree `t` inside the frames `ctx`: a marked node on the way up moves to the
end of the root list, the first unmarked one below the root gets marked. -/
def cascF (pre : List Tree) : List Frame → Tree → List Tree → List Tree
  | [], t, post => pre ++ t :: post
  | f :: ctx, t, post =>
    if t.mark = false then pre ++ plug (f :: ctx) (t.setMark true) :: post
    else cascF pre ctx f.remove (post ++ [t.setMark false])

theorem tree_setMark_ptr (t : Tree) (b : Bool) : (t.setMark b).ptr = t.ptr := by
  cases t; rfl

theorem tree_setMark_key (t : Tree) (b : Bool) : (t.setMark b).key = t.key := by
  cases t; rfl

theorem tree_setMark_children (t : Tree) (b : Bool) : (t.setMark b).children = t.children := by
  cases t; rfl

theorem tree_setMark_mark (t : Tree) (b : Bool) : (t.setMark b).mark = b := by
  cases t; rfl

theorem cascade_spec : ∀ (ctx : List Frame) (t : Tree) (pre post : List Tree) (H : FibHeap)
    (fuel : Nat), Repr H (pre ++ plug ctx t :: post) → ctx.length < fuel →
    ∃ H', _fibHeapCascadingCut fuel H t.ptr = some H' ∧ Repr H' (cascF pre ctx t post) ∧
      H'.minNode = H.minNode ∧ H'.next = H.next ∧ H'.numNodes = H.numNodes
  | [], t, pre, post, H, fuel, hr, hf => by
    obtain ⟨f', rfl⟩ : ∃ f', fuel = f' + 1 := ⟨fuel - 1, by omega⟩
    have hok := (forestOK_append.mp hr.ok).2.1
    have hpar : (H.mem t.ptr).parent = 0 := (treeOK_fields hok).2.2.2.1
    refine ⟨H, ?_, hr, rfl, rfl, rfl⟩
    unfold _fibHeapCascadingCut
    simp [hpar]
  | f :: ctx, t, pre, post, H, fuel, hr, hf => by
    obtain ⟨f', rfl⟩ : ∃ f', fuel = f' + 1 := ⟨fuel - 1, by omega⟩
    have hokT : TreeOK H.mem 0 (plug (f :: ctx) t) := (forestOK_append.mp hr.ok).2.1
    have hsub : TreeOK H.mem f.p t := plug_sub H.mem (f :: ctx) t 0 hokT
    obtain ⟨t1, t2, t3, t4, t5, t6, t7, t8⟩ := treeOK_fields hsub
    have hfp : f.p ∈ nodesL (pre ++ plug (f :: ctx) t :: post) := by
      rw [nodesL_append]
      apply List.mem_append_right
      apply List.mem_append_left
      apply nodes_plug_sub ctx (f.fill t)
      rw [nodes_fill]
      exact List.mem_cons_self _ _
    have hfp0 : f.p ≠ 0 := by
      have := (hr.pos _ hfp).1
      omega
    unfold _fibHeapCascadingCut
    simp only [t4, ne_eq, hfp0, not_false_eq_true, if_true, t3]
    by_cases hmk : t.mark = false
    · rw [if_pos hmk]
      have hc : cascF pre (f :: ctx) t post
          = pre ++ plug (f :: ctx) (t.setMark true) :: post := by
        show (if t.mark = false then _ else _) = _
        rw [if_pos hmk]
      rw [hc]
      refine ⟨_, rfl, ?_, rfl, rfl, rfl⟩
      apply hole_update H _ pre post (f :: ctx) t (t.setMark true) hr (tree_setMark_ptr t true)
        (nodes_setMark t true)
      · intro q hq
        exact setMark_ne _ _ _ _ hq
      · simp
      · intro par h
        have hin : ∀ q ∈ nodesL t.children, setMark H.mem t.ptr true q = H.mem q := by
          intro q hq
          apply setMark_ne
          intro e
          have hnd : (nodes t).Nodup := by
            have h1 := hr.nodup
            rw [nodesL_append] at h1
            have h2 := (List.nodup_append.mp (List.nodup_append.mp h1).2.1).1
            exact nodup_of_plug (f :: ctx) t h2
          rw [nodes_eq] at hnd
          exact (List.nodup_cons.mp hnd).1 (e ▸ hq)
        cases t with
        | node p k v mk cs =>
          obtain ⟨c1, c2, c3, c4, c5, c6, c7, c8⟩ := h
          refine ⟨by simpa using c1, by simpa using c2, by simp [Tree.ptr], by simpa using c4,
            by simpa using c5, by simpa using c6, ?_, forestOK_congr _ _ cs p hin c8⟩
          apply ring_frame H.mem _ _ c7
          · intro q hq; rw [hin q (rootsOf_subset hq)]
          · intro q hq; rw [hin q (rootsOf_subset hq)]
    · rw [if_neg hmk]
      have hc : cascF pre (f :: ctx) t post
          = cascF pre ctx f.remove (post ++ [t.setMark false]) := by
        show (if t.mark = false then _ else _) = _
        rw [if_neg hmk]
      rw [hc]
      obtain ⟨r1, r2, r3, r4⟩ := cut_spec H pre post ctx f t hr
      obtain ⟨H', e1, e2, e3, e4, e5⟩ := cascade_spec ctx f.remove pre
        (post ++ [t.setMark false]) (_fibHeapCut H t.ptr f.p) f' r1
        (by simp at hf; omega)
      exact ⟨H', e1, e2, e3.trans r2, e4.trans r3, e5.trans r4⟩

end Fib

set_option linter.unusedTactic false
set_option linter.unreachableTactic false
set_option linter.unusedVariables false

namespace Fib

/-! ## Fibonacci heap: `fibHeapDecreaseKey`, the memory -/

/-- Writing a key at the root of a tree. -/
def Tree.setKey : Tree → Int → Tree
  | Tree.node p _ v mk cs, k => Tree.node p k v mk cs

theorem tree_setKey_ptr (t : Tree) (k : Int) : (t.setKey k).ptr = t.ptr := by
  cases t; rfl

theorem tree_setKey_key (t : Tree) (k : Int) : (t.setKey k).key = k := by
  cases t; rfl

theorem nodes_setKey (t : Tree) (k : Int) : nodes (t.setKey k) = nodes t := by
  cases t; rfl

/-- The forest after the cut and the cascading cut of `fibHeapDecreaseKey`,
before `minNode` is updated. -/
def dkForest (pre : List Tree) (ctx : List Frame) (tx : Tree) (post : List Tree)
    (newKey : Int) : List Tree :=
  match ctx with
  | [] => pre ++ tx.setKey newKey :: post
  | f :: ctx' =>
    if newKey < f.key then
      cascF pre ctx' f.remove (post ++ [(tx.setKey newKey).setMark false])
    else pre ++ plug (f :: ctx') (tx.setKey newKey) :: post

/-- The part of `fibHeapDecreaseKey` between the test of the new key and the
update of `minNode`. -/
def dkCut (H : FibHeap) (x : Nat) (newKey : Int) : Option FibHeap :=
  let H : FibHeap := { H with mem := setKey H.mem x newKey }
  let y := (H.mem x).parent
  if y ≠ 0 ∧ (H.mem x).key < (H.mem y).key then
    _fibHeapCascadingCut (H.numNodes + 1) (_fibHeapCut H x y) y
  else some H

theorem fibHeapDecreaseKey_eq (H : FibHeap) (x : Nat) (newKey : Int)
    (h : ¬ newKey > (H.mem x).key) :
    fibHeapDecreaseKey H x newKey =
      match dkCut H x newKey with
      | none => none
      | some H =>
        if (H.mem x).key < (H.mem H.minNode).key then some { H with minNode := x }
        else some H := by
  unfold fibHeapDecreaseKey dkCut
  exact (if_neg h).trans rfl

theorem setKey_repr (H : FibHeap) (pre post : List Tree) (ctx : List Frame) (tx : Tree)
    (newKey : Int) (hr : Repr H (pre ++ plug ctx tx :: post)) :
    Repr { H with mem := setKey H.mem tx.ptr newKey }
      (pre ++ plug ctx (tx.setKey newKey) :: post) := by
  apply hole_update H _ pre post ctx tx (tx.setKey newKey) hr (tree_setKey_ptr tx newKey)
    (nodes_setKey tx newKey)
  · intro q hq
    exact setKey_ne _ _ _ _ hq
  · simp
  · intro par h
    have hnd : (nodes tx).Nodup := by
      have h1 := hr.nodup
      rw [nodesL_append] at h1
      have h2 := (List.nodup_append.mp (List.nodup_append.mp h1).2.1).1
      exact nodup_of_plug ctx tx h2
    have hin : ∀ q ∈ nodesL tx.children, setKey H.mem tx.ptr newKey q = H.mem q := by
      intro q hq
      apply setKey_ne
      intro e
      rw [nodes_eq] at hnd
      exact (List.nodup_cons.mp hnd).1 (e ▸ hq)
    cases tx with
    | node p k v mk cs =>
      obtain ⟨c1, c2, c3, c4, c5, c6, c7, c8⟩ := h
      refine ⟨by simp [Tree.ptr], by simpa using c2, by simpa using c3, by simpa using c4,
        by simpa using c5, by simpa using c6, ?_, forestOK_congr _ _ cs p hin c8⟩
      apply ring_frame H.mem _ _ c7
      · intro q hq; rw [hin q (rootsOf_subset hq)]
      · intro q hq; rw [hin q (rootsOf_subset hq)]

theorem dkCut_spec (H : FibHeap) (pre post : List Tree) (ctx : List Frame) (tx : Tree)
    (newKey : Int) (hr : Repr H (pre ++ plug ctx tx :: post)) :
    ∃ H1, dkCut H tx.ptr newKey = some H1 ∧
      Repr H1 (dkForest pre ctx tx post newKey) ∧
      H1.minNode = H.minNode ∧ H1.next = H.next ∧ H1.numNodes = H.numNodes := by
  have hk := setKey_repr H pre post ctx tx newKey hr
  generalize hHk : ({ H with mem := setKey H.mem tx.ptr newKey } : FibHeap) = Hk at hk
  have hmin : Hk.minNode = H.minNode := by rw [← hHk]
  have hnext : Hk.next = H.next := by rw [← hHk]
  have hnum : Hk.numNodes = H.numNodes := by rw [← hHk]
  have hokT : TreeOK Hk.mem 0 (plug ctx (tx.setKey newKey)) := (forestOK_append.mp hk.ok).2.1
  have hsub := plug_sub Hk.mem ctx _ 0 hokT
  obtain ⟨t1, t2, t3, t4, t5, t6, t7, t8⟩ := treeOK_fields hsub
  rw [tree_setKey_ptr] at t1 t4
  rw [tree_setKey_key] at t1
  have hdk : dkCut H tx.ptr newKey =
      if (Hk.mem tx.ptr).parent ≠ 0 ∧ (Hk.mem tx.ptr).key < (Hk.mem (Hk.mem tx.ptr).parent).key
      then _fibHeapCascadingCut (Hk.numNodes + 1)
        (_fibHeapCut Hk tx.ptr (Hk.mem tx.ptr).parent) (Hk.mem tx.ptr).parent
      else some Hk := by
    rw [← hHk]
    rfl
  rw [hdk, t4, t1]
  cases ctx with
  | nil =>
    refine ⟨Hk, ?_, hk, hmin, hnext, hnum⟩
    simp [ctxPar]
  | cons f ctx' =>
    have hfill : TreeOK Hk.mem (ctxPar ctx' 0) (f.fill (tx.setKey newKey)) :=
      plug_sub Hk.mem ctx' _ 0 hokT
    have hfkey : (Hk.mem f.p).key = f.key := hfill.1
    have hfp : f.p ∈ nodesL (pre ++ plug (f :: ctx') (tx.setKey newKey) :: post) := by
      rw [nodesL_append]
      apply List.mem_append_right
      apply List.mem_append_left
      apply nodes_plug_sub ctx' (f.fill (tx.setKey newKey))
      rw [nodes_fill]
      exact List.mem_cons_self _ _
    have hfp0 : f.p ≠ 0 := by
      have := (hk.pos _ hfp).1
      omega
    show ∃ H1, (if f.p ≠ 0 ∧ newKey < (Hk.mem f.p).key then _ else _) = some H1 ∧ _
    rw [hfkey]
    by_cases hlt : newKey < f.key
    · rw [if_pos ⟨hfp0, hlt⟩]
      have hd : dkForest pre (f :: ctx') tx post newKey
          = cascF pre ctx' f.remove (post ++ [(tx.setKey newKey).setMark false]) := by
        show (if newKey < f.key then _ else _) = _
        rw [if_pos hlt]
      rw [hd]
      obtain ⟨r1, r2, r3, r4⟩ := cut_spec Hk pre post ctx' f (tx.setKey newKey) hk
      rw [tree_setKey_ptr] at r1 r2 r3 r4
      have hfuel : ctx'.length < Hk.numNodes + 1 := by
        have h1 := plug_length ctx' f.remove
        have h2 : (nodes (plug ctx' f.remove)).length ≤
            (nodesL (pre ++ plug ctx' f.remove ::
              (post ++ [(tx.setKey newKey).setMark false]))).length := by
          rw [nodesL_append]
          show _ ≤ (nodesL pre ++ (nodes (plug ctx' f.remove) ++ _)).length
          simp only [List.length_append]
          omega
        rw [← r1.num, r4] at h2
        omega
      obtain ⟨H', e1, e2, e3, e4, e5⟩ := cascade_spec ctx' f.remove pre
        (post ++ [(tx.setKey newKey).setMark false]) (_fibHeapCut Hk tx.ptr f.p)
        (Hk.numNodes + 1) r1 hfuel
      exact ⟨H', e1, e2, (e3.trans r2).trans hmin, (e4.trans r3).trans hnext,
        (e5.trans r4).trans hnum⟩
    · rw [if_neg (fun c => hlt c.2)]
      have hd : dkForest pre (f :: ctx') tx post newKey
          = pre ++ plug (f :: ctx') (tx.setKey newKey) :: post := by
        show (if newKey < f.key then _ else _) = _
        rw [if_neg hlt]
      rw [hd]
      exact ⟨Hk, rfl, hk, hmin, hnext, hnum⟩

end Fib

set_option linter.unusedTactic false
set_option linter.unreachableTactic false
set_option linter.unusedVariables false

namespace Fib

/-! ## Fibonacci heap: the forest after a cascading cut -/

/-- The triples of the nodes of the frames. -/
def ctxItems : List Frame → List (Nat × Int × Int)
  | [] => []
  | f :: ctx => ctxItems ctx ++ items f.remove

theorem items_plug : ∀ (ctx : List Frame) (t : Tree),
    (items (plug ctx t)).Perm (ctxItems ctx ++ items t)
  | [], t => by simp [plug, ctxItems]
  | f :: ctx, t => by
    show (items (plug ctx (f.fill t))).Perm ((ctxItems ctx ++ items f.remove) ++ items t)
    refine (items_plug ctx (f.fill t)).trans ?_
    rw [List.append_assoc]
    exact List.Perm.append_left _ (items_fill_remove f t)

theorem itemsL_plug (pre post : List Tree) (ctx : List Frame) (t : Tree) :
    (itemsL (pre ++ plug ctx t :: post)).Perm
      (items t ++ (itemsL pre ++ ctxItems ctx ++ itemsL post)) := by
  rw [itemsL_append]
  show (itemsL pre ++ (items (plug ctx t) ++ itemsL post)).Perm _
  have h1 := items_plug ctx t
  refine (List.Perm.append_left _ (List.Perm.append_right _ h1)).trans ?_
  rw [List.append_assoc, List.append_assoc]
  refine List.Perm.trans ?_ List.perm_append_comm
  rw [List.append_assoc, List.append_assoc]
  apply List.Perm.append_left
  apply List.Perm.append_left
  exact List.perm_append_comm

theorem cascF_items : ∀ (ctx : List Frame) (t : Tree) (pre post : List Tree),
    (itemsL (cascF pre ctx t post)).Perm (itemsL (pre ++ plug ctx t :: post))
  | [], _, _, _ => List.Perm.refl _
  | f :: ctx, t, pre, post => by
    show (itemsL (if t.mark = false then pre ++ plug (f :: ctx) (t.setMark true) :: post
      else cascF pre ctx f.remove (post ++ [t.setMark false]))).Perm _
    split_ifs with h
    · refine (itemsL_plug pre post (f :: ctx) _).trans ?_
      rw [items_setMark]
      exact (itemsL_plug pre post (f :: ctx) t).symm
    · exact (cascF_items ctx f.remove pre _).trans (cut_items pre post ctx f t)

theorem cascF_cons (a : Tree) : ∀ (ctx : List Frame) (t : Tree) (pre post : List Tree),
    cascF (a :: pre) ctx t post = a :: cascF pre ctx t post
  | [], _, _, _ => rfl
  | f :: ctx, t, pre, post => by
    show (if t.mark = false then (a :: pre) ++ plug (f :: ctx) (t.setMark true) :: post
      else cascF (a :: pre) ctx f.remove (post ++ [t.setMark false])) =
      a :: (if t.mark = false then pre ++ plug (f :: ctx) (t.setMark true) :: post
      else cascF pre ctx f.remove (post ++ [t.setMark false]))
    split_ifs with h
    · rfl
    · exact cascF_cons a ctx f.remove pre _

theorem cascF_post : ∀ (ctx : List Frame) (t : Tree) (pre post : List Tree) (s : Tree),
    s ∈ pre ∨ s ∈ post → s ∈ cascF pre ctx t post
  | [], t, pre, post, s, h => by
    show s ∈ pre ++ t :: post
    rcases h with h | h
    · exact List.mem_append_left _ h
    · exact List.mem_append_right _ (List.mem_cons_of_mem _ h)
  | f :: ctx, t, pre, post, s, h => by
    show s ∈ (if t.mark = false then pre ++ plug (f :: ctx) (t.setMark true) :: post
      else cascF pre ctx f.remove (post ++ [t.setMark false]))
    split_ifs with hm
    · rcases h with h | h
      · exact List.mem_append_left _ h
      · exact List.mem_append_right _ (List.mem_cons_of_mem _ h)
    · apply cascF_post ctx f.remove pre _ s
      rcases h with h | h
      · exact Or.inl h
      · exact Or.inr (List.mem_append_left _ h)

theorem heapOrdT_setMark (t : Tree) (b : Bool) : HeapOrdT (t.setMark b) ↔ HeapOrdT t := by
  cases t; rfl

theorem fibT_setMark (t : Tree) (b : Bool) : FibT (t.setMark b) ↔ FibT t := by
  cases t; rfl

theorem heapOrdL_mid (pre post : List Tree) (t : Tree) :
    HeapOrdL (pre ++ t :: post) ↔ HeapOrdL pre ∧ HeapOrdT t ∧ HeapOrdL post := by
  rw [heapOrdL_append]; rfl

theorem fibL_mid (pre post : List Tree) (t : Tree) :
    FibL (pre ++ t :: post) ↔ FibL pre ∧ FibT t ∧ FibL post := by
  rw [fibL_append]; rfl

theorem cascF_ho : ∀ (ctx : List Frame) (t : Tree) (pre post : List Tree),
    HeapOrdL pre → HeapOrdL post → HeapOrdT (plug ctx t) → HeapOrdL (cascF pre ctx t post)
  | [], t, pre, post, h1, h2, h3 => (heapOrdL_mid pre post t).mpr ⟨h1, h3, h2⟩
  | f :: ctx, t, pre, post, h1, h2, h3 => by
    show HeapOrdL (if t.mark = false then pre ++ plug (f :: ctx) (t.setMark true) :: post
      else cascF pre ctx f.remove (post ++ [t.setMark false]))
    split_ifs with hm
    · refine (heapOrdL_mid _ _ _).mpr ⟨h1, ?_, h2⟩
      rw [heapOrdT_plug, heapOrdT_setMark, tree_setMark_key]
      exact (heapOrdT_plug _ _).mp h3
    · have h4 : HeapOrdT (plug ctx (f.fill t)) := h3
      rw [heapOrdT_plug, heapOrdT_fill] at h4
      obtain ⟨⟨a1, a2, a3, a4, a5⟩, a6⟩ := h4
      apply cascF_ho ctx f.remove pre _ h1
      · exact (heapOrdL_append _ _).mpr ⟨h2, (heapOrdT_setMark t false).mpr a1, trivial⟩
      · rw [heapOrdT_plug, heapOrdT_remove]
        exact ⟨⟨a3, a4, a5⟩, a6⟩

theorem childOK_remove (f : Frame) (h1 : childOK 0 f.left)
    (h2 : childOK (f.left.length + 1) f.right) : childOK 0 (f.left ++ f.right) := by
  rw [childOK_append]
  refine ⟨h1, ?_⟩
  rw [Nat.zero_add]
  exact childOK_mono f.right _ _ (Nat.le_succ _) h2

theorem cascF_fib : ∀ (ctx : List Frame) (t : Tree) (pre post : List Tree),
    FibL pre → FibL post → FibT t → CtxFib ctx (t.children.length + 1) t.mark →
    FibL (cascF pre ctx t post)
  | [], t, pre, post, h1, h2, h3, _ => (fibL_mid pre post t).mpr ⟨h1, h3, h2⟩
  | f :: ctx, t, pre, post, h1, h2, h3, h4 => by
    show FibL (if t.mark = false then pre ++ plug (f :: ctx) (t.setMark true) :: post
      else cascF pre ctx f.remove (post ++ [t.setMark false]))
    obtain ⟨b1, b2, b3, b4, b5, b6⟩ := h4
    split_ifs with hm
    · refine (fibL_mid _ _ _).mpr ⟨h1, ?_, h2⟩
      rw [fibT_plug, fibT_setMark, tree_setMark_children, tree_setMark_mark]
      refine ⟨h3, b1, ?_, b3, b4, b5, b6⟩
      rw [hm] at b2
      simp at b2 ⊢
      exact b2
    · apply cascF_fib ctx f.remove pre _ h1
      · exact (fibL_append _ _).mpr ⟨h2, (fibT_setMark t false).mpr h3, trivial⟩
      · exact ⟨childOK_remove f b1 b3, (fibL_append _ _).mpr ⟨b4, b5⟩⟩
      · have e : f.remove.children.length + 1 = f.left.length + 1 + f.right.length := by
          show (f.left ++ f.right).length + 1 = _
          simp
          omega
        rw [e]
        exact b6

theorem plug_item (ctx : List Frame) (t : Tree) :
    (t.ptr, t.key, t.value) ∈ items (plug ctx t) :=
  (items_plug ctx t).symm.subset (List.mem_append_right _ (root_item t))

theorem cascF_keys (K : Int) : ∀ (ctx : List Frame) (t : Tree) (pre post : List Tree),
    HeapOrdT (plug ctx t) → K ≤ (plug ctx t).key →
    ∀ s ∈ cascF pre ctx t post, s ∈ pre ∨ s ∈ post ∨ K ≤ s.key
  | [], t, pre, post, _, hK, s, hs => by
    rcases List.mem_append.mp hs with h | h
    · exact Or.inl h
    · rcases List.mem_cons.mp h with h1 | h1
      · rw [h1]; exact Or.inr (Or.inr hK)
      · exact Or.inr (Or.inl h1)
  | f :: ctx, t, pre, post, hho, hK, s, hs => by
    have hs' : s ∈ (if t.mark = false then pre ++ plug (f :: ctx) (t.setMark true) :: post
      else cascF pre ctx f.remove (post ++ [t.setMark false])) := hs
    split_ifs at hs' with hm
    · rcases List.mem_append.mp hs' with h | h
      · exact Or.inl h
      · rcases List.mem_cons.mp h with h1 | h1
        · right; right
          rw [h1, (plug_root (f :: ctx) (t.setMark true) t (fun c => by cases c)).2]
          exact hK
        · exact Or.inr (Or.inl h1)
    · have h4 : HeapOrdT (plug ctx (f.fill t)) := hho
      have h5 := h4
      rw [heapOrdT_plug, heapOrdT_fill] at h5
      obtain ⟨⟨a1, a2, a3, a4, a5⟩, a6⟩ := h5
      have hrem : HeapOrdT (plug ctx f.remove) := by
        rw [heapOrdT_plug, heapOrdT_remove]
        exact ⟨⟨a3, a4, a5⟩, a6⟩
      have hkey : (plug ctx f.remove).key = (plug ctx (f.fill t)).key :=
        (plug_root ctx f.remove (f.fill t) (fun _ => ⟨rfl, rfl⟩)).2
      rcases cascF_keys K ctx f.remove pre _ hrem (by rw [hkey]; exact hK) s hs' with h | h | h
      · exact Or.inl h
      · rcases List.mem_append.mp h with h1 | h1
        · exact Or.inr (Or.inl h1)
        · right; right
          rw [List.mem_singleton.mp h1, tree_setMark_key]
          have := heapOrdT_min _ hho _ (plug_item (f :: ctx) t)
          exact le_trans hK this
      · exact Or.inr (Or.inr h)

theorem cascF_head : ∀ (ctx : List Frame) (t : Tree) (post : List Tree),
    ∃ hd tl, cascF [] ctx t post = hd :: tl ∧ hd.ptr = (plug ctx t).ptr ∧
      hd.key = (plug ctx t).key
  | [], t, post => ⟨t, post, rfl, rfl, rfl⟩
  | f :: ctx, t, post => by
    show ∃ hd tl, (if t.mark = false then [] ++ plug (f :: ctx) (t.setMark true) :: post
      else cascF [] ctx f.remove (post ++ [t.setMark false])) = hd :: tl ∧ _
    split_ifs with hm
    · have := plug_root (f :: ctx) (t.setMark true) t (fun c => by cases c)
      exact ⟨_, post, rfl, this.1, this.2⟩
    · obtain ⟨hd, tl, e1, e2, e3⟩ := cascF_head ctx f.remove (post ++ [t.setMark false])
      have := plug_root ctx f.remove (f.fill t) (fun _ => ⟨rfl, rfl⟩)
      exact ⟨hd, tl, e1, e2.trans this.1, e3.trans this.2⟩

end Fib

set_option linter.unusedTactic false
set_option linter.unreachableTactic false
set_option linter.unusedVariables false

namespace Fib

/-! ## Fibonacci heap: the forest after `fibHeapDecreaseKey` -/

theorem heapOrdT_setKey (t : Tree) (k : Int) (h : HeapOrdT t) (hk : k ≤ t.key) :
    HeapOrdT (t.setKey k) := by
  cases t with
  | node p k0 v mk cs =>
    exact ⟨fun c hc => le_trans hk (h.1 c hc), h.2⟩

theorem fibT_setKey (t : Tree) (k : Int) : FibT (t.setKey k) ↔ FibT t := by
  cases t; rfl

theorem tree_setKey_children (t : Tree) (k : Int) : (t.setKey k).children = t.children := by
  cases t; rfl

theorem tree_setKey_mark (t : Tree) (k : Int) : (t.setKey k).mark = t.mark := by
  cases t; rfl

theorem items_setKey (t : Tree) (k : Int) :
    items (t.setKey k) = (t.ptr, k, t.value) :: itemsL t.children := by
  cases t; rfl

theorem items_root (t : Tree) : items t = (t.ptr, t.key, t.value) :: itemsL t.children := by
  cases t; rfl

theorem dk_items (pre post : List Tree) (ctx : List Frame) (tx : Tree) (newKey : Int) :
    (itemsL (dkForest pre ctx tx post newKey)).Perm
      ((tx.ptr, newKey, tx.value) ::
        (itemsL tx.children ++ (itemsL pre ++ ctxItems ctx ++ itemsL post))) := by
  have hbase : ∀ c, (itemsL (pre ++ plug c (tx.setKey newKey) :: post)).Perm
      ((tx.ptr, newKey, tx.value) ::
        (itemsL tx.children ++ (itemsL pre ++ ctxItems c ++ itemsL post))) := by
    intro c
    refine (itemsL_plug pre post c _).trans ?_
    rw [items_setKey]
    rfl
  unfold dkForest
  cases ctx with
  | nil => exact hbase []
  | cons f ctx' =>
    simp only
    split_ifs with h
    · refine (cascF_items ctx' f.remove pre _).trans ?_
      have h1 := cut_items pre post ctx' f (tx.setKey newKey)
      exact h1.trans (hbase (f :: ctx'))
    · exact hbase (f :: ctx')

theorem dk_ho (pre post : List Tree) (ctx : List Frame) (tx : Tree) (newKey : Int)
    (hho : HeapOrdL (pre ++ plug ctx tx :: post)) (hle : newKey ≤ tx.key) :
    HeapOrdL (dkForest pre ctx tx post newKey) := by
  obtain ⟨h1, h2, h3⟩ := (heapOrdL_mid _ _ _).mp hho
  rw [heapOrdT_plug] at h2
  obtain ⟨h4, h5⟩ := h2
  have htx' : HeapOrdT (tx.setKey newKey) := heapOrdT_setKey tx newKey h4 hle
  unfold dkForest
  cases ctx with
  | nil => exact (heapOrdL_mid _ _ _).mpr ⟨h1, htx', h3⟩
  | cons f ctx' =>
    obtain ⟨a1, a2, a3, a4, a5⟩ := h5
    simp only
    split_ifs with h
    · apply cascF_ho ctx' f.remove pre _ h1
      · exact (heapOrdL_append _ _).mpr ⟨h3, (heapOrdT_setMark _ false).mpr htx', trivial⟩
      · rw [heapOrdT_plug, heapOrdT_remove]
        exact ⟨⟨a2, a3, a4⟩, a5⟩
    · refine (heapOrdL_mid _ _ _).mpr ⟨h1, ?_, h3⟩
      rw [heapOrdT_plug, tree_setKey_key]
      exact ⟨htx', not_lt.mp h, a2, a3, a4, a5⟩

theorem dk_fib (pre post : List Tree) (ctx : List Frame) (tx : Tree) (newKey : Int)
    (hfib : FibL (pre ++ plug ctx tx :: post)) :
    FibL (dkForest pre ctx tx post newKey) := by
  obtain ⟨h1, h2, h3⟩ := (fibL_mid _ _ _).mp hfib
  rw [fibT_plug] at h2
  obtain ⟨h4, h5⟩ := h2
  have htx' : FibT (tx.setKey newKey) := (fibT_setKey tx newKey).mpr h4
  unfold dkForest
  cases ctx with
  | nil => exact (fibL_mid _ _ _).mpr ⟨h1, htx', h3⟩
  | cons f ctx' =>
    simp only
    split_ifs with h
    · obtain ⟨b1, b2, b3, b4, b5, b6⟩ := h5
      apply cascF_fib ctx' f.remove pre _ h1
      · exact (fibL_append _ _).mpr ⟨h3, (fibT_setMark _ false).mpr htx', trivial⟩
      · exact ⟨childOK_remove f b1 b3, (fibL_append _ _).mpr ⟨b4, b5⟩⟩
      · have e : f.remove.children.length + 1 = f.left.length + 1 + f.right.length := by
          show (f.left ++ f.right).length + 1 = _
          simp
          omega
        rw [e]
        exact b6
    · refine (fibL_mid _ _ _).mpr ⟨h1, ?_, h3⟩
      rw [fibT_plug, tree_setKey_children, tree_setKey_mark]
      exact ⟨htx', h5⟩

theorem dk_keys (K : Int) (pre post : List Tree) (ctx : List Frame) (tx : Tree)
    (newKey : Int) (hK : ∀ t ∈ pre ++ plug ctx tx :: post, K ≤ t.key)
    (hho : HeapOrdT (plug ctx tx)) :
    ∀ s ∈ dkForest pre ctx tx post newKey,
      K ≤ s.key ∨ (s.ptr = tx.ptr ∧ s.key = newKey) := by
  have hKpre : ∀ t ∈ pre, K ≤ t.key := fun t ht => hK t (List.mem_append_left _ ht)
  have hKpost : ∀ t ∈ post, K ≤ t.key :=
    fun t ht => hK t (List.mem_append_right _ (List.mem_cons_of_mem _ ht))
  have hKT : K ≤ (plug ctx tx).key :=
    hK _ (List.mem_append_right _ (List.mem_cons_self _ _))
  intro s hs
  unfold dkForest at hs
  cases ctx with
  | nil =>
    simp only at hs
    rcases List.mem_append.mp hs with h | h
    · exact Or.inl (hKpre s h)
    · rcases List.mem_cons.mp h with h1 | h1
      · right
        rw [h1]
        exact ⟨tree_setKey_ptr _ _, tree_setKey_key _ _⟩
      · exact Or.inl (hKpost s h1)
  | cons f ctx' =>
    simp only at hs
    split_ifs at hs with h
    · have h4 : HeapOrdT (plug ctx' (f.fill tx)) := hho
      rw [heapOrdT_plug, heapOrdT_fill] at h4
      obtain ⟨⟨a1, a2, a3, a4, a5⟩, a6⟩ := h4
      have hrem : HeapOrdT (plug ctx' f.remove) := by
        rw [heapOrdT_plug, heapOrdT_remove]
        exact ⟨⟨a3, a4, a5⟩, a6⟩
      have hkey : (plug ctx' f.remove).key = (plug ctx' (f.fill tx)).key :=
        (plug_root ctx' f.remove (f.fill tx) (fun _ => ⟨rfl, rfl⟩)).2
      rcases cascF_keys K ctx' f.remove pre _ hrem (by rw [hkey]; exact hKT) s hs
        with c | c | c
      · exact Or.inl (hKpre s c)
      · rcases List.mem_append.mp c with c1 | c1
        · exact Or.inl (hKpost s c1)
        · right
          rw [List.mem_singleton.mp c1]
          exact ⟨(tree_setMark_ptr _ _).trans (tree_setKey_ptr _ _),
            (tree_setMark_key _ _).trans (tree_setKey_key _ _)⟩
      · exact Or.inl c
    · rcases List.mem_append.mp hs with c | c
      · exact Or.inl (hKpre s c)
      · rcases List.mem_cons.mp c with c1 | c1
        · left
          rw [c1, (plug_root (f :: ctx') (tx.setKey newKey) tx (fun e => by cases e)).2]
          exact hKT
        · exact Or.inl (hKpost s c1)

/-- The first tree of the forest around `T`. -/
def headTree (pre : List Tree) (T : Tree) : Tree := pre.head?.getD T

theorem headTree_mem (pre post : List Tree) (T : Tree) :
    ∃ tl, pre ++ T :: post = headTree pre T :: tl := by
  cases pre with
  | nil => exact ⟨post, rfl⟩
  | cons a l => exact ⟨l ++ T :: post, rfl⟩

theorem dk_head (pre post : List Tree) (ctx : List Frame) (tx : Tree) (newKey : Int)
    (hle : newKey ≤ tx.key) :
    ∃ hd tl, dkForest pre ctx tx post newKey = hd :: tl ∧
      hd.ptr = (headTree pre (plug ctx tx)).ptr ∧
      (hd.key = (headTree pre (plug ctx tx)).key ∨
        (hd.ptr = tx.ptr ∧ hd.key = newKey ∧ newKey ≤ (headTree pre (plug ctx tx)).key)) := by
  cases pre with
  | cons a l =>
    refine ⟨a, (dkForest (a :: l) ctx tx post newKey).tail, ?_, rfl, Or.inl rfl⟩
    unfold dkForest
    cases ctx with
    | nil => rfl
    | cons f ctx' =>
      simp only
      split_ifs with h
      · rw [cascF_cons]; rfl
      · rfl
  | nil =>
    unfold dkForest
    cases ctx with
    | nil =>
      exact ⟨tx.setKey newKey, post, rfl, tree_setKey_ptr _ _,
        Or.inr ⟨tree_setKey_ptr _ _, tree_setKey_key _ _, hle⟩⟩
    | cons f ctx' =>
      simp only
      split_ifs with h
      · obtain ⟨hd, tl, e1, e2, e3⟩ := cascF_head ctx' f.remove
          (post ++ [(tx.setKey newKey).setMark false])
        have := plug_root ctx' f.remove (f.fill tx) (fun _ => ⟨rfl, rfl⟩)
        exact ⟨hd, tl, e1, e2.trans this.1, Or.inl (e3.trans this.2)⟩
      · have := plug_root (f :: ctx') (tx.setKey newKey) tx (fun e => by cases e)
        exact ⟨_, post, rfl, this.1, Or.inl this.2⟩

theorem dk_root (pre post : List Tree) (ctx : List Frame) (tx : Tree) (newKey : Int)
    (hho : HeapOrdT (plug ctx tx)) (K : Int) (hK : K ≤ (plug ctx tx).key)
    (hlt : newKey < K) :
    ∃ a b t, dkForest pre ctx tx post newKey = a ++ t :: b ∧ t.ptr = tx.ptr ∧
      t.key = newKey := by
  unfold dkForest
  cases ctx with
  | nil =>
    exact ⟨pre, post, tx.setKey newKey, rfl, tree_setKey_ptr _ _, tree_setKey_key _ _⟩
  | cons f ctx' =>
    have hfk : (plug (f :: ctx') tx).key ≤ f.key := by
      have := heapOrdT_min _ hho _ (plug_item ctx' (f.fill tx))
      exact this
    have hcut : newKey < f.key := lt_of_lt_of_le hlt (le_trans hK hfk)
    simp only
    rw [if_pos hcut]
    have hm : (tx.setKey newKey).setMark false ∈
        cascF pre ctx' f.remove (post ++ [(tx.setKey newKey).setMark false]) :=
      cascF_post ctx' f.remove pre _ _ (Or.inr (List.mem_append_right _
        (List.mem_singleton.mpr rfl)))
    obtain ⟨a, b, e⟩ := List.append_of_mem hm
    exact ⟨a, b, _, e, (tree_setMark_ptr _ _).trans (tree_setKey_ptr _ _),
      (tree_setMark_key _ _).trans (tree_setKey_key _ _)⟩

theorem dk_cut_root (pre post : List Tree) (ctx' : List Frame) (f : Frame) (tx : Tree)
    (newKey : Int) (hcut : newKey < f.key) :
    ∃ t ∈ dkForest pre (f :: ctx') tx post newKey, t.ptr = tx.ptr ∧ t.mark = false := by
  unfold dkForest
  simp only
  rw [if_pos hcut]
  exact ⟨_, cascF_post ctx' f.remove pre _ _ (Or.inr (List.mem_append_right _
      (List.mem_singleton.mpr rfl))),
    (tree_setMark_ptr _ _).trans (tree_setKey_ptr _ _), tree_setMark_mark _ _⟩

end Fib

set_option linter.unusedTactic false
set_option linter.unreachableTactic false
set_option linter.unusedVariables false

namespace Fib

/-! ## Fibonacci heap: `fibHeapDecreaseKey` -/

theorem repr_root_fields {H : FibHeap} {ts : List Tree} (hr : Repr H ts) {t : Tree}
    (ht : t ∈ ts) : (H.mem t.ptr).key = t.key ∧ (H.mem t.ptr).parent = 0 ∧
    (H.mem t.ptr).mark = t.mark := by
  have := treeOK_fields (forestOK_iff.mp hr.ok t ht)
  exact ⟨this.1, this.2.2.2.1, this.2.2.1⟩

theorem repr_rotate {H : FibHeap} {a b : List Tree} {t : Tree} (hr : Repr H (a ++ t :: b)) :
    Repr { H with minNode := t.ptr } (t :: b ++ a) := by
  have hp : (t :: b ++ a).Perm (a ++ t :: b) := List.perm_append_comm
  apply repr_of_nodes hr (nodesL_perm hp)
  · exact (forestOK_perm hp).mpr hr.ok
  · have h1 := hr.rr
    rw [rootsOf_append] at h1
    have h2 := rootRing_rotate h1
    rw [rootsOf_append]
    exact h2
  · rfl
  · rfl

theorem wf_perm_tail {H : FibHeap} {ts : List Tree} (hr : Repr H ts)
    (hho : HeapOrdL ts) (hfib : FibL ts) (hmh : MinHead ts) : FibWF H ts :=
  ⟨hr, hho, hfib, hmh⟩

theorem item_unique {ts : List Tree} (hnd : (nodesL ts).Nodup) {p : Nat} {k k' v v' : Int}
    (h1 : (p, k, v) ∈ itemsL ts) (h2 : (p, k', v') ∈ itemsL ts) : k = k' ∧ v = v' := by
  rw [← itemsL_fst] at hnd
  have := List.inj_on_of_nodup_map hnd h1 h2 rfl
  simp at this
  exact this

theorem decreaseKey_spec (H : FibHeap) (ts : List Tree) (hwf : FibWF H ts) (x : Nat)
    (k v : Int) (hx : (x, k, v) ∈ itemsL ts) (newKey : Int) (hle : newKey ≤ k) :
    ∃ H' ts' rest, fibHeapDecreaseKey H x newKey = some H' ∧ FibWF H' ts' ∧
      (itemsL ts).Perm ((x, k, v) :: rest) ∧ (itemsL ts').Perm ((x, newKey, v) :: rest) ∧
      H'.next = H.next ∧ H'.numNodes = H.numNodes ∧
      ((H.mem x).parent ≠ 0 ∧ newKey < (H.mem (H.mem x).parent).key →
        (H'.mem x).parent = 0 ∧ (H'.mem x).mark = false) ∧
      (¬ ((H.mem x).parent ≠ 0 ∧ newKey < (H.mem (H.mem x).parent).key) →
        (H'.mem x).parent = (H.mem x).parent) := by
  have hxn : x ∈ nodesL ts := by
    rw [← itemsL_fst]
    exact List.mem_map_of_mem Prod.fst hx
  obtain ⟨pre, post, ctx, tx, hts, hptr⟩ := find_forest ts x hxn
  subst hts
  subst hptr
  have hitx : (tx.ptr, tx.key, tx.value) ∈ itemsL (pre ++ plug ctx tx :: post) :=
    (itemsL_plug pre post ctx tx).symm.subset (List.mem_append_left _ (root_item tx))
  obtain ⟨hk, hv⟩ := item_unique hwf.repr.nodup hx hitx
  subst hk
  subst hv
  have hkey : (H.mem tx.ptr).key = tx.key := (itemsL_fields H.mem _ 0 hwf.repr.ok _ hx).1
  have hng : ¬ newKey > (H.mem tx.ptr).key := by rw [hkey]; exact not_lt.mpr hle
  obtain ⟨H1, e1, e2, e3, e4, e5⟩ := dkCut_spec H pre post ctx tx newKey hwf.repr
  have hEq := fibHeapDecreaseKey_eq H tx.ptr newKey hng
  rw [e1] at hEq
  simp only at hEq
  -- abstract facts
  obtain ⟨hhoPre, hhoT, hhoPost⟩ := (heapOrdL_mid _ _ _).mp hwf.ho
  have hD_ho := dk_ho pre post ctx tx newKey hwf.ho hle
  have hD_fib := dk_fib pre post ctx tx newKey hwf.fib
  have hD_items := dk_items pre post ctx tx newKey
  obtain ⟨tl0, htl0⟩ := headTree_mem pre post (plug ctx tx)
  have hK : ∀ t ∈ pre ++ plug ctx tx :: post, (headTree pre (plug ctx tx)).key ≤ t.key := by
    intro t ht
    rw [htl0] at ht
    have hmh := hwf.mh
    rw [htl0] at hmh
    rcases List.mem_cons.mp ht with c | c
    · rw [c]
    · exact hmh t c
  have hD_keys := dk_keys _ pre post ctx tx newKey hK hhoT
  obtain ⟨hd, tl, hD, hdptr, hdkey⟩ := dk_head pre post ctx tx newKey hle
  have hitems0 : (itemsL (pre ++ plug ctx tx :: post)).Perm
      ((tx.ptr, tx.key, tx.value) ::
        (itemsL tx.children ++ (itemsL pre ++ ctxItems ctx ++ itemsL post))) := by
    refine (itemsL_plug pre post ctx tx).trans ?_
    rw [items_root]
    rfl
  -- memory facts
  have hx1 : (H1.mem tx.ptr).key = newKey :=
    (itemsL_fields H1.mem _ 0 e2.ok _ (hD_items.symm.subset (List.mem_cons_self _ _))).1
  have hmin1 : H1.minNode = hd.ptr := by
    have := e2.rr.min
    rw [hD] at this
    exact this
  have hhdD : hd ∈ dkForest pre ctx tx post newKey := by rw [hD]; exact List.mem_cons_self _ _
  have hhd1 : (H1.mem hd.ptr).key = hd.key := (repr_root_fields e2 hhdD).1
  rw [hx1, hmin1, hhd1] at hEq
  -- the parent of `x`
  have hsub0 : TreeOK H.mem (ctxPar ctx 0) tx :=
    plug_sub H.mem ctx tx 0 (forestOK_append.mp hwf.repr.ok).2.1
  have hpar0 : (H.mem tx.ptr).parent = ctxPar ctx 0 := (treeOK_fields hsub0).2.2.2.1
  have hparent : ((H.mem tx.ptr).parent ≠ 0 ∧
      newKey < (H.mem (H.mem tx.ptr).parent).key →
        (H1.mem tx.ptr).parent = 0 ∧ (H1.mem tx.ptr).mark = false) ∧
      (¬ ((H.mem tx.ptr).parent ≠ 0 ∧ newKey < (H.mem (H.mem tx.ptr).parent).key) →
        (H1.mem tx.ptr).parent = (H.mem tx.ptr).parent) := by
    rw [hpar0]
    cases ctx with
    | nil =>
      refine ⟨fun c => absurd rfl c.1, fun _ => ?_⟩
      have hm : tx.setKey newKey ∈ dkForest pre [] tx post newKey := by
        show tx.setKey newKey ∈ pre ++ tx.setKey newKey :: post
        exact List.mem_append_right _ (List.mem_cons_self _ _)
      have := (repr_root_fields e2 hm).2.1
      rw [tree_setKey_ptr] at this
      exact this
    | cons f ctx' =>
      have hfill : TreeOK H.mem (ctxPar ctx' 0) (f.fill tx) :=
        plug_sub H.mem ctx' _ 0 (forestOK_append.mp hwf.repr.ok).2.1
      have hfkey : (H.mem f.p).key = f.key := hfill.1
      show (f.p ≠ 0 ∧ newKey < (H.mem f.p).key → _) ∧ (¬ (f.p ≠ 0 ∧ newKey < (H.mem f.p).key) →
        (H1.mem tx.ptr).parent = f.p)
      rw [hfkey]
      have hfp0 : f.p ≠ 0 := by
        have hfp : f.p ∈ nodesL (pre ++ plug (f :: ctx') tx :: post) := by
          rw [nodesL_append]
          apply List.mem_append_right
          apply List.mem_append_left
          apply nodes_plug_sub ctx' (f.fill tx)
          rw [nodes_fill]
          exact List.mem_cons_self _ _
        have := (hwf.repr.pos _ hfp).1
        omega
      constructor
      · rintro ⟨_, hcut⟩
        obtain ⟨t, ht, hp, hmk⟩ := dk_cut_root pre post ctx' f tx newKey hcut
        have := repr_root_fields e2 ht
        rw [hp] at this
        exact ⟨this.2.1, this.2.2.trans hmk⟩
      · intro hn
        have hnc : ¬ newKey < f.key := fun c => hn ⟨hfp0, c⟩
        have hd' : dkForest pre (f :: ctx') tx post newKey
            = pre ++ plug (f :: ctx') (tx.setKey newKey) :: post := by
          show (if newKey < f.key then _ else _) = _
          rw [if_neg hnc]
        rw [hd'] at e2
        have h1 := plug_sub H1.mem (f :: ctx') _ 0 (forestOK_append.mp e2.ok).2.1
        have := (treeOK_fields h1).2.2.2.1
        rw [tree_setKey_ptr] at this
        exact this
  by_cases hlt : newKey < hd.key
  · rw [if_pos hlt] at hEq
    have hdk : hd.key = (headTree pre (plug ctx tx)).key := by
      rcases hdkey with c | c
      · exact c
      · exfalso
        rw [c.2.1] at hlt
        exact lt_irrefl _ hlt
    have hKT : (headTree pre (plug ctx tx)).key ≤ (plug ctx tx).key :=
      hK _ (List.mem_append_right _ (List.mem_cons_self _ _))
    obtain ⟨a, b, t, hab, htp, htk⟩ := dk_root pre post ctx tx newKey hhoT _ hKT
      (by rw [← hdk]; exact hlt)
    have hp : (t :: b ++ a).Perm (dkForest pre ctx tx post newKey) := by
      rw [hab]
      exact List.perm_append_comm
    rw [hab] at e2
    have hr' := repr_rotate e2
    rw [htp] at hr'
    refine ⟨_, t :: b ++ a, _, hEq, ⟨hr', ?_, ?_, ?_⟩, hitems0,
      (itemsL_perm hp).trans hD_items, e4, e5, hparent⟩
    · rw [heapOrdL_iff]
      intro s hs
      exact heapOrdL_iff.mp hD_ho s (hp.subset hs)
    · rw [fibL_iff]
      intro s hs
      exact fibL_iff.mp hD_fib s (hp.subset hs)
    · intro s hs
      rw [htk]
      rcases hD_keys s (hp.subset (List.mem_cons_of_mem _ hs)) with c | c
      · rw [← hdk] at c
        exact le_of_lt (lt_of_lt_of_le hlt c)
      · rw [c.2]
  · rw [if_neg hlt] at hEq
    refine ⟨H1, _, _, hEq, ⟨e2, hD_ho, hD_fib, ?_⟩, hitems0, hD_items, e4, e5, hparent⟩
    rw [hD]
    intro s hs
    have hsD : s ∈ dkForest pre ctx tx post newKey := by
      rw [hD]; exact List.mem_cons_of_mem _ hs
    have hdle : hd.key ≤ (headTree pre (plug ctx tx)).key := by
      rcases hdkey with c | c
      · rw [c]
      · rw [c.2.1]; exact c.2.2
    rcases hD_keys s hsD with c | c
    · exact le_trans hdle c
    · rw [c.2]; exact not_lt.mp hlt

end Fib

set_option linter.unusedTactic false
set_option linter.unreachableTactic false
set_option linter.unusedVariables false

namespace Fib

/-! ## Fibonacci heap: the live nodes and the reachable heaps -/

/-- The nodes reached from `minNode` through sibling and child links. -/
inductive LinkReach (H : FibHeap) : Nat → Prop
  | min : H.minNode ≠ 0 → LinkReach H H.minNode
  | right (p : Nat) : LinkReach H p → LinkReach H (H.mem p).right
  | child (p : Nat) : LinkReach H p → (H.mem p).child ≠ 0 → LinkReach H (H.mem p).child

/-- The node `q` lies in the subtree of `p`: following parent links from `q`
leads to `p`. -/
inductive Below (H : FibHeap) (p : Nat) : Nat → Prop
  | self : Below H p p
  | step (q : Nat) : (H.mem q).parent ≠ 0 → Below H p (H.mem q).parent → Below H p q

/-- The heaps reached from `createFibHeap` by `fibHeapInsert`,
`fibHeapExtractMin` and `fibHeapDecreaseKey` on handles of live nodes. -/
inductive FibReach : FibHeap → Prop
  | create : FibReach createFibHeap
  | insert (H : FibHeap) (k v : Int) : FibReach H → FibReach (fibHeapInsert H k v).2
  | extract (H H' : FibHeap) (v : Int) : FibReach H → fibHeapExtractMin H = some (v, H') →
      FibReach H'
  | decrease (H H' : FibHeap) (x : Nat) (k : Int) : FibReach H → LinkReach H x →
      fibHeapDecreaseKey H x k = some H' → FibReach H'

theorem ring_mem_links (m : Nat → FibHeapNode) (L : List Nat) (p : Nat) (h : Ring m L)
    (hnd : L.Nodup) (hp : p ∈ L) :
    (m p).right ∈ L ∧ (m p).left ∈ L ∧ (m (m p).right).left = p ∧ (m (m p).left).right = p := by
  obtain ⟨a, b, rfl⟩ := List.append_of_mem hp
  have h1 : Ring m (p :: (b ++ a)) := ring_rotate m a (p :: b) h
  have hperm : (p :: (b ++ a)).Perm (a ++ p :: b) := @List.perm_append_comm _ (p :: b) a
  obtain ⟨hl, hr⟩ := ring_head_mem m p (b ++ a) h1
  have hlast := linked_last m (b ++ a) p p h1
  refine ⟨hperm.subset hr, hperm.subset hl, ?_, ?_⟩
  · cases hba : b ++ a with
    | nil =>
      rw [hba] at h1
      have e1 : (m p).right = p := h1.1
      have e2 : (m p).left = p := h1.2
      rw [e1, e2]
    | cons g l =>
      rw [hba] at h1
      have e1 : (m p).right = g := h1.1
      have e2 : (m g).left = p := h1.2.1
      rw [e1, e2]
  · rw [hlast.2]
    exact hlast.1

/-- The neighbourhood of a live node: its sibling list, its child list and
its parent. -/
theorem node_local {H : FibHeap} {ts : List Tree} (hr : Repr H ts) {p : Nat}
    (hp : p ∈ nodesL ts) :
    ∃ (sib cl : List Nat) (par : Nat),
      Ring H.mem sib ∧ sib.Nodup ∧ p ∈ sib ∧
      (∀ q ∈ sib, q ∈ nodesL ts ∧ (H.mem q).parent = par) ∧
      (par = 0 ∨ par ∈ nodesL ts) ∧ (par = 0 → sib = rootsOf ts) ∧
      (par ≠ 0 → p ∉ rootsOf ts) ∧
      Ring H.mem cl ∧ cl.Nodup ∧ (∀ q ∈ cl, q ∈ nodesL ts ∧ (H.mem q).parent = p) ∧
      (H.mem p).degree = cl.length ∧ (H.mem p).child = cl.headD 0 := by
  obtain ⟨pre, post, ctx, tx, rfl, rfl⟩ := find_forest ts p hp
  have hokT : TreeOK H.mem 0 (plug ctx tx) := (forestOK_append.mp hr.ok).2.1
  have hsub := plug_sub H.mem ctx tx 0 hokT
  obtain ⟨t1, t2, t3, t4, t5, t6, t7, t8⟩ := treeOK_fields hsub
  have hTsub : nodes (plug ctx tx) ⊆ nodesL (pre ++ plug ctx tx :: post) := by
    intro q hq
    rw [nodesL_append]
    exact List.mem_append_right _ (List.mem_append_left _ hq)
  have hndall := hr.nodup
  rw [nodesL_append] at hndall
  have hndT : (nodes (plug ctx tx)).Nodup :=
    (List.nodup_append.mp (List.nodup_append.mp hndall).2.1).1
  have hndtx : (nodes tx).Nodup := nodup_of_plug ctx tx hndT
  have hcl : ∀ q ∈ rootsOf tx.children,
      q ∈ nodesL (pre ++ plug ctx tx :: post) ∧ (H.mem q).parent = tx.ptr := by
    intro q hq
    have hqtx : q ∈ nodes tx := by
      rw [nodes_eq]
      exact List.mem_cons_of_mem _ (rootsOf_subset hq)
    refine ⟨hTsub (nodes_plug_sub ctx tx hqtx), ?_⟩
    obtain ⟨c, hc, e⟩ := mem_rootsOf.mp hq
    rw [← e]
    exact (treeOK_fields (forestOK_iff.mp t8 c hc)).2.2.2.1
  have hclnd : (rootsOf tx.children).Nodup := by
    apply rootsOf_nodup
    rw [nodes_eq] at hndtx
    exact (List.nodup_cons.mp hndtx).2
  have hchild : (H.mem tx.ptr).child = (rootsOf tx.children).headD 0 := by
    rw [t6, headPtr_eq]
  have hdeg : (H.mem tx.ptr).degree = (rootsOf tx.children).length := by
    rw [t5]
    simp [rootsOf]
  cases ctx with
  | nil =>
    refine ⟨rootsOf (pre ++ tx :: post), rootsOf tx.children, 0, hr.rr.ring, hr.rr.nodup, ?_,
      ?_, Or.inl rfl, fun _ => rfl, fun c => absurd rfl c, t7, hclnd, hcl, hdeg, hchild⟩
    · rw [rootsOf_append]
      exact List.mem_append_right _ (List.mem_cons_self _ _)
    · intro q hq
      refine ⟨rootsOf_subset hq, ?_⟩
      obtain ⟨c, hc, e⟩ := mem_rootsOf.mp hq
      rw [← e]
      exact (treeOK_fields (forestOK_iff.mp hr.ok c hc)).2.2.2.1
  | cons f ctx' =>
    have hfill : TreeOK H.mem (ctxPar ctx' 0) (f.fill tx) := plug_sub H.mem ctx' _ 0 hokT
    obtain ⟨y1, y2, y3, y4, y5, y6, y7, y8⟩ := hfill
    have hfsub : nodes (f.fill tx) ⊆ nodesL (pre ++ plug (f :: ctx') tx :: post) :=
      fun q hq => hTsub (nodes_plug_sub ctx' (f.fill tx) hq)
    have hndf : (nodes (f.fill tx)).Nodup := nodup_of_plug ctx' _ hndT
    have hfp : f.p ∈ nodes (f.fill tx) := by rw [nodes_fill]; exact List.mem_cons_self _ _
    have hfp0 : f.p ≠ 0 := by
      have := (hr.pos _ (hfsub hfp)).1
      omega
    refine ⟨rootsOf (f.left ++ tx :: f.right), rootsOf tx.children, f.p, y7, ?_, ?_, ?_,
      Or.inr (hfsub hfp), fun c => absurd c hfp0, ?_, t7, hclnd, hcl, hdeg, hchild⟩
    · apply rootsOf_nodup
      have := hndf
      rw [nodes_eq] at this
      exact (List.nodup_cons.mp this).2
    · rw [rootsOf_fill]
      exact List.mem_append_right _ (List.mem_cons_self _ _)
    · intro q hq
      constructor
      · apply hfsub
        show q ∈ f.p :: nodesL (f.left ++ tx :: f.right)
        exact List.mem_cons_of_mem _ (rootsOf_subset hq)
      · obtain ⟨c, hc, e⟩ := mem_rootsOf.mp hq
        rw [← e]
        exact (treeOK_fields (forestOK_iff.mp y8 c hc)).2.2.2.1
    · intro _ hroot
      have hin : tx.ptr ∈ nodesL (plug (f :: ctx') tx).children := by
        have h1 : tx.ptr ∈ nodes (plug (f :: ctx') tx) :=
          nodes_plug_sub (f :: ctx') tx (ptr_mem_nodes tx)
        rw [nodes_eq] at h1
        rcases List.mem_cons.mp h1 with e | e
        · exfalso
          exact plug_root_not_in (f :: ctx') tx (List.cons_ne_nil _ _) hndT
            (e ▸ ptr_mem_nodes tx)
        · exact e
      exact inner_not_root hr.nodup (List.mem_append_right _ (List.mem_cons_self _ _)) hin hroot

theorem ring_reach (H : FibHeap) : ∀ (l : List Nat) (a e : Nat),
    RightPath H.mem (a :: l) e → LinkReach H a → ∀ q ∈ a :: l, LinkReach H q
  | [], a, e, _, ha, q, hq => by
    rw [List.mem_singleton.mp hq]; exact ha
  | b :: l, a, e, ⟨h1, h2⟩, ha, q, hq => by
    rcases List.mem_cons.mp hq with c | c
    · rw [c]; exact ha
    · have hb : LinkReach H b := by
        have := LinkReach.right a ha
        rw [h1] at this
        exact this
      exact ring_reach H l b e h2 hb q c

theorem ring_reach_all (H : FibHeap) (L : List Nat) (h : Ring H.mem L)
    (hh : LinkReach H (L.headD 0)) : ∀ q ∈ L, LinkReach H q := by
  cases L with
  | nil => intro q hq; cases hq
  | cons a l =>
    exact ring_reach H l a a (rightPath_of_linked H.mem a l a h) hh

theorem plug_reach (H : FibHeap) :
    ∀ (ctx : List Frame) (tx : Tree) (par : Nat), TreeOK H.mem par (plug ctx tx) →
    0 ∉ nodes (plug ctx tx) → LinkReach H (plug ctx tx).ptr → LinkReach H tx.ptr
  | [], _, _, _, _, h => h
  | f :: ctx, tx, par, hok, h0, h => by
    have hfp : LinkReach H f.p := plug_reach H ctx (f.fill tx) par hok h0 h
    have hfill : TreeOK H.mem (ctxPar ctx par) (f.fill tx) := plug_sub H.mem ctx _ par hok
    obtain ⟨y1, y2, y3, y4, y5, y6, y7, y8⟩ := hfill
    have hsub : nodes (f.fill tx) ⊆ nodes (plug ctx (f.fill tx)) := nodes_plug_sub ctx _
    have hne : f.left ++ tx :: f.right ≠ [] := by simp
    have hc1 : headPtr (f.left ++ tx :: f.right) ∈ rootsOf (f.left ++ tx :: f.right) :=
      headPtr_mem hne
    have hc0 : headPtr (f.left ++ tx :: f.right) ≠ 0 := by
      intro e
      apply h0
      apply hsub
      rw [← e]
      show _ ∈ f.p :: nodesL (f.left ++ tx :: f.right)
      exact List.mem_cons_of_mem _ (rootsOf_subset hc1)
    have hch : LinkReach H (headPtr (f.left ++ tx :: f.right)) := by
      have := LinkReach.child f.p hfp (by rw [y6]; exact hc0)
      rw [y6] at this
      exact this
    apply ring_reach_all H _ y7 (by rw [← headPtr_eq]; exact hch)
    rw [rootsOf_fill]
    exact List.mem_append_right _ (List.mem_cons_self _ _)

theorem live_iff {H : FibHeap} {ts : List Tree} (hr : Repr H ts) (p : Nat) :
    LinkReach H p ↔ p ∈ nodesL ts := by
  constructor
  · intro h
    induction h with
    | min h0 =>
      have := hr.rr.min
      cases ts with
      | nil => exact absurd this h0
      | cons t tl =>
        rw [this]
        exact rootsOf_subset (List.mem_cons_self _ _)
    | right q _ ih =>
      obtain ⟨sib, cl, par, h1, h2, h3, h4, _⟩ := node_local hr ih
      exact (h4 _ (ring_mem_links H.mem sib q h1 h2 h3).1).1
    | child q _ hc ih =>
      obtain ⟨sib, cl, par, _, _, _, _, _, _, _, h1, h2, h3, h4, h5⟩ := node_local hr ih
      cases cl with
      | nil => exact absurd h5 hc
      | cons c l =>
        rw [h5]
        exact (h3 c (List.mem_cons_self _ _)).1
  · intro hp
    obtain ⟨pre, post, ctx, tx, rfl, rfl⟩ := find_forest ts p hp
    have hokT : TreeOK H.mem 0 (plug ctx tx) := (forestOK_append.mp hr.ok).2.1
    have hTsub : nodes (plug ctx tx) ⊆ nodesL (pre ++ plug ctx tx :: post) := by
      intro q hq
      rw [nodesL_append]
      exact List.mem_append_right _ (List.mem_append_left _ hq)
    apply plug_reach H ctx tx 0 hokT
    · intro c
      have := (hr.pos 0 (hTsub c)).1
      omega
    · have hmin := hr.rr.min
      have hroot : (plug ctx tx).ptr ∈ rootsOf (pre ++ plug ctx tx :: post) := by
        rw [rootsOf_append]
        exact List.mem_append_right _ (List.mem_cons_self _ _)
      apply ring_reach_all H _ hr.rr.ring _ _ hroot
      rw [← hmin]
      apply LinkReach.min
      rw [hmin]
      intro e
      have hne : rootsOf (pre ++ plug ctx tx :: post) ≠ [] := by
        intro c
        rw [c] at hroot
        cases hroot
      cases hL : rootsOf (pre ++ plug ctx tx :: post) with
      | nil => exact hne hL
      | cons a l =>
        rw [hL] at e
        have : a = 0 := e
        apply hr.rr.nz
        rw [hL, this]
        exact List.mem_cons_self _ _

theorem reach_wf : ∀ {H : FibHeap}, FibReach H → ∃ ts, FibWF H ts := by
  intro H h
  induction h with
  | create => exact ⟨[], createFibHeap_wf⟩
  | insert H k v _ ih =>
    obtain ⟨ts, hwf⟩ := ih
    exact ⟨_, insert_wf H ts k v hwf⟩
  | extract H H' v _ he ih =>
    obtain ⟨ts, hwf⟩ := ih
    by_cases hemp : fibHeapIsEmpty H = true
    · have h0 : H.minNode = 0 := by simpa [fibHeapIsEmpty] using hemp
      have : fibHeapExtractMin H = some (-1, H) := by
        unfold fibHeapExtractMin
        simp only [h0, if_true]
      rw [this] at he
      have e : H = H' := by
        have := Option.some.inj he
        exact (Prod.mk.inj this).2
      rw [← e]
      exact ⟨ts, hwf⟩
    · have hne : fibHeapIsEmpty H = false := by simpa using hemp
      obtain ⟨p, k, v', H1, ts1, e1, _, _, e4, _⟩ := extractMin_wf H ts hwf hne
      rw [e1] at he
      have e : H1 = H' := (Prod.mk.inj (Option.some.inj he)).2
      rw [← e]
      exact ⟨ts1, e4⟩
  | decrease H H' x k _ hlive hd ih =>
    obtain ⟨ts, hwf⟩ := ih
    have hx : x ∈ nodesL ts := (live_iff hwf.repr x).mp hlive
    rw [← itemsL_fst] at hx
    obtain ⟨⟨x', k0, v0⟩, hmem, hfst⟩ := List.mem_map.mp hx
    have hx' : x' = x := hfst
    subst hx'
    by_cases hgt : k > (H.mem x').key
    · have : fibHeapDecreaseKey H x' k = some H := by
        unfold fibHeapDecreaseKey
        rw [if_pos hgt]
      rw [this] at hd
      rw [← Option.some.inj hd]
      exact ⟨ts, hwf⟩
    · have hkey := (itemsL_fields H.mem ts 0 hwf.repr.ok _ hmem).1
      have hle : k ≤ k0 := by
        have : (H.mem x').key = k0 := hkey
        rw [this] at hgt
        exact not_lt.mp hgt
      obtain ⟨H1, ts1, rest, e1, e2, _⟩ := decreaseKey_spec H ts hwf x' k0 v0 hmem k hle
      rw [e1] at hd
      rw [← Option.some.inj hd]
      exact ⟨ts1, e2⟩

end Fib

set_option linter.unusedTactic false
set_option linter.unreachableTactic false
set_option linter.unusedVariables false

namespace Fib

/-! ## Fibonacci heap: the invariants of the reachable heaps -/

theorem sample_reach : FibReach sampleFibHeap :=
  FibReach.insert _ 4 3 (FibReach.insert _ 3 2 (FibReach.insert _ 5 1 FibReach.create))

theorem wf_parent_key {H : FibHeap} {ts : List Tree} (hwf : FibWF H ts) {p : Nat}
    (hp : p ∈ nodesL ts) (hpar : (H.mem p).parent ≠ 0) :
    (H.mem (H.mem p).parent).key ≤ (H.mem p).key := by
  obtain ⟨pre, post, ctx, tx, rfl, rfl⟩ := find_forest ts p hp
  have hokT : TreeOK H.mem 0 (plug ctx tx) := (forestOK_append.mp hwf.repr.ok).2.1
  have hsub := plug_sub H.mem ctx tx 0 hokT
  obtain ⟨t1, _, _, t4, _⟩ := treeOK_fields hsub
  have hho := ((heapOrdL_mid _ _ _).mp hwf.ho).2.1
  rw [heapOrdT_plug] at hho
  cases ctx with
  | nil => exact absurd t4 hpar
  | cons f ctx' =>
    have hfill : TreeOK H.mem (ctxPar ctx' 0) (f.fill tx) := plug_sub H.mem ctx' _ 0 hokT
    have hfkey : (H.mem f.p).key = f.key := hfill.1
    have e : (H.mem tx.ptr).parent = f.p := t4
    rw [e, hfkey, t1]
    exact hho.2.1

theorem wf_live_key {H : FibHeap} {ts : List Tree} (hwf : FibWF H ts) {p : Nat}
    (hp : p ∈ nodesL ts) : ∃ k v, (p, k, v) ∈ itemsL ts ∧ (H.mem p).key = k := by
  rw [← itemsL_fst] at hp
  obtain ⟨⟨p', k, v⟩, hmem, hfst⟩ := List.mem_map.mp hp
  have e : p' = p := hfst
  subst e
  exact ⟨k, v, hmem, (itemsL_fields H.mem ts 0 hwf.repr.ok _ hmem).1⟩

theorem wf_roots {H : FibHeap} {ts : List Tree} (hwf : FibWF H ts) (p : Nat) :
    p ∈ rootsOf ts ↔ (LinkReach H p ∧ (H.mem p).parent = 0) := by
  constructor
  · intro hp
    obtain ⟨t, ht, e⟩ := mem_rootsOf.mp hp
    refine ⟨(live_iff hwf.repr p).mpr (rootsOf_subset hp), ?_⟩
    rw [← e]
    exact (repr_root_fields hwf.repr ht).2.1
  · rintro ⟨h1, h2⟩
    have hp := (live_iff hwf.repr p).mp h1
    obtain ⟨sib, cl, par, _, _, a3, a4, _, a6, _⟩ := node_local hwf.repr hp
    have hpar : par = 0 := by rw [← (a4 p a3).2]; exact h2
    rw [← a6 hpar]
    exact a3

theorem plug_below (H : FibHeap) : ∀ (c : List Frame) (tq : Tree) (par : Nat),
    TreeOK H.mem par (plug c tq) → 0 ∉ nodes (plug c tq) →
    Below H (plug c tq).ptr tq.ptr
  | [], _, _, _, _ => Below.self
  | f :: c, tq, par, hok, h0 => by
    have ih : Below H (plug c (f.fill tq)).ptr f.p := plug_below H c (f.fill tq) par hok h0
    have hsub : TreeOK H.mem f.p tq := plug_sub H.mem (f :: c) tq par hok
    have hpar : (H.mem tq.ptr).parent = f.p := (treeOK_fields hsub).2.2.2.1
    have hfp0 : f.p ≠ 0 := by
      intro e
      apply h0
      apply nodes_plug_sub c (f.fill tq)
      rw [nodes_fill, e]
      exact List.mem_cons_self _ _
    apply Below.step tq.ptr
    · rw [hpar]; exact hfp0
    · rw [hpar]; exact ih

theorem extract_total {H : FibHeap} {ts : List Tree} (hwf : FibWF H ts) :
    ∃ r, fibHeapExtractMin H = some r := by
  by_cases hemp : fibHeapIsEmpty H = true
  · have h0 : H.minNode = 0 := by simpa [fibHeapIsEmpty] using hemp
    refine ⟨(-1, H), ?_⟩
    unfold fibHeapExtractMin
    simp only [h0, if_true]
  · have hne : fibHeapIsEmpty H = false := by simpa using hemp
    obtain ⟨p, k, v', H1, ts1, e1, _⟩ := extractMin_wf H ts hwf hne
    exact ⟨_, e1⟩

/-- C7. In every heap reached from `createFibHeap` by inserts, extract-mins and
decrease-keys on live handles, the key of every live node with a parent is at
least the key of its parent, and the nodes reached from `minNode` through
sibling and child links are exactly `numNodes` many. -/
theorem fib_heap_structural_invariant (H : FibHeap) (h : FibReach H) :
    (∀ p, LinkReach H p → (H.mem p).parent ≠ 0 →
      (H.mem (H.mem p).parent).key ≤ (H.mem p).key) ∧
    ∃ l : List Nat, l.Nodup ∧ (∀ p, p ∈ l ↔ LinkReach H p) ∧ l.length = H.numNodes := by
  obtain ⟨ts, hwf⟩ := reach_wf h
  refine ⟨fun p hp hpar => wf_parent_key hwf ((live_iff hwf.repr p).mp hp) hpar,
    nodesL ts, hwf.repr.nodup, fun p => (live_iff hwf.repr p).symm, hwf.repr.num.symm⟩

theorem fib_heap_structural_invariant_witness :
    (∀ p, LinkReach sampleFibHeap p → (sampleFibHeap.mem p).parent ≠ 0 →
      (sampleFibHeap.mem (sampleFibHeap.mem p).parent).key ≤ (sampleFibHeap.mem p).key) ∧
    ∃ l : List Nat, l.Nodup ∧ (∀ p, p ∈ l ↔ LinkReach sampleFibHeap p) ∧
      l.length = sampleFibHeap.numNodes :=
  fib_heap_structural_invariant sampleFibHeap sample_reach

/-- C21. In every reachable heap `minNode` is `NULL` exactly when
`numNodes = 0`, and otherwise `minNode` has no parent and its key is at most
the key of every live node. -/
theorem fib_heap_min_invariant (H : FibHeap) (h : FibReach H) :
    (H.minNode = 0 ↔ H.numNodes = 0) ∧
    (H.minNode ≠ 0 → (H.mem H.minNode).parent = 0 ∧
      ∀ p, LinkReach H p → (H.mem H.minNode).key ≤ (H.mem p).key) := by
  obtain ⟨ts, hwf⟩ := reach_wf h
  constructor
  · rw [wf_empty_iff hwf, wf_numNodes hwf]
    constructor
    · intro e; rw [e]; rfl
    · intro e; exact itemsL_eq_nil e
  · intro hne
    cases ts with
    | nil => exact absurd ((wf_empty_iff hwf).mpr rfl) hne
    | cons z rest =>
      have hmin : H.minNode = z.ptr := hwf.repr.rr.min
      have hz := repr_root_fields hwf.repr (List.mem_cons_self z rest)
      rw [hmin]
      refine ⟨hz.2.1, ?_⟩
      intro p hp
      obtain ⟨k, v, hmem, hk⟩ := wf_live_key hwf ((live_iff hwf.repr p).mp hp)
      rw [hz.1, hk]
      exact wf_min hwf _ hmem

theorem fib_heap_min_invariant_witness :
    (sampleFibHeap.minNode = 0 ↔ sampleFibHeap.numNodes = 0) ∧
    (sampleFibHeap.minNode ≠ 0 → (sampleFibHeap.mem sampleFibHeap.minNode).parent = 0 ∧
      ∀ p, LinkReach sampleFibHeap p →
        (sampleFibHeap.mem sampleFibHeap.minNode).key ≤ (sampleFibHeap.mem p).key) :=
  fib_heap_min_invariant sampleFibHeap sample_reach

/-- C22. After a `fibHeapExtractMin` on a reachable heap that leaves the heap
non-empty, the root list is one circular list through `minNode` that holds
exactly the live nodes without parent, and no two of its nodes have the same
degree. -/
theorem consolidate_distinct_degrees (H H' : FibHeap) (v : Int) (h : FibReach H)
    (he : fibHeapExtractMin H = some (v, H')) (hne : fibHeapIsEmpty H' = false) :
    ∃ L : List Nat, Ring H'.mem L ∧ L.Nodup ∧ H'.minNode ∈ L ∧
      (∀ p, p ∈ L ↔ (LinkReach H' p ∧ (H'.mem p).parent = 0)) ∧
      ∀ a ∈ L, ∀ b ∈ L, (H'.mem a).degree = (H'.mem b).degree → a = b := by
  obtain ⟨ts, hwf⟩ := reach_wf h
  have hHne : fibHeapIsEmpty H = false := by
    by_contra hc
    have hemp : fibHeapIsEmpty H = true := by simpa using hc
    have h0 : H.minNode = 0 := by simpa [fibHeapIsEmpty] using hemp
    have : fibHeapExtractMin H = some (-1, H) := by
      unfold fibHeapExtractMin
      simp only [h0, if_true]
    rw [this] at he
    have e : H = H' := (Prod.mk.inj (Option.some.inj he)).2
    rw [← e, hemp] at hne
    cases hne
  obtain ⟨z, rest, rfl⟩ := wf_cons_of_nonempty hwf hHne
  obtain ⟨H1, ts1, e1, e2, e3, e4, e5⟩ := extractMin_spec H z rest hwf
  rw [e1] at he
  have e : H1 = H' := (Prod.mk.inj (Option.some.inj he)).2
  subst e
  have h0 : H1.minNode ≠ 0 := by
    intro c
    simp [fibHeapIsEmpty, c] at hne
  refine ⟨rootsOf ts1, e2.repr.rr.ring, e2.repr.rr.nodup, ?_, wf_roots e2, ?_⟩
  · have hmin := e2.repr.rr.min
    cases ts1 with
    | nil => exact absurd hmin h0
    | cons t tl =>
      rw [hmin]
      exact List.mem_cons_self _ _
  · intro a ha b hb hab
    obtain ⟨t, ht, rfl⟩ := mem_rootsOf.mp ha
    obtain ⟨s, hs, rfl⟩ := mem_rootsOf.mp hb
    have d1 := (treeOK_fields (forestOK_iff.mp e2.repr.ok t ht)).2.2.2.2.1
    have d2 := (treeOK_fields (forestOK_iff.mp e2.repr.ok s hs)).2.2.2.2.1
    rw [d1, d2] at hab
    rw [e5 t ht s hs hab]

/-- The heap after one `fibHeapExtractMin` on `sampleFibHeap`. -/
def sampleAfter : FibHeap := ((fibHeapExtractMin sampleFibHeap).getD (0, sampleFibHeap)).2

theorem sample_extract :
    fibHeapExtractMin sampleFibHeap =
      some (((fibHeapExtractMin sampleFibHeap).getD (0, sampleFibHeap)).1, sampleAfter) := by
  obtain ⟨r, hr⟩ := extract_total sample_wf
  unfold sampleAfter
  rw [hr]
  rfl

theorem consolidate_distinct_degrees_witness :
    fibHeapIsEmpty sampleAfter = false ∧
    ∃ L : List Nat, Ring sampleAfter.mem L ∧ L.Nodup ∧ sampleAfter.minNode ∈ L ∧
      (∀ p, p ∈ L ↔ (LinkReach sampleAfter p ∧ (sampleAfter.mem p).parent = 0)) ∧
      ∀ a ∈ L, ∀ b ∈ L, (sampleAfter.mem a).degree = (sampleAfter.mem b).degree → a = b :=
  ⟨by decide!,
   consolidate_distinct_degrees sampleFibHeap sampleAfter _ sample_reach sample_extract
     (by decide!)⟩

end Fib

set_option linter.unusedTactic false
set_option linter.unreachableTactic false
set_option linter.unusedVariables false

namespace Fib

theorem wf_subtree {H : FibHeap} {ts : List Tree} (hwf : FibWF H ts) {p : Nat}
    (hp : p ∈ nodesL ts) :
    ∃ s : List Nat, s.Nodup ∧ (∀ q ∈ s, LinkReach H q ∧ Below H p q) ∧
      Nat.fib ((H.mem p).degree + 2) ≤ s.length ∧ s.length ≤ H.numNodes := by
  obtain ⟨pre, post, ctx, tx, rfl, rfl⟩ := find_forest ts p hp
  have hokT : TreeOK H.mem 0 (plug ctx tx) := (forestOK_append.mp hwf.repr.ok).2.1
  have hsub := plug_sub H.mem ctx tx 0 hokT
  have hdeg : (H.mem tx.ptr).degree = tx.children.length := (treeOK_fields hsub).2.2.2.2.1
  have hTsub : nodes (plug ctx tx) ⊆ nodesL (pre ++ plug ctx tx :: post) := by
    intro q hq
    rw [nodesL_append]
    exact List.mem_append_right _ (List.mem_append_left _ hq)
  have hndall := hwf.repr.nodup
  rw [nodesL_append] at hndall
  have hndT : (nodes (plug ctx tx)).Nodup :=
    (List.nodup_append.mp (List.nodup_append.mp hndall).2.1).1
  have hndtx : (nodes tx).Nodup := nodup_of_plug ctx tx hndT
  have hfib : FibT tx := by
    have := ((fibL_mid _ _ _).mp hwf.fib).2.1
    rw [fibT_plug] at this
    exact this.1
  have hlive : ∀ q ∈ nodes tx, q ∈ nodesL (pre ++ plug ctx tx :: post) :=
    fun q hq => hTsub (nodes_plug_sub ctx tx hq)
  refine ⟨nodes tx, hndtx, ?_, ?_, ?_⟩
  · intro q hq
    refine ⟨(live_iff hwf.repr q).mpr (hlive q hq), ?_⟩
    obtain ⟨c, tq, e1, e2⟩ := find_tree tx q hq
    rw [e1] at hsub
    have h0 : 0 ∉ nodes (plug c tq) := by
      rw [← e1]
      intro c0
      have := (hwf.repr.pos 0 (hlive 0 c0)).1
      omega
    have := plug_below H c tq _ hsub h0
    rw [← e1, e2] at this
    exact this
  · rw [hdeg]
    exact fib_size tx hfib
  · rw [hwf.repr.num]
    have hperm := hwf.repr.nodup
    have hsubl : (nodes tx).Subperm (nodesL (pre ++ plug ctx tx :: post)) :=
      List.subperm_of_subset hndtx hlive
    exact hsubl.length_le

/-- C23. In every reachable heap a live node of degree `d` is the root of a
subtree of at least `fib (d + 2)` live nodes, which are at most `numNodes`
many, and `fibHeapExtractMin` returns: the consolidation never indexes its
table at or beyond `maxDegree` (the model returns `none` there). -/
theorem fib_heap_degree_bound (H : FibHeap) (h : FibReach H) :
    (∀ p, LinkReach H p →
      ∃ s : List Nat, s.Nodup ∧ (∀ q ∈ s, LinkReach H q ∧ Below H p q) ∧
        Nat.fib ((H.mem p).degree + 2) ≤ s.length ∧ s.length ≤ H.numNodes) ∧
    (∃ r, fibHeapExtractMin H = some r) := by
  obtain ⟨ts, hwf⟩ := reach_wf h
  exact ⟨fun p hp => wf_subtree hwf ((live_iff hwf.repr p).mp hp), extract_total hwf⟩

theorem fib_heap_degree_bound_witness :
    (∀ p, LinkReach sampleAfter p →
      ∃ s : List Nat, s.Nodup ∧ (∀ q ∈ s, LinkReach sampleAfter q ∧ Below sampleAfter p q) ∧
        Nat.fib ((sampleAfter.mem p).degree + 2) ≤ s.length ∧
        s.length ≤ sampleAfter.numNodes) ∧
    (∃ r, fibHeapExtractMin sampleAfter = some r) :=
  fib_heap_degree_bound sampleAfter
    (FibReach.extract sampleFibHeap sampleAfter _ sample_reach sample_extract)

/-- C24. In every reachable heap the child list of a live node `p` is a circular
list `cl` of as many nodes as the `degree` field says, it starts at `child`
(which is `NULL` exactly when the degree is `0`), and every node of it has
`p` as its parent. -/
theorem fib_heap_degree_child_invariant (H : FibHeap) (h : FibReach H) :
    ∀ p, LinkReach H p →
      ∃ cl : List Nat, Ring H.mem cl ∧ cl.Nodup ∧ 0 ∉ cl ∧
        (H.mem p).child = cl.headD 0 ∧ (H.mem p).degree = cl.length ∧
        (∀ c ∈ cl, (H.mem c).parent = p) ∧
        ((H.mem p).degree = 0 ↔ (H.mem p).child = 0) := by
  obtain ⟨ts, hwf⟩ := reach_wf h
  intro p hp
  obtain ⟨sib, cl, par, _, _, _, _, _, _, _, b1, b2, b3, b4, b5⟩ :=
    node_local hwf.repr ((live_iff hwf.repr p).mp hp)
  have h0 : 0 ∉ cl := by
    intro c
    have := (hwf.repr.pos 0 (b3 0 c).1).1
    omega
  refine ⟨cl, b1, b2, h0, b5, b4, fun c hc => (b3 c hc).2, ?_⟩
  rw [b4, b5]
  cases cl with
  | nil => simp
  | cons c l =>
    have : c ≠ 0 := fun e => h0 (e ▸ List.mem_cons_self _ _)
    simp [this]

theorem fib_heap_degree_child_invariant_witness :
    ∃ cl : List Nat, Ring sampleAfter.mem cl ∧ cl.Nodup ∧ 0 ∉ cl ∧
      (sampleAfter.mem sampleAfter.minNode).child = cl.headD 0 ∧
      (sampleAfter.mem sampleAfter.minNode).degree = cl.length ∧
      (∀ c ∈ cl, (sampleAfter.mem c).parent = sampleAfter.minNode) ∧
      ((sampleAfter.mem sampleAfter.minNode).degree = 0 ↔
        (sampleAfter.mem sampleAfter.minNode).child = 0) :=
  fib_heap_degree_child_invariant sampleAfter
    (FibReach.extract sampleFibHeap sampleAfter _ sample_reach sample_extract)
    sampleAfter.minNode (LinkReach.min (by decide!))

theorem wf_links_live {H : FibHeap} {ts : List Tree} (hwf : FibWF H ts) {p : Nat}
    (hp : p ∈ nodesL ts) :
    (H.mem p).left ∈ nodesL ts ∧ (H.mem p).right ∈ nodesL ts ∧
    ((H.mem p).parent = 0 ∨ (H.mem p).parent ∈ nodesL ts) ∧
    ((H.mem p).child = 0 ∨ (H.mem p).child ∈ nodesL ts) := by
  obtain ⟨sib, cl, par, a1, a2, a3, a4, a5, _, _, b1, b2, b3, b4, b5⟩ :=
    node_local hwf.repr hp
  obtain ⟨r1, r2, _, _⟩ := ring_mem_links H.mem sib p a1 a2 a3
  refine ⟨(a4 _ r2).1, (a4 _ r1).1, ?_, ?_⟩
  · rw [(a4 p a3).2]; exact a5
  · rw [b5]
    cases cl with
    | nil => exact Or.inl rfl
    | cons c l => exact Or.inr (b3 c (List.mem_cons_self _ _)).1

/-- C25. In every reachable heap the sibling links of every live node are
mutually inverse, the root list is one circular list that holds `minNode` and
exactly the live nodes without parent, and after a `fibHeapExtractMin` no link
of a live node points to the node that was taken out. -/
theorem fib_heap_sibling_links (H : FibHeap) (h : FibReach H) :
    (∀ x, LinkReach H x →
      (H.mem (H.mem x).right).left = x ∧ (H.mem (H.mem x).left).right = x) ∧
    (∃ L : List Nat, Ring H.mem L ∧ L.Nodup ∧ (H.minNode ≠ 0 → H.minNode ∈ L) ∧
      ∀ p, p ∈ L ↔ (LinkReach H p ∧ (H.mem p).parent = 0)) ∧
    (∀ v H', fibHeapExtractMin H = some (v, H') → H.minNode ≠ 0 →
      ∀ p, LinkReach H' p →
        (H'.mem p).left ≠ H.minNode ∧ (H'.mem p).right ≠ H.minNode ∧
        (H'.mem p).parent ≠ H.minNode ∧ (H'.mem p).child ≠ H.minNode) := by
  obtain ⟨ts, hwf⟩ := reach_wf h
  refine ⟨?_, ⟨rootsOf ts, hwf.repr.rr.ring, hwf.repr.rr.nodup, ?_, wf_roots hwf⟩, ?_⟩
  · intro x hx
    obtain ⟨sib, cl, par, a1, a2, a3, _⟩ := node_local hwf.repr ((live_iff hwf.repr x).mp hx)
    obtain ⟨_, _, r3, r4⟩ := ring_mem_links H.mem sib x a1 a2 a3
    exact ⟨r3, r4⟩
  · intro h0
    have hmin := hwf.repr.rr.min
    cases ts with
    | nil => exact absurd hmin h0
    | cons t tl =>
      rw [hmin]
      exact List.mem_cons_self _ _
  · intro v H' he h0 p hp
    have hHne : fibHeapIsEmpty H = false := by simp [fibHeapIsEmpty, h0]
    obtain ⟨z, rest, rfl⟩ := wf_cons_of_nonempty hwf hHne
    obtain ⟨H1, ts1, e1, e2, e3, e4, e5⟩ := extractMin_spec H z rest hwf
    rw [e1] at he
    have e : H1 = H' := (Prod.mk.inj (Option.some.inj he)).2
    subst e
    have hmin : H.minNode = z.ptr := hwf.repr.rr.min
    have hznot : z.ptr ∉ nodesL ts1 := by
      intro c
      rw [← itemsL_fst] at c
      have c2 := (e3.map Prod.fst).subset c
      rw [itemsL_fst, nodesL_append] at c2
      have hnd : (nodes z ++ nodesL rest).Nodup := hwf.repr.nodup
      rw [nodes_eq] at hnd
      have hnd1 := List.nodup_append.mp hnd
      rcases List.mem_append.mp c2 with c3 | c3
      · exact hnd1.2.2 (List.mem_cons_self _ _) c3
      · exact (List.nodup_cons.mp hnd1.1).1 c3
    have hp1 := (live_iff e2.repr p).mp hp
    obtain ⟨l1, l2, l3, l4⟩ := wf_links_live e2 hp1
    rw [hmin]
    have hz0 : z.ptr ≠ 0 := by rw [← hmin]; exact h0
    refine ⟨fun c => hznot (c ▸ l1), fun c => hznot (c ▸ l2), ?_, ?_⟩
    · intro c
      rcases l3 with l | l
      · exact hz0 (c.symm.trans l)
      · exact hznot (c ▸ l)
    · intro c
      rcases l4 with l | l
      · exact hz0 (c.symm.trans l)
      · exact hznot (c ▸ l)

theorem fib_heap_sibling_links_witness :
    (∀ x, LinkReach sampleFibHeap x →
      (sampleFibHeap.mem (sampleFibHeap.mem x).right).left = x ∧
      (sampleFibHeap.mem (sampleFibHeap.mem x).left).right = x) ∧
    (∃ L : List Nat, Ring sampleFibHeap.mem L ∧ L.Nodup ∧
      (sampleFibHeap.minNode ≠ 0 → sampleFibHeap.minNode ∈ L) ∧
      ∀ p, p ∈ L ↔ (LinkReach sampleFibHeap p ∧ (sampleFibHeap.mem p).parent = 0)) ∧
    (∀ v H', fibHeapExtractMin sampleFibHeap = some (v, H') → sampleFibHeap.minNode ≠ 0 →
      ∀ p, LinkReach H' p →
        (H'.mem p).left ≠ sampleFibHeap.minNode ∧ (H'.mem p).right ≠ sampleFibHeap.minNode ∧
        (H'.mem p).parent ≠ sampleFibHeap.minNode ∧
        (H'.mem p).child ≠ sampleFibHeap.minNode) :=
  fib_heap_sibling_links sampleFibHeap sample_reach

/-- C14. On a well-formed heap with the live node `(x, k, v)` and `newKey ≤ k`,
`fibHeapDecreaseKey` returns a well-formed heap whose nodes are those before
with the key of `x` replaced by `newKey` (all payloads, all other keys and
`numNodes` unchanged); if `x` had a parent with a key greater than `newKey`,
then afterwards `x` has no parent and its mark is cleared, and otherwise `x`
keeps its parent. -/
theorem fibHeapDecreaseKey_correct (H : FibHeap) (ts : List Tree) (hwf : FibWF H ts)
    (x : Nat) (k v : Int) (hx : (x, k, v) ∈ itemsL ts) (newKey : Int) (hle : newKey ≤ k) :
    ∃ H' ts' rest, fibHeapDecreaseKey H x newKey = some H' ∧ FibWF H' ts' ∧
      (itemsL ts).Perm ((x, k, v) :: rest) ∧ (itemsL ts').Perm ((x, newKey, v) :: rest) ∧
      H'.numNodes = H.numNodes ∧
      ((H.mem x).parent ≠ 0 ∧ newKey < (H.mem (H.mem x).parent).key →
        (H'.mem x).parent = 0 ∧ (H'.mem x).mark = false) ∧
      (¬ ((H.mem x).parent ≠ 0 ∧ newKey < (H.mem (H.mem x).parent).key) →
        (H'.mem x).parent = (H.mem x).parent) := by
  obtain ⟨H', ts', rest, e1, e2, e3, e4, _, e6, e7, e8⟩ :=
    decreaseKey_spec H ts hwf x k v hx newKey hle
  exact ⟨H', ts', rest, e1, e2, e3, e4, e6, e7, e8⟩

theorem fibHeapDecreaseKey_correct_witness :
    ∃ H' ts' rest, fibHeapDecreaseKey sampleFibHeap 1 2 = some H' ∧ FibWF H' ts' ∧
      (itemsL sampleTrees).Perm ((1, 5, 1) :: rest) ∧ (itemsL ts').Perm ((1, 2, 1) :: rest) ∧
      H'.numNodes = sampleFibHeap.numNodes ∧
      ((sampleFibHeap.mem 1).parent ≠ 0 ∧
          2 < (sampleFibHeap.mem (sampleFibHeap.mem 1).parent).key →
        (H'.mem 1).parent = 0 ∧ (H'.mem 1).mark = false) ∧
      (¬ ((sampleFibHeap.mem 1).parent ≠ 0 ∧
          2 < (sampleFibHeap.mem (sampleFibHeap.mem 1).parent).key) →
        (H'.mem 1).parent = (sampleFibHeap.mem 1).parent) :=
  fibHeapDecreaseKey_correct sampleFibHeap sampleTrees sample_wf 1 5 1 (by decide) 2 (by decide)

end Fib

set_option linter.unusedTactic false
set_option linter.unreachableTactic false
set_option linter.unusedVariables false

namespace Fib

/-! ## Dijkstra over the Fibonacci heap: the queue as a list of entries -/

/-- The heap `pq` is well formed and its live nodes are, up to order, the
`(address, key, payload)` triples `items`. -/
def HeapIs (pq : FibHeap) (items : List (Nat × Int × Int)) : Prop :=
  ∃ ts, FibWF pq ts ∧ (itemsL ts).Perm items

theorem heapIs_perm {pq : FibHeap} {a b : List (Nat × Int × Int)} (h : HeapIs pq a)
    (hp : a.Perm b) : HeapIs pq b := by
  obtain ⟨ts, h1, h2⟩ := h
  exact ⟨ts, h1, h2.trans hp⟩

theorem heapIs_create : HeapIs createFibHeap [] := ⟨[], createFibHeap_wf, List.Perm.refl _⟩

theorem heapIs_nodup {pq : FibHeap} {items : List (Nat × Int × Int)} (h : HeapIs pq items) :
    (items.map Prod.fst).Nodup ∧ ∀ it ∈ items, 0 < it.1 ∧ it.1 < pq.next := by
  obtain ⟨ts, h1, h2⟩ := h
  have hn : (nodesL ts).Perm (items.map Prod.fst) := by
    rw [← itemsL_fst]
    exact h2.map _
  refine ⟨hn.nodup_iff.mp h1.repr.nodup, ?_⟩
  intro it hit
  apply h1.repr.pos
  exact hn.symm.subset (List.mem_map_of_mem _ hit)

theorem heapIs_empty {pq : FibHeap} {items : List (Nat × Int × Int)} (h : HeapIs pq items) :
    fibHeapIsEmpty pq = true ↔ items = [] := by
  obtain ⟨ts, h1, h2⟩ := h
  have e : fibHeapIsEmpty pq = true ↔ pq.minNode = 0 := by simp [fibHeapIsEmpty]
  rw [e, wf_empty_iff h1]
  constructor
  · intro c
    rw [c] at h2
    exact List.Perm.eq_nil h2.symm
  · intro c
    rw [c] at h2
    exact itemsL_eq_nil (by rw [h2.length_eq]; rfl)

theorem heapIs_insert {pq : FibHeap} {items : List (Nat × Int × Int)} (h : HeapIs pq items)
    (k v : Int) :
    HeapIs (fibHeapInsert pq k v).2 ((pq.next, k, v) :: items) ∧
    (fibHeapInsert pq k v).1 = pq.next := by
  obtain ⟨ts, h1, h2⟩ := h
  refine ⟨⟨_, insert_wf pq ts k v h1, (insert_items ts pq.next k v).trans (List.Perm.cons _ h2)⟩,
    (insert_repr pq ts k v h1.repr).1⟩

theorem heapIs_extract {pq : FibHeap} {items : List (Nat × Int × Int)} (h : HeapIs pq items)
    (hne : fibHeapIsEmpty pq = false) :
    ∃ p k v pq' rest, fibHeapExtractMin pq = some (v, pq') ∧ items.Perm ((p, k, v) :: rest) ∧
      (∀ it ∈ items, k ≤ it.2.1) ∧ HeapIs pq' rest := by
  obtain ⟨ts, h1, h2⟩ := h
  obtain ⟨p, k, v, pq', ts', e1, e2, e3, e4, e5, _⟩ := extractMin_wf pq ts h1 hne
  exact ⟨p, k, v, pq', itemsL ts', e1, h2.symm.trans e5,
    fun it hit => e3 it (h2.symm.subset hit), ts', e4, List.Perm.refl _⟩

theorem heapIs_decrease {pq : FibHeap} {items : List (Nat × Int × Int)} (h : HeapIs pq items)
    {x : Nat} {k v : Int} (hx : (x, k, v) ∈ items) (newKey : Int) (hle : newKey ≤ k) :
    ∃ pq' rest, fibHeapDecreaseKey pq x newKey = some pq' ∧ items.Perm ((x, k, v) :: rest) ∧
      HeapIs pq' ((x, newKey, v) :: rest) := by
  obtain ⟨ts, h1, h2⟩ := h
  obtain ⟨pq', ts', rest, e1, e2, e3, e4, _⟩ :=
    decreaseKey_spec pq ts h1 x k v (h2.symm.subset hx) newKey hle
  exact ⟨pq', rest, e1, h2.symm.trans e3, ts', e2, e4⟩

theorem heapIs_live {pq : FibHeap} {items : List (Nat × Int × Int)} (h : HeapIs pq items) :
    (∀ p, LinkReach pq p ↔ p ∈ items.map Prod.fst) ∧
    ∀ it ∈ items, (pq.mem it.1).key = it.2.1 ∧ (pq.mem it.1).value = it.2.2 := by
  obtain ⟨ts, h1, h2⟩ := h
  have hn : (nodesL ts).Perm (items.map Prod.fst) := by
    rw [← itemsL_fst]
    exact h2.map _
  refine ⟨fun p => (live_iff h1.repr p).trans hn.mem_iff, ?_⟩
  intro it hit
  exact itemsL_fields pq.mem ts 0 h1.repr.ok it (h2.symm.subset hit)

/-! ## Dijkstra over the Fibonacci heap: graphs and paths -/

/-- The largest value of a C `int`. -/
def INT_MAX : Int := 2147483647

/-- A graph on the vertices `1 .. numVertices`: every edge out of such a vertex
ends at such a vertex and has a non-negative weight; the vertex count and the
weights are C `int` values. -/
def GWF (g : Graph) : Prop :=
  g.numVertices ≤ INT_MAX ∧
  ∀ u, 1 ≤ u → u ≤ g.numVertices → ∀ e ∈ g.adj u,
    1 ≤ e.to_ ∧ e.to_ ≤ g.numVertices ∧ 0 ≤ e.weight ∧ e.weight ≤ INT_MAX

/-- A graph on the vertices `lo .. numVertices`, for `lo = 0` a graph as
`graphAddEdge` builds it (it accepts the vertices `0 .. numVertices`): every
edge out of such a vertex ends at such a vertex and has a non-negative weight;
the vertex count and the weights are C `int` values. -/
def GWFrom (lo : Int) (g : Graph) : Prop :=
  g.numVertices ≤ INT_MAX ∧
  ∀ u, lo ≤ u → u ≤ g.numVertices → ∀ e ∈ g.adj u,
    lo ≤ e.to_ ∧ e.to_ ≤ g.numVertices ∧ 0 ≤ e.weight ∧ e.weight ≤ INT_MAX

/-- `FWalk g s v d`: there is a directed path from `s` to `v` of total weight `d`. -/
inductive FWalk (g : Graph) (s : Int) : Int → Int → Prop
  | nil : FWalk g s s 0
  | snoc {u d : Int} (e : AdjListNode) : FWalk g s u d → e ∈ g.adj u →
      FWalk g s e.to_ (d + e.weight)

/-- `d` is the minimum total weight of a directed path from `s` to `v`. -/
def FMinDist (g : Graph) (s v d : Int) : Prop :=
  FWalk g s v d ∧ ∀ d', FWalk g s v d' → d ≤ d'

theorem fwalk_range {lo : Int} {g : Graph} {s : Int} (hg : GWFrom lo g) (h0 : lo ≤ s)
    (h1 : s ≤ g.numVertices) {v d : Int} (hw : FWalk g s v d) :
    lo ≤ v ∧ v ≤ g.numVertices ∧ 0 ≤ d := by
  induction hw with
  | nil => exact ⟨h0, h1, le_refl _⟩
  | snoc e _ he ih =>
    obtain ⟨a, b, c, _⟩ := hg.2 _ ih.1 ih.2.1 e he
    exact ⟨a, b, by omega⟩

/-- All edges out of `u` are relaxed in `dist`. -/
def FClosed (g : Graph) (dist : Int → Int) (u : Int) : Prop :=
  ∀ e ∈ g.adj u, dist e.to_ ≤ dist u + e.weight

/-- What the main loop of `dijkstra_fib_heap` establishes on the vertices
`lo .. numVertices`. -/
structure FFinal (lo : Int) (g : Graph) (s : Int) (dist : Int → Int) : Prop where
  src : dist s = 0
  walk : ∀ v, lo ≤ v → v ≤ g.numVertices → dist v ≠ INF → FWalk g s v (dist v)
  closed : ∀ u, lo ≤ u → u ≤ g.numVertices → dist u ≠ INF → FClosed g dist u
  bound : ∀ v, lo ≤ v → v ≤ g.numVertices → dist v ≠ INF →
    dist v ≤ (g.numVertices + 1) * INT_MAX

theorem ffinal_lower {lo : Int} {g : Graph} {s : Int} {dist : Int → Int}
    (hg : GWFrom lo g) (h0 : lo ≤ s) (h1 : s ≤ g.numVertices) (hf : FFinal lo g s dist)
    {v d : Int} (hw : FWalk g s v d) : dist v ≠ INF ∧ dist v ≤ d := by
  induction hw with
  | nil =>
    rw [hf.src]
    exact ⟨by decide, le_refl _⟩
  | snoc e hw' he ih =>
    rename_i u d
    obtain ⟨u0, u1, d0⟩ := fwalk_range hg h0 h1 hw'
    obtain ⟨a, b, c, c'⟩ := hg.2 _ u0 u1 e he
    have hc := hf.closed u u0 u1 ih.1 e he
    have hb := hf.bound u u0 u1 ih.1
    have hV := hg.1
    have hprod : (g.numVertices + 1) * INT_MAX ≤ (INT_MAX + 1) * INT_MAX :=
      Int.mul_le_mul_of_nonneg_right (by omega) (by decide)
    have hI : (INT_MAX + 1) * INT_MAX + INT_MAX < INF := by decide
    constructor
    · intro e1
      rw [e1] at hc
      omega
    · omega

theorem ffinal_correct {lo : Int} {g : Graph} {s : Int} {dist : Int → Int}
    (hg : GWFrom lo g) (h0 : lo ≤ s) (h1 : s ≤ g.numVertices) (hf : FFinal lo g s dist)
    (v : Int) (v0 : lo ≤ v) (v1 : v ≤ g.numVertices) :
    ((∃ d, FWalk g s v d) → FMinDist g s v (dist v)) ∧
    ((¬ ∃ d, FWalk g s v d) → dist v = INF) := by
  constructor
  · rintro ⟨d, hw⟩
    have h := ffinal_lower hg h0 h1 hf hw
    exact ⟨hf.walk v v0 v1 h.1, fun d' hw' => (ffinal_lower hg h0 h1 hf hw').2⟩
  · intro hn
    by_contra hc
    exact hn ⟨_, hf.walk v v0 v1 hc⟩

end Fib

set_option linter.unusedTactic false
set_option linter.unreachableTactic false
set_option linter.unusedVariables false

namespace Fib

/-! ## Dijkstra over the Fibonacci heap: relaxing one edge -/

/-- One round of the inner loop of `dijkstra_fib_heap`. -/
def relaxEdge (u : Int) (current : AdjListNode) (s : DState) : Option DState :=
  let v := current.to_
  let weight := current.weight
  if s.dist u = INF then some s
  else
    let newDist := wrap64 (s.dist u + weight)
    if newDist < s.dist v then
      let dist := Function.update s.dist v newDist
      if s.nodePtrs v ≠ 0 then
        match fibHeapDecreaseKey s.pq (s.nodePtrs v) newDist with
        | none => none
        | some pq => some { s with dist := dist, pq := pq }
      else
        let r := fibHeapInsert s.pq newDist v
        some { dist := dist, nodePtrs := Function.update s.nodePtrs v r.1, pq := r.2 }
    else some s

theorem relaxLoop_cons (u : Int) (e : AdjListNode) (rest : List AdjListNode) (s : DState) :
    relaxLoop u (e :: rest) s =
      match relaxEdge u e s with
      | none => none
      | some s' => relaxLoop u rest s' := by
  unfold relaxEdge
  rw [relaxLoop]
  by_cases h1 : s.dist u = INF
  · simp only [h1, if_true]
  · simp only [h1, if_false]
    by_cases h2 : wrap64 (s.dist u + e.weight) < s.dist e.to_
    · simp only [h2, if_true]
      by_cases h3 : s.nodePtrs e.to_ ≠ 0
      · simp only [h3, if_true, ne_eq, not_false_eq_true]
        cases fibHeapDecreaseKey s.pq (s.nodePtrs e.to_) (wrap64 (s.dist u + e.weight)) with
        | none => rfl
        | some pq => rfl
      · simp only [h3, if_false]
    · simp only [h2, if_false]

theorem relaxLoop_append (u : Int) : ∀ (a b : List AdjListNode) (s : DState),
    relaxLoop u (a ++ b) s =
      match relaxLoop u a s with
      | none => none
      | some s' => relaxLoop u b s'
  | [], b, s => rfl
  | e :: a, b, s => by
    show relaxLoop u (e :: (a ++ b)) s = _
    rw [relaxLoop_cons, relaxLoop_cons]
    cases relaxEdge u e s with
    | none => rfl
    | some s' => exact relaxLoop_append u a b s'

theorem wrap64_id {x : Int} (h0 : 0 ≤ x) (h1 : x < INF) : wrap64 x = x := by
  unfold wrap64
  unfold INF LLONG_MAX at h1
  omega

theorem nodup_range_length (l : List Int) (lo V : Int) (hV : lo ≤ V + 1) (hnd : l.Nodup)
    (hr : ∀ x ∈ l, lo ≤ x ∧ x ≤ V) : (l.length : Int) ≤ V + 1 - lo := by
  have h1 : l.toFinset ⊆ Finset.Icc lo V := by
    intro x hx
    rw [List.mem_toFinset] at hx
    rw [Finset.mem_Icc]
    exact hr x hx
  have h2 := Finset.card_le_card h1
  rw [List.toFinset_card_of_nodup hnd, Int.card_Icc] at h2
  omega

/-- The invariant of the inner loop of `dijkstra_fib_heap` for the extracted
vertex `u`; `done` are the vertices extracted before `u`, `items` the entries
of the queue. -/
structure RInv (lo : Int) (g : Graph) (s u : Int) (st : DState)
    (items : List (Nat × Int × Int)) (done : List Int) : Prop where
  heap : HeapIs st.pq items
  item : ∀ it ∈ items, lo ≤ it.2.2 ∧ it.2.2 ≤ g.numVertices ∧ st.nodePtrs it.2.2 = it.1 ∧
    it.2.1 = st.dist it.2.2 ∧ it.2.2 ∉ done ∧ it.2.2 ≠ u ∧ st.dist it.2.2 ≠ INF
  ptr : ∀ v, st.nodePtrs v ≠ 0 → ∃ k, (st.nodePtrs v, k, v) ∈ items
  done_nodup : done.Nodup
  done_range : ∀ y ∈ done, lo ≤ y ∧ y ≤ g.numVertices
  done_ok : ∀ y ∈ done, st.dist y ≠ INF ∧ FClosed g st.dist y ∧
    (∀ it ∈ items, st.dist y ≤ it.2.1) ∧ st.dist y ≤ st.dist u
  u_range : lo ≤ u ∧ u ≤ g.numVertices
  u_notin : u ∉ done
  u_ptr : st.nodePtrs u = 0
  u_fin : st.dist u ≠ INF
  u_le : ∀ it ∈ items, st.dist u ≤ it.2.1
  u_bound : st.dist u ≤ (done.length : Int) * INT_MAX
  seen : ∀ v, lo ≤ v → v ≤ g.numVertices → st.dist v ≠ INF →
    v ∈ done ∨ v = u ∨ st.nodePtrs v ≠ 0
  walk : ∀ v, lo ≤ v → v ≤ g.numVertices → st.dist v ≠ INF → FWalk g s v (st.dist v)
  range : ∀ v, lo ≤ v → v ≤ g.numVertices → 0 ≤ st.dist v ∧
    (st.dist v ≠ INF → st.dist v ≤ ((done.length : Int) + 1) * INT_MAX)
  src : st.dist s = 0

theorem rinv_sum {lo : Int} {g : Graph} {s u : Int} {st : DState}
    {items : List (Nat × Int × Int)} {done : List Int} (hlo : 0 ≤ lo) (hg : GWFrom lo g)
    (hi : RInv lo g s u st items done) (e : AdjListNode) (he : e ∈ g.adj u) :
    wrap64 (st.dist u + e.weight) = st.dist u + e.weight ∧
    st.dist u ≤ st.dist u + e.weight ∧
    st.dist u + e.weight ≤ ((done.length : Int) + 1) * INT_MAX ∧
    st.dist u + e.weight ≠ INF ∧ 0 ≤ st.dist u + e.weight := by
  obtain ⟨a, b, c, d⟩ := hg.2 u hi.u_range.1 hi.u_range.2 e he
  have hd0 := (hi.range u hi.u_range.1 hi.u_range.2).1
  have hub := hi.u_bound
  have hlen : ((u :: done).length : Int) ≤ g.numVertices + 1 - lo := by
    apply nodup_range_length _ _ _ (by have := hi.u_range; omega)
      (List.nodup_cons.mpr ⟨hi.u_notin, hi.done_nodup⟩)
    intro x hx
    rcases List.mem_cons.mp hx with c1 | c1
    · rw [c1]; exact hi.u_range
    · exact hi.done_range x c1
  have hV := hg.1
  simp only [List.length_cons, Nat.cast_add, Nat.cast_one] at hlen
  unfold INT_MAX at *
  have hlt : st.dist u + e.weight < INF := by
    unfold INF LLONG_MAX
    nlinarith
  refine ⟨wrap64_id (by omega) hlt, by omega, by nlinarith, ne_of_lt hlt, by omega⟩

end Fib

set_option linter.unusedTactic false
set_option linter.unreachableTactic false
set_option linter.unusedVariables false

namespace Fib

theorem heapIs_next_pos {pq : FibHeap} {items : List (Nat × Int × Int)} (h : HeapIs pq items) :
    0 < pq.next := by
  obtain ⟨ts, h1, _⟩ := h
  exact h1.repr.next_pos

theorem fclosed_mono {g : Graph} {dist dist' : Int → Int} {y : Int}
    (h : FClosed g dist y) (hy : dist' y = dist y) (hle : ∀ x, dist' x ≤ dist x) :
    FClosed g dist' y := by
  intro e he
  rw [hy]
  exact le_trans (hle _) (h e he)

theorem relaxEdge_inv {lo : Int} {g : Graph} {s u : Int} {st : DState}
    {items : List (Nat × Int × Int)} {done : List Int} (hlo : 0 ≤ lo) (hg : GWFrom lo g)
    (hi : RInv lo g s u st items done) (e : AdjListNode) (he : e ∈ g.adj u) :
    ∃ st' items', relaxEdge u e st = some st' ∧ RInv lo g s u st' items' done ∧
      st'.dist u = st.dist u ∧ (∀ x, st'.dist x ≤ st.dist x) ∧
      st'.dist e.to_ ≤ st.dist u + e.weight := by
  obtain ⟨hw, hge, hbd, hninf, hnn⟩ := rinv_sum hlo hg hi e he
  obtain ⟨v0, v1, w0, w1⟩ := hg.2 u hi.u_range.1 hi.u_range.2 e he
  unfold relaxEdge
  simp only [if_neg hi.u_fin, hw]
  by_cases hlt : st.dist u + e.weight < st.dist e.to_
  · rw [if_pos hlt]
    have hvu : e.to_ ≠ u := by
      intro c
      rw [c] at hlt
      omega
    have hvdone : e.to_ ∉ done := by
      intro c
      have := (hi.done_ok _ c).2.2.2
      omega
    have hupd : ∀ x, Function.update st.dist e.to_ (st.dist u + e.weight) x ≤ st.dist x := by
      intro x
      rw [Function.update_apply]
      split_ifs with c
      · rw [c]; exact le_of_lt hlt
      · exact le_refl _
    have hupd_ne : ∀ x, x ≠ e.to_ →
        Function.update st.dist e.to_ (st.dist u + e.weight) x = st.dist x :=
      fun x hx => Function.update_noteq hx _ _
    have hupd_u := hupd_ne u (Ne.symm hvu)
    have hsrc : s ≠ e.to_ := by
      intro c
      rw [← c, hi.src] at hlt
      omega
    have hwalk : FWalk g s e.to_ (st.dist u + e.weight) :=
      FWalk.snoc e (hi.walk u hi.u_range.1 hi.u_range.2 hi.u_fin) he
    by_cases hp : st.nodePtrs e.to_ ≠ 0
    · rw [if_pos hp]
      obtain ⟨k, hk⟩ := hi.ptr _ hp
      have hkd : k = st.dist e.to_ := (hi.item _ hk).2.2.2.1
      obtain ⟨pq', rest, e1, e2, e3⟩ := heapIs_decrease hi.heap hk (st.dist u + e.weight)
        (by rw [hkd]; exact le_of_lt hlt)
      rw [e1]
      have hnd := (heapIs_nodup hi.heap).1
      have hnd' : (((st.nodePtrs e.to_, k, e.to_) :: rest).map Prod.fst).Nodup :=
        (e2.map Prod.fst).nodup_iff.mp hnd
      have hrest : ∀ it ∈ rest, it ∈ items ∧ it.2.2 ≠ e.to_ := by
        intro it hit
        have hmem : it ∈ items := e2.symm.subset (List.mem_cons_of_mem _ hit)
        refine ⟨hmem, ?_⟩
        intro c
        have hptr := (hi.item it hmem).2.2.1
        rw [c] at hptr
        have : it.1 ∈ rest.map Prod.fst := List.mem_map_of_mem _ hit
        rw [← hptr] at this
        exact (List.nodup_cons.mp hnd').1 this
      refine ⟨_, (st.nodePtrs e.to_, st.dist u + e.weight, e.to_) :: rest, rfl,
        ⟨e3, ?_, ?_, hi.done_nodup, hi.done_range, ?_, hi.u_range, hi.u_notin, hi.u_ptr, ?_, ?_,
          ?_, ?_, ?_, ?_, ?_⟩, hupd_u, hupd, ?_⟩
      · intro it hit
        rcases List.mem_cons.mp hit with c | c
        · rw [c]
          refine ⟨v0, v1, rfl, ?_, hvdone, hvu, ?_⟩
          · dsimp only
            rw [Function.update_same]
          · dsimp only
            rw [Function.update_same]
            exact hninf
        · obtain ⟨hmem, hne⟩ := hrest it c
          obtain ⟨a1, a2, a3, a4, a5, a6, a7⟩ := hi.item it hmem
          dsimp only
          rw [hupd_ne _ hne]
          exact ⟨a1, a2, a3, a4, a5, a6, a7⟩
      · intro x hx
        obtain ⟨k', hk'⟩ := hi.ptr x hx
        rcases List.mem_cons.mp (e2.subset hk') with c | c
        · have hxv : x = e.to_ := (Prod.mk.inj (Prod.mk.inj c).2).2
          rw [hxv]
          exact ⟨_, List.mem_cons_self _ _⟩
        · exact ⟨k', List.mem_cons_of_mem _ c⟩
      · intro y hy
        obtain ⟨b1, b2, b3, b4⟩ := hi.done_ok y hy
        have hyv : y ≠ e.to_ := fun c => hvdone (c ▸ hy)
        dsimp only
        rw [hupd_ne y hyv, hupd_u]
        refine ⟨b1, fclosed_mono b2 (hupd_ne y hyv) hupd, ?_, b4⟩
        intro it hit
        rcases List.mem_cons.mp hit with c | c
        · rw [c]
          dsimp only
          omega
        · exact b3 it (hrest it c).1
      · dsimp only
        rw [hupd_u]; exact hi.u_fin
      · intro it hit
        dsimp only
        rw [hupd_u]
        rcases List.mem_cons.mp hit with c | c
        · rw [c]; exact hge
        · exact hi.u_le it (hrest it c).1
      · dsimp only
        rw [hupd_u]; exact hi.u_bound
      · intro x x0 x1 hx
        by_cases c : x = e.to_
        · rw [c]; exact Or.inr (Or.inr hp)
        · have hx' : st.dist x ≠ INF := by
            have : Function.update st.dist e.to_ (st.dist u + e.weight) x ≠ INF := hx
            rwa [hupd_ne x c] at this
          exact hi.seen x x0 x1 hx'
      · intro x x0 x1 hx
        dsimp only
        by_cases c : x = e.to_
        · rw [c, Function.update_same]; exact hwalk
        · have hx' : st.dist x ≠ INF := by
            have : Function.update st.dist e.to_ (st.dist u + e.weight) x ≠ INF := hx
            rwa [hupd_ne x c] at this
          rw [hupd_ne x c]
          exact hi.walk x x0 x1 hx'
      · intro x x0 x1
        dsimp only
        by_cases c : x = e.to_
        · rw [c, Function.update_same]
          exact ⟨hnn, fun _ => hbd⟩
        · rw [hupd_ne x c]
          exact hi.range x x0 x1
      · dsimp only
        rw [hupd_ne s hsrc]; exact hi.src
      · dsimp only
        rw [Function.update_same]
    · rw [if_neg hp]
      have hp0 : st.nodePtrs e.to_ = 0 := by
        by_contra c
        exact hp c
      obtain ⟨h1, h2⟩ := heapIs_insert hi.heap (st.dist u + e.weight) e.to_
      have hnp := heapIs_next_pos hi.heap
      have hold : ∀ it ∈ items, it.2.2 ≠ e.to_ := by
        intro it hit c
        have hptr := (hi.item it hit).2.2.1
        rw [c, hp0] at hptr
        have := ((heapIs_nodup hi.heap).2 it hit).1
        omega
      have hnp_ne : ∀ x, x ≠ e.to_ →
          Function.update st.nodePtrs e.to_ (fibHeapInsert st.pq (st.dist u + e.weight) e.to_).1 x
            = st.nodePtrs x :=
        fun x hx => Function.update_noteq hx _ _
      refine ⟨_, (st.pq.next, st.dist u + e.weight, e.to_) :: items, rfl,
        ⟨h1, ?_, ?_, hi.done_nodup, hi.done_range, ?_, hi.u_range, hi.u_notin, ?_, ?_, ?_,
          ?_, ?_, ?_, ?_, ?_⟩, hupd_u, hupd, ?_⟩
      · intro it hit
        rcases List.mem_cons.mp hit with c | c
        · rw [c]
          refine ⟨v0, v1, ?_, ?_, hvdone, hvu, ?_⟩
          · dsimp only
            rw [Function.update_same]
            exact h2
          · dsimp only
            rw [Function.update_same]
          · dsimp only
            rw [Function.update_same]
            exact hninf
        · have hne := hold it c
          obtain ⟨a1, a2, a3, a4, a5, a6, a7⟩ := hi.item it c
          dsimp only
          rw [hupd_ne _ hne, hnp_ne _ hne]
          exact ⟨a1, a2, a3, a4, a5, a6, a7⟩
      · intro x hx
        by_cases c : x = e.to_
        · rw [c]
          dsimp only
          rw [Function.update_same, h2]
          exact ⟨_, List.mem_cons_self _ _⟩
        · have hx' : st.nodePtrs x ≠ 0 := by
            have : Function.update st.nodePtrs e.to_ _ x ≠ 0 := hx
            rwa [hnp_ne x c] at this
          obtain ⟨k', hk'⟩ := hi.ptr x hx'
          refine ⟨k', ?_⟩
          dsimp only
          rw [hnp_ne x c]
          exact List.mem_cons_of_mem _ hk'
      · intro y hy
        obtain ⟨b1, b2, b3, b4⟩ := hi.done_ok y hy
        have hyv : y ≠ e.to_ := fun c => hvdone (c ▸ hy)
        dsimp only
        rw [hupd_ne y hyv, hupd_u]
        refine ⟨b1, fclosed_mono b2 (hupd_ne y hyv) hupd, ?_, b4⟩
        intro it hit
        rcases List.mem_cons.mp hit with c | c
        · rw [c]
          dsimp only
          omega
        · exact b3 it c
      · dsimp only
        rw [hnp_ne u (Ne.symm hvu)]; exact hi.u_ptr
      · dsimp only
        rw [hupd_u]; exact hi.u_fin
      · intro it hit
        dsimp only
        rw [hupd_u]
        rcases List.mem_cons.mp hit with c | c
        · rw [c]; exact hge
        · exact hi.u_le it c
      · dsimp only
        rw [hupd_u]; exact hi.u_bound
      · intro x x0 x1 hx
        by_cases c : x = e.to_
        · right; right
          rw [c]
          dsimp only
          rw [Function.update_same, h2]
          omega
        · have hx' : st.dist x ≠ INF := by
            have : Function.update st.dist e.to_ (st.dist u + e.weight) x ≠ INF := hx
            rwa [hupd_ne x c] at this
          rcases hi.seen x x0 x1 hx' with d | d | d
          · exact Or.inl d
          · exact Or.inr (Or.inl d)
          · right; right
            dsimp only
            rw [hnp_ne x c]; exact d
      · intro x x0 x1 hx
        dsimp only
        by_cases c : x = e.to_
        · rw [c, Function.update_same]; exact hwalk
        · have hx' : st.dist x ≠ INF := by
            have : Function.update st.dist e.to_ (st.dist u + e.weight) x ≠ INF := hx
            rwa [hupd_ne x c] at this
          rw [hupd_ne x c]
          exact hi.walk x x0 x1 hx'
      · intro x x0 x1
        dsimp only
        by_cases c : x = e.to_
        · rw [c, Function.update_same]
          exact ⟨hnn, fun _ => hbd⟩
        · rw [hupd_ne x c]
          exact hi.range x x0 x1
      · dsimp only
        rw [hupd_ne s hsrc]; exact hi.src
      · dsimp only
        rw [Function.update_same]
  · rw [if_neg hlt]
    exact ⟨st, items, rfl, hi, rfl, fun _ => le_refl _, not_lt.mp hlt⟩

theorem relaxLoop_inv {lo : Int} {g : Graph} {s u : Int} (hlo : 0 ≤ lo) (hg : GWFrom lo g) :
    ∀ (es : List AdjListNode)
    (st : DState) (items : List (Nat × Int × Int)) (done : List Int)
    (processed : List AdjListNode),
    (∀ e ∈ es, e ∈ g.adj u) → RInv lo g s u st items done →
    (∀ e ∈ processed, st.dist e.to_ ≤ st.dist u + e.weight) →
    ∃ st' items', relaxLoop u es st = some st' ∧ RInv lo g s u st' items' done ∧
      (∀ e ∈ processed ++ es, st'.dist e.to_ ≤ st'.dist u + e.weight)
  | [], st, items, done, processed, _, hi, hp =>
    ⟨st, items, rfl, hi, by simpa using hp⟩
  | e :: es, st, items, done, processed, hes, hi, hp => by
    obtain ⟨st1, items1, e1, e2, e3, e4, e5⟩ :=
      relaxEdge_inv hlo hg hi e (hes e (List.mem_cons_self _ _))
    obtain ⟨st2, items2, f1, f2, f3⟩ := relaxLoop_inv hlo hg es st1 items1 done (processed ++ [e])
      (fun x hx => hes x (List.mem_cons_of_mem _ hx)) e2 (by
        intro x hx
        rcases List.mem_append.mp hx with c | c
        · rw [e3]
          exact le_trans (e4 _) (hp x c)
        · rw [List.mem_singleton.mp c, e3]
          exact e5)
    refine ⟨st2, items2, ?_, f2, ?_⟩
    · rw [relaxLoop_cons, e1]
      exact f1
    · intro x hx
      apply f3 x
      simpa using hx

end Fib

set_option linter.unusedTactic false
set_option linter.unreachableTactic false
set_option linter.unusedVariables false

namespace Fib

/-! ## Dijkstra over the Fibonacci heap: the main loop -/

/-- The invariant of the main loop of `dijkstra_fib_heap`; `done` are the
vertices extracted so far, `items` the entries of the queue. -/
structure FInv (lo : Int) (g : Graph) (s : Int) (st : DState)
    (items : List (Nat × Int × Int)) (done : List Int) : Prop where
  heap : HeapIs st.pq items
  item : ∀ it ∈ items, lo ≤ it.2.2 ∧ it.2.2 ≤ g.numVertices ∧ st.nodePtrs it.2.2 = it.1 ∧
    it.2.1 = st.dist it.2.2 ∧ it.2.2 ∉ done ∧ st.dist it.2.2 ≠ INF
  ptr : ∀ v, st.nodePtrs v ≠ 0 → ∃ k, (st.nodePtrs v, k, v) ∈ items
  done_nodup : done.Nodup
  done_range : ∀ y ∈ done, lo ≤ y ∧ y ≤ g.numVertices
  done_ok : ∀ y ∈ done, st.dist y ≠ INF ∧ FClosed g st.dist y ∧
    (∀ it ∈ items, st.dist y ≤ it.2.1)
  seen : ∀ v, lo ≤ v → v ≤ g.numVertices → st.dist v ≠ INF → v ∈ done ∨ st.nodePtrs v ≠ 0
  walk : ∀ v, lo ≤ v → v ≤ g.numVertices → st.dist v ≠ INF → FWalk g s v (st.dist v)
  range : ∀ v, lo ≤ v → v ≤ g.numVertices → 0 ≤ st.dist v ∧
    (st.dist v ≠ INF → st.dist v ≤ (done.length : Int) * INT_MAX)
  src : st.dist s = 0

theorem finv_done_length {lo : Int} {g : Graph} {s : Int} {st : DState}
    {items : List (Nat × Int × Int)} {done : List Int} (hi : FInv lo g s st items done)
    (h1 : lo ≤ s) (h2 : s ≤ g.numVertices) : (done.length : Int) ≤ g.numVertices + 1 - lo :=
  nodup_range_length _ _ _ (by omega) hi.done_nodup hi.done_range

theorem finv_final {lo : Int} {g : Graph} {s : Int} {st : DState} {done : List Int}
    (hlo : 0 ≤ lo) (hi : FInv lo g s st [] done) (h1 : lo ≤ s) (h2 : s ≤ g.numVertices) :
    FFinal lo g s st.dist := by
  refine ⟨hi.src, hi.walk, ?_, ?_⟩
  · intro u u0 u1 hu
    rcases hi.seen u u0 u1 hu with c | c
    · exact (hi.done_ok u c).2.1
    · obtain ⟨k, hk⟩ := hi.ptr u c
      cases hk
  · intro v v0 v1 hv
    have := (hi.range v v0 v1).2 hv
    have hl := finv_done_length hi h1 h2
    have : (done.length : Int) * INT_MAX ≤ (g.numVertices + 1) * INT_MAX :=
      Int.mul_le_mul_of_nonneg_right (by omega) (by decide)
    omega

theorem finv_extract {lo : Int} {g : Graph} {s : Int} {st : DState}
    {items : List (Nat × Int × Int)} {done : List Int} (hi : FInv lo g s st items done)
    (p : Nat) (k u : Int) (pq' : FibHeap) (rest : List (Nat × Int × Int))
    (hperm : items.Perm ((p, k, u) :: rest)) (hmin : ∀ it ∈ items, k ≤ it.2.1)
    (hheap : HeapIs pq' rest) :
    RInv lo g s u { st with pq := pq', nodePtrs := Function.update st.nodePtrs u 0 } rest
      done := by
  have hmem : (p, k, u) ∈ items := hperm.symm.subset (List.mem_cons_self _ _)
  obtain ⟨u0, u1, uptr, ukey, und, ufin⟩ := hi.item _ hmem
  have hnd : (((p, k, u) :: rest).map Prod.fst).Nodup :=
    (hperm.map Prod.fst).nodup_iff.mp (heapIs_nodup hi.heap).1
  have hrest : ∀ it ∈ rest, it ∈ items ∧ it.2.2 ≠ u := by
    intro it hit
    have hm : it ∈ items := hperm.symm.subset (List.mem_cons_of_mem _ hit)
    refine ⟨hm, ?_⟩
    intro c
    have hptr := (hi.item it hm).2.2.1
    rw [c] at hptr
    have e : it.1 = p := hptr.symm.trans uptr
    have : it.1 ∈ rest.map Prod.fst := List.mem_map_of_mem _ hit
    rw [e] at this
    exact (List.nodup_cons.mp hnd).1 this
  have hne : ∀ x, x ≠ u → Function.update st.nodePtrs u 0 x = st.nodePtrs x :=
    fun x hx => Function.update_noteq hx _ _
  have hku : k = st.dist u := ukey
  refine ⟨hheap, ?_, ?_, hi.done_nodup, hi.done_range, ?_, ⟨u0, u1⟩, und, ?_, ufin, ?_, ?_, ?_,
    hi.walk, ?_, hi.src⟩
  · intro it hit
    obtain ⟨hm, hn⟩ := hrest it hit
    obtain ⟨a1, a2, a3, a4, a5, a6⟩ := hi.item it hm
    dsimp only
    rw [hne _ hn]
    exact ⟨a1, a2, a3, a4, a5, hn, a6⟩
  · intro x hx
    dsimp only at hx ⊢
    have hxu : x ≠ u := by
      intro c
      rw [c, Function.update_same] at hx
      exact hx rfl
    rw [hne x hxu] at hx ⊢
    obtain ⟨k', hk'⟩ := hi.ptr x hx
    rcases List.mem_cons.mp (hperm.subset hk') with c | c
    · exact absurd (Prod.mk.inj (Prod.mk.inj c).2).2 hxu
    · exact ⟨k', c⟩
  · intro y hy
    obtain ⟨b1, b2, b3⟩ := hi.done_ok y hy
    refine ⟨b1, b2, fun it hit => b3 it (hrest it hit).1, ?_⟩
    have := b3 _ hmem
    dsimp only at this ⊢
    rw [← hku]
    exact this
  · dsimp only
    exact Function.update_same _ _ _
  · intro it hit
    dsimp only
    rw [← hku]
    exact hmin it (hrest it hit).1
  · exact (hi.range u u0 u1).2 ufin
  · intro x x0 x1 hx
    by_cases c : x = u
    · exact Or.inr (Or.inl c)
    · rcases hi.seen x x0 x1 hx with d | d
      · exact Or.inl d
      · right; right
        dsimp only
        rw [hne x c]
        exact d
  · intro x x0 x1
    obtain ⟨r1, r2⟩ := hi.range x x0 x1
    refine ⟨r1, fun hx => ?_⟩
    have := r2 hx
    have h0 : (0 : Int) ≤ INT_MAX := by decide
    have : (done.length : Int) * INT_MAX ≤ ((done.length : Int) + 1) * INT_MAX := by
      rw [add_mul]
      omega
    dsimp only
    omega

theorem rinv_finish {lo : Int} {g : Graph} {s u : Int} {st : DState}
    {items : List (Nat × Int × Int)} {done : List Int} (hi : RInv lo g s u st items done)
    (hc : FClosed g st.dist u) : FInv lo g s st items (u :: done) := by
  refine ⟨hi.heap, ?_, hi.ptr, List.nodup_cons.mpr ⟨hi.u_notin, hi.done_nodup⟩, ?_, ?_, ?_,
    hi.walk, ?_, hi.src⟩
  · intro it hit
    obtain ⟨a1, a2, a3, a4, a5, a6, a7⟩ := hi.item it hit
    refine ⟨a1, a2, a3, a4, ?_, a7⟩
    intro c
    rcases List.mem_cons.mp c with d | d
    · exact a6 d
    · exact a5 d
  · intro y hy
    rcases List.mem_cons.mp hy with d | d
    · rw [d]; exact hi.u_range
    · exact hi.done_range y d
  · intro y hy
    rcases List.mem_cons.mp hy with d | d
    · rw [d]; exact ⟨hi.u_fin, hc, hi.u_le⟩
    · obtain ⟨b1, b2, b3, _⟩ := hi.done_ok y d
      exact ⟨b1, b2, b3⟩
  · intro x x0 x1 hx
    rcases hi.seen x x0 x1 hx with d | d | d
    · exact Or.inl (List.mem_cons_of_mem _ d)
    · exact Or.inl (d ▸ List.mem_cons_self _ _)
    · exact Or.inr d
  · intro x x0 x1
    have := hi.range x x0 x1
    simp only [List.length_cons, Nat.cast_add, Nat.cast_one]
    exact this

theorem mainLoop_spec {lo : Int} {g : Graph} {s : Int} (hlo : 0 ≤ lo) (hg : GWFrom lo g)
    (h1 : lo ≤ s) (h2 : s ≤ g.numVertices) : ∀ (fuel : Nat) (st : DState)
    (items : List (Nat × Int × Int)) (done : List Int), FInv lo g s st items done →
    g.numVertices + 2 - lo ≤ (fuel : Int) + (done.length : Int) →
    ∃ st', mainLoop g fuel st = some st' ∧ FFinal lo g s st'.dist
  | 0, st, items, done, hi, hf => by
    have := finv_done_length hi h1 h2
    omega
  | fuel + 1, st, items, done, hi, hf => by
    rw [mainLoop]
    by_cases hemp : fibHeapIsEmpty st.pq = true
    · rw [if_pos hemp]
      have hnil := (heapIs_empty hi.heap).mp hemp
      subst hnil
      exact ⟨st, rfl, finv_final hlo hi h1 h2⟩
    · rw [if_neg hemp]
      have hne : fibHeapIsEmpty st.pq = false := by simpa using hemp
      obtain ⟨p, k, u, pq', rest, e1, e2, e3, e4⟩ := heapIs_extract hi.heap hne
      rw [e1]
      dsimp only
      have hr := finv_extract hi p k u pq' rest e2 e3 e4
      have hfin : st.dist u ≠ INF := hr.u_fin
      rw [if_neg hfin]
      obtain ⟨st2, items2, f1, f2, f3⟩ := relaxLoop_inv hlo hg (g.adj u) _ rest done []
        (fun e he => he) hr (fun e he => by cases he)
      rw [f1]
      dsimp only
      have hc : FClosed g st2.dist u := by
        intro e he
        exact f3 e (by simpa using he)
      have hi2 := rinv_finish f2 hc
      apply mainLoop_spec hlo hg h1 h2 fuel st2 items2 (u :: done) hi2
      simp only [List.length_cons, Nat.cast_add, Nat.cast_one] at hf ⊢
      omega

/-- The distance array of `dijkstra_fib_heap` before the main loop. -/
def initFDist (g : Graph) (startNode : Int) : Int → Int :=
  Function.update ((List.range (g.numVertices + 1).toNat).foldl
    (fun d (i : Nat) => Function.update d (i : Int) INF) (fun _ => 0)) startNode 0

/-- The state of `dijkstra_fib_heap` before the main loop. -/
def initFState (g : Graph) (startNode : Int) : DState :=
  { dist := initFDist g startNode
    nodePtrs := Function.update (fun _ => 0) startNode (fibHeapInsert createFibHeap 0 startNode).1
    pq := (fibHeapInsert createFibHeap 0 startNode).2 }

theorem dijkstra_fib_heap_eq (g : Graph) (startNode : Int)
    (h : ¬ (startNode ≤ 0 ∨ startNode > g.numVertices)) :
    dijkstra_fib_heap g startNode =
      match mainLoop g ((g.numVertices + 1).toNat * 18446744073709551616 + 2)
        (initFState g startNode) with
      | none => none
      | some s => some (some s.dist) := by
  unfold dijkstra_fib_heap
  rw [if_neg h]
  rfl

theorem initFDist_apply (g : Graph) (s v : Int) :
    initFDist g s v =
      if v = s then 0 else if 0 ≤ v ∧ v ≤ g.numVertices then INF else 0 := by
  unfold initFDist
  rw [Function.update_apply, BinHeap.foldl_update_range]
  by_cases c : v = s
  · rw [if_pos c, if_pos c]
  · rw [if_neg c, if_neg c]
    by_cases d : 0 ≤ v ∧ v ≤ g.numVertices
    · rw [if_pos d, if_pos]
      omega
    · rw [if_neg d, if_neg]
      omega

theorem init_finv {lo : Int} (hlo : 0 ≤ lo) (g : Graph) (s : Int) (h1 : lo ≤ s)
    (h2 : s ≤ g.numVertices) : FInv lo g s (initFState g s) [(1, 0, s)] [] := by
  obtain ⟨a1, a2⟩ := @heapIs_insert createFibHeap [] heapIs_create 0 s
  have a2' : (fibHeapInsert createFibHeap 0 s).1 = 1 := a2
  have hds : initFDist g s s = 0 := by rw [initFDist_apply, if_pos rfl]
  have hdo : ∀ v, lo ≤ v → v ≤ g.numVertices → v ≠ s → initFDist g s v = INF := by
    intro v v0 v1 hv
    rw [initFDist_apply, if_neg hv, if_pos ⟨by omega, v1⟩]
  refine ⟨a1, ?_, ?_, List.nodup_nil, fun y hy => (by cases hy), fun y hy => (by cases hy),
    ?_, ?_, ?_, hds⟩
  · intro it hit
    rw [List.mem_singleton.mp hit]
    refine ⟨h1, h2, ?_, ?_, fun c => (by cases c), ?_⟩
    · show Function.update (fun _ => 0) s (fibHeapInsert createFibHeap 0 s).1 s = 1
      rw [Function.update_same, a2']
    · exact hds.symm
    · show initFDist g s s ≠ INF
      rw [hds]
      decide
  · intro v hv
    have hv' : Function.update (fun _ => (0 : Nat)) s (fibHeapInsert createFibHeap 0 s).1 v ≠ 0 := hv
    by_cases c : v = s
    · refine ⟨0, ?_⟩
      subst c
      have e : (initFState g v).nodePtrs v = 1 := by
        show Function.update (fun _ => (0 : Nat)) v (fibHeapInsert createFibHeap 0 v).1 v = 1
        rw [Function.update_same, a2']
      rw [e]
      exact List.mem_singleton.mpr rfl
    · rw [Function.update_noteq c] at hv'
      exact absurd rfl hv'
  · intro v v0 v1 hv
    right
    by_cases c : v = s
    · show Function.update (fun _ => 0) s (fibHeapInsert createFibHeap 0 s).1 v ≠ 0
      rw [c, Function.update_same, a2']
      decide
    · exact absurd (hdo v v0 v1 c) hv
  · intro v v0 v1 hv
    by_cases c : v = s
    · show FWalk g s v (initFDist g s v)
      rw [c, hds]
      exact FWalk.nil
    · exact absurd (hdo v v0 v1 c) hv
  · intro v v0 v1
    show 0 ≤ initFDist g s v ∧ (initFDist g s v ≠ INF → initFDist g s v ≤ _)
    by_cases c : v = s
    · rw [c, hds]
      exact ⟨le_refl _, fun _ => by simp⟩
    · rw [hdo v v0 v1 c]
      exact ⟨by decide, fun h => absurd rfl h⟩

theorem dijkstra_fib_final {lo : Int} {g : Graph} {s : Int} (hlo : 0 ≤ lo) (hg : GWFrom lo g)
    (hs : lo ≤ s) (h1 : 1 ≤ s) (h2 : s ≤ g.numVertices) :
    ∃ dist, dijkstra_fib_heap g s = some (some dist) ∧ FFinal lo g s dist := by
  have hvalid : ¬ (s ≤ 0 ∨ s > g.numVertices) := by omega
  obtain ⟨st', e1, e2⟩ := mainLoop_spec hlo hg hs h2
    ((g.numVertices + 1).toNat * 18446744073709551616 + 2) (initFState g s)
    _ [] (init_finv hlo g s hs h2) (by
      simp only [List.length_nil, Nat.cast_zero, add_zero, Nat.cast_add, Nat.cast_mul,
        Nat.cast_ofNat]
      have : (((g.numVertices + 1).toNat : Nat) : Int) = g.numVertices + 1 :=
        Int.toNat_of_nonneg (by omega)
      rw [this]
      omega)
  refine ⟨st'.dist, ?_, e2⟩
  rw [dijkstra_fib_heap_eq g s hvalid, e1]

end Fib

set_option linter.unusedTactic false
set_option linter.unreachableTactic false
set_option linter.unusedVariables false

namespace Fib

/-! ## `dijkstra_fib_heap` returns on every graph -/

/-- Every edge joins two of the vertices `0 .. numVertices`: `graphAddEdge`
stores no other edge. The weights are arbitrary. -/
def GRange (g : Graph) : Prop :=
  ∀ u, 0 ≤ u → u ≤ g.numVertices → ∀ e ∈ g.adj u, 0 ≤ e.to_ ∧ e.to_ ≤ g.numVertices

/-- `createGraph` of `Graph.c` (allocations succeed): `calloc` leaves each of
the `V + 1` lists empty. -/
def createGraph (V : Int) : Graph :=
  { numVertices := V, adj := fun _ => [] }

/-- `graphAddEdge` of `Graph.c` (the allocation succeeds): an edge with an end
outside `0 .. numVertices` is refused, any other is put in front of the list
of `u`. -/
def graphAddEdge (g : Graph) (u v weight : Int) : Graph :=
  if u < 0 ∨ u > g.numVertices ∨ v < 0 ∨ v > g.numVertices then g
  else { g with adj := Function.update g.adj u (⟨v, weight⟩ :: g.adj u) }

/-- The graphs that `createGraph` and `graphAddEdge` build. -/
inductive GraphBuilt : Graph → Prop
  | create (V : Int) : GraphBuilt (createGraph V)
  | add {g : Graph} (u v weight : Int) : GraphBuilt g → GraphBuilt (graphAddEdge g u v weight)

theorem graphAddEdge_numVertices (g : Graph) (u v weight : Int) :
    (graphAddEdge g u v weight).numVertices = g.numVertices := by
  unfold graphAddEdge
  split_ifs <;> rfl

theorem graphBuilt_range {g : Graph} (h : GraphBuilt g) : GRange g := by
  induction h with
  | create V =>
    intro u _ _ e he
    cases he
  | @add g u v weight _ ih =>
    intro x x0 x1 e he
    rw [graphAddEdge_numVertices] at x1 ⊢
    unfold graphAddEdge at he
    by_cases c : u < 0 ∨ u > g.numVertices ∨ v < 0 ∨ v > g.numVertices
    · rw [if_pos c] at he
      exact ih x x0 x1 e he
    · rw [if_neg c] at he
      have he' : e ∈ Function.update g.adj u (⟨v, weight⟩ :: g.adj u) x := he
      by_cases cx : x = u
      · rw [cx, Function.update_same] at he'
        rcases List.mem_cons.mp he' with d | d
        · rw [d]
          dsimp only
          omega
        · exact ih u (by omega) (by omega) e d
      · rw [Function.update_noteq cx] at he'
        exact ih x x0 x1 e he'

/-- The invariant of both loops of `dijkstra_fib_heap` that holds whatever the
weights are; `items` are the entries of the queue. -/
structure SInv (g : Graph) (st : DState) (items : List (Nat × Int × Int)) : Prop where
  heap : HeapIs st.pq items
  item : ∀ it ∈ items, 0 ≤ it.2.2 ∧ it.2.2 ≤ g.numVertices ∧ st.nodePtrs it.2.2 = it.1 ∧
    it.2.1 = st.dist it.2.2
  ptr : ∀ v, st.nodePtrs v ≠ 0 → ∃ k, (st.nodePtrs v, k, v) ∈ items
  range : ∀ v, -9223372036854775808 ≤ st.dist v ∧ st.dist v ≤ LLONG_MAX

/-- The sum of the entries `dist[0 .. numVertices]`, each counted from
`LLONG_MIN`. -/
def distSum (g : Graph) (dist : Int → Int) : Nat :=
  ((List.range (g.numVertices + 1).toNat).map
    (fun i : Nat => (dist (i : Int) + 9223372036854775808).toNat)).sum

theorem wrap64_range (x : Int) :
    -9223372036854775808 ≤ wrap64 x ∧ wrap64 x ≤ LLONG_MAX := by
  unfold wrap64 LLONG_MAX
  omega

theorem distSum_update (g : Graph) (dist : Int → Int) (v x : Int) (v0 : 0 ≤ v)
    (v1 : v ≤ g.numVertices) (hx : x < dist v) (hx0 : -9223372036854775808 ≤ x) :
    distSum g (Function.update dist v x) + 1 ≤ distSum g dist := by
  unfold distSum
  apply Nat.succ_le_of_lt
  apply List.sum_lt_sum
  · intro i _
    rw [Function.update_apply]
    split_ifs with c
    · rw [c]
      omega
    · exact le_refl _
  · refine ⟨v.toNat, List.mem_range.mpr (by omega), ?_⟩
    have e : ((v.toNat : Nat) : Int) = v := Int.toNat_of_nonneg v0
    rw [e, Function.update_same]
    omega

theorem distSum_le (g : Graph) (dist : Int → Int)
    (hr : ∀ v, -9223372036854775808 ≤ dist v ∧ dist v ≤ LLONG_MAX) :
    distSum g dist ≤ (g.numVertices + 1).toNat * 18446744073709551615 := by
  unfold distSum
  have h := List.sum_le_card_nsmul ((List.range (g.numVertices + 1).toNat).map
    (fun i : Nat => (dist (i : Int) + 9223372036854775808).toNat)) 18446744073709551615 (by
      intro x hx
      obtain ⟨i, _, rfl⟩ := List.mem_map.mp hx
      have := hr (i : Int)
      unfold LLONG_MAX at this
      omega)
  rw [List.length_map, List.length_range, smul_eq_mul] at h
  exact h

theorem relaxEdge_sinv {g : Graph} {u : Int} {st : DState}
    {items : List (Nat × Int × Int)} (hg : GRange g) (hi : SInv g st items)
    (u0 : 0 ≤ u) (u1 : u ≤ g.numVertices) (e : AdjListNode) (he : e ∈ g.adj u) :
    ∃ st' items', relaxEdge u e st = some st' ∧ SInv g st' items' ∧
      items'.length + distSum g st'.dist ≤ items.length + distSum g st.dist := by
  obtain ⟨v0, v1⟩ := hg u u0 u1 e he
  unfold relaxEdge
  by_cases hinf : st.dist u = INF
  · simp only [if_pos hinf]
    exact ⟨st, items, rfl, hi, le_refl _⟩
  simp only [if_neg hinf]
  obtain ⟨hw0, hw1⟩ := wrap64_range (st.dist u + e.weight)
  by_cases hlt : wrap64 (st.dist u + e.weight) < st.dist e.to_
  · rw [if_pos hlt]
    have hsum := distSum_update g st.dist e.to_ _ v0 v1 hlt hw0
    have hupd_ne : ∀ x, x ≠ e.to_ →
        Function.update st.dist e.to_ (wrap64 (st.dist u + e.weight)) x = st.dist x :=
      fun x hx => Function.update_noteq hx _ _
    have hrange : ∀ x, -9223372036854775808 ≤
        Function.update st.dist e.to_ (wrap64 (st.dist u + e.weight)) x ∧
        Function.update st.dist e.to_ (wrap64 (st.dist u + e.weight)) x ≤ LLONG_MAX := by
      intro x
      by_cases c : x = e.to_
      · rw [c, Function.update_same]
        exact ⟨hw0, hw1⟩
      · rw [hupd_ne x c]
        exact hi.range x
    by_cases hp : st.nodePtrs e.to_ ≠ 0
    · rw [if_pos hp]
      obtain ⟨k, hk⟩ := hi.ptr _ hp
      have hkd : k = st.dist e.to_ := (hi.item _ hk).2.2.2
      obtain ⟨pq', rest, e1, e2, e3⟩ := heapIs_decrease hi.heap hk
        (wrap64 (st.dist u + e.weight)) (by rw [hkd]; exact le_of_lt hlt)
      rw [e1]
      have hnd := (heapIs_nodup hi.heap).1
      have hnd' : (((st.nodePtrs e.to_, k, e.to_) :: rest).map Prod.fst).Nodup :=
        (e2.map Prod.fst).nodup_iff.mp hnd
      have hrest : ∀ it ∈ rest, it ∈ items ∧ it.2.2 ≠ e.to_ := by
        intro it hit
        have hmem : it ∈ items := e2.symm.subset (List.mem_cons_of_mem _ hit)
        refine ⟨hmem, ?_⟩
        intro c
        have hptr := (hi.item it hmem).2.2.1
        rw [c] at hptr
        have : it.1 ∈ rest.map Prod.fst := List.mem_map_of_mem _ hit
        rw [← hptr] at this
        exact (List.nodup_cons.mp hnd').1 this
      have hlen : items.length = rest.length + 1 := by
        rw [e2.length_eq, List.length_cons]
      refine ⟨_, (st.nodePtrs e.to_, wrap64 (st.dist u + e.weight), e.to_) :: rest, rfl,
        ⟨e3, ?_, ?_, hrange⟩, ?_⟩
      · intro it hit
        rcases List.mem_cons.mp hit with c | c
        · rw [c]
          refine ⟨v0, v1, rfl, ?_⟩
          dsimp only
          rw [Function.update_same]
        · obtain ⟨hmem, hne⟩ := hrest it c
          obtain ⟨a1, a2, a3, a4⟩ := hi.item it hmem
          dsimp only
          rw [hupd_ne _ hne]
          exact ⟨a1, a2, a3, a4⟩
      · intro x hx
        obtain ⟨k', hk'⟩ := hi.ptr x hx
        rcases List.mem_cons.mp (e2.subset hk') with c | c
        · have hxv : x = e.to_ := (Prod.mk.inj (Prod.mk.inj c).2).2
          rw [hxv]
          exact ⟨_, List.mem_cons_self _ _⟩
        · exact ⟨k', List.mem_cons_of_mem _ c⟩
      · dsimp only
        rw [List.length_cons, hlen]
        omega
    · rw [if_neg hp]
      have hp0 : st.nodePtrs e.to_ = 0 := by
        by_contra c
        exact hp c
      obtain ⟨h1, h2⟩ := heapIs_insert hi.heap (wrap64 (st.dist u + e.weight)) e.to_
      have hold : ∀ it ∈ items, it.2.2 ≠ e.to_ := by
        intro it hit c
        have hptr := (hi.item it hit).2.2.1
        rw [c, hp0] at hptr
        have := ((heapIs_nodup hi.heap).2 it hit).1
        omega
      have hnp_ne : ∀ x, x ≠ e.to_ →
          Function.update st.nodePtrs e.to_
            (fibHeapInsert st.pq (wrap64 (st.dist u + e.weight)) e.to_).1 x = st.nodePtrs x :=
        fun x hx => Function.update_noteq hx _ _
      refine ⟨_, (st.pq.next, wrap64 (st.dist u + e.weight), e.to_) :: items, rfl,
        ⟨h1, ?_, ?_, hrange⟩, ?_⟩
      · intro it hit
        rcases List.mem_cons.mp hit with c | c
        · rw [c]
          refine ⟨v0, v1, ?_, ?_⟩
          · dsimp only
            rw [Function.update_same]
            exact h2
          · dsimp only
            rw [Function.update_same]
        · have hne := hold it c
          obtain ⟨a1, a2, a3, a4⟩ := hi.item it c
          dsimp only
          rw [hupd_ne _ hne, hnp_ne _ hne]
          exact ⟨a1, a2, a3, a4⟩
      · intro x hx
        by_cases c : x = e.to_
        · rw [c]
          dsimp only
          rw [Function.update_same, h2]
          exact ⟨_, List.mem_cons_self _ _⟩
        · have hx' : st.nodePtrs x ≠ 0 := by
            have : Function.update st.nodePtrs e.to_ _ x ≠ 0 := hx
            rwa [hnp_ne x c] at this
          obtain ⟨k', hk'⟩ := hi.ptr x hx'
          refine ⟨k', ?_⟩
          dsimp only
          rw [hnp_ne x c]
          exact List.mem_cons_of_mem _ hk'
      · dsimp only
        rw [List.length_cons]
        omega
  · rw [if_neg hlt]
    exact ⟨st, items, rfl, hi, le_refl _⟩

theorem relaxLoop_sinv {g : Graph} {u : Int} (hg : GRange g) (u0 : 0 ≤ u)
    (u1 : u ≤ g.numVertices) : ∀ (es : List AdjListNode) (st : DState)
    (items : List (Nat × Int × Int)), (∀ e ∈ es, e ∈ g.adj u) → SInv g st items →
    ∃ st' items', relaxLoop u es st = some st' ∧ SInv g st' items' ∧
      items'.length + distSum g st'.dist ≤ items.length + distSum g st.dist
  | [], st, items, _, hi => ⟨st, items, rfl, hi, le_refl _⟩
  | e :: es, st, items, hes, hi => by
    obtain ⟨st1, items1, e1, e2, e3⟩ :=
      relaxEdge_sinv hg hi u0 u1 e (hes e (List.mem_cons_self _ _))
    obtain ⟨st2, items2, f1, f2, f3⟩ := relaxLoop_sinv hg u0 u1 es st1 items1
      (fun x hx => hes x (List.mem_cons_of_mem _ hx)) e2
    refine ⟨st2, items2, ?_, f2, le_trans f3 e3⟩
    rw [relaxLoop_cons, e1]
    exact f1

theorem sinv_extract {g : Graph} {st : DState} {items : List (Nat × Int × Int)}
    (hi : SInv g st items) (p : Nat) (k u : Int) (pq' : FibHeap)
    (rest : List (Nat × Int × Int)) (hperm : items.Perm ((p, k, u) :: rest))
    (hheap : HeapIs pq' rest) :
    SInv g { st with pq := pq', nodePtrs := Function.update st.nodePtrs u 0 } rest ∧
    0 ≤ u ∧ u ≤ g.numVertices := by
  have hmem : (p, k, u) ∈ items := hperm.symm.subset (List.mem_cons_self _ _)
  obtain ⟨u0, u1, uptr, ukey⟩ := hi.item _ hmem
  have hnd : (((p, k, u) :: rest).map Prod.fst).Nodup :=
    (hperm.map Prod.fst).nodup_iff.mp (heapIs_nodup hi.heap).1
  have hrest : ∀ it ∈ rest, it ∈ items ∧ it.2.2 ≠ u := by
    intro it hit
    have hm : it ∈ items := hperm.symm.subset (List.mem_cons_of_mem _ hit)
    refine ⟨hm, ?_⟩
    intro c
    have hptr := (hi.item it hm).2.2.1
    rw [c] at hptr
    have e : it.1 = p := hptr.symm.trans uptr
    have : it.1 ∈ rest.map Prod.fst := List.mem_map_of_mem _ hit
    rw [e] at this
    exact (List.nodup_cons.mp hnd).1 this
  have hne : ∀ x, x ≠ u → Function.update st.nodePtrs u 0 x = st.nodePtrs x :=
    fun x hx => Function.update_noteq hx _ _
  refine ⟨⟨hheap, ?_, ?_, hi.range⟩, u0, u1⟩
  · intro it hit
    obtain ⟨hm, hn⟩ := hrest it hit
    obtain ⟨a1, a2, a3, a4⟩ := hi.item it hm
    dsimp only
    rw [hne _ hn]
    exact ⟨a1, a2, a3, a4⟩
  · intro x hx
    dsimp only at hx ⊢
    have hxu : x ≠ u := by
      intro c
      rw [c, Function.update_same] at hx
      exact hx rfl
    rw [hne x hxu] at hx ⊢
    obtain ⟨k', hk'⟩ := hi.ptr x hx
    rcases List.mem_cons.mp (hperm.subset hk') with c | c
    · exact absurd (Prod.mk.inj (Prod.mk.inj c).2).2 hxu
    · exact ⟨k', c⟩

theorem mainLoop_total {g : Graph} (hg : GRange g) : ∀ (fuel : Nat) (st : DState)
    (items : List (Nat × Int × Int)), SInv g st items →
    items.length + distSum g st.dist + 1 ≤ fuel → ∃ st', mainLoop g fuel st = some st'
  | 0, st, items, hi, hf => by omega
  | fuel + 1, st, items, hi, hf => by
    rw [mainLoop]
    by_cases hemp : fibHeapIsEmpty st.pq = true
    · rw [if_pos hemp]
      exact ⟨st, rfl⟩
    · rw [if_neg hemp]
      have hne : fibHeapIsEmpty st.pq = false := by simpa using hemp
      obtain ⟨p, k, u, pq', rest, e1, e2, e3, e4⟩ := heapIs_extract hi.heap hne
      rw [e1]
      dsimp only
      obtain ⟨hr, u0, u1⟩ := sinv_extract hi p k u pq' rest e2 e4
      have hlen : items.length = rest.length + 1 := by
        rw [e2.length_eq, List.length_cons]
      by_cases hfin : st.dist u = INF
      · rw [if_pos hfin]
        exact ⟨_, rfl⟩
      · rw [if_neg hfin]
        obtain ⟨st2, items2, f1, f2, f3⟩ := relaxLoop_sinv hg u0 u1 (g.adj u) _ rest
          (fun e he => he) hr
        rw [f1]
        dsimp only
        apply mainLoop_total hg fuel st2 items2 f2
        have f3' : items2.length + distSum g st2.dist ≤ rest.length + distSum g st.dist := f3
        omega

theorem init_sinv (g : Graph) (s : Int) (h1 : 0 ≤ s) (h2 : s ≤ g.numVertices) :
    SInv g (initFState g s) [(1, 0, s)] := by
  obtain ⟨a1, a2⟩ := @heapIs_insert createFibHeap [] heapIs_create 0 s
  have a2' : (fibHeapInsert createFibHeap 0 s).1 = 1 := a2
  have hds : initFDist g s s = 0 := by rw [initFDist_apply, if_pos rfl]
  refine ⟨a1, ?_, ?_, ?_⟩
  · intro it hit
    rw [List.mem_singleton.mp hit]
    refine ⟨h1, h2, ?_, ?_⟩
    · show Function.update (fun _ => 0) s (fibHeapInsert createFibHeap 0 s).1 s = 1
      rw [Function.update_same, a2']
    · exact hds.symm
  · intro v hv
    have hv' : Function.update (fun _ => (0 : Nat)) s (fibHeapInsert createFibHeap 0 s).1 v ≠ 0 := hv
    by_cases c : v = s
    · refine ⟨0, ?_⟩
      subst c
      have e : (initFState g v).nodePtrs v = 1 := by
        show Function.update (fun _ => (0 : Nat)) v (fibHeapInsert createFibHeap 0 v).1 v = 1
        rw [Function.update_same, a2']
      rw [e]
      exact List.mem_singleton.mpr rfl
    · rw [Function.update_noteq c] at hv'
      exact absurd rfl hv'
  · intro v
    show -9223372036854775808 ≤ initFDist g s v ∧ initFDist g s v ≤ LLONG_MAX
    rw [initFDist_apply]
    unfold INF LLONG_MAX
    split_ifs <;> omega

/-- `dijkstra_fib_heap` returns a distance array for every valid start node,
whatever the weights of the edges are. -/
theorem dijkstra_fib_total {g : Graph} {s : Int} (hg : GRange g) (h1 : 1 ≤ s)
    (h2 : s ≤ g.numVertices) : ∃ dist, dijkstra_fib_heap g s = some (some dist) := by
  have hvalid : ¬ (s ≤ 0 ∨ s > g.numVertices) := by omega
  have hi := init_sinv g s (by omega) h2
  have hb := distSum_le g (initFState g s).dist hi.range
  obtain ⟨st', e1⟩ := mainLoop_total hg
    ((g.numVertices + 1).toNat * 18446744073709551616 + 2) (initFState g s) _ hi (by
      simp only [List.length_singleton]
      omega)
  refine ⟨st'.dist, ?_⟩
  rw [dijkstra_fib_heap_eq g s hvalid, e1]

end Fib
set_option linter.unusedVariables false
set_option linter.unusedTactic false
set_option linter.unreachableTactic false

namespace Fib

/-! ## `dijkstra_fib_heap`: the shortest-path contract -/

/-- The graph on the vertices `1, 2, 3` with `graphAddEdge(g, 1, 2, 5)`,
`graphAddEdge(g, 1, 3, 2)`, `graphAddEdge(g, 3, 2, 1)`; `graphAddEdge` puts the
new edge in front of the list. -/
def specGraph : Graph :=
  { numVertices := 3
    adj := fun u =>
      if u = 1 then [⟨3, 2⟩, ⟨2, 5⟩]
      else if u = 3 then [⟨2, 1⟩]
      else [] }

theorem specGraph_wf : GWF specGraph := by
  refine ⟨by decide, ?_⟩
  intro u u0 u1 e he
  have hu : u = 1 ∨ u = 2 ∨ u = 3 := by
    have : u ≤ 3 := u1
    omega
  rcases hu with h | h | h
  · subst h
    have he' : e = ⟨3, 2⟩ ∨ e = ⟨2, 5⟩ := by simpa [specGraph] using he
    rcases he' with c | c <;> subst c <;> decide
  · subst h
    simp [specGraph] at he
  · subst h
    have he' : e = ⟨2, 1⟩ := by simpa [specGraph] using he
    subst he'
    decide

theorem specGraph_run :
    (dijkstra_fib_heap specGraph 1).map (fun o => o.map (fun d => [d 1, d 2, d 3])) =
      some (some [0, 3, 2]) := by
  decide!

/-- C1. For a graph on the vertices `1..V` whose edges stay inside `1..V` and
carry non-negative `int` weights, and a source `s` with `1 ≤ s ≤ V`,
`dijkstra_fib_heap` returns an array `dist` in which `dist[v]` is the minimum
total weight of a directed path from `s` to `v` for every reachable vertex `v`
and `LLONG_MAX` for every unreachable one. -/
theorem dijkstra_fib_heap_shortest (g : Graph) (s : Int) (hg : GWF g) (h1 : 1 ≤ s)
    (h2 : s ≤ g.numVertices) :
    ∃ dist, dijkstra_fib_heap g s = some (some dist) ∧
      ∀ v, 1 ≤ v → v ≤ g.numVertices →
        ((∃ d, FWalk g s v d) → FMinDist g s v (dist v)) ∧
        ((¬ ∃ d, FWalk g s v d) → dist v = LLONG_MAX) := by
  obtain ⟨dist, e, hf⟩ := @dijkstra_fib_final 1 g s (by decide) hg h1 h1 h2
  exact ⟨dist, e, fun v v0 v1 => @ffinal_correct 1 g s dist hg h1 h2 hf v v0 v1⟩

theorem dijkstra_fib_heap_shortest_witness :
    (dijkstra_fib_heap specGraph 1).map (fun o => o.map (fun d => [d 1, d 2, d 3])) =
      some (some [0, 3, 2]) ∧
    ∃ dist, dijkstra_fib_heap specGraph 1 = some (some dist) ∧
      ∀ v, 1 ≤ v → v ≤ specGraph.numVertices →
        ((∃ d, FWalk specGraph 1 v d) → FMinDist specGraph 1 v (dist v)) ∧
        ((¬ ∃ d, FWalk specGraph 1 v d) → dist v = LLONG_MAX) :=
  ⟨specGraph_run, dijkstra_fib_heap_shortest specGraph 1 specGraph_wf (by decide) (by decide)⟩

/-- A graph on the vertices `0 .. 4` with a negative weight and an edge into
vertex `0`. -/
def negGraph : Graph :=
  graphAddEdge (graphAddEdge (graphAddEdge (graphAddEdge (graphAddEdge (createGraph 4)
    1 2 1) 1 3 3) 1 0 4) 3 2 (-5)) 2 4 0

theorem negGraph_range : GRange negGraph :=
  graphBuilt_range (GraphBuilt.add _ _ _ (GraphBuilt.add _ _ _ (GraphBuilt.add _ _ _
    (GraphBuilt.add _ _ _ (GraphBuilt.add _ _ _ (GraphBuilt.create 4))))))

theorem negGraph_run :
    (dijkstra_fib_heap negGraph 1).map
        (fun o => o.map (fun d => [d 0, d 1, d 2, d 3, d 4])) =
      some (some [4, 0, -2, 3, -2]) := by
  decide!

/-- C16. `dijkstra_fib_heap` returns `NULL`, before any array or heap is
built, exactly when `startNode ≤ 0` or `startNode > numVertices`; for every
start node in `1..numVertices` it returns a distance array, whatever the
weights are, on every graph whose edges join vertices in `0..numVertices`
(the only edges that `graphAddEdge` stores). -/
theorem dijkstra_fib_heap_invalid_source (g : Graph) (startNode : Int) :
    (dijkstra_fib_heap g startNode = some none ↔
      (startNode ≤ 0 ∨ startNode > g.numVertices)) ∧
    (GRange g → 1 ≤ startNode → startNode ≤ g.numVertices →
      ∃ dist, dijkstra_fib_heap g startNode = some (some dist)) := by
  constructor
  · constructor
    · intro h
      by_contra hv
      rw [dijkstra_fib_heap_eq g startNode hv] at h
      cases hm : mainLoop g ((g.numVertices + 1).toNat * 18446744073709551616 + 2)
          (initFState g startNode) with
      | none => rw [hm] at h; cases h
      | some st => rw [hm] at h; cases h
    · intro h
      unfold dijkstra_fib_heap
      rw [if_pos h]
  · intro hg h1 h2
    exact dijkstra_fib_total hg h1 h2

theorem dijkstra_fib_heap_invalid_source_witness :
    (dijkstra_fib_heap negGraph 0).map Option.isSome = some false ∧
    (dijkstra_fib_heap negGraph 5).map Option.isSome = some false ∧
    (dijkstra_fib_heap negGraph 1).map
        (fun o => o.map (fun d => [d 0, d 1, d 2, d 3, d 4])) =
      some (some [4, 0, -2, 3, -2]) ∧
    ∃ dist, dijkstra_fib_heap negGraph 1 = some (some dist) :=
  ⟨by decide!, by decide!, negGraph_run,
   (dijkstra_fib_heap_invalid_source negGraph 1).2 negGraph_range (by decide) (by decide)⟩

end Fib
set_option linter.unusedVariables false
set_option linter.unusedTactic false
set_option linter.unreachableTactic false

namespace Fib

/-! ## `dijkstra_fib_heap`: the states visited by a run -/

/-- The state of `dijkstra_fib_heap` after `fibHeapExtractMin` returned `u` and
`nodePtrs[u] = NULL` was executed. -/
def afterExtract (st : DState) (u : Int) (pq : FibHeap) : DState :=
  { st with pq := pq, nodePtrs := Function.update st.nodePtrs u 0 }

/-- `DRun g s st log`: a run of `dijkstra_fib_heap g s` reaches the test of the
main loop in state `st`, having extracted the vertices `log`, in this order. -/
inductive DRun (g : Graph) (s : Int) : DState → List Int → Prop
  | init : DRun g s (initFState g s) []
  | iter {st st' : DState} {log : List Int} {u : Int} {pq : FibHeap} :
      DRun g s st log → fibHeapIsEmpty st.pq = false →
      fibHeapExtractMin st.pq = some (u, pq) → st.dist u ≠ INF →
      relaxLoop u (g.adj u) (afterExtract st u pq) = some st' →
      DRun g s st' (log ++ [u])

/-- `DVisit g s st log`: a run of `dijkstra_fib_heap g s` visits the state `st`
between two heap operations: at the test of the main loop, or inside a round,
after the extraction and after the edges `pre` of the extracted vertex. -/
inductive DVisit (g : Graph) (s : Int) : DState → List Int → Prop
  | head {st : DState} {log : List Int} : DRun g s st log → DVisit g s st log
  | inner {st st' : DState} {log : List Int} {u : Int} {pq : FibHeap}
      {pre suf : List AdjListNode} :
      DRun g s st log → fibHeapIsEmpty st.pq = false →
      fibHeapExtractMin st.pq = some (u, pq) → g.adj u = pre ++ suf →
      relaxLoop u pre (afterExtract st u pq) = some st' →
      DVisit g s st' (log ++ [u])

theorem drun_inv {lo : Int} {g : Graph} {s : Int} (hlo : 0 ≤ lo) (hg : GWFrom lo g)
    (h1 : lo ≤ s) (h2 : s ≤ g.numVertices) {st : DState} {log : List Int}
    (hr : DRun g s st log) : ∃ items, FInv lo g s st items log.reverse := by
  induction hr with
  | init => exact ⟨_, init_finv hlo g s h1 h2⟩
  | @iter st st' log u pq hr hne hex hfin hrel ih =>
    obtain ⟨items, hi⟩ := ih
    obtain ⟨p, k, u', pq', rest, e1, e2, e3, e4⟩ := heapIs_extract hi.heap hne
    rw [hex] at e1
    have eu : u = u' := by injection e1 with e; injection e
    have ep : pq = pq' := by injection e1 with e; injection e
    subst eu
    subst ep
    have hr2 := finv_extract hi p k u pq rest e2 e3 e4
    obtain ⟨st2, items2, f1, f2, f3⟩ := relaxLoop_inv hlo hg (g.adj u) _ rest log.reverse []
      (fun e he => he) hr2 (fun e he => by cases he)
    have f1' : relaxLoop u (g.adj u) (afterExtract st u pq) = some st2 := f1
    rw [hrel] at f1'
    have es : st' = st2 := by injection f1'
    subst es
    have hc : FClosed g st'.dist u := by
      intro e he
      exact f3 e (by simpa using he)
    have hi2 := rinv_finish f2 hc
    refine ⟨items2, ?_⟩
    rw [List.reverse_append, List.reverse_singleton, List.singleton_append]
    exact hi2

theorem dvisit_inner_inv {lo : Int} {g : Graph} {s : Int} (hlo : 0 ≤ lo) (hg : GWFrom lo g)
    (h1 : lo ≤ s) (h2 : s ≤ g.numVertices) {st st' : DState} {log : List Int} {u : Int} {pq : FibHeap}
    {pre suf : List AdjListNode} (hr : DRun g s st log) (hne : fibHeapIsEmpty st.pq = false)
    (hex : fibHeapExtractMin st.pq = some (u, pq)) (hadj : g.adj u = pre ++ suf)
    (hrel : relaxLoop u pre (afterExtract st u pq) = some st') :
    ∃ items, RInv lo g s u st' items log.reverse := by
  obtain ⟨items, hi⟩ := drun_inv hlo hg h1 h2 hr
  obtain ⟨p, k, u', pq', rest, e1, e2, e3, e4⟩ := heapIs_extract hi.heap hne
  rw [hex] at e1
  have eu : u = u' := by injection e1 with e; injection e
  have ep : pq = pq' := by injection e1 with e; injection e
  subst eu
  subst ep
  have hr2 := finv_extract hi p k u pq rest e2 e3 e4
  obtain ⟨st2, items2, f1, f2, f3⟩ := relaxLoop_inv hlo hg pre _ rest log.reverse []
    (fun e he => by rw [hadj]; exact List.mem_append_left _ he) hr2 (fun e he => by cases he)
  have f1' : relaxLoop u pre (afterExtract st u pq) = some st2 := f1
  rw [hrel] at f1'
  have es : st' = st2 := by injection f1'
  subst es
  exact ⟨items2, f2⟩

/-- What the heap content and the two facts on `nodePtrs` of the loop
invariants say about the live nodes. -/
theorem live_facts {pq : FibHeap} {items : List (Nat × Int × Int)} {nodePtrs : Int → Nat}
    (hh : HeapIs pq items) (hitem : ∀ it ∈ items, nodePtrs it.2.2 = it.1)
    (hptr : ∀ v, nodePtrs v ≠ 0 → ∃ k, (nodePtrs v, k, v) ∈ items) :
    (∀ p, LinkReach pq p → ∃ it ∈ items, it.1 = p ∧ (pq.mem p).value = it.2.2) ∧
    (∀ p q, LinkReach pq p → LinkReach pq q → (pq.mem p).value = (pq.mem q).value → p = q) ∧
    (∀ v, nodePtrs v ≠ 0 ↔ ∃ p, LinkReach pq p ∧ (pq.mem p).value = v) ∧
    (∀ v, nodePtrs v ≠ 0 →
      LinkReach pq (nodePtrs v) ∧ (pq.mem (nodePtrs v)).value = v) := by
  obtain ⟨hl, hf⟩ := heapIs_live hh
  have hpos := (heapIs_nodup hh).2
  have A : ∀ p, LinkReach pq p → ∃ it ∈ items, it.1 = p ∧ (pq.mem p).value = it.2.2 := by
    intro p hp
    obtain ⟨it, hit, e⟩ := List.mem_map.mp ((hl p).mp hp)
    refine ⟨it, hit, e, ?_⟩
    rw [← e]
    exact (hf it hit).2
  have D : ∀ v, nodePtrs v ≠ 0 →
      LinkReach pq (nodePtrs v) ∧ (pq.mem (nodePtrs v)).value = v := by
    intro v hv
    obtain ⟨k, hk⟩ := hptr v hv
    exact ⟨(hl _).mpr (List.mem_map.mpr ⟨_, hk, rfl⟩), (hf _ hk).2⟩
  refine ⟨A, ?_, ?_, D⟩
  · intro p q hp hq e
    obtain ⟨ip, hip, e1, e2⟩ := A p hp
    obtain ⟨iq, hiq, e3, e4⟩ := A q hq
    have a := hitem ip hip
    have b := hitem iq hiq
    rw [← e2] at a
    rw [← e4, ← e] at b
    rw [← e1, ← e3, ← a, ← b]
  · intro v
    constructor
    · intro hv
      exact ⟨nodePtrs v, D v hv⟩
    · rintro ⟨p, hp, e⟩
      obtain ⟨ip, hip, e1, e2⟩ := A p hp
      have a := hitem ip hip
      rw [← e2, e, e1] at a
      rw [a]
      have := (hpos ip hip).1
      omega

/-- The graph on the vertices `0, 1, 2` built by `graphAddEdge(g, 1, 0, 1)` and
`graphAddEdge(g, 0, 2, 1)`; its `numVertices` is `2`. -/
def zeroGraph : Graph :=
  { numVertices := 2
    adj := fun u =>
      if u = 1 then [⟨0, 1⟩]
      else if u = 0 then [⟨2, 1⟩]
      else [] }

theorem zeroGraph_wf : GWFrom 0 zeroGraph := by
  refine ⟨by decide, ?_⟩
  intro u u0 u1 e he
  have hu : u = 0 ∨ u = 1 ∨ u = 2 := by
    have : u ≤ 2 := u1
    omega
  rcases hu with h | h | h
  · subst h
    have he' : e = ⟨2, 1⟩ := by simpa [zeroGraph] using he
    subst he'
    decide
  · subst h
    have he' : e = ⟨0, 1⟩ := by simpa [zeroGraph] using he
    subst he'
    decide
  · subst h
    simp [zeroGraph] at he

/-- C26. For a graph with non-negative `int` weights whose edges join
vertices in `0..numVertices` (the edges that `graphAddEdge` stores) and a valid
source, in every state that a run of `dijkstra_fib_heap` visits: no two live
heap nodes carry the same vertex, `nodePtrs[v]` is non-`NULL` exactly when `v`
has a live node and then points to it, the vertices extracted so far are
pairwise distinct and none of them has a live node (an extracted vertex is not
inserted again), and at most `numVertices + 1` vertices have been extracted;
the main loop ends within `numVertices + 1` rounds and the final test. -/
theorem dijkstra_fib_heap_live_nodes (g : Graph) (s : Int) (hg : GWFrom 0 g) (h1 : 1 ≤ s)
    (h2 : s ≤ g.numVertices) :
    (∀ st log, DVisit g s st log →
      (∀ p q, LinkReach st.pq p → LinkReach st.pq q →
        (st.pq.mem p).value = (st.pq.mem q).value → p = q) ∧
      (∀ v, st.nodePtrs v ≠ 0 ↔ ∃ p, LinkReach st.pq p ∧ (st.pq.mem p).value = v) ∧
      (∀ v, st.nodePtrs v ≠ 0 →
        LinkReach st.pq (st.nodePtrs v) ∧ (st.pq.mem (st.nodePtrs v)).value = v) ∧
      log.Nodup ∧
      (∀ u ∈ log, st.nodePtrs u = 0 ∧ ∀ p, LinkReach st.pq p → (st.pq.mem p).value ≠ u) ∧
      (log.length : Int) ≤ g.numVertices + 1) ∧
    (∃ st', mainLoop g (g.numVertices.toNat + 2) (initFState g s) = some st') := by
  have hVn : ((g.numVertices.toNat : Nat) : Int) = g.numVertices :=
    Int.toNat_of_nonneg (by omega)
  have hs0 : (0 : Int) ≤ s := by omega
  refine ⟨?_, ?_⟩
  · intro st log hv
    cases hv with
    | head hr =>
      obtain ⟨items, hi⟩ := drun_inv (le_refl _) hg hs0 h2 hr
      obtain ⟨A, B, C, D⟩ := live_facts hi.heap (fun it hit => (hi.item it hit).2.2.1) hi.ptr
      have hdead : ∀ u ∈ log, ∀ p, LinkReach st.pq p → (st.pq.mem p).value ≠ u := by
        intro u hu p hp e
        obtain ⟨it, hit, e1, e2⟩ := A p hp
        have := (hi.item it hit).2.2.2.2.1
        rw [← e2, e] at this
        exact this (List.mem_reverse.mpr hu)
      refine ⟨B, C, D, List.nodup_reverse.mp hi.done_nodup, ?_, ?_⟩
      · intro u hu
        refine ⟨?_, hdead u hu⟩
        by_contra c
        obtain ⟨p, hp, e⟩ := (C u).mp c
        exact hdead u hu p hp e
      · have := finv_done_length hi hs0 h2
        rw [List.length_reverse] at this
        omega
    | @inner st0 _ log0 u pq pre suf hr hne hex hadj hrel =>
      obtain ⟨items, hi⟩ := dvisit_inner_inv (le_refl _) hg hs0 h2 hr hne hex hadj hrel
      obtain ⟨A, B, C, D⟩ := live_facts hi.heap (fun it hit => (hi.item it hit).2.2.1) hi.ptr
      have hnd : (log0 ++ [u]).Nodup := by
        have : (u :: log0.reverse).Nodup := List.nodup_cons.mpr ⟨hi.u_notin, hi.done_nodup⟩
        have h3 : (u :: log0.reverse).reverse.Nodup := List.nodup_reverse.mpr this
        simpa using h3
      have hdead : ∀ x ∈ log0 ++ [u], ∀ p, LinkReach st.pq p → (st.pq.mem p).value ≠ x := by
        intro x hx p hp e
        obtain ⟨it, hit, e1, e2⟩ := A p hp
        obtain ⟨_, _, _, _, a5, a6, _⟩ := hi.item it hit
        rw [← e2, e] at a5 a6
        rcases List.mem_append.mp hx with c | c
        · exact a5 (List.mem_reverse.mpr c)
        · exact a6 (List.mem_singleton.mp c)
      refine ⟨B, C, D, hnd, ?_, ?_⟩
      · intro x hx
        refine ⟨?_, hdead x hx⟩
        by_contra c
        obtain ⟨p, hp, e⟩ := (C x).mp c
        exact hdead x hx p hp e
      · have hlen : ((u :: log0.reverse).length : Int) ≤ g.numVertices + 1 - 0 := by
          apply nodup_range_length _ _ _ (by omega)
            (List.nodup_cons.mpr ⟨hi.u_notin, hi.done_nodup⟩)
          intro x hx
          rcases List.mem_cons.mp hx with c1 | c1
          · rw [c1]; exact hi.u_range
          · exact hi.done_range x c1
        simp only [List.length_cons, List.length_reverse, List.length_append,
          List.length_singleton, List.length_nil] at hlen ⊢
        omega
  · obtain ⟨st', e, _⟩ := mainLoop_spec (le_refl _) hg hs0 h2 (g.numVertices.toNat + 2)
      (initFState g s) _ [] (init_finv (le_refl _) g s hs0 h2) (by
        simp only [List.length_nil, Nat.cast_zero, add_zero, Nat.cast_add, Nat.cast_ofNat]
        omega)
    exact ⟨st', e⟩

theorem dijkstra_fib_heap_live_nodes_witness :
    DVisit zeroGraph 1 (initFState zeroGraph 1) [] ∧
    (initFState zeroGraph 1).nodePtrs 1 = 1 ∧
    (mainLoop zeroGraph (zeroGraph.numVertices.toNat + 1)
      (initFState zeroGraph 1)).isSome = false ∧
    ((∀ st log, DVisit zeroGraph 1 st log →
      (∀ p q, LinkReach st.pq p → LinkReach st.pq q →
        (st.pq.mem p).value = (st.pq.mem q).value → p = q) ∧
      (∀ v, st.nodePtrs v ≠ 0 ↔ ∃ p, LinkReach st.pq p ∧ (st.pq.mem p).value = v) ∧
      (∀ v, st.nodePtrs v ≠ 0 →
        LinkReach st.pq (st.nodePtrs v) ∧ (st.pq.mem (st.nodePtrs v)).value = v) ∧
      log.Nodup ∧
      (∀ u ∈ log, st.nodePtrs u = 0 ∧ ∀ p, LinkReach st.pq p → (st.pq.mem p).value ≠ u) ∧
      (log.length : Int) ≤ zeroGraph.numVertices + 1) ∧
    (∃ st', mainLoop zeroGraph (zeroGraph.numVertices.toNat + 2) (initFState zeroGraph 1) =
      some st')) :=
  ⟨DVisit.head DRun.init, by decide!, by decide!,
   dijkstra_fib_heap_live_nodes zeroGraph 1 zeroGraph_wf (by decide) (by decide)⟩

end Fib
set_option linter.unusedVariables false
set_option linter.unusedTactic false
set_option linter.unreachableTactic false

namespace Fib

/-! ## The two implementations on the same edge list -/

/-- The 0-based copy of a graph on the vertices `1..V`, as `load_graph` of the
binary-heap program builds it: `add_edge(graph, src - 1, dest - 1, weight)` for
every edge, each new edge in front of its list. -/
def zeroBased (g : Graph) : BinHeap.Graph :=
  { num_nodes := g.numVertices.toNat
    adj_list := fun u => (g.adj (u + 1)).map (fun e => ⟨e.to_ - 1, e.weight⟩) }

theorem zeroBased_wf {g : Graph} (hg : GWF g) : BinHeap.WF (zeroBased g) := by
  intro u u0 u1 e he
  have hn : ((zeroBased g).num_nodes : Int) = ((g.numVertices.toNat : Nat) : Int) := rfl
  rw [hn] at u1 ⊢
  have hV : ((g.numVertices.toNat : Nat) : Int) = g.numVertices :=
    Int.toNat_of_nonneg (by omega)
  rw [hV] at u1 ⊢
  have he' : e ∈ (g.adj (u + 1)).map (fun e => (⟨e.to_ - 1, e.weight⟩ : BinHeap.Edge)) := he
  obtain ⟨e', hm, rfl⟩ := List.mem_map.mp he'
  obtain ⟨a, b, c, d⟩ := hg.2 (u + 1) (by omega) (by omega) e' hm
  dsimp only
  exact ⟨by omega, by omega, c⟩

theorem walk_zeroBased {g : Graph} {s v d : Int} (hw : FWalk g s v d) :
    BinHeap.Walk (zeroBased g) (s - 1) (v - 1) d := by
  induction hw with
  | nil => exact BinHeap.Walk.nil
  | @snoc u d e hw he ih =>
    have hm : (⟨e.to_ - 1, e.weight⟩ : BinHeap.Edge) ∈ (zeroBased g).adj_list (u - 1) := by
      show _ ∈ (g.adj (u - 1 + 1)).map _
      rw [sub_add_cancel]
      exact List.mem_map_of_mem _ he
    exact BinHeap.Walk.snoc (⟨e.to_ - 1, e.weight⟩ : BinHeap.Edge) ih hm

theorem walk_oneBased {g : Graph} {s v d : Int} (hw : BinHeap.Walk (zeroBased g) s v d) :
    FWalk g (s + 1) (v + 1) d := by
  induction hw with
  | nil => exact FWalk.nil
  | @snoc u d e hw he ih =>
    have he' : e ∈ (g.adj (u + 1)).map (fun e => (⟨e.to_ - 1, e.weight⟩ : BinHeap.Edge)) := he
    obtain ⟨e', hm, rfl⟩ := List.mem_map.mp he'
    have := FWalk.snoc e' ih hm
    dsimp only
    rw [sub_add_cancel]
    exact this

theorem minDist_zeroBased {g : Graph} {s v d : Int}
    (h : BinHeap.IsMinDist (zeroBased g) (s - 1) (v - 1) d) : FMinDist g s v d := by
  constructor
  · have := walk_oneBased h.1
    rwa [sub_add_cancel, sub_add_cancel] at this
  · intro d' hw
    exact h.2 d' (walk_zeroBased hw)

/-- The path `1 → 2 → 3` whose two edges weigh `2^30` each. -/
def bigGraph : Graph :=
  { numVertices := 3
    adj := fun u =>
      if u = 1 then [⟨2, 1073741824⟩]
      else if u = 2 then [⟨3, 1073741824⟩]
      else [] }

theorem bigGraph_wf : GWF bigGraph := by
  refine ⟨by decide, ?_⟩
  intro u u0 u1 e he
  have hu : u = 1 ∨ u = 2 ∨ u = 3 := by
    have : u ≤ 3 := u1
    omega
  rcases hu with h | h | h
  · subst h
    have he' : e = ⟨2, 1073741824⟩ := by simpa [bigGraph] using he
    subst he'
    decide
  · subst h
    have he' : e = ⟨3, 1073741824⟩ := by simpa [bigGraph] using he
    subst he'
    decide
  · subst h
    simp [bigGraph] at he

theorem zeroBased_specGraph : zeroBased specGraph = BinHeap.sampleGraph := by
  unfold zeroBased specGraph BinHeap.sampleGraph
  congr 1
  funext u
  dsimp only
  by_cases c0 : u = 0
  · subst c0
    simp
  · by_cases c2 : u = 2
    · subst c2
      simp
    · have a : ¬ u + 1 = 1 := by omega
      have b : ¬ u + 1 = 3 := by omega
      rw [if_neg a, if_neg b, if_neg c0, if_neg c2]
      rfl

/-- C3 (as stated, refuted). On `bigGraph`, whose weights are non-negative,
vertex `3` is reachable from the source `1`; `dijkstra_fib_heap` returns
`dist[3] = 2^31`, while `dijkstra_binary_heap` on the 0-based copy with source
`0` writes the wrapped sum `-2^31` into `dist[2]`. -/
theorem dijkstra_cross_overflow_differs :
    GWF bigGraph ∧ (∃ d, FWalk bigGraph 1 3 d) ∧
    (dijkstra_fib_heap bigGraph 1).map (fun o => o.map (fun d => d 3)) =
      some (some 2147483648) ∧
    BinHeap.dijkstra_binary_heap (zeroBased bigGraph) (1 - 1) (fun _ => 0) (3 - 1) =
      -2147483648 := by
  have hw1 : FWalk bigGraph 1 2 (0 + 1073741824) :=
    FWalk.snoc (⟨2, 1073741824⟩ : AdjListNode) FWalk.nil (by simp [bigGraph])
  have hw2 : FWalk bigGraph 1 3 (0 + 1073741824 + 1073741824) :=
    FWalk.snoc (⟨3, 1073741824⟩ : AdjListNode) hw1 (by simp [bigGraph])
  exact ⟨bigGraph_wf, ⟨_, hw2⟩, by decide!, by decide!⟩

/-- C3 (amended). For a graph on the vertices `1..V` whose edges stay inside
`1..V` with non-negative `int` weights, a source `s` in `1..V`, and no
relaxation out of a shortest distance exceeding `INT_MAX` in the 0-based copy,
`dijkstra_fib_heap` returns an array `dist`, and for every vertex `v`
reachable from `s` the value `dist[v - 1]` written by `dijkstra_binary_heap`
on the 0-based copy with source `s - 1` equals `dist[v]`. -/
theorem dijkstra_cross_equivalence (g : Graph) (s : Int) (dist0 : Int → Int) (hg : GWF g)
    (h1 : 1 ≤ s) (h2 : s ≤ g.numVertices)
    (hno : BinHeap.NoOverflow (zeroBased g) (s - 1)) :
    ∃ dist, dijkstra_fib_heap g s = some (some dist) ∧
      ∀ v, 1 ≤ v → v ≤ g.numVertices → (∃ d, FWalk g s v d) →
        BinHeap.dijkstra_binary_heap (zeroBased g) (s - 1) dist0 (v - 1) = dist v := by
  obtain ⟨dist, e, hf⟩ := @dijkstra_fib_final 1 g s (by decide) hg h1 h1 h2
  refine ⟨dist, e, ?_⟩
  intro v v0 v1 hr
  have hV : (((zeroBased g).num_nodes : Nat) : Int) = g.numVertices :=
    Int.toNat_of_nonneg (by omega)
  have hwf := zeroBased_wf hg
  have hs0 : (0 : Int) ≤ s - 1 := by omega
  have hs1 : s - 1 < ((zeroBased g).num_nodes : Int) := by rw [hV]; omega
  have hb := (BinHeap.dfinal_correct hwf hs0 hs1 hno
    (BinHeap.dijkstra_binary_heap_final hwf hs0 hs1 hno dist0) (v - 1) (by omega)
    (by rw [hV]; omega)).1
  obtain ⟨d, hd⟩ := hr
  have hmb := minDist_zeroBased (hb ⟨d, walk_zeroBased hd⟩)
  have hmf := (@ffinal_correct 1 g s dist hg h1 h2 hf v v0 v1).1 ⟨d, hd⟩
  exact le_antisymm (hmb.2 _ hmf.1) (hmf.2 _ hmb.1)

theorem dijkstra_cross_equivalence_witness :
    BinHeap.dijkstra_binary_heap (zeroBased specGraph) (1 - 1) (fun _ => 0) (2 - 1) = 3 ∧
    ∃ dist, dijkstra_fib_heap specGraph 1 = some (some dist) ∧
      ∀ v, 1 ≤ v → v ≤ specGraph.numVertices → (∃ d, FWalk specGraph 1 v d) →
        BinHeap.dijkstra_binary_heap (zeroBased specGraph) (1 - 1) (fun _ => 0) (v - 1) =
          dist v :=
  ⟨by decide!,
   dijkstra_cross_equivalence specGraph 1 (fun _ => 0) specGraph_wf (by decide) (by decide)
     (by
       rw [zeroBased_specGraph]
       exact BinHeap.sampleGraph_noOverflow)⟩

end Fib
